import Mathlib

/-!
# Multi-level static condensation (Nektar++ `GlobalLinSysStaticCond`)

A shallow embedding of `library/MultiRegions/GlobalLinSysStaticCond.cpp`:
the Schur-complement solve `v_Solve`, the level construction
`ConstructNextLevelCondensedSystem` and `v_Initialise`, over exact
(rational) arithmetic.  Arrays are maps from index to value; an array view
`a + off` is `view a off`.
-/

namespace Nektar

/-- NekDouble, read in exact arithmetic. -/
abbrev NekDouble := ℚ

/-- Storage of an `Array<OneD, NekDouble>`: index to value. -/
abbrev NekArray := Nat → NekDouble

/-- The array view `a + off`. -/
def view (a : NekArray) (off : Nat) : NekArray := fun k => a (off + k)

/-- Write `v[0 .. n)` into `a[off .. off + n)`, leaving the rest of `a`. -/
def blit (a : NekArray) (off n : Nat) (v : NekArray) : NekArray :=
  fun k => if off ≤ k ∧ k < off + n then v (k - off) else a k

/-- The array `Array<OneD, NekDouble>(n, 0.0)`. -/
def zeroArray : NekArray := fun _ => 0

/-- Storage layouts of a dense matrix used by this file. -/
inductive MatrixStorage where
  | eFULL
  | eSYMMETRIC
  deriving DecidableEq, Repr

/-- Matrix kinds of the linear-system key that the code distinguishes. -/
inductive MatrixType where
  | eMass
  | eLaplacian
  | eHelmholtz
  | eHybridDGHelmBndLam
  | eOtherMatrixType
  deriving DecidableEq, Repr

/-- Dense matrix `DNekMat`: dimensions, storage layout and raw data. -/
structure DNekMat where
  rows : Nat
  cols : Nat
  storage : MatrixStorage
  data : NekArray

/-- Modelled from the spec: position of entry `(i, j)` in the raw data, column
major for full storage and the packed upper triangle (lower triangle being
its mirror) for symmetric storage. -/
def DNekMat.CalculateIndex (M : DNekMat) (i j : Nat) : Nat :=
  match M.storage with
  | .eFULL => i + j * M.rows
  | .eSYMMETRIC => if i ≤ j then i + j * (j + 1) / 2 else j + i * (i + 1) / 2

/-- Entry `(i, j)` of a dense matrix, `M(i,j)`. -/
def DNekMat.get (M : DNekMat) (i j : Nat) : NekDouble :=
  M.data (M.CalculateIndex i j)

/-- Scaled matrix `DNekScalMat`: a scale and the wrapped dense matrix. -/
structure DNekScalMat where
  scale : NekDouble
  mat : DNekMat

/-- Number of rows of a scaled matrix. -/
def DNekScalMat.GetRows (M : DNekScalMat) : Nat := M.mat.rows

/-- Number of columns of a scaled matrix. -/
def DNekScalMat.GetColumns (M : DNekScalMat) : Nat := M.mat.cols

/-- Entry `(i, j)` of a scaled matrix: scale times the wrapped entry. -/
def DNekScalMat.get (M : DNekScalMat) (i j : Nat) : NekDouble :=
  M.scale * M.mat.get i j

/-- Block matrix `DNekScalBlkMat`: block row and column sizes and the blocks
that have been set. -/
structure DNekScalBlkMat where
  rowSizes : List Nat
  colSizes : List Nat
  blocks : Nat → Nat → Option DNekScalMat

/-- Allocation of a block matrix with the given sizes and no block set. -/
def DNekScalBlkMat.allocate (rowSizes colSizes : List Nat) : DNekScalBlkMat :=
  { rowSizes := rowSizes, colSizes := colSizes, blocks := fun _ _ => none }

/-- The call `SetBlock(i, j, m)`. -/
def DNekScalBlkMat.SetBlock (M : DNekScalBlkMat) (i j : Nat) (m : DNekScalMat) :
    DNekScalBlkMat :=
  { M with blocks := fun a b => if a = i ∧ b = j then some m else M.blocks a b }

/-- The call `GetBlock(i, j)`. -/
def DNekScalBlkMat.GetBlock (M : DNekScalBlkMat) (i j : Nat) : Option DNekScalMat :=
  M.blocks i j

/-- The call `GetNumberOfBlockRows()`. -/
def DNekScalBlkMat.GetNumberOfBlockRows (M : DNekScalBlkMat) : Nat :=
  M.rowSizes.length

/-- First flat index of block `n` for the given block sizes. -/
def blockOffset (sizes : List Nat) (n : Nat) : Nat := (sizes.take n).sum

/-- Block number and index inside the block of flat index `I`. -/
def locate : List Nat → Nat → Option (Nat × Nat)
  | [], _ => none
  | s :: ss, I =>
    if I < s then some (0, I)
    else (locate ss (I - s)).map (fun p => (p.1 + 1, p.2))

/-- Modelled from the spec: product of a block-diagonal matrix with a vector,
block by block (each diagonal block times its own segment of the vector). -/
def DNekScalBlkMat.mulVec (M : DNekScalBlkMat) (x : NekArray) : NekArray :=
  fun I =>
    match locate M.rowSizes I with
    | none => 0
    | some (n, i) =>
      match M.blocks n n with
      | none => 0
      | some B =>
        ∑ j in Finset.range (M.colSizes.getD n 0),
          B.get i j * x (blockOffset M.colSizes n + j)

/-- Patch map from the previous level: parallel arrays indexed by the previous
level's local boundary ordering. -/
structure PatchMap where
  patchId : Nat → Nat
  dofId : Nat → Nat
  isBndDof : Nat → Nat
  sign : Nat → NekDouble

/-- Modelled from the spec: the data one `AssemblyMap` exposes for its level
(DOF counts, local to global boundary map with orientation sign, per-patch
counts, patch map from the previous level, condensation level indices). -/
structure AssemblyMapData where
  staticCondLevel : Nat
  lowestStaticCondLevel : Nat
  numGlobalCoeffs : Nat
  numGlobalBndCoeffs : Nat
  numGlobalDirBndCoeffs : Nat
  numLocalBndCoeffs : Nat
  localToGlobalBndMap : Nat → Nat
  localToGlobalBndSign : Nat → NekDouble
  numPatches : Nat
  numLocalBndCoeffsPerPatch : List Nat
  numLocalIntCoeffsPerPatch : List Nat
  patchMapFromPrevLevel : PatchMap

/-- Modelled from the spec: an `AssemblyMap` with access to the next level's
map; the map is at the last level exactly when it has no next level. -/
inductive AssemblyMap where
  | last (d : AssemblyMapData)
  | level (d : AssemblyMapData) (next : AssemblyMap)

/-- The data of this level of the map. -/
def AssemblyMap.d : AssemblyMap → AssemblyMapData
  | .last d => d
  | .level d _ => d

/-- The call `AtLastLevel()`. -/
def AssemblyMap.AtLastLevel : AssemblyMap → Bool
  | .last _ => true
  | .level _ _ => false

/-- The call `GetNextLevelLocalToGlobalMap()`. -/
def AssemblyMap.GetNextLevelLocalToGlobalMap : AssemblyMap → Option AssemblyMap
  | .last _ => none
  | .level _ next => some next

/-- Modelled from the spec: `GlobalToLocalBnd(global, loc)`, the gather with
orientation sign `loc[i] = sign[i] * global[map[i]]`. -/
def AssemblyMapData.GlobalToLocalBnd (d : AssemblyMapData) (global : NekArray) :
    NekArray :=
  fun i => d.localToGlobalBndSign i * global (d.localToGlobalBndMap i)

/-- Modelled from the spec: `GlobalToLocalBnd(global, loc, offset)`, the gather
from a vector of `len` entries that starts at global index `offset`, entries
outside it reading as zero. -/
def AssemblyMapData.GlobalToLocalBndOffset (d : AssemblyMapData) (global : NekArray)
    (len offset : Nat) : NekArray :=
  d.GlobalToLocalBnd
    (fun g => if offset ≤ g ∧ g < offset + len then global (g - offset) else 0)

/-- Modelled from the spec: the collective assemble `UniversalAssembleBnd`, a
sum-reduction over partitions; on the single partition modelled here nothing
is received and the vector comes back unchanged. -/
def UniversalAssembleBnd (v : NekArray) : NekArray := v

/-- Modelled from the spec: `AssembleBnd(loc, global)`, the sign-consistent
accumulation `global[map[i]] += sign[i] * loc[i]` over the local boundary
DOFs into a zeroed vector, followed by the collective assemble. -/
def AssemblyMapData.AssembleBnd (d : AssemblyMapData) (loc : NekArray) : NekArray :=
  UniversalAssembleBnd (fun g =>
    ∑ i in Finset.range d.numLocalBndCoeffs,
      if d.localToGlobalBndMap i = g then d.localToGlobalBndSign i * loc i else 0)

/-- Modelled from the spec: `AssembleBnd(loc, global, offset)`, the assembled
vector from global index `offset` on. -/
def AssemblyMapData.AssembleBndOffset (d : AssemblyMapData) (loc : NekArray)
    (offset : Nat) : NekArray :=
  view (d.AssembleBnd loc) offset

/-- Member data of one `GlobalLinSysStaticCond` object. -/
structure Members where
  m_schurCompl : Option DNekScalBlkMat
  m_BinvD : DNekScalBlkMat
  m_C : DNekScalBlkMat
  m_invD : DNekScalBlkMat
  m_wsp : NekArray

/-- A `GlobalLinSysStaticCond` object: its members and, when set, the next
level `m_recursiveSchurCompl`. -/
inductive GlobalLinSysStaticCond where
  | terminal (m : Members)
  | recursive (m : Members) (m_recursiveSchurCompl : GlobalLinSysStaticCond)

/-- Members of the object itself. -/
def GlobalLinSysStaticCond.m : GlobalLinSysStaticCond → Members
  | .terminal m => m
  | .recursive m _ => m

/-- The virtual methods implemented by the concrete solver class: the basis
transforms and the terminal direct solver, each acting on the arrays it is
handed for the object whose Schur complement is given. -/
structure Virtuals where
  v_BasisFwdTransform : Option DNekScalBlkMat → NekArray → Nat → NekArray
  v_BasisBwdTransform : Option DNekScalBlkMat → NekArray → NekArray
  SolveLinearSystem :
    Option DNekScalBlkMat → Nat → NekArray → NekArray → AssemblyMapData → Nat → NekArray

/-- The local variable `nGlobHomBndDofs`. -/
def AssemblyMapData.nGlobHomBndDofs (d : AssemblyMapData) : Nat :=
  d.numGlobalBndCoeffs - d.numGlobalDirBndCoeffs

/-- The local variable `nIntDofs`. -/
def AssemblyMapData.nIntDofs (d : AssemblyMapData) : Nat :=
  d.numGlobalCoeffs - d.numGlobalBndCoeffs

/-- Offset of `V_GlobHomBndTmp` in the workspace. -/
def AssemblyMapData.offTmp (d : AssemblyMapData) : Nat := 2 * d.numLocalBndCoeffs

/-- Offset of `F` in the workspace. -/
def AssemblyMapData.offF (d : AssemblyMapData) : Nat :=
  2 * d.numLocalBndCoeffs + d.nGlobHomBndDofs

/-- The base-class `v_PreSolve(scLevel, F_GlobBnd)`: hands back the stored
Schur complement and leaves the right-hand side as it is. -/
def v_PreSolve (m : Members) (_scLevel : Nat) : Option DNekScalBlkMat :=
  m.m_schurCompl

/-- Lines 122-131 of `v_Solve`: `F` is filled with `in - dirForcing` when
Dirichlet forcing is supplied and there are Dirichlet DOFs, with `in`
otherwise. -/
def v_Solve_fillF (d : AssemblyMapData) (inp : NekArray) (dirForcing : List NekDouble)
    (wsp : NekArray) : NekArray :=
  if d.numGlobalDirBndCoeffs ≠ 0 ∧ dirForcing.length ≠ 0 then
    blit wsp d.offF d.numGlobalCoeffs (fun i => inp i - dirForcing.getD i 0)
  else
    blit wsp d.offF d.numGlobalCoeffs inp

/-- Lines 154-174 of `v_Solve`: the workspace after `V_LocBnd` has been given
the local boundary forcing; no value when the Schur complement that a branch
dereferences is not held. -/
def v_Solve_locBndForcing (m : Members) (d : AssemblyMapData) (atLastLevel : Bool)
    (dirForcCalculated : Bool) (out wsp : NekArray) : Option NekArray :=
  if d.nIntDofs ≠ 0 ∧ (dirForcCalculated = false ∧ atLastLevel = true) then
    match v_PreSolve m d.staticCondLevel with
    | none => none
    | some SchurCompl =>
      let wsp1 := blit wsp 0 d.numLocalBndCoeffs (d.GlobalToLocalBnd out)
      some (blit wsp1 0 d.numLocalBndCoeffs (fun i =>
        m.m_BinvD.mulVec (view wsp1 (d.offF + d.numGlobalBndCoeffs)) i
          + SchurCompl.mulVec wsp1 i))
  else if dirForcCalculated = false ∧ atLastLevel = true then
    match v_PreSolve m d.staticCondLevel with
    | none => none
    | some SchurCompl =>
      let wsp1 := blit wsp 0 d.numLocalBndCoeffs (d.GlobalToLocalBnd out)
      some (blit wsp1 0 d.numLocalBndCoeffs (SchurCompl.mulVec wsp1))
  else
    some (blit wsp 0 d.numLocalBndCoeffs
      (m.m_BinvD.mulVec (view wsp (d.offF + d.numGlobalBndCoeffs))))

/-- Lines 176-178 of `v_Solve`: `AssembleBnd(V_LocBnd, V_GlobHomBndTmp,
nDirBndDofs)` followed by `Subtract(F_HomBnd, F_HomBnd, V_GlobHomBndTmp)`. -/
def v_Solve_assembleSubtract (d : AssemblyMapData) (wsp : NekArray) : NekArray :=
  let wsp1 := blit wsp d.offTmp d.nGlobHomBndDofs
    (d.AssembleBndOffset wsp d.numGlobalDirBndCoeffs)
  blit wsp1 (d.offF + d.numGlobalDirBndCoeffs) d.nGlobHomBndDofs
    (fun k => wsp1 (d.offF + d.numGlobalDirBndCoeffs + k) - wsp1 (d.offTmp + k))

/-- One pass of the loop of lines 196-204: a zero vector goes through the
collective assemble and its homogeneous part is subtracted from `F_HomBnd`. -/
def v_Solve_dummyStep (d : AssemblyMapData) (wsp : NekArray) : NekArray :=
  let tmp := UniversalAssembleBnd zeroArray
  let wsp1 := blit wsp d.offTmp d.nGlobHomBndDofs (view tmp d.numGlobalDirBndCoeffs)
  blit wsp1 (d.offF + d.numGlobalDirBndCoeffs) d.nGlobHomBndDofs
    (fun k => wsp1 (d.offF + d.numGlobalDirBndCoeffs + k) - wsp1 (d.offTmp + k))

/-- Lines 189-205 of `v_Solve`: the dummy communication for the levels from
`scLevel` up to `lcLevel`, at the last level only. -/
def v_Solve_dummyCommunication (d : AssemblyMapData) (atLastLevel : Bool)
    (wsp : NekArray) : NekArray :=
  if atLastLevel = true ∧ d.staticCondLevel < d.lowestStaticCondLevel then
    (List.range' d.staticCondLevel (d.lowestStaticCondLevel - d.staticCondLevel)).foldl
      (fun w _ => v_Solve_dummyStep d w) wsp
  else wsp

/-- Lines 153-205 of `v_Solve`: the workspace when the boundary system is about
to be solved.  The array `F` handed to the forward basis transform has the
`nGlobDofs` entries that `v_Initialise` sized the workspace for. -/
def v_Solve_forward (vt : Virtuals) (m : Members) (d : AssemblyMapData)
    (atLastLevel : Bool) (dirForcCalculated : Bool) (out wsp : NekArray) :
    Option NekArray :=
  match v_Solve_locBndForcing m d atLastLevel dirForcCalculated out wsp with
  | none => none
  | some wsp2 =>
    let wsp4 := v_Solve_assembleSubtract d wsp2
    let wsp5 := blit wsp4 d.offF d.numGlobalCoeffs
      (vt.v_BasisFwdTransform m.m_schurCompl (view wsp4 d.offF) d.numGlobalDirBndCoeffs)
    some (v_Solve_dummyCommunication d atLastLevel wsp5)

/-- The perturbation of lines 210-217: the direct solver is started from the
zero vector and its result goes through the backward basis transform. -/
def v_Solve_pert (vt : Virtuals) (m : Members) (d : AssemblyMapData)
    (wsp : NekArray) : NekArray :=
  vt.v_BasisBwdTransform m.m_schurCompl
    (vt.SolveLinearSystem m.m_schurCompl d.numGlobalBndCoeffs (view wsp d.offF)
      zeroArray d d.numGlobalDirBndCoeffs)

/-- Lines 210-221 of `v_Solve`: the terminal boundary solve, the perturbation
added onto the homogeneous boundary entries of `out`. -/
def v_Solve_terminalBnd (vt : Virtuals) (m : Members) (d : AssemblyMapData)
    (wsp out : NekArray) : NekArray :=
  blit out d.numGlobalDirBndCoeffs d.nGlobHomBndDofs
    (fun k => out (d.numGlobalDirBndCoeffs + k)
      + v_Solve_pert vt m d wsp (d.numGlobalDirBndCoeffs + k))

/-- The value gathered into `V_LocBnd` by lines 240-248. -/
def v_Solve_interiorLocBnd (d : AssemblyMapData) (dirForcCalculated : Bool)
    (out : NekArray) : NekArray :=
  if dirForcCalculated = true ∧ d.numGlobalDirBndCoeffs ≠ 0 then
    d.GlobalToLocalBndOffset (view out d.numGlobalDirBndCoeffs) d.nGlobHomBndDofs
      d.numGlobalDirBndCoeffs
  else
    d.GlobalToLocalBnd out

/-- Lines 232-252 of `v_Solve`: the interior solve; returns the workspace and
`out`. -/
def v_Solve_interior (m : Members) (d : AssemblyMapData) (dirForcCalculated : Bool)
    (wsp out : NekArray) : NekArray × NekArray :=
  if d.nIntDofs ≠ 0 then
    let wsp2 : NekArray :=
      if d.nGlobHomBndDofs ≠ 0 ∨ d.numGlobalDirBndCoeffs ≠ 0 then
        let wsp1 := blit wsp 0 d.numLocalBndCoeffs
          (v_Solve_interiorLocBnd d dirForcCalculated out)
        blit wsp1 (d.offF + d.numGlobalBndCoeffs) d.nIntDofs
          (fun k => wsp1 (d.offF + d.numGlobalBndCoeffs + k) - m.m_C.mulVec wsp1 k)
      else wsp
    (wsp2, blit out d.numGlobalBndCoeffs d.nIntDofs
      (m.m_invD.mulVec (view wsp2 (d.offF + d.numGlobalBndCoeffs))))
  else (wsp, out)

/-- The object with its workspace replaced. -/
def GlobalLinSysStaticCond.setWsp : GlobalLinSysStaticCond → NekArray → GlobalLinSysStaticCond
  | .terminal m, w => .terminal { m with m_wsp := w }
  | .recursive m child, w => .recursive { m with m_wsp := w } child

/-- The local variable `dirForcCalculated = (bool) dirForcing.num_elements()`. -/
def dirForcCalculated (dirForcing : List NekDouble) : Bool :=
  decide (dirForcing.length ≠ 0)

/-- The method `GlobalLinSysStaticCond::v_Solve(in, out, pLocToGloMap,
dirForcing)`: returns the object (its workspace written) and `out`; no value
when a pointer that is dereferenced is empty.  The recursive call is
`m_recursiveSchurCompl->Solve(F, V_GlobBnd, next map)` with no Dirichlet
forcing. -/
def GlobalLinSysStaticCond.v_Solve (vt : Virtuals) :
    GlobalLinSysStaticCond → NekArray → NekArray → AssemblyMap → List NekDouble →
    Option (GlobalLinSysStaticCond × NekArray)
  | H, inp, out, .last d, dirForcing =>
    let dfc := dirForcCalculated dirForcing
    let wsp1 := v_Solve_fillF d inp dirForcing H.m.m_wsp
    if d.nGlobHomBndDofs ≠ 0 then
      match v_Solve_forward vt H.m d true dfc out wsp1 with
      | none => none
      | some wsp5 =>
        let r := v_Solve_interior H.m d dfc wsp5 (v_Solve_terminalBnd vt H.m d wsp5 out)
        some (H.setWsp r.1, r.2)
    else
      let r := v_Solve_interior H.m d dfc wsp1 out
      some (H.setWsp r.1, r.2)
  | .terminal m, inp, out, .level d _, dirForcing =>
    let dfc := dirForcCalculated dirForcing
    let wsp1 := v_Solve_fillF d inp dirForcing m.m_wsp
    if d.nGlobHomBndDofs ≠ 0 then
      none
    else
      let r := v_Solve_interior m d dfc wsp1 out
      some (.terminal { m with m_wsp := r.1 }, r.2)
  | .recursive m child, inp, out, .level d next, dirForcing =>
    let dfc := dirForcCalculated dirForcing
    let wsp1 := v_Solve_fillF d inp dirForcing m.m_wsp
    if d.nGlobHomBndDofs ≠ 0 then
      match v_Solve_forward vt m d false dfc out wsp1 with
      | none => none
      | some wsp5 =>
        match child.v_Solve vt (view wsp5 d.offF) out next [] with
        | none => none
        | some (child1, out1) =>
          let r := v_Solve_interior m d dfc wsp5 out1
          some (.recursive { m with m_wsp := r.1 } child1, r.2)
    else
      let r := v_Solve_interior m d dfc wsp1 out
      some (.recursive { m with m_wsp := r.1 } child, r.2)

/-- The fatal errors of the solver. -/
inductive ErrorKind where
  | ConfigurationError
  | SingularBlockError
  | DimensionMismatch
  | NullDereference
  deriving DecidableEq, Repr

/-- The arrays `substructuredMat[0..3]`: per new patch the dense matrices
`A` (bnd x bnd), `B` (bnd x int), `C` (int x bnd) and `D` (int x int).  Each
wrapper over its slice of the backing storage is held as its own array. -/
structure SubstructuredMat where
  A : Nat → DNekMat
  B : Nat → DNekMat
  C : Nat → DNekMat
  D : Nat → DNekMat

/-- Lines 415-421: symmetric storage for `D` for the mass, Laplacian and
Helmholtz matrix types, full storage otherwise. -/
def storageTypeD (mt : MatrixType) : MatrixStorage :=
  if mt = .eMass ∨ mt = .eLaplacian ∨ mt = .eHelmholtz then .eSYMMETRIC else .eFULL

/-- Lines 393-455: the zero-initialised matrices of every new patch. -/
def allocateSubstructuredMat (nPatches : Nat) (nBndDofsPerPatch nIntDofsPerPatch : List Nat)
    (st : MatrixStorage) : SubstructuredMat :=
  { A := fun i =>
      if i < nPatches then
        ⟨nBndDofsPerPatch.getD i 0, nBndDofsPerPatch.getD i 0, .eFULL, zeroArray⟩
      else ⟨0, 0, .eFULL, zeroArray⟩
    B := fun i =>
      if i < nPatches then
        ⟨nBndDofsPerPatch.getD i 0, nIntDofsPerPatch.getD i 0, .eFULL, zeroArray⟩
      else ⟨0, 0, .eFULL, zeroArray⟩
    C := fun i =>
      if i < nPatches then
        ⟨nIntDofsPerPatch.getD i 0, nBndDofsPerPatch.getD i 0, .eFULL, zeroArray⟩
      else ⟨0, 0, .eFULL, zeroArray⟩
    D := fun i =>
      if i < nPatches then
        ⟨nIntDofsPerPatch.getD i 0, nIntDofsPerPatch.getD i 0, st, zeroArray⟩
      else ⟨0, 0, st, zeroArray⟩ }

/-- The update `ptr[idx] += v` on the raw data of a dense matrix. -/
def DNekMat.addRaw (M : DNekMat) (idx : Nat) (v : NekDouble) : DNekMat :=
  { M with data := Function.update M.data idx (M.data idx + v) }

/-- The update `M(i,j) += v` through the storage layout of the matrix. -/
def DNekMat.addEntry (M : DNekMat) (i j : Nat) (v : NekDouble) : DNekMat :=
  M.addRaw (M.CalculateIndex i j) v

/-- Lines 503-547: the accumulation for rows `i`, `j` of one previous-level
Schur block into the matrix selected by the boundary flags of `i` and `j`,
the patch-map arrays being read at offset `cnt`. -/
def scatterAdd (pm : PatchMap) (cnt : Nat) (st : MatrixStorage) (S : DNekScalMat)
    (i j : Nat) (sub : SubstructuredMat) : SubstructuredMat :=
  let pId := pm.patchId (cnt + i)
  let v := pm.sign (cnt + i) * pm.sign (cnt + j) * S.get i j
  let di := pm.dofId (cnt + i)
  let dj := pm.dofId (cnt + j)
  if pm.isBndDof (cnt + i) ≠ 0 then
    if pm.isBndDof (cnt + j) ≠ 0 then
      { sub with
        A := Function.update sub.A pId ((sub.A pId).addRaw (di + dj * (sub.A pId).rows) v) }
    else
      { sub with
        B := Function.update sub.B pId ((sub.B pId).addRaw (di + dj * (sub.B pId).rows) v) }
  else
    if pm.isBndDof (cnt + j) ≠ 0 then
      { sub with
        C := Function.update sub.C pId ((sub.C pId).addRaw (di + dj * (sub.C pId).rows) v) }
    else
      if st = .eSYMMETRIC then
        if di ≤ dj then
          { sub with D := Function.update sub.D pId ((sub.D pId).addEntry di dj v) }
        else sub
      else
        { sub with D := Function.update sub.D pId ((sub.D pId).addEntry di dj v) }

/-- Lines 498-548: the body of the inner loop for rows `i`, `j` of one
previous-level Schur block: the assertion `patchId[i] == patchId[j]`
(`ASSERTL0`, present in both branches on `isBndDof[i]`), then the
accumulation. -/
def scatterEntry (pm : PatchMap) (cnt : Nat) (st : MatrixStorage) (S : DNekScalMat)
    (i j : Nat) (sub : SubstructuredMat) : Except ErrorKind SubstructuredMat :=
  if pm.patchId (cnt + i) ≠ pm.patchId (cnt + j) then
    .error .ConfigurationError
  else
    .ok (scatterAdd pm cnt st S i j sub)

/-- Lines 481-550: the loops over the rows `i` and `j` of one previous-level
Schur block. -/
def scatterBlock (pm : PatchMap) (cnt : Nat) (st : MatrixStorage) (S : DNekScalMat)
    (sub : SubstructuredMat) : Except ErrorKind SubstructuredMat :=
  (List.range S.GetRows).foldlM
    (fun sub1 i =>
      (List.range S.GetRows).foldlM (fun sub2 j => scatterEntry pm cnt st S i j sub2) sub1)
    sub

/-- Lines 468-551: one pass of the loop over the diagonal blocks of the
previous level's Schur complement; the state carries `cnt`, the rows of the
blocks done, and the patch matrices. -/
def scatterLoopStep (pm : PatchMap) (st : MatrixStorage) (SchurCompl : DNekScalBlkMat)
    (s : Nat × SubstructuredMat) (n : Nat) : Except ErrorKind (Nat × SubstructuredMat) :=
  match SchurCompl.GetBlock n n with
  | none => .error .NullDereference
  | some S =>
    match scatterBlock pm s.1 st S s.2 with
    | .error e => .error e
    | .ok sub1 => .ok (s.1 + S.GetRows, sub1)

/-- Lines 466-552: the loop over the diagonal blocks of the previous level's
Schur complement, starting with `cnt = 0`. -/
def scatterLoop (pm : PatchMap) (st : MatrixStorage) (SchurCompl : DNekScalBlkMat)
    (sub : SubstructuredMat) : Except ErrorKind (Nat × SubstructuredMat) :=
  (List.range SchurCompl.GetNumberOfBlockRows).foldlM (scatterLoopStep pm st SchurCompl)
    (0, sub)

/-- A full-storage matrix with the given entries in its first `rows * cols`
raw positions (column major) and `old` beyond. -/
def DNekMat.ofEntries (rows cols : Nat) (old : NekArray) (f : Nat → Nat → NekDouble) :
    DNekMat :=
  { rows := rows, cols := cols, storage := .eFULL
    data := fun idx => if idx < rows * cols then f (idx % rows) (idx / rows) else old idx }

/-- Modelled from the spec: the dense product `X * Y` written into the storage
of `X` (line 574, `B = B * invD`). -/
def DNekMat.mulAssign (X Y : DNekMat) : DNekMat :=
  DNekMat.ofEntries X.rows Y.cols X.data
    (fun i j => ∑ k in Finset.range X.cols, X.get i k * Y.get k j)

/-- The BLAS routine `Dgemm('N','N', M, N, K, alpha, A, lda, B, ldb, beta, C,
ldc)` on raw column-major arrays: `C := alpha * A * B + beta * C`. -/
def Dgemm (M N K : Nat) (alpha : NekDouble) (A : NekArray) (lda : Nat) (B : NekArray)
    (ldb : Nat) (beta : NekDouble) (C : NekArray) (ldc : Nat) : NekArray :=
  fun idx =>
    if idx % ldc < M ∧ idx / ldc < N then
      alpha * (∑ k in Finset.range K, A (idx % ldc + k * lda) * B (k + idx / ldc * ldb))
        + beta * C idx
    else C idx

/-- Lines 580-583: `A := A - X * C` through the `Dgemm` call on the raw arrays
of the three matrices (`X` is `BinvD`), with the rows of `X`, the columns
and rows of `C` and the leading dimensions the rows of `X`, `C` and `A`. -/
def DNekMat.subMulAssign (A X C : DNekMat) : DNekMat :=
  { A with data := (Dgemm X.rows C.cols C.rows (-1) X.data X.rows C.data C.rows 1
      A.data A.rows) }

/-- Lines 558-584: the elimination for one patch with interior DOFs, `D` to
its inverse, `B` to `B * invD`, `A` to `A - BinvD * C`; the inversion is the
library routine `Invert`, which has no value on a singular matrix. -/
def condensePatch (Invert : DNekMat → Option DNekMat) (A B C D : DNekMat) :
    Except ErrorKind (DNekMat × DNekMat × DNekMat × DNekMat) :=
  match Invert D with
  | none => .error .SingularBlockError
  | some invD =>
    let BinvD := B.mulAssign invD
    .ok (A.subMulAssign BinvD C, BinvD, C, invD)

/-- Lines 558-584: one pass of the loop of STEP 2, patch `i` being condensed
when it has interior DOFs and left as it is otherwise. -/
def condenseStep (Invert : DNekMat → Option DNekMat) (nIntDofsPerPatch : List Nat)
    (s : SubstructuredMat) (i : Nat) : Except ErrorKind SubstructuredMat :=
  if nIntDofsPerPatch.getD i 0 ≠ 0 then
    match condensePatch Invert (s.A i) (s.B i) (s.C i) (s.D i) with
    | .error e => .error e
    | .ok r =>
      .ok { A := Function.update s.A i r.1
            B := Function.update s.B i r.2.1
            C := Function.update s.C i r.2.2.1
            D := Function.update s.D i r.2.2.2 }
  else .ok s

/-- Lines 556-585, STEP 2: the patches are condensed one after another. -/
def condenseLoop (Invert : DNekMat → Option DNekMat) (nPatches : Nat)
    (nIntDofsPerPatch : List Nat) (sub : SubstructuredMat) :
    Except ErrorKind SubstructuredMat :=
  (List.range nPatches).foldlM (condenseStep Invert nIntDofsPerPatch) sub

/-- Lines 596-614, STEP 3: one block-diagonal matrix whose block `(i,i)` wraps
the matrix of patch `i` with scale `1.0`. -/
def fillBlkMatrix (nPatches : Nat) (rowSizes colSizes : List Nat) (mats : Nat → DNekMat) :
    DNekScalBlkMat :=
  (List.range nPatches).foldl
    (fun M i => M.SetBlock i i ⟨1, mats i⟩)
    (DNekScalBlkMat.allocate rowSizes colSizes)

/-- The array `blkMatrices[0..3]` handed to the next level. -/
structure BlkMatrices where
  schurCompl : DNekScalBlkMat
  BinvD : DNekScalBlkMat
  C : DNekScalBlkMat
  invD : DNekScalBlkMat

/-- Lines 356-615 of `ConstructNextLevelCondensedSystem`: the inner scope that
builds `blkMatrices` from the Schur complement of this level and the map of
the next level. -/
def ConstructNextLevelCondensedSystem_blkMatrices (Invert : DNekMat → Option DNekMat)
    (mt : MatrixType) (m_schurCompl : Option DNekScalBlkMat) (d : AssemblyMapData) :
    Except ErrorKind BlkMatrices :=
  let nBnd := d.numLocalBndCoeffsPerPatch
  let nInt := d.numLocalIntCoeffsPerPatch
  let sub0 := allocateSubstructuredMat d.numPatches nBnd nInt (storageTypeD mt)
  match m_schurCompl with
  | none => .error .NullDereference
  | some SchurCompl =>
    match scatterLoop d.patchMapFromPrevLevel (storageTypeD mt) SchurCompl sub0 with
    | .error e => .error e
    | .ok s1 =>
      match condenseLoop Invert d.numPatches nInt s1.2 with
      | .error e => .error e
      | .ok s2 =>
        .ok { schurCompl := fillBlkMatrix d.numPatches nBnd nBnd s2.A
              BinvD := fillBlkMatrix d.numPatches nBnd nInt s2.B
              C := fillBlkMatrix d.numPatches nInt nBnd s2.C
              invD := fillBlkMatrix d.numPatches nInt nInt s2.D }

/-- The method `ConstructNextLevelCondensedSystem(pLocToGloMap)`: builds
`blkMatrices`, releases the Schur complement of this level and sets
`m_recursiveSchurCompl` to what `v_Recurse` returns for the new matrices. -/
def ConstructNextLevelCondensedSystem (Invert : DNekMat → Option DNekMat)
    (mt : MatrixType)
    (v_Recurse : BlkMatrices → Except ErrorKind GlobalLinSysStaticCond)
    (m : Members) (d : AssemblyMapData) : Except ErrorKind GlobalLinSysStaticCond :=
  match ConstructNextLevelCondensedSystem_blkMatrices Invert mt m.m_schurCompl d with
  | .error e => .error e
  | .ok blk =>
    match v_Recurse blk with
    | .error e => .error e
    | .ok child => .ok (.recursive { m with m_schurCompl := none } child)

/-- Length of the workspace allocated by `v_Initialise` (lines 266-272). -/
def v_Initialise_wspLength (d : AssemblyMapData) : Nat :=
  2 * d.numLocalBndCoeffs + d.numGlobalCoeffs + d.nGlobHomBndDofs

/-- The method `v_Initialise(pLocToGloMap)`: the workspace is allocated with
zeros; at the last level the Schur complement is kept for the terminal solver
(`v_AssembleSchurComplement`), otherwise the next level is constructed.
Modelled from the spec: `v_Recurse` makes the next-level object from the four
new block matrices and initialises it with the next-level map. -/
def v_Initialise (Invert : DNekMat → Option DNekMat) (mt : MatrixType) :
    Members → AssemblyMap → Except ErrorKind GlobalLinSysStaticCond
  | m, .last _ => .ok (.terminal { m with m_wsp := zeroArray })
  | m, .level _ next =>
    ConstructNextLevelCondensedSystem Invert mt
      (fun blk => v_Initialise Invert mt
        { m_schurCompl := some blk.schurCompl, m_BinvD := blk.BinvD, m_C := blk.C,
          m_invD := blk.invD, m_wsp := zeroArray } next)
      { m with m_wsp := zeroArray } next.d

/-- What the chain of objects stores apart from the workspaces: for every
level, from this object down the links `m_recursiveSchurCompl`, the matrices
`m_schurCompl`, `m_BinvD`, `m_C` and `m_invD`. -/
def GlobalLinSysStaticCond.stored : GlobalLinSysStaticCond →
    List (Option DNekScalBlkMat × DNekScalBlkMat × DNekScalBlkMat × DNekScalBlkMat)
  | .terminal m => [(m.m_schurCompl, m.m_BinvD, m.m_C, m.m_invD)]
  | .recursive m child => (m.m_schurCompl, m.m_BinvD, m.m_C, m.m_invD) :: child.stored

/-- The workspaces of the chain of objects, level by level. -/
def GlobalLinSysStaticCond.workspaces : GlobalLinSysStaticCond → List NekArray
  | .terminal m => [m.m_wsp]
  | .recursive m child => m.m_wsp :: child.workspaces

/-- A 1 x 1 dense matrix in full storage. -/
def DNekMat.single (v : NekDouble) : DNekMat := ⟨1, 1, .eFULL, fun _ => v⟩

/-- A block-diagonal matrix with one 1 x 1 block of scale one. -/
def DNekScalBlkMat.single (v : NekDouble) : DNekScalBlkMat :=
  (DNekScalBlkMat.allocate [1] [1]).SetBlock 0 0 ⟨1, DNekMat.single v⟩

/-- The base-class basis transforms (which leave their argument as it is)
with the given terminal solver. -/
def baseVirtuals
    (solver : Option DNekScalBlkMat → Nat → NekArray → NekArray → AssemblyMapData → Nat →
      NekArray) : Virtuals :=
  { v_BasisFwdTransform := fun _ F _ => F
    v_BasisBwdTransform := fun _ p => p
    SolveLinearSystem := solver }

/-- A direct solver for a boundary system with one homogeneous DOF: the
forcing divided by the assembled Schur complement entry. -/
def oneDofSolver (sc : Option DNekScalBlkMat) (_n : Nat) (F pert : NekArray)
    (d : AssemblyMapData) (nDir : Nat) : NekArray :=
  match sc with
  | none => pert
  | some S =>
    fun g =>
      if g = nDir then
        F nDir / d.AssembleBnd (S.mulVec (d.GlobalToLocalBnd (fun h => if h = nDir then 1 else 0)))
          nDir
      else pert g

/-- Example map data: one patch with one boundary and one interior DOF, no
Dirichlet DOF. -/
def ex1Data : AssemblyMapData :=
  { staticCondLevel := 0, lowestStaticCondLevel := 0
    numGlobalCoeffs := 2, numGlobalBndCoeffs := 1, numGlobalDirBndCoeffs := 0
    numLocalBndCoeffs := 1
    localToGlobalBndMap := fun _ => 0, localToGlobalBndSign := fun _ => 1
    numPatches := 1
    numLocalBndCoeffsPerPatch := [1], numLocalIntCoeffsPerPatch := [1]
    patchMapFromPrevLevel :=
      { patchId := fun _ => 0, dofId := fun _ => 0, isBndDof := fun _ => 1, sign := fun _ => 1 } }

/-- Example object for the element `[[3, 1], [1, 1]]`: Schur complement `2`,
`B * invD = 1`, `C = 1`, `invD = 1`. -/
def ex1Members : Members :=
  { m_schurCompl := some (DNekScalBlkMat.single 2)
    m_BinvD := DNekScalBlkMat.single 1
    m_C := DNekScalBlkMat.single 1
    m_invD := DNekScalBlkMat.single 1
    m_wsp := zeroArray }

/-- Example right-hand side `(4, 1)`. -/
def ex1Rhs : NekArray := fun k => if k = 0 then 4 else if k = 1 then 1 else 0

/-- The chain of objects has what a `v_Solve` call with the given map
dereferences: the Schur complement at the last level of the map and the link
`m_recursiveSchurCompl` at every level before it that has homogeneous
boundary DOFs. -/
def GlobalLinSysStaticCond.Holds : GlobalLinSysStaticCond → AssemblyMap → Prop
  | H, .last _ => H.m.m_schurCompl ≠ none
  | .terminal _, .level d _ => d.nGlobHomBndDofs = 0
  | .recursive _ child, .level _ next => child.Holds next

/-- The four kinds of matrix of a new patch. -/
inductive SubBlock where
  | A
  | B
  | C
  | D
  deriving DecidableEq, Repr

/-- Whether the rows of the matrix are boundary DOFs of the new patch. -/
def SubBlock.rowBnd : SubBlock → Bool
  | .A => true
  | .B => true
  | .C => false
  | .D => false

/-- Whether the columns of the matrix are boundary DOFs of the new patch. -/
def SubBlock.colBnd : SubBlock → Bool
  | .A => true
  | .B => false
  | .C => true
  | .D => false

/-- The matrix of the given kind of patch `p`. -/
def SubstructuredMat.block (s : SubstructuredMat) : SubBlock → Nat → DNekMat
  | .A, p => s.A p
  | .B, p => s.B p
  | .C, p => s.C p
  | .D, p => s.D p

/-- Number of rows of diagonal block `n`, `GetBlock(n,n)->GetRows()`. -/
def DNekScalBlkMat.blockRows (S : DNekScalBlkMat) (n : Nat) : Nat :=
  match S.GetBlock n n with
  | some B => B.GetRows
  | none => 0

/-- Entry `(i, j)` of diagonal block `n`. -/
def DNekScalBlkMat.entry (S : DNekScalBlkMat) (n i j : Nat) : NekDouble :=
  match S.GetBlock n n with
  | some B => B.get i j
  | none => 0

/-- The value of `cnt` when the scatter loop reaches block `n`: the total
number of rows of the blocks before it. -/
def DNekScalBlkMat.rowsBefore (S : DNekScalBlkMat) (n : Nat) : Nat :=
  ∑ m in Finset.range n, S.blockRows m

/-- Some previous-level Schur block has two rows whose patch-map entries name
different new patches. -/
def PatchMapMismatch (pm : PatchMap) (S : DNekScalBlkMat) : Prop :=
  ∃ n, n < S.GetNumberOfBlockRows ∧ ∃ i j, i < S.blockRows n ∧ j < S.blockRows n ∧
    pm.patchId (S.rowsBefore n + i) ≠ pm.patchId (S.rowsBefore n + j)

/-- The reference sum of the scatter: over every previous-level Schur block
`n` and every pair of its rows `(i, j)` whose patch-map entries, read at
offset `cnt`, name patch `p`, positions `a` and `b` and the boundary flags of
the rows and columns of the kind `X`, of `sign[i] * sign[j] * S_n(i,j)`. -/
def scatterReference (pm : PatchMap) (S : DNekScalBlkMat) (X : SubBlock) (p a b : Nat) :
    NekDouble :=
  ∑ n in Finset.range S.GetNumberOfBlockRows,
    ∑ i in Finset.range (S.blockRows n),
      ∑ j in Finset.range (S.blockRows n),
        if pm.patchId (S.rowsBefore n + i) = p ∧ pm.dofId (S.rowsBefore n + i) = a ∧
            pm.dofId (S.rowsBefore n + j) = b ∧
            decide (pm.isBndDof (S.rowsBefore n + i) ≠ 0) = X.rowBnd ∧
            decide (pm.isBndDof (S.rowsBefore n + j) ≠ 0) = X.colBnd then
          pm.sign (S.rowsBefore n + i) * pm.sign (S.rowsBefore n + j) * S.entry n i j
        else 0

/-- Well-formed patch map for the scatter of the Schur complement `S` into
patches with the given per-patch counts: every diagonal block of `S` is set,
all rows of a block name the same new patch, that patch exists, and the
position of a row lies inside the boundary or interior DOFs of its patch. -/
structure PatchMapWellFormed (pm : PatchMap) (S : DNekScalBlkMat) (nPatches : Nat)
    (nBnd nInt : List Nat) : Prop where
  blocks : ∀ n, n < S.GetNumberOfBlockRows → S.GetBlock n n ≠ none
  samePatch : ¬ PatchMapMismatch pm S
  patch : ∀ n i, n < S.GetNumberOfBlockRows → i < S.blockRows n →
    pm.patchId (S.rowsBefore n + i) < nPatches
  bnd : ∀ n i, n < S.GetNumberOfBlockRows → i < S.blockRows n →
    pm.isBndDof (S.rowsBefore n + i) ≠ 0 →
    pm.dofId (S.rowsBefore n + i) < nBnd.getD (pm.patchId (S.rowsBefore n + i)) 0
  int : ∀ n i, n < S.GetNumberOfBlockRows → i < S.blockRows n →
    pm.isBndDof (S.rowsBefore n + i) = 0 →
    pm.dofId (S.rowsBefore n + i) < nInt.getD (pm.patchId (S.rowsBefore n + i)) 0

/-- The two families of patch matrices have the same dimensions and storage
layouts. -/
def SubstructuredMat.SameDims (s t : SubstructuredMat) : Prop :=
  ∀ X p, (s.block X p).rows = (t.block X p).rows ∧ (s.block X p).cols = (t.block X p).cols ∧
    (s.block X p).storage = (t.block X p).storage

/-- What rows `i`, `j` of a previous-level Schur block with entries `val`,
read at offset `cnt`, add to raw position `idx` of the matrix of kind `X` of
patch `p`, for patch matrices with the dimensions of `ref`. -/
def scatterContribution (pm : PatchMap) (cnt : Nat) (st : MatrixStorage)
    (val : Nat → Nat → NekDouble) (ref : SubstructuredMat) (X : SubBlock) (p idx i j : Nat) :
    NekDouble :=
  if pm.patchId (cnt + i) = p ∧ decide (pm.isBndDof (cnt + i) ≠ 0) = X.rowBnd ∧
      decide (pm.isBndDof (cnt + j) ≠ 0) = X.colBnd ∧
      (X = .D → st = .eSYMMETRIC → pm.dofId (cnt + i) ≤ pm.dofId (cnt + j)) ∧
      idx = (ref.block X p).CalculateIndex (pm.dofId (cnt + i)) (pm.dofId (cnt + j)) then
    pm.sign (cnt + i) * pm.sign (cnt + j) * val i j
  else 0

/-- A dense matrix in full storage from the column-major list of its entries. -/
def DNekMat.ofList (rows cols : Nat) (l : List NekDouble) : DNekMat :=
  ⟨rows, cols, .eFULL, fun k => l.getD k 0⟩

/-- A block-diagonal matrix from the list of its diagonal blocks, each with
scale one. -/
def DNekScalBlkMat.ofBlocks (l : List DNekMat) : DNekScalBlkMat :=
  { rowSizes := l.map (fun M => M.rows)
    colSizes := l.map (fun M => M.cols)
    blocks := fun a b => if a = b then (l.get? a).map (fun M => ⟨1, M⟩) else none }

/-- An inversion routine for 1 x 1 matrices: the reciprocal of a non-zero
entry, no value otherwise. -/
def invertOneByOne (M : DNekMat) : Option DNekMat :=
  if M.rows = 1 ∧ M.cols = 1 ∧ M.data 0 ≠ 0 then
    some ⟨1, 1, M.storage, fun _ => (M.data 0)⁻¹⟩
  else none

/-- Two-level example, leaf level: two segments `(v0, v1)` and `(v1, v2)`
with one interior DOF each; the end vertices `v0`, `v2` are Dirichlet DOFs
and are numbered `0`, `1`, the shared vertex `v1` is numbered `2` and is
seen with sign `-1` from the second segment. -/
def ex2Data0 : AssemblyMapData :=
  { staticCondLevel := 0, lowestStaticCondLevel := 1
    numGlobalCoeffs := 5, numGlobalBndCoeffs := 3, numGlobalDirBndCoeffs := 2
    numLocalBndCoeffs := 4
    localToGlobalBndMap := fun r => if r = 0 then 0 else if r = 3 then 1 else 2
    localToGlobalBndSign := fun r => if r = 2 then -1 else 1
    numPatches := 2
    numLocalBndCoeffsPerPatch := [2, 2], numLocalIntCoeffsPerPatch := [1, 1]
    patchMapFromPrevLevel :=
      { patchId := fun _ => 0, dofId := fun _ => 0, isBndDof := fun _ => 1, sign := fun _ => 1 } }

/-- Two-level example, next level: one patch made of the two segments, with
boundary DOFs `v0`, `v2` and interior DOF `v1`. -/
def ex2Data1 : AssemblyMapData :=
  { staticCondLevel := 1, lowestStaticCondLevel := 1
    numGlobalCoeffs := 3, numGlobalBndCoeffs := 2, numGlobalDirBndCoeffs := 2
    numLocalBndCoeffs := 2
    localToGlobalBndMap := fun r => if r = 0 then 0 else 1
    localToGlobalBndSign := fun _ => 1
    numPatches := 1
    numLocalBndCoeffsPerPatch := [2], numLocalIntCoeffsPerPatch := [1]
    patchMapFromPrevLevel :=
      { patchId := fun _ => 0
        dofId := fun r => if r = 3 then 1 else 0
        isBndDof := fun r => if r = 0 ∨ r = 3 then 1 else 0
        sign := fun r => if r = 2 then -1 else 1 } }

/-- Two-level example: the chain of maps. -/
def ex2Map : AssemblyMap := .level ex2Data0 (.last ex2Data1)

/-- Two-level example: the Schur complement of the leaf level, the block
`[[2, -1], [-1, 2]]` for both segments. -/
def ex2SchurCompl : DNekScalBlkMat :=
  DNekScalBlkMat.ofBlocks [DNekMat.ofList 2 2 [2, -1, -1, 2], DNekMat.ofList 2 2 [2, -1, -1, 2]]

/-- Two-level example: the leaf object for the elements
`[[3, 0, 1], [0, 3, 1], [1, 1, 1]]`. -/
def ex2Members : Members :=
  { m_schurCompl := some ex2SchurCompl
    m_BinvD := DNekScalBlkMat.ofBlocks [DNekMat.ofList 2 1 [1, 1], DNekMat.ofList 2 1 [1, 1]]
    m_C := DNekScalBlkMat.ofBlocks [DNekMat.ofList 1 2 [1, 1], DNekMat.ofList 1 2 [1, 1]]
    m_invD := DNekScalBlkMat.ofBlocks [DNekMat.ofList 1 1 [1], DNekMat.ofList 1 1 [1]]
    m_wsp := zeroArray }

/-- Entry `(I, J)` of a block-diagonal matrix in flat (local) indices: the
entry of the diagonal block that holds both, zero across blocks. -/
def DNekScalBlkMat.flatEntry (M : DNekScalBlkMat) (I J : Nat) : NekDouble :=
  match locate M.rowSizes I, locate M.colSizes J with
  | some (n, i), some (n', j) => if n = n' then M.entry n i j else 0
  | _, _ => 0

/-- Well-formed map data: the per-patch counts add up to the local boundary
and the interior DOF counts, there are as many of them as patches, local
boundary DOFs map to global boundary DOFs, and the Dirichlet DOFs are among
the boundary DOFs, which are among the global DOFs. -/
structure AssemblyMapData.WellFormed (d : AssemblyMapData) : Prop where
  bndSum : d.numLocalBndCoeffsPerPatch.sum = d.numLocalBndCoeffs
  intSum : d.numLocalIntCoeffsPerPatch.sum = d.nIntDofs
  bndLength : d.numLocalBndCoeffsPerPatch.length = d.numPatches
  intLength : d.numLocalIntCoeffsPerPatch.length = d.numPatches
  mapRange : ∀ i, i < d.numLocalBndCoeffs → d.localToGlobalBndMap i < d.numGlobalBndCoeffs
  dirLe : d.numGlobalDirBndCoeffs ≤ d.numGlobalBndCoeffs
  bndLe : d.numGlobalBndCoeffs ≤ d.numGlobalCoeffs

/-- The block sizes of the stored matrices are the per-patch counts of the
map: `BinvD` is bnd x int, `C` int x bnd, `invD` int x int and the Schur
complement `S` bnd x bnd. -/
structure Members.Fits (m : Members) (S : DNekScalBlkMat) (d : AssemblyMapData) : Prop where
  schurRows : S.rowSizes = d.numLocalBndCoeffsPerPatch
  schurCols : S.colSizes = d.numLocalBndCoeffsPerPatch
  binvDRows : m.m_BinvD.rowSizes = d.numLocalBndCoeffsPerPatch
  binvDCols : m.m_BinvD.colSizes = d.numLocalIntCoeffsPerPatch
  cRows : m.m_C.rowSizes = d.numLocalIntCoeffsPerPatch
  cCols : m.m_C.colSizes = d.numLocalBndCoeffsPerPatch
  invDRows : m.m_invD.rowSizes = d.numLocalIntCoeffsPerPatch
  invDCols : m.m_invD.colSizes = d.numLocalIntCoeffsPerPatch

/-- The stored matrices are the static condensation of the blocks
`[[A, B], [C, D]]`, patch by patch: `BinvD = B * invD`,
`S = A - BinvD * C` and `D * invD = 1`. -/
structure CondensedFrom (m : Members) (S A B D : DNekScalBlkMat) (d : AssemblyMapData) :
    Prop where
  aRows : A.rowSizes = d.numLocalBndCoeffsPerPatch
  aCols : A.colSizes = d.numLocalBndCoeffsPerPatch
  bRows : B.rowSizes = d.numLocalBndCoeffsPerPatch
  bCols : B.colSizes = d.numLocalIntCoeffsPerPatch
  dRows : D.rowSizes = d.numLocalIntCoeffsPerPatch
  dCols : D.colSizes = d.numLocalIntCoeffsPerPatch
  binvD : ∀ n i j, n < d.numPatches → i < d.numLocalBndCoeffsPerPatch.getD n 0 →
    j < d.numLocalIntCoeffsPerPatch.getD n 0 →
    m.m_BinvD.entry n i j =
      ∑ k in Finset.range (d.numLocalIntCoeffsPerPatch.getD n 0),
        B.entry n i k * m.m_invD.entry n k j
  schur : ∀ n i j, n < d.numPatches → i < d.numLocalBndCoeffsPerPatch.getD n 0 →
    j < d.numLocalBndCoeffsPerPatch.getD n 0 →
    S.entry n i j = A.entry n i j -
      ∑ k in Finset.range (d.numLocalIntCoeffsPerPatch.getD n 0),
        m.m_BinvD.entry n i k * m.m_C.entry n k j
  inv : ∀ n i j, n < d.numPatches → i < d.numLocalIntCoeffsPerPatch.getD n 0 →
    j < d.numLocalIntCoeffsPerPatch.getD n 0 →
    ∑ k in Finset.range (d.numLocalIntCoeffsPerPatch.getD n 0),
        D.entry n i k * m.m_invD.entry n k j = if i = j then 1 else 0

/-- Entry `(g, h)` of the dense global matrix assembled from the patch blocks
`[[A, B], [C, D]]`: boundary rows and columns are summed over the local
boundary DOFs that map to them, with their signs; interior DOFs follow the
global boundary DOFs patch by patch. -/
def assembledMatrix (d : AssemblyMapData) (A B C D : DNekScalBlkMat) (g h : Nat) : NekDouble :=
  if g < d.numGlobalBndCoeffs then
    if h < d.numGlobalBndCoeffs then
      ∑ l in Finset.range d.numLocalBndCoeffs, ∑ l' in Finset.range d.numLocalBndCoeffs,
        if d.localToGlobalBndMap l = g ∧ d.localToGlobalBndMap l' = h then
          d.localToGlobalBndSign l * d.localToGlobalBndSign l' * A.flatEntry l l'
        else 0
    else
      ∑ l in Finset.range d.numLocalBndCoeffs,
        if d.localToGlobalBndMap l = g then
          d.localToGlobalBndSign l * B.flatEntry l (h - d.numGlobalBndCoeffs)
        else 0
  else
    if h < d.numGlobalBndCoeffs then
      ∑ l' in Finset.range d.numLocalBndCoeffs,
        if d.localToGlobalBndMap l' = h then
          C.flatEntry (g - d.numGlobalBndCoeffs) l' * d.localToGlobalBndSign l'
        else 0
    else
      D.flatEntry (g - d.numGlobalBndCoeffs) (h - d.numGlobalBndCoeffs)

/-- The terminal solver is exact for the boundary system of the Schur
complement `S` on the map `d`: for every forcing `F`, the perturbation it
returns from the zero vector satisfies the assembled Schur complement system
on every homogeneous boundary row. -/
def ExactSolver (vt : Virtuals) (S : DNekScalBlkMat) (d : AssemblyMapData) : Prop :=
  ∀ F : NekArray, ∀ k, k < d.nGlobHomBndDofs →
    d.AssembleBnd (S.mulVec (d.GlobalToLocalBnd (fun g =>
      if d.numGlobalDirBndCoeffs ≤ g ∧ g < d.numGlobalBndCoeffs then
        vt.SolveLinearSystem (some S) d.numGlobalBndCoeffs F zeroArray d
          d.numGlobalDirBndCoeffs g
      else 0))) (d.numGlobalDirBndCoeffs + k) = F (d.numGlobalDirBndCoeffs + k)

/-- The basis transforms leave their argument as it is. -/
def IdentityTransforms (vt : Virtuals) : Prop :=
  (∀ sc F n, vt.v_BasisFwdTransform sc F n = F) ∧ (∀ sc p, vt.v_BasisBwdTransform sc p = p)

/-- The condensed equations of one level for the right-hand side `inp`: the
Dirichlet entries of `x` are those of `out`, the homogeneous boundary rows of
the assembled Schur complement system hold with the forcing
`inp - Assemble(BinvD * inp_Int)`, and the interior entries are
`invD * (inp_Int - C * GlobalToLocalBnd(x))`. -/
def CondensedEquations (d : AssemblyMapData) (S BinvD C invD : DNekScalBlkMat)
    (inp out x : NekArray) : Prop :=
  (∀ g, g < d.numGlobalDirBndCoeffs → x g = out g) ∧
  (∀ k, k < d.nGlobHomBndDofs →
    d.AssembleBnd (fun i => S.mulVec (d.GlobalToLocalBnd x) i
      + BinvD.mulVec (view inp d.numGlobalBndCoeffs) i) (d.numGlobalDirBndCoeffs + k)
      = inp (d.numGlobalDirBndCoeffs + k)) ∧
  (∀ k, k < d.nIntDofs →
    x (d.numGlobalBndCoeffs + k) =
      invD.mulVec (fun q => inp (d.numGlobalBndCoeffs + q)
        - C.mulVec (d.GlobalToLocalBnd x) q) k)

/-- Every level of the chain of maps is well formed. -/
def AssemblyMap.LevelsWellFormed : AssemblyMap → Prop
  | .last d => d.WellFormed
  | .level d next => d.WellFormed ∧ next.LevelsWellFormed

/-- The matrices that multiply `V_LocBnd` (the Schur complement, when held,
and `C`) have their columns inside `V_LocBnd`, and the boundary DOFs are
among the global DOFs the workspace is sized for. -/
def Members.FitsWorkspace (m : Members) (d : AssemblyMapData) : Prop :=
  (∀ S, m.m_schurCompl = some S → S.colSizes.sum ≤ d.numLocalBndCoeffs) ∧
  m.m_C.colSizes.sum ≤ d.numLocalBndCoeffs ∧
  d.numGlobalBndCoeffs ≤ d.numGlobalCoeffs

/-- The chain has one object per level of the map, each fitting the
workspace of its level. -/
def GlobalLinSysStaticCond.FitsMap : GlobalLinSysStaticCond → AssemblyMap → Prop
  | .terminal m, .last d => m.FitsWorkspace d
  | .recursive m child, .level d next => m.FitsWorkspace d ∧ child.FitsMap next
  | _, _ => False

/-- The two objects store the same matrices, and their workspaces agree
beyond the length that `v_Initialise` allocates for the map `d`. -/
def Members.SameStored (m m' : Members) (d : AssemblyMapData) : Prop :=
  m.m_schurCompl = m'.m_schurCompl ∧ m.m_BinvD = m'.m_BinvD ∧ m.m_C = m'.m_C ∧
  m.m_invD = m'.m_invD ∧ ∀ k, v_Initialise_wspLength d ≤ k → m.m_wsp k = m'.m_wsp k

/-- The two chains of objects differ at most in the contents of the allocated
workspaces of their levels. -/
def GlobalLinSysStaticCond.SameUpToWorkspace :
    GlobalLinSysStaticCond → GlobalLinSysStaticCond → AssemblyMap → Prop
  | .terminal m, .terminal m', .last d => m.SameStored m' d
  | .recursive m child, .recursive m' child', .level d next =>
    m.SameStored m' d ∧ child.SameUpToWorkspace child' next
  | _, _, _ => False

/-- Sum over every diagonal block of `S` and every pair of its rows, of a
function of the two rows (numbered through all blocks, as the patch map is
indexed) and of the entry of the block at the pair. -/
def DNekScalBlkMat.sumPairs (S : DNekScalBlkMat) (f : Nat → Nat → NekDouble → NekDouble) :
    NekDouble :=
  ∑ n in Finset.range S.GetNumberOfBlockRows,
    ∑ i in Finset.range (S.blockRows n),
      ∑ j in Finset.range (S.blockRows n),
        f (S.rowsBefore n + i) (S.rowsBefore n + j) (S.entry n i j)

/-- Every diagonal block for the given sizes is set and has as many rows as
its size. -/
def DNekScalBlkMat.BlocksSet (S : DNekScalBlkMat) (sizes : List Nat) : Prop :=
  ∀ n, n < sizes.length → ∃ B, S.GetBlock n n = some B ∧ B.GetRows = sizes.getD n 0

/-- Every diagonal block is a symmetric matrix. -/
def DNekScalBlkMat.Symmetric (S : DNekScalBlkMat) : Prop :=
  ∀ n i j, i < S.blockRows n → j < S.blockRows n → S.entry n i j = S.entry n j i

/-- Modelled from the spec: the map `d1` of the next level describes the same
global boundary system as the map `d` of this level.  The global DOFs of the
next level are the global boundary DOFs of this level, with the same
Dirichlet DOFs; the rows of one patch of this level go to one patch of the
next level; a local boundary DOF `r` of this level that the patch map marks
as boundary is local boundary DOF `dofId[r]` of patch `patchId[r]` of the next
level, with the same global number and with sign `sign[r]` times the sign of
the next level; one that the patch map marks as interior is interior DOF
`dofId[r]` of that patch, numbered after the global boundary DOFs of the next
level patch by patch, with sign `sign[r]`. -/
structure LevelLink (d d1 : AssemblyMapData) : Prop where
  globalCoeffs : d1.numGlobalCoeffs = d.numGlobalBndCoeffs
  dirCoeffs : d1.numGlobalDirBndCoeffs = d.numGlobalDirBndCoeffs
  samePatch : ∀ n i j, n < d.numPatches → i < d.numLocalBndCoeffsPerPatch.getD n 0 →
    j < d.numLocalBndCoeffsPerPatch.getD n 0 →
    d1.patchMapFromPrevLevel.patchId (blockOffset d.numLocalBndCoeffsPerPatch n + i) =
      d1.patchMapFromPrevLevel.patchId (blockOffset d.numLocalBndCoeffsPerPatch n + j)
  patch : ∀ r, r < d.numLocalBndCoeffs → d1.patchMapFromPrevLevel.patchId r < d1.numPatches
  bnd : ∀ r, r < d.numLocalBndCoeffs → d1.patchMapFromPrevLevel.isBndDof r ≠ 0 →
    d1.patchMapFromPrevLevel.dofId r <
        d1.numLocalBndCoeffsPerPatch.getD (d1.patchMapFromPrevLevel.patchId r) 0 ∧
      d.localToGlobalBndMap r =
        d1.localToGlobalBndMap
          (blockOffset d1.numLocalBndCoeffsPerPatch (d1.patchMapFromPrevLevel.patchId r)
            + d1.patchMapFromPrevLevel.dofId r) ∧
      d.localToGlobalBndSign r =
        d1.patchMapFromPrevLevel.sign r *
          d1.localToGlobalBndSign
            (blockOffset d1.numLocalBndCoeffsPerPatch (d1.patchMapFromPrevLevel.patchId r)
              + d1.patchMapFromPrevLevel.dofId r)
  int : ∀ r, r < d.numLocalBndCoeffs → d1.patchMapFromPrevLevel.isBndDof r = 0 →
    d1.patchMapFromPrevLevel.dofId r <
        d1.numLocalIntCoeffsPerPatch.getD (d1.patchMapFromPrevLevel.patchId r) 0 ∧
      d.localToGlobalBndMap r =
        d1.numGlobalBndCoeffs
          + (blockOffset d1.numLocalIntCoeffsPerPatch (d1.patchMapFromPrevLevel.patchId r)
            + d1.patchMapFromPrevLevel.dofId r) ∧
      d.localToGlobalBndSign r = d1.patchMapFromPrevLevel.sign r

/-- Every level of the chain of maps is linked to the next one. -/
def AssemblyMap.Linked : AssemblyMap → Prop
  | .last _ => True
  | .level d next => LevelLink d next.d ∧ next.Linked

/-- The data of the last level of the chain of maps. -/
def AssemblyMap.lastData : AssemblyMap → AssemblyMapData
  | .last d => d
  | .level _ next => next.lastData

/-- The Schur complement held by the last object of the chain. -/
def GlobalLinSysStaticCond.terminalSchur : GlobalLinSysStaticCond → Option DNekScalBlkMat
  | .terminal m => m.m_schurCompl
  | .recursive _ child => child.terminalSchur

/-- Modelled from the spec: the contract of the dense inversion `Invert`.
When it returns, the result has the dimensions and the storage layout of its
argument and is its inverse. -/
def InvertSpec (Invert : DNekMat → Option DNekMat) : Prop :=
  ∀ M R, Invert M = some R →
    R.rows = M.rows ∧ R.cols = M.cols ∧ R.storage = M.storage ∧
    ∀ i j, i < M.rows → j < M.rows →
      ∑ k in Finset.range M.cols, M.get i k * R.get k j = if i = j then 1 else 0

/-- The homogeneous boundary system of the Schur complement `S` on the map
`d` has at most one solution: a boundary vector that vanishes on the
Dirichlet DOFs and is taken to zero on every homogeneous boundary row is
zero. -/
def BoundaryInjective (d : AssemblyMapData) (S : DNekScalBlkMat) : Prop :=
  ∀ z : NekArray, (∀ g, g < d.numGlobalDirBndCoeffs → z g = 0) →
    (∀ k, k < d.nGlobHomBndDofs →
      d.AssembleBnd (S.mulVec (d.GlobalToLocalBnd z)) (d.numGlobalDirBndCoeffs + k) = 0) →
    ∀ g, g < d.numGlobalBndCoeffs → z g = 0

/-- The Schur complement `S` of the level with map `d`, with every block set,
and the map `d1` of the next level linked to `d`. -/
structure LevelSetup (d d1 : AssemblyMapData) (S : DNekScalBlkMat) : Prop where
  wf : d.WellFormed
  wf1 : d1.WellFormed
  link : LevelLink d d1
  rows : S.rowSizes = d.numLocalBndCoeffsPerPatch
  cols : S.colSizes = d.numLocalBndCoeffsPerPatch
  blocks : S.BlocksSet d.numLocalBndCoeffsPerPatch

/-- Per-patch counts of the rows or columns of a kind of patch matrix. -/
def AssemblyMapData.patchCounts (d : AssemblyMapData) (bnd : Bool) : List Nat :=
  if bnd = true then d.numLocalBndCoeffsPerPatch else d.numLocalIntCoeffsPerPatch

/-- The block matrix `M` has the sizes of the kind `X` of patch matrix for
the map `d1` and its entries are the reference sums of the scatter of `S`. -/
structure IsReference (d1 : AssemblyMapData) (S : DNekScalBlkMat) (X : SubBlock)
    (M : DNekScalBlkMat) : Prop where
  rows : M.rowSizes = d1.patchCounts X.rowBnd
  cols : M.colSizes = d1.patchCounts X.colBnd
  entry : ∀ p a b, p < d1.numPatches → a < (d1.patchCounts X.rowBnd).getD p 0 →
    b < (d1.patchCounts X.colBnd).getD p 0 →
    M.entry p a b = scatterReference d1.patchMapFromPrevLevel S X p a b

/-- The kind of patch matrix with rows and columns exchanged. -/
def SubBlock.transpose : SubBlock → SubBlock
  | .A => .A
  | .B => .C
  | .C => .B
  | .D => .D

/-- A `NekVector` made with `eWrapper` over the array `F` (lines 133-136 of
`v_Solve`): its dimension and the offset in `F` of its first entry. -/
structure FWrapper where
  dim : Nat
  offset : Nat

/-- The wrapper `F_HomBnd(nGlobHomBndDofs, F + nDirBndDofs)`. -/
def v_Solve_F_HomBnd (d : AssemblyMapData) : FWrapper :=
  ⟨d.nGlobHomBndDofs, d.numGlobalDirBndCoeffs⟩

/-- The wrapper `F_GlobBnd(nGlobBndDofs, F)`. -/
def v_Solve_F_GlobBnd (d : AssemblyMapData) : FWrapper :=
  ⟨d.numGlobalBndCoeffs, 0⟩

/-- The wrapper `F_Int(nIntDofs, F + nGlobBndDofs)`. -/
def v_Solve_F_Int (d : AssemblyMapData) : FWrapper :=
  ⟨d.nIntDofs, d.numGlobalBndCoeffs⟩

/-- Entry `q` of `F` belongs to the wrapper. -/
def FWrapper.Covers (w : FWrapper) (q : Nat) : Prop :=
  w.offset ≤ q ∧ q < w.offset + w.dim

/-- Two-patch example, previous level: the Schur complement with the two
1 x 1 diagonal blocks `(a)` and `(b)`. -/
def ex3SchurCompl (a b : NekDouble) : DNekScalBlkMat :=
  DNekScalBlkMat.ofBlocks [DNekMat.ofList 1 1 [a], DNekMat.ofList 1 1 [b]]

/-- Two-patch example, next level with condensation level `lvl`: previous
row `r` is the only DOF, an interior one, of new patch `r`. -/
def ex3Data (lvl : Nat) : AssemblyMapData :=
  { staticCondLevel := lvl, lowestStaticCondLevel := lvl
    numGlobalCoeffs := 2, numGlobalBndCoeffs := 0, numGlobalDirBndCoeffs := 0
    numLocalBndCoeffs := 0
    localToGlobalBndMap := fun _ => 0
    localToGlobalBndSign := fun _ => 1
    numPatches := 2
    numLocalBndCoeffsPerPatch := [0, 0], numLocalIntCoeffsPerPatch := [1, 1]
    patchMapFromPrevLevel :=
      { patchId := fun r => r, dofId := fun _ => 0, isBndDof := fun _ => 0, sign := fun _ => 1 } }

/-- Two-patch example: the object of the previous level. -/
def ex3Members (a b : NekDouble) : Members :=
  { m_schurCompl := some (ex3SchurCompl a b)
    m_BinvD := DNekScalBlkMat.allocate [] []
    m_C := DNekScalBlkMat.allocate [] []
    m_invD := DNekScalBlkMat.allocate [] []
    m_wsp := zeroArray }

/-- Two-patch example: a `v_Recurse` that wraps the new matrices in a
terminal object. -/
def ex3Recurse (blk : BlkMatrices) : Except ErrorKind GlobalLinSysStaticCond :=
  .ok (.terminal { m_schurCompl := some blk.schurCompl, m_BinvD := blk.BinvD, m_C := blk.C
                   m_invD := blk.invD, m_wsp := zeroArray })

/-- Lines 617-626 of `ConstructNextLevelCondensedSystem`: `m_schurCompl.reset()`
and then `m_recursiveSchurCompl = v_Recurse(...)`; the virtual method is
called on the object itself and is handed here the members the object has at
the moment of the call, with the four new block matrices. -/
def ConstructNextLevelCondensedSystem_release
    (v_Recurse : Members → BlkMatrices → Except ErrorKind GlobalLinSysStaticCond)
    (m : Members) (blk : BlkMatrices) : Except ErrorKind GlobalLinSysStaticCond :=
  let m1 : Members := { m with m_schurCompl := none }
  match v_Recurse m1 blk with
  | .error e => .error e
  | .ok child => .ok (.recursive m1 child)

/-- The method `ConstructNextLevelCondensedSystem(pLocToGloMap)` with a
`v_Recurse` that sees the object: the inner scope that builds `blkMatrices`
(lines 356-615), then lines 617-626. -/
def ConstructNextLevelCondensedSystem_onObject (Invert : DNekMat → Option DNekMat)
    (mt : MatrixType)
    (v_Recurse : Members → BlkMatrices → Except ErrorKind GlobalLinSysStaticCond)
    (m : Members) (d : AssemblyMapData) : Except ErrorKind GlobalLinSysStaticCond :=
  match ConstructNextLevelCondensedSystem_blkMatrices Invert mt m.m_schurCompl d with
  | .error e => .error e
  | .ok blk => ConstructNextLevelCondensedSystem_release v_Recurse m blk

/-- Every level that has a next level holds no Schur complement, and the
terminal level holds one. -/
def GlobalLinSysStaticCond.SchurReleased : GlobalLinSysStaticCond → Prop
  | .terminal m => m.m_schurCompl ≠ none
  | .recursive m child => m.m_schurCompl = none ∧ child.SchurReleased

/-- What `SetupTopLevel` reads from the expansion list and from the base
class `GlobalLinSys`: the number of elements `GetNumElmts()` and the local
matrices `v_GetBlock(n)` and `v_GetStaticCondBlock(n)`, each a shared pointer
that may be empty. -/
structure LocalMatrices where
  GetNumElmts : Nat
  v_GetBlock : Nat → Option DNekScalMat
  v_GetStaticCondBlock : Nat → Option DNekScalBlkMat

/-- The call `SetBlock(i, j, m)` with a shared pointer `m` that may be
empty. -/
def DNekScalBlkMat.SetBlockPtr (M : DNekScalBlkMat) (i j : Nat) (m : Option DNekScalMat) :
    DNekScalBlkMat :=
  { M with blocks := fun a b => if a = i ∧ b = j then m else M.blocks a b }

/-- Lines 319-337: one pass of the loop of `SetupTopLevel` over the elements,
on the four matrices `m_schurCompl`, `m_BinvD`, `m_C`, `m_invD`. -/
def SetupTopLevel_step (mt : MatrixType) (L : LocalMatrices) (s : BlkMatrices) (n : Nat) :
    Except ErrorKind BlkMatrices :=
  if mt = .eHybridDGHelmBndLam then
    .ok { s with schurCompl := s.schurCompl.SetBlockPtr n n (L.v_GetBlock n) }
  else
    match L.v_GetStaticCondBlock n with
    | none => .error .NullDereference
    | some loc_schur =>
      .ok { schurCompl := s.schurCompl.SetBlockPtr n n (loc_schur.GetBlock 0 0)
            BinvD := s.BinvD.SetBlockPtr n n (loc_schur.GetBlock 0 1)
            C := s.C.SetBlockPtr n n (loc_schur.GetBlock 1 0)
            invD := s.invD.SetBlockPtr n n (loc_schur.GetBlock 1 1) }

/-- Lines 308-317: the four block matrices of `SetupTopLevel` as allocated,
sized by the per-patch counts, with no block set. -/
def SetupTopLevel_allocate (d : AssemblyMapData) : BlkMatrices :=
  let nbdry_size := d.numLocalBndCoeffsPerPatch
  let nint_size := d.numLocalIntCoeffsPerPatch
  { schurCompl := DNekScalBlkMat.allocate nbdry_size nbdry_size
    BinvD := DNekScalBlkMat.allocate nbdry_size nint_size
    C := DNekScalBlkMat.allocate nint_size nbdry_size
    invD := DNekScalBlkMat.allocate nint_size nint_size }

/-- The method `SetupTopLevel(pLocToGloMap)` (lines 297-339): allocation of
the four block matrices and the loop over the elements; the members other
than the four matrices are left as they are. -/
def SetupTopLevel (mt : MatrixType) (L : LocalMatrices) (m : Members) (d : AssemblyMapData) :
    Except ErrorKind Members :=
  match (List.range L.GetNumElmts).foldlM (SetupTopLevel_step mt L) (SetupTopLevel_allocate d)
    with
  | .error e => .error e
  | .ok s =>
    .ok { m with m_schurCompl := some s.schurCompl, m_BinvD := s.BinvD, m_C := s.C,
                 m_invD := s.invD }

/-- The sub-block `(i, j)` of the local matrix `v_GetStaticCondBlock(n)`. -/
def LocalMatrices.subBlock (L : LocalMatrices) (n i j : Nat) : Option DNekScalMat :=
  (L.v_GetStaticCondBlock n).bind (fun loc_schur => loc_schur.GetBlock i j)

/-- One-element example of local matrices: the element matrix
`[[2, 1], [1, 1]]` in its four 1 x 1 sub-blocks, and `(3)` as the matrix of
`v_GetBlock`. -/
def ex5Local : LocalMatrices :=
  { GetNumElmts := 1
    v_GetBlock := fun _ => some ⟨1, DNekMat.single 3⟩
    v_GetStaticCondBlock := fun _ =>
      some { rowSizes := [1, 1], colSizes := [1, 1]
             blocks := fun i j =>
               if i < 2 ∧ j < 2 then some ⟨1, DNekMat.single (if i = 0 ∧ j = 0 then 2 else 1)⟩
               else none } }

/-- The orientation-reversed block `diag(s) * B * diag(s)` of a Schur block
`B` whose rows are the previous-level DOFs `cnt, cnt + 1, ...`: a matrix in
full storage with scale one and entry `(i, j)` equal to
`s(cnt + i) * s(cnt + j) * B(i, j)`. -/
def DNekScalMat.orientationReversed (s : Nat → NekDouble) (cnt : Nat) (B : DNekScalMat) :
    DNekScalMat :=
  ⟨1, ⟨B.mat.rows, B.mat.cols, .eFULL,
    fun idx => s (cnt + idx % B.mat.rows) * s (cnt + idx / B.mat.rows)
      * B.get (idx % B.mat.rows) (idx / B.mat.rows)⟩⟩

/-- The orientation-reversed Schur complement `diag(s) * S * diag(s)`: every
diagonal block is reversed with the signs of its own rows. -/
def DNekScalBlkMat.orientationReversed (S : DNekScalBlkMat) (s : Nat → NekDouble) :
    DNekScalBlkMat :=
  { S with
    blocks := fun a b =>
      if a = b then (S.blocks a b).map (DNekScalMat.orientationReversed s (S.rowsBefore a))
      else S.blocks a b }

/-- The patch map with all signs `+1`. -/
def PatchMap.unsigned (pm : PatchMap) : PatchMap := { pm with sign := fun _ => 1 }

/-- The patch map with the sign of previous-level DOF `k` flipped. -/
def PatchMap.flipSign (pm : PatchMap) (k : Nat) : PatchMap :=
  { pm with sign := Function.update pm.sign k (-pm.sign k) }

/-- A collective assemble call made by `v_Solve` at the level with
condensation level `scLevel`: the `AssembleBnd` of line 176, or a dummy
`UniversalAssembleBnd(tmp)` of line 199 with the array `tmp` it is handed and
the length of that array. -/
inductive CollectiveCall where
  | assembleBnd (scLevel : Nat)
  | dummy (scLevel : Nat) (tmp : NekArray) (len : Nat)

/-- Lines 189-205 of `v_Solve`: the collective calls of the dummy
communication, one per pass of the loop `for (i = scLevel; i < lcLevel; ++i)`,
each on the array `tmp` of length `nGlobBndDofs` just filled with zeros. -/
def v_Solve_dummyCommunication_calls (d : AssemblyMapData) (atLastLevel : Bool) :
    List CollectiveCall :=
  if atLastLevel = true ∧ d.staticCondLevel < d.lowestStaticCondLevel then
    (List.range' d.staticCondLevel (d.lowestStaticCondLevel - d.staticCondLevel)).map
      (fun _ => .dummy d.staticCondLevel zeroArray d.numGlobalBndCoeffs)
  else []

/-- Number of levels of the map after the first. -/
def AssemblyMap.depth : AssemblyMap → Nat
  | .last _ => 0
  | .level _ next => next.depth + 1

/-- A region of the workspace `m_wsp` that `v_Solve` uses through a wrapper or
an offset array (lines 121 and 142-146): the offset of its first entry in
`m_wsp` and its length. -/
structure WspRegion where
  offset : Nat
  dim : Nat

/-- The wrapper `V_LocBnd(nLocBndDofs, m_wsp)`. -/
def v_Solve_V_LocBnd (d : AssemblyMapData) : WspRegion := ⟨0, d.numLocalBndCoeffs⟩

/-- The wrapper `V_GlobHomBndTmp(nGlobHomBndDofs, m_wsp + 2*nLocBndDofs)`. -/
def v_Solve_V_GlobHomBndTmp (d : AssemblyMapData) : WspRegion :=
  ⟨2 * d.numLocalBndCoeffs, d.nGlobHomBndDofs⟩

/-- The array `F = m_wsp + 2*nLocBndDofs + nGlobHomBndDofs`, of which
`nGlobDofs` entries are used. -/
def v_Solve_F (d : AssemblyMapData) : WspRegion :=
  ⟨2 * d.numLocalBndCoeffs + d.nGlobHomBndDofs, d.numGlobalCoeffs⟩

/-- Index `k` of the workspace lies in the region. -/
def WspRegion.Covers (r : WspRegion) (k : Nat) : Prop :=
  r.offset ≤ k ∧ k < r.offset + r.dim

/-- The method `v_GetNumBlocks()` (lines 285-288),
`m_schurCompl->GetNumberOfBlockRows()`: no value when `m_schurCompl` is
empty. -/
def v_GetNumBlocks (m : Members) : Option Nat :=
  match m.m_schurCompl with
  | none => none
  | some S => some S.GetNumberOfBlockRows

/-- Along the chain of objects made for the map, `v_GetNumBlocks` has no value
on a level with a next level and returns the number of patches of the level
on the terminal level. -/
def GlobalLinSysStaticCond.NumBlocksDefined : GlobalLinSysStaticCond → AssemblyMap → Prop
  | .terminal m, .last d => v_GetNumBlocks m = some d.numPatches
  | .recursive m child, .level _ next => v_GetNumBlocks m = none ∧ child.NumBlocksDefined next
  | _, _ => False

/-- Two-patch example with a patch without interior DOFs: previous row 0 is
the only DOF, a boundary one, of new patch 0 and previous row 1 is the only
DOF, an interior one, of new patch 1. -/
def ex9Data : AssemblyMapData :=
  { staticCondLevel := 1, lowestStaticCondLevel := 1
    numGlobalCoeffs := 2, numGlobalBndCoeffs := 1, numGlobalDirBndCoeffs := 0
    numLocalBndCoeffs := 1
    localToGlobalBndMap := fun _ => 0
    localToGlobalBndSign := fun _ => 1
    numPatches := 2
    numLocalBndCoeffsPerPatch := [1, 0], numLocalIntCoeffsPerPatch := [0, 1]
    patchMapFromPrevLevel :=
      { patchId := fun r => r, dofId := fun _ => 0
        isBndDof := fun r => if r = 0 then 1 else 0, sign := fun _ => 1 } }

/-- The four counters `cntA`, `cntB`, `cntC`, `cntD` (and the four totals
`nEntriesA` .. `nEntriesD`) of `ConstructNextLevelCondensedSystem`. -/
structure StorageCounts where
  cntA : Nat
  cntB : Nat
  cntC : Nat
  cntD : Nat

/-- The counter of the kind of patch matrix. -/
def StorageCounts.get (c : StorageCounts) : SubBlock → Nat
  | .A => c.cntA
  | .B => c.cntB
  | .C => c.cntC
  | .D => c.cntD

/-- Lines 385-388 and 450-453: the four counters are advanced by the numbers
of entries of the matrices of patch `i`. -/
def StorageCounts.advance (nBndDofsPerPatch nIntDofsPerPatch : List Nat) (c : StorageCounts)
    (i : Nat) : StorageCounts :=
  { cntA := c.cntA + nBndDofsPerPatch.getD i 0 * nBndDofsPerPatch.getD i 0
    cntB := c.cntB + nBndDofsPerPatch.getD i 0 * nIntDofsPerPatch.getD i 0
    cntC := c.cntC + nIntDofsPerPatch.getD i 0 * nBndDofsPerPatch.getD i 0
    cntD := c.cntD + nIntDofsPerPatch.getD i 0 * nIntDofsPerPatch.getD i 0 }

/-- Lines 380-389: the lengths `nEntriesA` .. `nEntriesD` of the four backing
arrays `storageA` .. `storageD`. -/
def storageEntries (nPatches : Nat) (nBndDofsPerPatch nIntDofsPerPatch : List Nat) :
    StorageCounts :=
  (List.range nPatches).foldl (StorageCounts.advance nBndDofsPerPatch nIntDofsPerPatch)
    ⟨0, 0, 0, 0⟩

/-- Lines 409-454: the counters when pass `i` of the loop that makes the
wrappers begins, the offsets `storageA + cntA` .. `storageD + cntD` in the
backing arrays at which the matrices of patch `i` start. -/
def storageOffsets (nBndDofsPerPatch nIntDofsPerPatch : List Nat) (i : Nat) : StorageCounts :=
  (List.range i).foldl (StorageCounts.advance nBndDofsPerPatch nIntDofsPerPatch) ⟨0, 0, 0, 0⟩

/-- Number of entries of the matrix of kind `X` of patch `i`, rows times
columns of the wrapper made by lines 426-448. -/
def blockEntries (nPatches : Nat) (nBndDofsPerPatch nIntDofsPerPatch : List Nat)
    (st : MatrixStorage) (X : SubBlock) (i : Nat) : Nat :=
  ((allocateSubstructuredMat nPatches nBndDofsPerPatch nIntDofsPerPatch st).block X i).rows
    * ((allocateSubstructuredMat nPatches nBndDofsPerPatch nIntDofsPerPatch st).block X i).cols

/-- A write of the scatter (lines 503-547): the kind of patch matrix, the
patch, and the position `(dofId[i], dofId[j])` in the matrix. -/
structure ScatterWrite where
  kind : SubBlock
  patch : Nat
  row : Nat
  col : Nat

/-- Lines 503-547: the write that rows `i` and `j` of one previous-level Schur
block make, the patch-map arrays being read at offset `cnt`; in symmetric
mode a pair of interior rows with `dofId[i] > dofId[j]` makes none. -/
def scatterTarget (pm : PatchMap) (cnt : Nat) (st : MatrixStorage) (i j : Nat) :
    Option ScatterWrite :=
  let pId := pm.patchId (cnt + i)
  let di := pm.dofId (cnt + i)
  let dj := pm.dofId (cnt + j)
  if pm.isBndDof (cnt + i) ≠ 0 then
    if pm.isBndDof (cnt + j) ≠ 0 then some ⟨.A, pId, di, dj⟩
    else some ⟨.B, pId, di, dj⟩
  else
    if pm.isBndDof (cnt + j) ≠ 0 then some ⟨.C, pId, di, dj⟩
    else
      if st = .eSYMMETRIC then
        if di ≤ dj then some ⟨.D, pId, di, dj⟩ else none
      else some ⟨.D, pId, di, dj⟩

/-- The position in the raw data of its matrix that a write uses: the
column-major index `dofId[i] + dofId[j] * rows` computed by hand for `A`, `B`
and `C`, the index of the storage layout for `D`. -/
def ScatterWrite.index (w : ScatterWrite) (sub : SubstructuredMat) : Nat :=
  match w.kind with
  | .A => w.row + w.col * (sub.A w.patch).rows
  | .B => w.row + w.col * (sub.B w.patch).rows
  | .C => w.row + w.col * (sub.C w.patch).rows
  | .D => (sub.D w.patch).CalculateIndex w.row w.col

/-- The update `ptr[idx] += v` on the matrix of kind `X` of patch `p`. -/
def SubstructuredMat.addRawAt (sub : SubstructuredMat) (X : SubBlock) (p idx : Nat)
    (v : NekDouble) : SubstructuredMat :=
  match X with
  | .A => { sub with A := Function.update sub.A p ((sub.A p).addRaw idx v) }
  | .B => { sub with B := Function.update sub.B p ((sub.B p).addRaw idx v) }
  | .C => { sub with C := Function.update sub.C p ((sub.C p).addRaw idx v) }
  | .D => { sub with D := Function.update sub.D p ((sub.D p).addRaw idx v) }

/-- Number of raw entries that the storage layout of a matrix uses: all of
them in full storage, the packed upper triangle in symmetric storage. -/
def DNekMat.storageSize (M : DNekMat) : Nat :=
  match M.storage with
  | .eFULL => M.rows * M.cols
  | .eSYMMETRIC => M.rows * (M.rows + 1) / 2

/-- The branch that `v_Initialise` takes at one level (lines 274-282): the
terminal assembly `v_AssembleSchurComplement` or
`ConstructNextLevelCondensedSystem` on the next-level map. -/
inductive InitialiseCall where
  | assembleSchurComplement
  | constructNextLevel
  deriving DecidableEq, Repr

/-- The method `v_Initialise` with a record of the branch taken at every
level, from the first level on: what `v_Initialise` returns, built level by
level from the block matrices of `ConstructNextLevelCondensedSystem` and the
object that `v_Recurse` initialises with the next-level map. -/
def v_Initialise_logged (Invert : DNekMat → Option DNekMat) (mt : MatrixType) :
    Members → AssemblyMap → Except ErrorKind (GlobalLinSysStaticCond × List InitialiseCall)
  | m, .last _ => .ok (.terminal { m with m_wsp := zeroArray }, [.assembleSchurComplement])
  | m, .level _ next =>
    match ConstructNextLevelCondensedSystem_blkMatrices Invert mt m.m_schurCompl next.d with
    | .error e => .error e
    | .ok blk =>
      match v_Initialise_logged Invert mt
          { m_schurCompl := some blk.schurCompl, m_BinvD := blk.BinvD, m_C := blk.C,
            m_invD := blk.invD, m_wsp := zeroArray } next with
      | .error e => .error e
      | .ok (child, calls) =>
        .ok (.recursive { m with m_wsp := zeroArray, m_schurCompl := none } child,
          .constructNextLevel :: calls)

/-- Number of levels of the chain of objects after the first. -/
def GlobalLinSysStaticCond.depth : GlobalLinSysStaticCond → Nat
  | .terminal _ => 0
  | .recursive _ child => child.depth + 1

/-- Every level of the chain of maps has `n` Dirichlet DOFs, which are among
the boundary DOFs of the level. -/
def AssemblyMap.SameDirBnd : AssemblyMap → Nat → Prop
  | .last d, n => d.numGlobalDirBndCoeffs = n ∧ n ≤ d.numGlobalBndCoeffs
  | .level d next, n =>
    d.numGlobalDirBndCoeffs = n ∧ n ≤ d.numGlobalBndCoeffs ∧ next.SameDirBnd n

/-- The dense matrix `M` is invertible: there are entries `R` with
`M * R = 1`.  The blocks `D` are square, for which a right inverse is the
inverse. -/
def DNekMat.IsInvertible (M : DNekMat) : Prop :=
  ∃ R : Nat → Nat → NekDouble, ∀ i j, i < M.rows → j < M.rows →
    ∑ k in Finset.range M.cols, M.get i k * R k j = if i = j then 1 else 0


@[simp] theorem view_apply (a : NekArray) (off k : Nat) : view a off k = a (off + k) := rfl

theorem blit_inside (a v : NekArray) (off n k : Nat) (h1 : off ≤ k) (h2 : k < off + n) :
    blit a off n v k = v (k - off) := by
  simp [blit, h1, h2]

theorem blit_inside_add (a v : NekArray) (off n k : Nat) (h : k < n) :
    blit a off n v (off + k) = v k := by
  simp [blit, h]

theorem blit_below (a v : NekArray) (off n k : Nat) (h : k < off) :
    blit a off n v k = a k := by
  have : ¬ off ≤ k := by omega
  simp [blit, this]

theorem blit_above (a v : NekArray) (off n k : Nat) (h : off + n ≤ k) :
    blit a off n v k = a k := by
  have : ¬ k < off + n := by omega
  simp [blit, this]

theorem blit_zero_inside (a v : NekArray) (n k : Nat) (h : k < n) :
    blit a 0 n v k = v k := by
  simp [blit, h]

/-! ### Block offsets -/

theorem blockOffset_zero (sizes : List Nat) : blockOffset sizes 0 = 0 := by
  simp [blockOffset]

theorem blockOffset_cons_succ (s : Nat) (ss : List Nat) (n : Nat) :
    blockOffset (s :: ss) (n + 1) = s + blockOffset ss n := by
  simp [blockOffset]

theorem locate_some {sizes : List Nat} {I n i : Nat} (h : locate sizes I = some (n, i)) :
    n < sizes.length ∧ i < sizes.getD n 0 ∧ I = blockOffset sizes n + i := by
  induction sizes generalizing I n i with
  | nil => simp [locate] at h
  | cons s ss ih =>
    unfold locate at h
    split_ifs at h with hI
    · simp only [Option.some.injEq, Prod.mk.injEq] at h
      obtain ⟨rfl, rfl⟩ := h
      simp [blockOffset_zero, hI]
    · cases hl : locate ss (I - s) with
      | none => simp [hl] at h
      | some p =>
        obtain ⟨n', i'⟩ := p
        simp only [hl, Option.map_some', Option.some.injEq, Prod.mk.injEq] at h
        obtain ⟨rfl, rfl⟩ := h
        obtain ⟨h1, h2, h3⟩ := ih hl
        refine ⟨by simpa using h1, by simpa using h2, ?_⟩
        rw [blockOffset_cons_succ]; omega

theorem locate_offset {sizes : List Nat} {n i : Nat} (hn : n < sizes.length)
    (hi : i < sizes.getD n 0) : locate sizes (blockOffset sizes n + i) = some (n, i) := by
  induction sizes generalizing n with
  | nil => simp at hn
  | cons s ss ih =>
    cases n with
    | zero =>
      simp only [List.getD_cons_zero] at hi
      simp [locate, blockOffset_zero, hi]
    | succ n =>
      simp only [List.getD_cons_succ] at hi
      have hn' : n < ss.length := by simpa using hn
      have : ¬ (blockOffset (s :: ss) (n + 1) + i < s) := by
        rw [blockOffset_cons_succ]; omega
      have e : blockOffset (s :: ss) (n + 1) + i - s = blockOffset ss n + i := by
        rw [blockOffset_cons_succ]; omega
      simp [locate, this, e, ih hn' hi]

theorem blockOffset_add_lt {sizes : List Nat} {n i : Nat}
    (hi : i < sizes.getD n 0) : blockOffset sizes n + i < sizes.sum := by
  induction sizes generalizing n with
  | nil => simp at hi
  | cons s ss ih =>
    cases n with
    | zero =>
      simp only [List.getD_cons_zero] at hi
      simp [blockOffset_zero]; omega
    | succ n =>
      simp only [List.getD_cons_succ] at hi
      have := ih hi
      rw [blockOffset_cons_succ]; simp; omega

theorem locate_of_lt {sizes : List Nat} {I : Nat} (h : I < sizes.sum) :
    ∃ n i, locate sizes I = some (n, i) := by
  induction sizes generalizing I with
  | nil => simp at h
  | cons s ss ih =>
    by_cases hI : I < s
    · exact ⟨0, I, by simp [locate, hI]⟩
    · have : I - s < ss.sum := by simp at h; omega
      obtain ⟨n, i, hl⟩ := ih this
      exact ⟨n + 1, i, by simp [locate, hI, hl]⟩

/-- A block-diagonal product reads its argument only below the total number
of columns. -/
theorem mulVec_congr (M : DNekScalBlkMat) (x y : NekArray)
    (h : ∀ k, k < M.colSizes.sum → x k = y k) (I : Nat) : M.mulVec x I = M.mulVec y I := by
  unfold DNekScalBlkMat.mulVec
  cases locate M.rowSizes I with
  | none => rfl
  | some p =>
    obtain ⟨n, i⟩ := p
    simp only
    cases M.blocks n n with
    | none => rfl
    | some B =>
      simp only
      apply Finset.sum_congr rfl
      intro j hj
      rw [h _ (blockOffset_add_lt (Finset.mem_range.mp hj))]

theorem mulVec_of_cols_zero (M : DNekScalBlkMat) (x : NekArray)
    (h : M.colSizes.sum = 0) (I : Nat) : M.mulVec x I = 0 := by
  unfold DNekScalBlkMat.mulVec
  cases locate M.rowSizes I with
  | none => rfl
  | some p =>
    obtain ⟨n, i⟩ := p
    simp only
    cases M.blocks n n with
    | none => rfl
    | some B =>
      simp only
      apply Finset.sum_eq_zero
      intro j hj
      have := blockOffset_add_lt (Finset.mem_range.mp hj)
      omega


theorem v_Solve_last (vt : Virtuals) (H : GlobalLinSysStaticCond) (inp out : NekArray)
    (d : AssemblyMapData) (dirForcing : List NekDouble) :
    H.v_Solve vt inp out (.last d) dirForcing =
      if d.nGlobHomBndDofs ≠ 0 then
        match v_Solve_forward vt H.m d true (dirForcCalculated dirForcing) out
            (v_Solve_fillF d inp dirForcing H.m.m_wsp) with
        | none => none
        | some wsp5 =>
          some (H.setWsp (v_Solve_interior H.m d (dirForcCalculated dirForcing) wsp5
              (v_Solve_terminalBnd vt H.m d wsp5 out)).1,
            (v_Solve_interior H.m d (dirForcCalculated dirForcing) wsp5
              (v_Solve_terminalBnd vt H.m d wsp5 out)).2)
      else
        some (H.setWsp (v_Solve_interior H.m d (dirForcCalculated dirForcing)
            (v_Solve_fillF d inp dirForcing H.m.m_wsp) out).1,
          (v_Solve_interior H.m d (dirForcCalculated dirForcing)
            (v_Solve_fillF d inp dirForcing H.m.m_wsp) out).2) := by
  cases H <;> rfl

theorem v_Solve_level_terminal (vt : Virtuals) (m : Members) (inp out : NekArray)
    (d : AssemblyMapData) (next : AssemblyMap) (dirForcing : List NekDouble) :
    (GlobalLinSysStaticCond.terminal m).v_Solve vt inp out (.level d next) dirForcing =
      if d.nGlobHomBndDofs ≠ 0 then none
      else
        some (.terminal { m with m_wsp := (v_Solve_interior m d (dirForcCalculated dirForcing)
            (v_Solve_fillF d inp dirForcing m.m_wsp) out).1 },
          (v_Solve_interior m d (dirForcCalculated dirForcing)
            (v_Solve_fillF d inp dirForcing m.m_wsp) out).2) := rfl

theorem v_Solve_level_recursive (vt : Virtuals) (m : Members) (child : GlobalLinSysStaticCond)
    (inp out : NekArray) (d : AssemblyMapData) (next : AssemblyMap)
    (dirForcing : List NekDouble) :
    (GlobalLinSysStaticCond.recursive m child).v_Solve vt inp out (.level d next) dirForcing =
      if d.nGlobHomBndDofs ≠ 0 then
        match v_Solve_forward vt m d false (dirForcCalculated dirForcing) out
            (v_Solve_fillF d inp dirForcing m.m_wsp) with
        | none => none
        | some wsp5 =>
          match child.v_Solve vt (view wsp5 d.offF) out next [] with
          | none => none
          | some (child1, out1) =>
            some (.recursive { m with m_wsp :=
                (v_Solve_interior m d (dirForcCalculated dirForcing) wsp5 out1).1 } child1,
              (v_Solve_interior m d (dirForcCalculated dirForcing) wsp5 out1).2)
      else
        some (.recursive { m with m_wsp := (v_Solve_interior m d (dirForcCalculated dirForcing)
            (v_Solve_fillF d inp dirForcing m.m_wsp) out).1 } child,
          (v_Solve_interior m d (dirForcCalculated dirForcing)
            (v_Solve_fillF d inp dirForcing m.m_wsp) out).2) := rfl

theorem stored_setWsp (H : GlobalLinSysStaticCond) (w : NekArray) :
    (H.setWsp w).stored = H.stored := by
  cases H <;> rfl

theorem m_setWsp (H : GlobalLinSysStaticCond) (w : NekArray) :
    (H.setWsp w).m = { H.m with m_wsp := w } := by
  cases H <;> rfl

theorem v_Solve_interior_bnd (m : Members) (d : AssemblyMapData) (dfc : Bool)
    (wsp out : NekArray) (g : Nat) (hg : g < d.numGlobalBndCoeffs) :
    (v_Solve_interior m d dfc wsp out).2 g = out g := by
  unfold v_Solve_interior
  split_ifs <;> simp [blit_below _ _ _ _ _ hg]

/-- A call that returns leaves the stored matrices of every level as they
were. -/
theorem v_Solve_stored (vt : Virtuals) (H H' : GlobalLinSysStaticCond)
    (inp out out' : NekArray) (map : AssemblyMap) (dirForcing : List NekDouble)
    (h : H.v_Solve vt inp out map dirForcing = some (H', out')) :
    H'.stored = H.stored := by
  induction H generalizing H' inp out out' map dirForcing with
  | terminal m =>
    cases map with
    | last d =>
      rw [v_Solve_last] at h
      split_ifs at h
      · split at h
        · simp at h
        · simp only [Option.some.injEq, Prod.mk.injEq] at h
          rw [← h.1, stored_setWsp]
      · simp only [Option.some.injEq, Prod.mk.injEq] at h
        rw [← h.1, stored_setWsp]
    | level d next =>
      rw [v_Solve_level_terminal] at h
      split_ifs at h
      simp only [Option.some.injEq, Prod.mk.injEq] at h
      rw [← h.1]; rfl
  | recursive m child ih =>
    cases map with
    | last d =>
      rw [v_Solve_last] at h
      split_ifs at h
      · split at h
        · simp at h
        · simp only [Option.some.injEq, Prod.mk.injEq] at h
          rw [← h.1, stored_setWsp]
      · simp only [Option.some.injEq, Prod.mk.injEq] at h
        rw [← h.1, stored_setWsp]
    | level d next =>
      rw [v_Solve_level_recursive] at h
      split_ifs at h
      · split at h
        · simp at h
        · rename_i wsp5 hf
          split at h
          · simp at h
          · rename_i child1 out1 hc
            simp only [Option.some.injEq, Prod.mk.injEq] at h
            rw [← h.1]
            simp only [GlobalLinSysStaticCond.stored]
            rw [ih _ _ _ _ _ _ hc]
      · simp only [Option.some.injEq, Prod.mk.injEq] at h
        rw [← h.1]; rfl

/-- C9: the level hierarchy is read-only during `v_Solve`.  Whenever a call
returns, the matrices `m_schurCompl`, `m_BinvD`, `m_C`, `m_invD` stored at
every level of the chain, and with them the chain of links
`m_recursiveSchurCompl` itself, are what they were before the call; the
workspaces are the only members that are written. -/
theorem v_Solve_hierarchy_read_only (vt : Virtuals) (H H' : GlobalLinSysStaticCond)
    (inp out out' : NekArray) (map : AssemblyMap) (dirForcing : List NekDouble)
    (h : H.v_Solve vt inp out map dirForcing = some (H', out')) :
    H'.stored = H.stored :=
  v_Solve_stored vt H H' inp out out' map dirForcing h

theorem blit_outside (a v : NekArray) (off n k : Nat) (h : ¬ (off ≤ k ∧ k < off + n)) :
    blit a off n v k = a k := by
  simp only [blit, if_neg h]

/-- The entries of `F` after lines 122-131. -/
theorem v_Solve_fillF_F (d : AssemblyMapData) (inp : NekArray) (dirForcing : List NekDouble)
    (wsp : NekArray) (q : Nat) (hq : q < d.numGlobalCoeffs) :
    v_Solve_fillF d inp dirForcing wsp (d.offF + q) =
      inp q - (if dirForcCalculated dirForcing = true ∧ d.numGlobalDirBndCoeffs ≠ 0
        then dirForcing.getD q 0 else 0) := by
  unfold v_Solve_fillF dirForcCalculated
  by_cases h1 : d.numGlobalDirBndCoeffs ≠ 0 ∧ dirForcing.length ≠ 0
  · have h2 : decide (dirForcing.length ≠ 0) = true ∧ d.numGlobalDirBndCoeffs ≠ 0 := by
      simpa using h1.symm
    rw [if_pos h1, if_pos h2, blit_inside_add _ _ _ _ _ hq]
  · have h2 : ¬ (decide (dirForcing.length ≠ 0) = true ∧ d.numGlobalDirBndCoeffs ≠ 0) := by
      intro h; apply h1; simpa using h.symm
    rw [if_neg h1, if_neg h2, blit_inside_add _ _ _ _ _ hq, sub_zero]

theorem v_Solve_fillF_outside (d : AssemblyMapData) (inp : NekArray)
    (dirForcing : List NekDouble) (wsp : NekArray) (k : Nat)
    (hk : ¬ (d.offF ≤ k ∧ k < d.offF + d.numGlobalCoeffs)) :
    v_Solve_fillF d inp dirForcing wsp k = wsp k := by
  unfold v_Solve_fillF
  split_ifs <;> exact blit_outside _ _ _ _ _ hk

/-- Lines 154-174 write `V_LocBnd` only. -/
theorem v_Solve_locBndForcing_above (m : Members) (d : AssemblyMapData) (atLast dfc : Bool)
    (out wsp wsp2 : NekArray)
    (h : v_Solve_locBndForcing m d atLast dfc out wsp = some wsp2) (k : Nat)
    (hk : d.numLocalBndCoeffs ≤ k) : wsp2 k = wsp k := by
  unfold v_Solve_locBndForcing at h
  split_ifs at h
  · split at h
    · simp at h
    · simp only [Option.some.injEq] at h
      rw [← h, blit_above _ _ _ _ _ (by omega), blit_above _ _ _ _ _ (by omega)]
  · split at h
    · simp at h
    · simp only [Option.some.injEq] at h
      rw [← h, blit_above _ _ _ _ _ (by omega), blit_above _ _ _ _ _ (by omega)]
  · simp only [Option.some.injEq] at h
    rw [← h, blit_above _ _ _ _ _ (by omega)]

/-- Lines 176-178 write `V_GlobHomBndTmp` and `F_HomBnd` only. -/
theorem v_Solve_assembleSubtract_outside (d : AssemblyMapData) (wsp : NekArray) (k : Nat)
    (h1 : ¬ (d.offTmp ≤ k ∧ k < d.offTmp + d.nGlobHomBndDofs))
    (h2 : ¬ (d.offF + d.numGlobalDirBndCoeffs ≤ k ∧
      k < d.offF + d.numGlobalDirBndCoeffs + d.nGlobHomBndDofs)) :
    v_Solve_assembleSubtract d wsp k = wsp k := by
  unfold v_Solve_assembleSubtract
  rw [blit_outside _ _ _ _ _ h2, blit_outside _ _ _ _ _ h1]

theorem v_Solve_dummyStep_outside (d : AssemblyMapData) (wsp : NekArray) (k : Nat)
    (h1 : ¬ (d.offTmp ≤ k ∧ k < d.offTmp + d.nGlobHomBndDofs))
    (h2 : ¬ (d.offF + d.numGlobalDirBndCoeffs ≤ k ∧
      k < d.offF + d.numGlobalDirBndCoeffs + d.nGlobHomBndDofs)) :
    v_Solve_dummyStep d wsp k = wsp k := by
  unfold v_Solve_dummyStep
  rw [blit_outside _ _ _ _ _ h2, blit_outside _ _ _ _ _ h1]

theorem foldl_dummyStep_outside (d : AssemblyMapData) (l : List Nat) (wsp : NekArray) (k : Nat)
    (h1 : ¬ (d.offTmp ≤ k ∧ k < d.offTmp + d.nGlobHomBndDofs))
    (h2 : ¬ (d.offF + d.numGlobalDirBndCoeffs ≤ k ∧
      k < d.offF + d.numGlobalDirBndCoeffs + d.nGlobHomBndDofs)) :
    l.foldl (fun w _ => v_Solve_dummyStep d w) wsp k = wsp k := by
  induction l generalizing wsp with
  | nil => rfl
  | cons a l ih =>
    rw [List.foldl_cons, ih, v_Solve_dummyStep_outside d wsp k h1 h2]

theorem v_Solve_dummyCommunication_outside (d : AssemblyMapData) (atLast : Bool)
    (wsp : NekArray) (k : Nat)
    (h1 : ¬ (d.offTmp ≤ k ∧ k < d.offTmp + d.nGlobHomBndDofs))
    (h2 : ¬ (d.offF + d.numGlobalDirBndCoeffs ≤ k ∧
      k < d.offF + d.numGlobalDirBndCoeffs + d.nGlobHomBndDofs)) :
    v_Solve_dummyCommunication d atLast wsp k = wsp k := by
  unfold v_Solve_dummyCommunication
  split_ifs
  · exact foldl_dummyStep_outside d _ wsp k h1 h2
  · rfl

/-- The interior segment of `F` survives lines 153-205 when the forward basis
transform leaves the entries from `nGlobBndDofs` on as they are. -/
theorem v_Solve_forward_FInt (vt : Virtuals) (m : Members) (d : AssemblyMapData)
    (atLast dfc : Bool) (out wsp wsp5 : NekArray)
    (h : v_Solve_forward vt m d atLast dfc out wsp = some wsp5)
    (hfwd : ∀ sc F n k, d.numGlobalBndCoeffs ≤ k → vt.v_BasisFwdTransform sc F n k = F k)
    (k : Nat) (hk : d.offF + d.numGlobalBndCoeffs ≤ k) : wsp5 k = wsp k := by
  unfold v_Solve_forward at h
  split at h
  · simp at h
  · rename_i wsp2 h2
    simp only [Option.some.injEq] at h
    have hoff : d.offF = 2 * d.numLocalBndCoeffs + (d.numGlobalBndCoeffs - d.numGlobalDirBndCoeffs) := rfl
    have htmp : d.offTmp = 2 * d.numLocalBndCoeffs := rfl
    have hhom : d.nGlobHomBndDofs = d.numGlobalBndCoeffs - d.numGlobalDirBndCoeffs := rfl
    have e1 : ¬ (d.offTmp ≤ k ∧ k < d.offTmp + d.nGlobHomBndDofs) := by omega
    have e2 : ¬ (d.offF + d.numGlobalDirBndCoeffs ≤ k ∧
        k < d.offF + d.numGlobalDirBndCoeffs + d.nGlobHomBndDofs) := by omega
    rw [← h, v_Solve_dummyCommunication_outside d atLast _ k e1 e2]
    have e3 : v_Solve_assembleSubtract d wsp2 k = wsp k := by
      rw [v_Solve_assembleSubtract_outside d wsp2 k e1 e2,
        v_Solve_locBndForcing_above m d atLast dfc out wsp wsp2 h2 k (by omega)]
    by_cases hin : k < d.offF + d.numGlobalCoeffs
    · rw [blit_inside _ _ _ _ _ (by omega) hin, hfwd _ _ _ _ (by omega), view_apply]
      have : d.offF + (k - d.offF) = k := by omega
      rw [this, e3]
    · rw [blit_above _ _ _ _ _ (by omega), e3]

theorem interiorLocBnd_congr (d : AssemblyMapData) (dfc : Bool) (o1 o2 : NekArray)
    (h : ∀ g, g < d.numGlobalBndCoeffs → o1 g = o2 g) (i : Nat)
    (hi : d.localToGlobalBndMap i < d.numGlobalBndCoeffs) :
    v_Solve_interiorLocBnd d dfc o1 i = v_Solve_interiorLocBnd d dfc o2 i := by
  unfold v_Solve_interiorLocBnd AssemblyMapData.GlobalToLocalBndOffset
    AssemblyMapData.GlobalToLocalBnd
  split_ifs with hc
  · simp only [view_apply]
    split_ifs with hr
    · have : d.numGlobalDirBndCoeffs + (d.localToGlobalBndMap i - d.numGlobalDirBndCoeffs)
          = d.localToGlobalBndMap i := by omega
      rw [this, h _ hi]
    · rfl
  · simp only [h _ hi]

/-- The interior solve of lines 232-252 in terms of `F_Int` as it stands when
it begins and of the boundary entries of `out`. -/
theorem v_Solve_interior_spec (m : Members) (d : AssemblyMapData) (dfc : Bool)
    (wsp out : NekArray) (hInt : d.nIntDofs ≠ 0)
    (hC : m.m_C.colSizes.sum ≤ d.numLocalBndCoeffs)
    (hD : m.m_invD.colSizes.sum ≤ d.nIntDofs)
    (hmap : ∀ i, i < d.numLocalBndCoeffs → d.localToGlobalBndMap i < d.numGlobalBndCoeffs)
    (k : Nat) (hk : k < d.nIntDofs) :
    (v_Solve_interior m d dfc wsp out).2 (d.numGlobalBndCoeffs + k) =
      m.m_invD.mulVec (fun q => wsp (d.offF + d.numGlobalBndCoeffs + q)
        - m.m_C.mulVec (v_Solve_interiorLocBnd d dfc (v_Solve_interior m d dfc wsp out).2) q) k := by
  have hoff : d.offF = 2 * d.numLocalBndCoeffs + (d.numGlobalBndCoeffs - d.numGlobalDirBndCoeffs) := rfl
  have hhom : d.nGlobHomBndDofs = d.numGlobalBndCoeffs - d.numGlobalDirBndCoeffs := rfl
  have hloc : ∀ i, i < m.m_C.colSizes.sum →
      v_Solve_interiorLocBnd d dfc out i =
        v_Solve_interiorLocBnd d dfc (v_Solve_interior m d dfc wsp out).2 i := by
    intro i hi
    apply interiorLocBnd_congr
    · intro g hg; rw [v_Solve_interior_bnd _ _ _ _ _ _ hg]
    · exact hmap i (by omega)
  conv_lhs => unfold v_Solve_interior
  rw [if_pos hInt]
  simp only
  rw [blit_inside_add _ _ _ _ _ hk]
  apply mulVec_congr
  intro q hq
  have hq' : q < d.nIntDofs := by omega
  simp only [view_apply]
  split_ifs with hb
  · rw [blit_inside_add _ _ _ _ _ hq', blit_above _ _ _ _ _ (by omega)]
    congr 1
    rw [← mulVec_congr _ _ _ hloc]
    apply mulVec_congr
    intro i hi
    rw [blit_zero_inside _ _ _ _ (by omega)]
  · have hz : d.numLocalBndCoeffs = 0 := by
      by_contra hne
      have := hmap 0 (by omega)
      omega
    rw [mulVec_of_cols_zero _ _ (by omega), sub_zero]


/-- The interior solve applied to a workspace whose `F_Int` is the interior
segment of the Dirichlet-corrected right-hand side. -/
theorem v_Solve_interior_rhs (m : Members) (d : AssemblyMapData)
    (inp : NekArray) (dirForcing : List NekDouble) (wsp outB : NekArray)
    (hInt : d.nIntDofs ≠ 0)
    (hC : m.m_C.colSizes.sum ≤ d.numLocalBndCoeffs)
    (hD : m.m_invD.colSizes.sum ≤ d.nIntDofs)
    (hmap : ∀ i, i < d.numLocalBndCoeffs → d.localToGlobalBndMap i < d.numGlobalBndCoeffs)
    (hX : ∀ k, d.offF + d.numGlobalBndCoeffs ≤ k →
      wsp k = v_Solve_fillF d inp dirForcing m.m_wsp k)
    (k : Nat) (hk : k < d.nIntDofs) :
    (v_Solve_interior m d (dirForcCalculated dirForcing) wsp outB).2 (d.numGlobalBndCoeffs + k) =
      m.m_invD.mulVec (fun q =>
        (inp (d.numGlobalBndCoeffs + q)
          - (if dirForcCalculated dirForcing = true ∧ d.numGlobalDirBndCoeffs ≠ 0
              then dirForcing.getD (d.numGlobalBndCoeffs + q) 0 else 0))
        - m.m_C.mulVec (v_Solve_interiorLocBnd d (dirForcCalculated dirForcing)
            (v_Solve_interior m d (dirForcCalculated dirForcing) wsp outB).2) q) k := by
  rw [v_Solve_interior_spec m d _ wsp outB hInt hC hD hmap k hk]
  apply mulVec_congr
  intro q hq
  have hint : d.nIntDofs = d.numGlobalCoeffs - d.numGlobalBndCoeffs := rfl
  rw [hX _ (by omega), Nat.add_assoc, v_Solve_fillF_F _ _ _ _ _ (by omega)]

/-- C5: interior back-substitution.  For every `v_Solve` call that returns,
on a level with interior DOFs (with or without homogeneous boundary DOFs),
the interior segment of `out` equals `invD * (F_Int - C * V_LocBnd)`, where
`F_Int` is the interior segment of the right-hand side (less the Dirichlet
forcing when it is supplied and there are Dirichlet DOFs) and `V_LocBnd` is
gathered from the boundary entries of the returned `out`, which are those
left by the terminal boundary solve or by the recursive next-level solve.
The matrices `C` and `invD` have no more columns than there are local
boundary and interior DOFs, local boundary DOFs map to global boundary DOFs,
and the forward basis transform leaves the interior segment of `F` alone. -/
theorem v_Solve_interior_backsubstitution (vt : Virtuals) (H H' : GlobalLinSysStaticCond)
    (inp out out' : NekArray) (map : AssemblyMap) (dirForcing : List NekDouble)
    (h : H.v_Solve vt inp out map dirForcing = some (H', out'))
    (hInt : map.d.nIntDofs ≠ 0)
    (hC : H.m.m_C.colSizes.sum ≤ map.d.numLocalBndCoeffs)
    (hD : H.m.m_invD.colSizes.sum ≤ map.d.nIntDofs)
    (hmap : ∀ i, i < map.d.numLocalBndCoeffs →
      map.d.localToGlobalBndMap i < map.d.numGlobalBndCoeffs)
    (hfwd : ∀ sc F n k, map.d.numGlobalBndCoeffs ≤ k → vt.v_BasisFwdTransform sc F n k = F k) :
    ∀ k, k < map.d.nIntDofs →
      out' (map.d.numGlobalBndCoeffs + k) =
        H.m.m_invD.mulVec (fun q =>
          (inp (map.d.numGlobalBndCoeffs + q)
            - (if dirForcCalculated dirForcing = true ∧ map.d.numGlobalDirBndCoeffs ≠ 0
                then dirForcing.getD (map.d.numGlobalBndCoeffs + q) 0 else 0))
          - H.m.m_C.mulVec
              (v_Solve_interiorLocBnd map.d (dirForcCalculated dirForcing) out') q) k := by
  intro k hk
  cases map with
  | last d =>
    simp only [AssemblyMap.d] at *
    rw [v_Solve_last] at h
    split_ifs at h
    · split at h
      · simp at h
      · rename_i wsp5 hf
        simp only [Option.some.injEq, Prod.mk.injEq] at h
        rw [← h.2]
        exact v_Solve_interior_rhs _ d inp dirForcing wsp5 _ hInt hC hD hmap
          (fun k hk => v_Solve_forward_FInt vt _ d _ _ _ _ _ hf hfwd k hk) k hk
    · simp only [Option.some.injEq, Prod.mk.injEq] at h
      rw [← h.2]
      exact v_Solve_interior_rhs _ d inp dirForcing _ _ hInt hC hD hmap (fun _ _ => rfl) k hk
  | level d next =>
    simp only [AssemblyMap.d] at *
    cases H with
    | terminal m =>
      simp only [GlobalLinSysStaticCond.m] at *
      rw [v_Solve_level_terminal] at h
      split_ifs at h
      simp only [Option.some.injEq, Prod.mk.injEq] at h
      rw [← h.2]
      exact v_Solve_interior_rhs _ d inp dirForcing _ _ hInt hC hD hmap (fun _ _ => rfl) k hk
    | recursive m child =>
      simp only [GlobalLinSysStaticCond.m] at *
      rw [v_Solve_level_recursive] at h
      split_ifs at h
      · split at h
        · simp at h
        · rename_i wsp5 hf
          split at h
          · simp at h
          · rename_i child1 out1 hc
            simp only [Option.some.injEq, Prod.mk.injEq] at h
            rw [← h.2]
            exact v_Solve_interior_rhs _ d inp dirForcing wsp5 _ hInt hC hD hmap
              (fun k hk => v_Solve_forward_FInt vt _ d _ _ _ _ _ hf hfwd k hk) k hk
      · simp only [Option.some.injEq, Prod.mk.injEq] at h
        rw [← h.2]
        exact v_Solve_interior_rhs _ d inp dirForcing _ _ hInt hC hD hmap (fun _ _ => rfl) k hk

/-- C6: the terminal boundary solve as a perturbation.  At a terminal level
with homogeneous boundary DOFs, a `v_Solve` call that returns has called the
direct solver for `nGlobBndDofs` rows on the forcing `F` with a perturbation
vector that is zero everywhere, and every homogeneous boundary entry
`out[nDirBndDofs + k]` on return is its value on entry plus entry
`nDirBndDofs + k` of the backward-transformed perturbation. -/
theorem v_Solve_terminal_perturbation (vt : Virtuals) (H H' : GlobalLinSysStaticCond)
    (inp out out' : NekArray) (d : AssemblyMapData) (dirForcing : List NekDouble)
    (h : H.v_Solve vt inp out (.last d) dirForcing = some (H', out'))
    (hHom : d.nGlobHomBndDofs ≠ 0) :
    ∃ wsp5 pert0 : NekArray,
      v_Solve_forward vt H.m d true (dirForcCalculated dirForcing) out
        (v_Solve_fillF d inp dirForcing H.m.m_wsp) = some wsp5 ∧
      (∀ g, pert0 g = 0) ∧
      ∀ k, k < d.nGlobHomBndDofs →
        out' (d.numGlobalDirBndCoeffs + k) = out (d.numGlobalDirBndCoeffs + k)
          + vt.v_BasisBwdTransform H.m.m_schurCompl
              (vt.SolveLinearSystem H.m.m_schurCompl d.numGlobalBndCoeffs
                (view wsp5 d.offF) pert0 d d.numGlobalDirBndCoeffs)
              (d.numGlobalDirBndCoeffs + k) := by
  rw [v_Solve_last, if_pos hHom] at h
  split at h
  · simp at h
  · rename_i wsp5 hf
    simp only [Option.some.injEq, Prod.mk.injEq] at h
    refine ⟨wsp5, zeroArray, hf, fun _ => rfl, ?_⟩
    intro k hk
    have hhom : d.nGlobHomBndDofs = d.numGlobalBndCoeffs - d.numGlobalDirBndCoeffs := rfl
    rw [← h.2, v_Solve_interior_bnd _ _ _ _ _ _ (by omega)]
    simp [v_Solve_terminalBnd, v_Solve_pert, blit_inside_add _ _ _ _ _ hk]


theorem AssembleBnd_congr (d : AssemblyMapData) (a b : NekArray)
    (h : ∀ i, i < d.numLocalBndCoeffs → a i = b i) (g : Nat) :
    d.AssembleBnd a g = d.AssembleBnd b g := by
  unfold AssemblyMapData.AssembleBnd UniversalAssembleBnd
  apply Finset.sum_congr rfl
  intro i hi
  rw [h i (Finset.mem_range.mp hi)]

/-- One pass of the dummy communication leaves everything from `F` on as it
is: what comes back from the collective assemble of a zero vector is zero. -/
theorem v_Solve_dummyStep_F (d : AssemblyMapData) (wsp : NekArray) (k : Nat)
    (hk : d.offF ≤ k) : v_Solve_dummyStep d wsp k = wsp k := by
  have hoff : d.offF = 2 * d.numLocalBndCoeffs + (d.numGlobalBndCoeffs - d.numGlobalDirBndCoeffs) := rfl
  have htmp : d.offTmp = 2 * d.numLocalBndCoeffs := rfl
  have hhom : d.nGlobHomBndDofs = d.numGlobalBndCoeffs - d.numGlobalDirBndCoeffs := rfl
  unfold v_Solve_dummyStep
  by_cases hin : d.offF + d.numGlobalDirBndCoeffs ≤ k ∧
      k < d.offF + d.numGlobalDirBndCoeffs + d.nGlobHomBndDofs
  · rw [blit_inside _ _ _ _ _ hin.1 hin.2]
    have e : d.offF + d.numGlobalDirBndCoeffs + (k - (d.offF + d.numGlobalDirBndCoeffs)) = k := by
      omega
    rw [e, blit_above _ _ _ _ _ (by omega),
      blit_inside_add _ _ _ _ _ (by omega)]
    simp [UniversalAssembleBnd, zeroArray]
  · rw [blit_outside _ _ _ _ _ hin, blit_above _ _ _ _ _ (by omega)]

theorem v_Solve_dummyCommunication_F (d : AssemblyMapData) (atLast : Bool) (wsp : NekArray)
    (k : Nat) (hk : d.offF ≤ k) : v_Solve_dummyCommunication d atLast wsp k = wsp k := by
  unfold v_Solve_dummyCommunication
  split_ifs
  · generalize List.range' d.staticCondLevel (d.lowestStaticCondLevel - d.staticCondLevel) = l
    induction l generalizing wsp with
    | nil => rfl
    | cons a l ih => rw [List.foldl_cons, ih, v_Solve_dummyStep_F d wsp k hk]
  · rfl

/-- The value of `V_LocBnd` after lines 154-174. -/
theorem v_Solve_locBndForcing_value (m : Members) (d : AssemblyMapData) (atLast dfc : Bool)
    (out wsp wsp2 : NekArray)
    (h : v_Solve_locBndForcing m d atLast dfc out wsp = some wsp2)
    (hB : m.m_BinvD.colSizes.sum ≤ d.nIntDofs)
    (hS : ∀ S, m.m_schurCompl = some S → S.colSizes.sum ≤ d.numLocalBndCoeffs)
    (i : Nat) (hi : i < d.numLocalBndCoeffs) :
    wsp2 i = m.m_BinvD.mulVec (view wsp (d.offF + d.numGlobalBndCoeffs)) i
      + (if dfc = false ∧ atLast = true then
          (match m.m_schurCompl with
            | some S => S.mulVec (d.GlobalToLocalBnd out) i
            | none => 0)
         else 0) := by
  have hoff : d.offF = 2 * d.numLocalBndCoeffs + (d.numGlobalBndCoeffs - d.numGlobalDirBndCoeffs) := rfl
  unfold v_Solve_locBndForcing v_PreSolve at h
  split_ifs at h with h1 h2
  · rw [if_pos h1.2]
    split at h
    · simp at h
    · rename_i S hS'
      simp only [Option.some.injEq] at h
      rw [← h, blit_zero_inside _ _ _ _ hi, hS']
      congr 1
      · apply mulVec_congr
        intro k _
        simp only [view_apply]
        rw [blit_above _ _ _ _ _ (by omega)]
      · apply mulVec_congr
        intro k hk
        rw [blit_zero_inside _ _ _ _ (by have := hS S hS'; omega)]
  · rw [if_pos h2]
    split at h
    · simp at h
    · rename_i S hS'
      simp only [Option.some.injEq] at h
      have hz : d.nIntDofs = 0 := by
        by_contra hne; exact h1 ⟨hne, h2⟩
      rw [← h, blit_zero_inside _ _ _ _ hi, hS', mulVec_of_cols_zero m.m_BinvD _ (by omega), zero_add]
      apply mulVec_congr
      intro k hk
      rw [blit_zero_inside _ _ _ _ (by have := hS S hS'; omega)]
  · rw [if_neg h2, add_zero]
    simp only [Option.some.injEq] at h
    rw [← h, blit_zero_inside _ _ _ _ hi]

/-- The homogeneous boundary forcing after lines 153-205, with the identity
forward basis transform. -/
theorem v_Solve_forward_FHomBnd (vt : Virtuals) (m : Members) (d : AssemblyMapData)
    (atLast dfc : Bool) (out wsp wsp5 : NekArray)
    (h : v_Solve_forward vt m d atLast dfc out wsp = some wsp5)
    (hB : m.m_BinvD.colSizes.sum ≤ d.nIntDofs)
    (hS : ∀ S, m.m_schurCompl = some S → S.colSizes.sum ≤ d.numLocalBndCoeffs)
    (hfwd : ∀ sc F n, vt.v_BasisFwdTransform sc F n = F)
    (k : Nat) (hk : k < d.nGlobHomBndDofs) :
    wsp5 (d.offF + d.numGlobalDirBndCoeffs + k) =
      wsp (d.offF + d.numGlobalDirBndCoeffs + k)
        - d.AssembleBndOffset (fun i =>
            m.m_BinvD.mulVec (view wsp (d.offF + d.numGlobalBndCoeffs)) i
              + (if dfc = false ∧ atLast = true then
                  (match m.m_schurCompl with
                    | some S => S.mulVec (d.GlobalToLocalBnd out) i
                    | none => 0)
                 else 0)) d.numGlobalDirBndCoeffs k := by
  have hoff : d.offF = 2 * d.numLocalBndCoeffs + (d.numGlobalBndCoeffs - d.numGlobalDirBndCoeffs) := rfl
  have htmp : d.offTmp = 2 * d.numLocalBndCoeffs := rfl
  have hhom : d.nGlobHomBndDofs = d.numGlobalBndCoeffs - d.numGlobalDirBndCoeffs := rfl
  unfold v_Solve_forward at h
  split at h
  · simp at h
  · rename_i wsp2 h2
    simp only [Option.some.injEq] at h
    rw [← h, v_Solve_dummyCommunication_F _ _ _ _ (by omega)]
    have e4 : ∀ q, blit (v_Solve_assembleSubtract d wsp2) d.offF d.numGlobalCoeffs
        (vt.v_BasisFwdTransform m.m_schurCompl (view (v_Solve_assembleSubtract d wsp2) d.offF)
          d.numGlobalDirBndCoeffs) q = v_Solve_assembleSubtract d wsp2 q := by
      intro q
      rw [hfwd]
      unfold blit
      split_ifs with hq
      · simp only [view_apply]; congr 1; omega
      · rfl
    rw [e4]
    unfold v_Solve_assembleSubtract
    rw [blit_inside_add _ _ _ _ _ hk, blit_above _ _ _ _ _ (by omega),
      blit_inside_add _ _ _ _ _ hk,
      v_Solve_locBndForcing_above m d atLast dfc out wsp wsp2 h2 _ (by omega)]
    congr 1
    unfold AssemblyMapData.AssembleBndOffset
    simp only [view_apply]
    apply AssembleBnd_congr
    intro i hi
    exact v_Solve_locBndForcing_value m d atLast dfc out wsp wsp2 h2 hB hS i hi


theorem v_Solve_locBndForcing_isSome (m : Members) (d : AssemblyMapData) (atLast dfc : Bool)
    (out wsp : NekArray) (h : atLast = true → m.m_schurCompl ≠ none) :
    ∃ wsp2, v_Solve_locBndForcing m d atLast dfc out wsp = some wsp2 := by
  unfold v_Solve_locBndForcing v_PreSolve
  split_ifs with h1 h2
  · cases hs : m.m_schurCompl with
    | none => exact absurd hs (h h1.2.2)
    | some S => exact ⟨_, rfl⟩
  · cases hs : m.m_schurCompl with
    | none => exact absurd hs (h h2.2)
    | some S => exact ⟨_, rfl⟩
  · exact ⟨_, rfl⟩

theorem v_Solve_forward_isSome (vt : Virtuals) (m : Members) (d : AssemblyMapData)
    (atLast dfc : Bool) (out wsp : NekArray) (h : atLast = true → m.m_schurCompl ≠ none) :
    ∃ wsp5, v_Solve_forward vt m d atLast dfc out wsp = some wsp5 := by
  obtain ⟨wsp2, h2⟩ := v_Solve_locBndForcing_isSome m d atLast dfc out wsp h
  unfold v_Solve_forward
  rw [h2]
  exact ⟨_, rfl⟩

/-- A `v_Solve` call returns whenever the chain of objects holds what the
call dereferences. -/
theorem v_Solve_returns (vt : Virtuals) (H : GlobalLinSysStaticCond) (inp out : NekArray)
    (map : AssemblyMap) (dirForcing : List NekDouble) (hH : H.Holds map) :
    ∃ H' out', H.v_Solve vt inp out map dirForcing = some (H', out') := by
  induction H generalizing inp out map dirForcing with
  | terminal m =>
    cases map with
    | last d =>
      rw [v_Solve_last]
      obtain ⟨wsp5, h5⟩ := v_Solve_forward_isSome vt m d true (dirForcCalculated dirForcing) out
        (v_Solve_fillF d inp dirForcing m.m_wsp) (fun _ => hH)
      simp only [GlobalLinSysStaticCond.m, h5]
      split_ifs <;> exact ⟨_, _, rfl⟩
    | level d next =>
      rw [v_Solve_level_terminal]
      have : d.nGlobHomBndDofs = 0 := hH
      rw [if_neg (by simp [this])]
      exact ⟨_, _, rfl⟩
  | recursive m child ih =>
    cases map with
    | last d =>
      rw [v_Solve_last]
      obtain ⟨wsp5, h5⟩ := v_Solve_forward_isSome vt m d true (dirForcCalculated dirForcing) out
        (v_Solve_fillF d inp dirForcing m.m_wsp) (fun _ => hH)
      simp only [GlobalLinSysStaticCond.m, h5]
      split_ifs <;> exact ⟨_, _, rfl⟩
    | level d next =>
      rw [v_Solve_level_recursive]
      obtain ⟨wsp5, h5⟩ := v_Solve_forward_isSome vt m d false (dirForcCalculated dirForcing) out
        (v_Solve_fillF d inp dirForcing m.m_wsp) (fun h => by cases h)
      obtain ⟨c1, o1, hc⟩ := ih (view wsp5 d.offF) out next [] hH
      simp only [h5, hc]
      split_ifs <;> exact ⟨_, _, rfl⟩

/-- A call that returns on a level with homogeneous boundary DOFs has gone
through lines 153-205. -/
theorem v_Solve_forward_of_returns (vt : Virtuals) (H H' : GlobalLinSysStaticCond)
    (inp out out' : NekArray) (map : AssemblyMap) (dirForcing : List NekDouble)
    (h : H.v_Solve vt inp out map dirForcing = some (H', out'))
    (hHom : map.d.nGlobHomBndDofs ≠ 0) :
    ∃ wsp5, v_Solve_forward vt H.m map.d map.AtLastLevel (dirForcCalculated dirForcing) out
      (v_Solve_fillF map.d inp dirForcing H.m.m_wsp) = some wsp5 := by
  cases map with
  | last d =>
    simp only [AssemblyMap.d, AssemblyMap.AtLastLevel] at *
    rw [v_Solve_last, if_pos hHom] at h
    split at h
    · simp at h
    · rename_i wsp5 hf
      exact ⟨wsp5, hf⟩
  | level d next =>
    simp only [AssemblyMap.d, AssemblyMap.AtLastLevel] at *
    cases H with
    | terminal m =>
      rw [v_Solve_level_terminal, if_pos hHom] at h
      simp at h
    | recursive m child =>
      rw [v_Solve_level_recursive, if_pos hHom] at h
      split at h
      · simp at h
      · rename_i wsp5 hf
        exact ⟨wsp5, hf⟩

/-- C7 (amended): boundary forcing.  For every `v_Solve` call that returns on
a level with homogeneous boundary DOFs, the local boundary forcing vector is
`BinvD * F_Int` and, when the level is the terminal level and no Dirichlet
forcing is supplied, additionally `SchurCompl * GlobalToLocalBnd(out)`; with
the identity forward basis transform, the homogeneous boundary forcing that
the boundary solve (or the next level) is given equals the incoming
`F_HomBnd` minus the assembly with offset `nDirBndDofs` of that local
vector. -/
theorem v_Solve_boundary_forcing (vt : Virtuals) (H H' : GlobalLinSysStaticCond)
    (inp out out' : NekArray) (map : AssemblyMap) (dirForcing : List NekDouble)
    (h : H.v_Solve vt inp out map dirForcing = some (H', out'))
    (hHom : map.d.nGlobHomBndDofs ≠ 0)
    (hB : H.m.m_BinvD.colSizes.sum ≤ map.d.nIntDofs)
    (hS : ∀ S, H.m.m_schurCompl = some S → S.colSizes.sum ≤ map.d.numLocalBndCoeffs)
    (hfwd : ∀ sc F n, vt.v_BasisFwdTransform sc F n = F) :
    ∃ wsp5,
      v_Solve_forward vt H.m map.d map.AtLastLevel (dirForcCalculated dirForcing) out
        (v_Solve_fillF map.d inp dirForcing H.m.m_wsp) = some wsp5 ∧
      ∀ k, k < map.d.nGlobHomBndDofs →
        wsp5 (map.d.offF + map.d.numGlobalDirBndCoeffs + k) =
          v_Solve_fillF map.d inp dirForcing H.m.m_wsp
              (map.d.offF + map.d.numGlobalDirBndCoeffs + k)
            - map.d.AssembleBndOffset (fun i =>
                H.m.m_BinvD.mulVec
                  (view (v_Solve_fillF map.d inp dirForcing H.m.m_wsp)
                    (map.d.offF + map.d.numGlobalBndCoeffs)) i
                + (if dirForcCalculated dirForcing = false ∧ map.AtLastLevel = true then
                    (match H.m.m_schurCompl with
                      | some S => S.mulVec (map.d.GlobalToLocalBnd out) i
                      | none => 0)
                   else 0)) map.d.numGlobalDirBndCoeffs k := by
  obtain ⟨wsp5, hf⟩ := v_Solve_forward_of_returns vt H H' inp out out' map dirForcing h hHom
  exact ⟨wsp5, hf, fun k hk =>
    v_Solve_forward_FHomBnd vt H.m map.d map.AtLastLevel (dirForcCalculated dirForcing)
      out _ wsp5 hf hB hS hfwd k hk⟩


theorem single_mulVec (v : NekDouble) (x : NekArray) (I : Nat) :
    (DNekScalBlkMat.single v).mulVec x I = if I = 0 then v * x 0 else 0 := by
  unfold DNekScalBlkMat.mulVec DNekScalBlkMat.single DNekScalBlkMat.SetBlock
    DNekScalBlkMat.allocate
  by_cases hI : I = 0
  · subst hI
    simp [locate, blockOffset, DNekScalMat.get, DNekMat.get, DNekMat.single]
  · have : ¬ I < 1 := by omega
    simp [locate, this, hI]

theorem ex1_Holds : (GlobalLinSysStaticCond.terminal ex1Members).Holds (.last ex1Data) := by
  simp [GlobalLinSysStaticCond.Holds, GlobalLinSysStaticCond.m, ex1Members]

/-- Witness of C9 on the one-element example. -/
theorem v_Solve_hierarchy_read_only_witness :
    ∃ H' out', (GlobalLinSysStaticCond.terminal ex1Members).v_Solve (baseVirtuals oneDofSolver)
        ex1Rhs zeroArray (.last ex1Data) [] = some (H', out') ∧
      H'.stored = (GlobalLinSysStaticCond.terminal ex1Members).stored := by
  obtain ⟨H', out', h⟩ := v_Solve_returns (baseVirtuals oneDofSolver)
    (.terminal ex1Members) ex1Rhs zeroArray (.last ex1Data) [] ex1_Holds
  exact ⟨H', out', h, v_Solve_hierarchy_read_only _ _ _ _ _ _ _ _ h⟩

/-- Witness of C5 on the one-element example. -/
theorem v_Solve_interior_backsubstitution_witness :
    ∃ H' out', (GlobalLinSysStaticCond.terminal ex1Members).v_Solve (baseVirtuals oneDofSolver)
        ex1Rhs zeroArray (.last ex1Data) [] = some (H', out') ∧
      ∀ k, k < ex1Data.nIntDofs →
        out' (ex1Data.numGlobalBndCoeffs + k) =
          ex1Members.m_invD.mulVec (fun q =>
            (ex1Rhs (ex1Data.numGlobalBndCoeffs + q)
              - (if dirForcCalculated [] = true ∧ ex1Data.numGlobalDirBndCoeffs ≠ 0
                  then ([] : List NekDouble).getD (ex1Data.numGlobalBndCoeffs + q) 0 else 0))
            - ex1Members.m_C.mulVec
                (v_Solve_interiorLocBnd ex1Data (dirForcCalculated []) out') q) k := by
  obtain ⟨H', out', h⟩ := v_Solve_returns (baseVirtuals oneDofSolver)
    (.terminal ex1Members) ex1Rhs zeroArray (.last ex1Data) [] ex1_Holds
  exact ⟨H', out', h, v_Solve_interior_backsubstitution _ _ _ _ _ _ _ _ h
    (by decide) (by decide) (by decide) (fun _ _ => Nat.zero_lt_one) (fun _ _ _ _ _ => rfl)⟩

/-- Witness of C6 on the one-element example. -/
theorem v_Solve_terminal_perturbation_witness :
    ∃ H' out', (GlobalLinSysStaticCond.terminal ex1Members).v_Solve (baseVirtuals oneDofSolver)
        ex1Rhs zeroArray (.last ex1Data) [] = some (H', out') ∧
      ∃ wsp5 pert0 : NekArray,
        v_Solve_forward (baseVirtuals oneDofSolver) ex1Members ex1Data true
          (dirForcCalculated []) zeroArray
          (v_Solve_fillF ex1Data ex1Rhs [] ex1Members.m_wsp) = some wsp5 ∧
        (∀ g, pert0 g = 0) ∧
        ∀ k, k < ex1Data.nGlobHomBndDofs →
          out' (ex1Data.numGlobalDirBndCoeffs + k) = zeroArray (ex1Data.numGlobalDirBndCoeffs + k)
            + (baseVirtuals oneDofSolver).v_BasisBwdTransform ex1Members.m_schurCompl
                ((baseVirtuals oneDofSolver).SolveLinearSystem ex1Members.m_schurCompl
                  ex1Data.numGlobalBndCoeffs (view wsp5 ex1Data.offF) pert0 ex1Data
                  ex1Data.numGlobalDirBndCoeffs)
                (ex1Data.numGlobalDirBndCoeffs + k) := by
  obtain ⟨H', out', h⟩ := v_Solve_returns (baseVirtuals oneDofSolver)
    (.terminal ex1Members) ex1Rhs zeroArray (.last ex1Data) [] ex1_Holds
  exact ⟨H', out', h, v_Solve_terminal_perturbation _ _ _ _ _ _ _ _ h (by decide)⟩

/-- Witness of C7 (amended) on the one-element example. -/
theorem v_Solve_boundary_forcing_witness :
    ∃ H' out', (GlobalLinSysStaticCond.terminal ex1Members).v_Solve (baseVirtuals oneDofSolver)
        ex1Rhs zeroArray (.last ex1Data) [] = some (H', out') ∧
      ∃ wsp5,
        v_Solve_forward (baseVirtuals oneDofSolver) ex1Members ex1Data true
          (dirForcCalculated []) zeroArray
          (v_Solve_fillF ex1Data ex1Rhs [] ex1Members.m_wsp) = some wsp5 ∧
        ∀ k, k < ex1Data.nGlobHomBndDofs →
          wsp5 (ex1Data.offF + ex1Data.numGlobalDirBndCoeffs + k) =
            v_Solve_fillF ex1Data ex1Rhs [] ex1Members.m_wsp
                (ex1Data.offF + ex1Data.numGlobalDirBndCoeffs + k)
              - ex1Data.AssembleBndOffset (fun i =>
                  ex1Members.m_BinvD.mulVec
                    (view (v_Solve_fillF ex1Data ex1Rhs [] ex1Members.m_wsp)
                      (ex1Data.offF + ex1Data.numGlobalBndCoeffs)) i
                  + (if dirForcCalculated [] = false ∧ true = true then
                      (match ex1Members.m_schurCompl with
                        | some S => S.mulVec (ex1Data.GlobalToLocalBnd zeroArray) i
                        | none => 0)
                     else 0)) ex1Data.numGlobalDirBndCoeffs k := by
  obtain ⟨H', out', h⟩ := v_Solve_returns (baseVirtuals oneDofSolver)
    (.terminal ex1Members) ex1Rhs zeroArray (.last ex1Data) [] ex1_Holds
  exact ⟨H', out', h, v_Solve_boundary_forcing _ _ _ _ _ _ _ _ h (by decide) (by decide)
    (fun S hS => by
      have : S = DNekScalBlkMat.single 2 := by
        simp only [GlobalLinSysStaticCond.m, ex1Members, Option.some.injEq] at hS
        exact hS.symm
      subst this; decide)
    (fun _ _ _ => rfl)⟩

/-- Counterexample to C7 as stated: on the one-element example at the
terminal level with Dirichlet forcing supplied and `out = 1` on entry, the
local boundary forcing is `BinvD * F_Int = 1`, without the Schur complement
term that would make it `3`. -/
theorem v_Solve_boundary_forcing_counterexample :
    (v_Solve_locBndForcing ex1Members ex1Data true (dirForcCalculated [0, 0]) (fun _ => 1)
        (v_Solve_fillF ex1Data ex1Rhs [0, 0] ex1Members.m_wsp)).map (fun w => w 0) = some 1 ∧
      ex1Members.m_BinvD.mulVec
          (view (v_Solve_fillF ex1Data ex1Rhs [0, 0] ex1Members.m_wsp)
            (ex1Data.offF + ex1Data.numGlobalBndCoeffs)) 0
        + (DNekScalBlkMat.single 2).mulVec (ex1Data.GlobalToLocalBnd (fun _ => 1)) 0 = 3 := by
  constructor
  · simp [v_Solve_locBndForcing, dirForcCalculated, ex1Members, single_mulVec, blit, view,
      v_Solve_fillF, ex1Data, AssemblyMapData.offF, AssemblyMapData.nGlobHomBndDofs, ex1Rhs]
  · simp [ex1Members, single_mulVec, blit, view,
      v_Solve_fillF, ex1Data, AssemblyMapData.offF, AssemblyMapData.nGlobHomBndDofs, ex1Rhs,
      AssemblyMapData.GlobalToLocalBnd]
    norm_num


theorem foldlM_range_succ {σ : Type} (f : σ → Nat → Except ErrorKind σ) (n : Nat) (s : σ) :
    (List.range (n + 1)).foldlM f s =
      (match (List.range n).foldlM f s with
       | .error e => .error e
       | .ok s1 => f s1 n) := by
  rw [List.range_succ, List.foldlM_append]
  cases (List.range n).foldlM f s with
  | error e => rfl
  | ok s1 =>
    show (List.foldlM f s1 [n]) = f s1 n
    rw [List.foldlM_cons]
    cases f s1 n <;> rfl

/-- A loop whose passes succeed and carry an invariant along succeeds. -/
theorem foldlM_range_ok {σ : Type} (f : σ → Nat → Except ErrorKind σ) (Inv : Nat → σ → Prop)
    (n : Nat) (s : σ) (h0 : Inv 0 s)
    (hstep : ∀ k s1, k < n → Inv k s1 → ∃ s2, f s1 k = .ok s2 ∧ Inv (k + 1) s2) :
    ∃ s', (List.range n).foldlM f s = .ok s' ∧ Inv n s' := by
  induction n with
  | zero => exact ⟨s, rfl, h0⟩
  | succ n ih =>
    obtain ⟨s1, h1, hI⟩ := ih (fun k s1 hk => hstep k s1 (by omega))
    obtain ⟨s2, h2, hI2⟩ := hstep n s1 (by omega) hI
    refine ⟨s2, ?_, hI2⟩
    rw [foldlM_range_succ, h1]
    exact h2

/-- A loop whose passes either succeed or raise `e` does the same. -/
theorem foldlM_range_ok_or_error {σ : Type} (f : σ → Nat → Except ErrorKind σ)
    (Inv : Nat → σ → Prop) (e : ErrorKind) (n : Nat) (s : σ) (h0 : Inv 0 s)
    (hstep : ∀ k s1, k < n → Inv k s1 →
      (∃ s2, f s1 k = .ok s2 ∧ Inv (k + 1) s2) ∨ f s1 k = .error e) :
    (∃ s', (List.range n).foldlM f s = .ok s' ∧ Inv n s') ∨
      (List.range n).foldlM f s = .error e := by
  induction n with
  | zero => exact Or.inl ⟨s, rfl, h0⟩
  | succ n ih =>
    rcases ih (fun k s1 hk => hstep k s1 (by omega)) with ⟨s1, h1, hI⟩ | herr
    · rcases hstep n s1 (by omega) hI with ⟨s2, h2, hI2⟩ | h2
      · left
        refine ⟨s2, ?_, hI2⟩
        rw [foldlM_range_succ, h1]; exact h2
      · right
        rw [foldlM_range_succ, h1]; exact h2
    · right
      rw [foldlM_range_succ, herr]

/-- A loop one of whose passes raises `e`, the others succeeding or raising
`e`, raises `e`. -/
theorem foldlM_range_error {σ : Type} (f : σ → Nat → Except ErrorKind σ)
    (Inv : Nat → σ → Prop) (e : ErrorKind) (n : Nat) (s : σ) (h0 : Inv 0 s)
    (hstep : ∀ k s1, k < n → Inv k s1 →
      (∃ s2, f s1 k = .ok s2 ∧ Inv (k + 1) s2) ∨ f s1 k = .error e)
    (hbad : ∃ k, k < n ∧ ∀ s1, Inv k s1 → f s1 k = .error e) :
    (List.range n).foldlM f s = .error e := by
  induction n with
  | zero => obtain ⟨k, hk, _⟩ := hbad; omega
  | succ n ih =>
    rw [foldlM_range_succ]
    rcases foldlM_range_ok_or_error f Inv e n s h0 (fun k s1 hk => hstep k s1 (by omega)) with
      ⟨s1, h1, hI⟩ | herr
    · rw [h1]
      obtain ⟨k, hk, hb⟩ := hbad
      by_cases hkn : k = n
      · subst hkn; exact hb s1 hI
      · have := ih (fun k s1 hk => hstep k s1 (by omega)) ⟨k, by omega, hb⟩
        rw [h1] at this; cases this
    · rw [herr]

theorem addRaw_data (M : DNekMat) (idx : Nat) (v : NekDouble) (k : Nat) :
    (M.addRaw idx v).data k = M.data k + (if k = idx then v else 0) := by
  unfold DNekMat.addRaw
  by_cases h : k = idx
  · subst h; simp
  · simp [Function.update, h]

theorem scatterAdd_dims (pm : PatchMap) (cnt : Nat) (st : MatrixStorage) (S : DNekScalMat)
    (i j : Nat) (sub : SubstructuredMat) : (scatterAdd pm cnt st S i j sub).SameDims sub := by
  intro X p
  unfold scatterAdd
  simp only
  split_ifs <;> cases X <;>
    simp only [SubstructuredMat.block, Function.update, DNekMat.addEntry, DNekMat.addRaw] <;>
    (try split_ifs) <;> simp_all


theorem CalculateIndex_congr (M N : DNekMat) (hr : M.rows = N.rows) (hs : M.storage = N.storage)
    (i j : Nat) : M.CalculateIndex i j = N.CalculateIndex i j := by
  unfold DNekMat.CalculateIndex
  rw [hr, hs]

theorem CalculateIndex_full (M : DNekMat) (hs : M.storage = .eFULL) (i j : Nat) :
    M.CalculateIndex i j = i + j * M.rows := by
  unfold DNekMat.CalculateIndex
  rw [hs]

theorem update_addRaw_data (f : Nat → DNekMat) (q p idx1 idx : Nat) (v : NekDouble) :
    (Function.update f q ((f q).addRaw idx1 v) p).data idx =
      (f p).data idx + (if q = p ∧ idx = idx1 then v else 0) := by
  by_cases hp : q = p
  · subst hp
    rw [Function.update_same, addRaw_data]
    simp
  · rw [Function.update_noteq (Ne.symm hp)]
    simp [hp]

theorem scatterAdd_data (pm : PatchMap) (cnt : Nat) (st : MatrixStorage) (S : DNekScalMat)
    (i j : Nat) (sub ref : SubstructuredMat) (X : SubBlock) (p idx : Nat)
    (hd : sub.SameDims ref)
    (hfull : ∀ Y q, Y ≠ SubBlock.D → (ref.block Y q).storage = .eFULL) :
    ((scatterAdd pm cnt st S i j sub).block X p).data idx =
      (sub.block X p).data idx + scatterContribution pm cnt st S.get ref X p idx i j := by
  have eA : ∀ a b, (ref.block .A p).CalculateIndex a b = a + b * (sub.A p).rows := by
    intro a b
    rw [CalculateIndex_full _ (hfull .A p (by decide)), ← (hd .A p).1]; rfl
  have eB : ∀ a b, (ref.block .B p).CalculateIndex a b = a + b * (sub.B p).rows := by
    intro a b
    rw [CalculateIndex_full _ (hfull .B p (by decide)), ← (hd .B p).1]; rfl
  have eC : ∀ a b, (ref.block .C p).CalculateIndex a b = a + b * (sub.C p).rows := by
    intro a b
    rw [CalculateIndex_full _ (hfull .C p (by decide)), ← (hd .C p).1]; rfl
  have eD : ∀ a b, (ref.block .D p).CalculateIndex a b = (sub.D p).CalculateIndex a b := by
    intro a b
    exact (CalculateIndex_congr _ _ (hd .D p).1 (hd .D p).2.2 a b).symm
  unfold scatterAdd scatterContribution
  simp only [eA, eB, eC, eD]
  by_cases hp : pm.patchId (cnt + i) = p
  · subst hp
    split_ifs with hi hj hj hs hle <;> cases X <;>
      simp only [SubstructuredMat.block, update_addRaw_data, DNekMat.addEntry] <;>
      simp_all [SubBlock.rowBnd, SubBlock.colBnd]
  · split_ifs with hi hj hj hs hle <;> cases X <;>
      simp only [SubstructuredMat.block, update_addRaw_data, DNekMat.addEntry] <;>
      simp_all [SubBlock.rowBnd, SubBlock.colBnd]


theorem SameDims_refl (s : SubstructuredMat) : s.SameDims s := fun _ _ => ⟨rfl, rfl, rfl⟩

theorem SameDims_trans {s t u : SubstructuredMat} (h1 : s.SameDims t) (h2 : t.SameDims u) :
    s.SameDims u := fun X p =>
  ⟨(h1 X p).1.trans (h2 X p).1, (h1 X p).2.1.trans (h2 X p).2.1,
    (h1 X p).2.2.trans (h2 X p).2.2⟩

/-- The loop over `j` for one row `i` (lines 498-515 and 519-548). -/
theorem scatterRow_ok (pm : PatchMap) (cnt : Nat) (st : MatrixStorage) (S : DNekScalMat)
    (i m : Nat) (sub ref : SubstructuredMat) (hd : sub.SameDims ref)
    (hfull : ∀ Y q, Y ≠ SubBlock.D → (ref.block Y q).storage = .eFULL)
    (hsame : ∀ j, j < m → pm.patchId (cnt + i) = pm.patchId (cnt + j)) :
    ∃ s', (List.range m).foldlM (fun s2 j => scatterEntry pm cnt st S i j s2) sub = .ok s' ∧
      s'.SameDims ref ∧
      ∀ X p idx, (s'.block X p).data idx = (sub.block X p).data idx
        + ∑ j in Finset.range m, scatterContribution pm cnt st S.get ref X p idx i j := by
  refine foldlM_range_ok _ (fun k s => s.SameDims ref ∧
      ∀ X p idx, (s.block X p).data idx = (sub.block X p).data idx
        + ∑ j in Finset.range k, scatterContribution pm cnt st S.get ref X p idx i j) m sub ?_ ?_
  · exact ⟨hd, fun X p idx => by simp⟩
  · intro k s1 hk hI
    refine ⟨scatterAdd pm cnt st S i k s1, ?_, SameDims_trans (scatterAdd_dims _ _ _ _ _ _ _) hI.1,
      ?_⟩
    · unfold scatterEntry
      rw [if_neg (by simp [hsame k hk])]
    · intro X p idx
      rw [scatterAdd_data pm cnt st S i k s1 ref X p idx hI.1 hfull, hI.2,
        Finset.sum_range_succ, add_assoc]

/-- The loops over `i` and `j` for one previous-level block. -/
theorem scatterBlock_ok (pm : PatchMap) (cnt : Nat) (st : MatrixStorage) (S : DNekScalMat)
    (sub ref : SubstructuredMat) (hd : sub.SameDims ref)
    (hfull : ∀ Y q, Y ≠ SubBlock.D → (ref.block Y q).storage = .eFULL)
    (hsame : ∀ i j, i < S.GetRows → j < S.GetRows →
      pm.patchId (cnt + i) = pm.patchId (cnt + j)) :
    ∃ s', scatterBlock pm cnt st S sub = .ok s' ∧ s'.SameDims ref ∧
      ∀ X p idx, (s'.block X p).data idx = (sub.block X p).data idx
        + ∑ i in Finset.range S.GetRows, ∑ j in Finset.range S.GetRows,
            scatterContribution pm cnt st S.get ref X p idx i j := by
  unfold scatterBlock
  refine foldlM_range_ok _ (fun k s => s.SameDims ref ∧
      ∀ X p idx, (s.block X p).data idx = (sub.block X p).data idx
        + ∑ i in Finset.range k, ∑ j in Finset.range S.GetRows,
            scatterContribution pm cnt st S.get ref X p idx i j) S.GetRows sub ?_ ?_
  · exact ⟨hd, fun X p idx => by simp⟩
  · intro k s1 hk hI
    obtain ⟨s2, h2, hd2, hv2⟩ := scatterRow_ok pm cnt st S k S.GetRows s1 ref hI.1 hfull
      (fun j hj => hsame k j hk hj)
    refine ⟨s2, h2, hd2, ?_⟩
    intro X p idx
    rw [hv2, hI.2, Finset.sum_range_succ, add_assoc]

theorem blockRows_of_some (S : DNekScalBlkMat) (n : Nat) (B : DNekScalMat)
    (h : S.GetBlock n n = some B) : S.blockRows n = B.GetRows := by
  unfold DNekScalBlkMat.blockRows
  rw [h]

theorem entry_of_some (S : DNekScalBlkMat) (n : Nat) (B : DNekScalMat)
    (h : S.GetBlock n n = some B) : S.entry n = B.get := by
  funext i j
  unfold DNekScalBlkMat.entry
  rw [h]

theorem rowsBefore_succ (S : DNekScalBlkMat) (n : Nat) :
    S.rowsBefore (n + 1) = S.rowsBefore n + S.blockRows n := by
  unfold DNekScalBlkMat.rowsBefore
  rw [Finset.sum_range_succ]

/-- The scatter loop over the first `N` previous-level blocks succeeds on a
patch map without mismatch and accumulates the sum of the contributions. -/
theorem scatterLoop_range_ok (pm : PatchMap) (st : MatrixStorage) (S : DNekScalBlkMat)
    (sub : SubstructuredMat) (N : Nat)
    (hfull : ∀ Y q, Y ≠ SubBlock.D → (sub.block Y q).storage = .eFULL)
    (hblk : ∀ n, n < N → S.GetBlock n n ≠ none)
    (hsame : ∀ n i j, n < N → i < S.blockRows n → j < S.blockRows n →
      pm.patchId (S.rowsBefore n + i) = pm.patchId (S.rowsBefore n + j)) :
    ∃ r : Nat × SubstructuredMat,
      (List.range N).foldlM (scatterLoopStep pm st S)
        (0, sub) = .ok r ∧
      r.1 = S.rowsBefore N ∧ r.2.SameDims sub ∧
      ∀ X p idx, (r.2.block X p).data idx = (sub.block X p).data idx
        + ∑ n in Finset.range N, ∑ i in Finset.range (S.blockRows n),
            ∑ j in Finset.range (S.blockRows n),
              scatterContribution pm (S.rowsBefore n) st (S.entry n) sub X p idx i j := by
  refine foldlM_range_ok _ (fun k (s : Nat × SubstructuredMat) =>
      s.1 = S.rowsBefore k ∧ s.2.SameDims sub ∧
      ∀ X p idx, (s.2.block X p).data idx = (sub.block X p).data idx
        + ∑ n in Finset.range k, ∑ i in Finset.range (S.blockRows n),
            ∑ j in Finset.range (S.blockRows n),
              scatterContribution pm (S.rowsBefore n) st (S.entry n) sub X p idx i j)
    N (0, sub) ?_ ?_
  · exact ⟨by simp [DNekScalBlkMat.rowsBefore], SameDims_refl _, fun X p idx => by simp⟩
  · intro k s1 hk hI
    obtain ⟨hc, hd, hv⟩ := hI
    cases hB : S.GetBlock k k with
    | none => exact absurd hB (hblk k hk)
    | some B =>
      have hr := blockRows_of_some S k B hB
      have he := entry_of_some S k B hB
      obtain ⟨s2, h2, hd2, hv2⟩ := scatterBlock_ok pm s1.1 st B s1.2 sub hd hfull
        (fun i j hi hj => by rw [hc]; exact hsame k i j hk (by omega) (by omega))
      refine ⟨(s1.1 + B.GetRows, s2), ?_, ?_, hd2, ?_⟩
      · simp only [scatterLoopStep, hB, h2]
      · simp only [rowsBefore_succ, hc, hr]
      · intro X p idx
        simp only
        rw [hv2, hv, Finset.sum_range_succ, add_assoc, hr, he, hc]

theorem scatterLoop_ok (pm : PatchMap) (st : MatrixStorage) (S : DNekScalBlkMat)
    (sub : SubstructuredMat)
    (hfull : ∀ Y q, Y ≠ SubBlock.D → (sub.block Y q).storage = .eFULL)
    (hblk : ∀ n, n < S.GetNumberOfBlockRows → S.GetBlock n n ≠ none)
    (hsame : ¬ PatchMapMismatch pm S) :
    ∃ r : Nat × SubstructuredMat, scatterLoop pm st S sub = .ok r ∧
      r.1 = S.rowsBefore S.GetNumberOfBlockRows ∧ r.2.SameDims sub ∧
      ∀ X p idx, (r.2.block X p).data idx = (sub.block X p).data idx
        + ∑ n in Finset.range S.GetNumberOfBlockRows, ∑ i in Finset.range (S.blockRows n),
            ∑ j in Finset.range (S.blockRows n),
              scatterContribution pm (S.rowsBefore n) st (S.entry n) sub X p idx i j := by
  unfold scatterLoop
  refine scatterLoop_range_ok pm st S sub _ hfull hblk ?_
  intro n i j hn hi hj
  by_contra hne
  exact hsame ⟨n, hn, i, j, hi, hj, hne⟩


theorem colMajor_inj {R a b c d : Nat} (ha : a < R) (hc : c < R) :
    a + b * R = c + d * R ↔ a = c ∧ b = d := by
  constructor
  · intro h
    have h1 : (a + b * R) % R = (c + d * R) % R := by rw [h]
    rw [Nat.add_mul_mod_self_right, Nat.add_mul_mod_self_right, Nat.mod_eq_of_lt ha,
      Nat.mod_eq_of_lt hc] at h1
    subst h1
    have h2 : b * R = d * R := by omega
    exact ⟨rfl, Nat.eq_of_mul_eq_mul_right (by omega) h2⟩
  · rintro ⟨rfl, rfl⟩; rfl

/-- Rows of the matrix of kind `X` of a new patch. -/
theorem allocate_rows (nPatches : Nat) (nBnd nInt : List Nat) (st : MatrixStorage)
    (X : SubBlock) (p : Nat) (hp : p < nPatches) :
    ((allocateSubstructuredMat nPatches nBnd nInt st).block X p).rows =
      (if X.rowBnd = true then nBnd else nInt).getD p 0 := by
  cases X <;> simp [allocateSubstructuredMat, SubstructuredMat.block, hp, SubBlock.rowBnd]

theorem allocate_cols (nPatches : Nat) (nBnd nInt : List Nat) (st : MatrixStorage)
    (X : SubBlock) (p : Nat) (hp : p < nPatches) :
    ((allocateSubstructuredMat nPatches nBnd nInt st).block X p).cols =
      (if X.colBnd = true then nBnd else nInt).getD p 0 := by
  cases X <;> simp [allocateSubstructuredMat, SubstructuredMat.block, hp, SubBlock.colBnd]

theorem allocate_storage_full (nPatches : Nat) (nBnd nInt : List Nat) (st : MatrixStorage)
    (X : SubBlock) (p : Nat) (hX : X ≠ SubBlock.D) :
    ((allocateSubstructuredMat nPatches nBnd nInt st).block X p).storage = .eFULL := by
  cases X <;> simp [allocateSubstructuredMat, SubstructuredMat.block] <;>
    first | (split_ifs <;> rfl) | exact absurd rfl hX

theorem allocate_storage_D (nPatches : Nat) (nBnd nInt : List Nat) (st : MatrixStorage)
    (p : Nat) :
    ((allocateSubstructuredMat nPatches nBnd nInt st).block .D p).storage = st := by
  simp [allocateSubstructuredMat, SubstructuredMat.block]
  split_ifs <;> rfl

theorem allocate_data (nPatches : Nat) (nBnd nInt : List Nat) (st : MatrixStorage)
    (X : SubBlock) (p idx : Nat) :
    ((allocateSubstructuredMat nPatches nBnd nInt st).block X p).data idx = 0 := by
  cases X <;> simp [allocateSubstructuredMat, SubstructuredMat.block] <;>
    split_ifs <;> rfl

/-- One term of the accumulated sum is the term of the reference sum. -/
theorem scatterContribution_eq_reference (pm : PatchMap) (S : DNekScalBlkMat)
    (nPatches : Nat) (nBnd nInt : List Nat) (st : MatrixStorage)
    (hwf : PatchMapWellFormed pm S nPatches nBnd nInt)
    (X : SubBlock) (p a b : Nat) (hp : p < nPatches)
    (ha : a < (if X.rowBnd = true then nBnd else nInt).getD p 0)
    (hX : X = .D → st = .eFULL)
    (n i j : Nat) (hn : n < S.GetNumberOfBlockRows) (hi : i < S.blockRows n) :
    scatterContribution pm (S.rowsBefore n) st (S.entry n)
        (allocateSubstructuredMat nPatches nBnd nInt st) X p
        (a + b * (if X.rowBnd = true then nBnd else nInt).getD p 0) i j =
      (if pm.patchId (S.rowsBefore n + i) = p ∧ pm.dofId (S.rowsBefore n + i) = a ∧
          pm.dofId (S.rowsBefore n + j) = b ∧
          decide (pm.isBndDof (S.rowsBefore n + i) ≠ 0) = X.rowBnd ∧
          decide (pm.isBndDof (S.rowsBefore n + j) ≠ 0) = X.colBnd then
        pm.sign (S.rowsBefore n + i) * pm.sign (S.rowsBefore n + j) * S.entry n i j
      else 0) := by
  unfold scatterContribution
  have hst : ((allocateSubstructuredMat nPatches nBnd nInt st).block X p).storage = .eFULL := by
    by_cases hD : X = .D
    · subst hD; rw [allocate_storage_D]; exact hX rfl
    · exact allocate_storage_full _ _ _ _ _ _ hD
  rw [CalculateIndex_full _ hst, allocate_rows _ _ _ _ _ _ hp]
  apply if_congr _ rfl rfl
  constructor
  · rintro ⟨h1, h2, h3, _, h5⟩
    have hdi : pm.dofId (S.rowsBefore n + i) < (if X.rowBnd = true then nBnd else nInt).getD p 0 := by
      by_cases hb : pm.isBndDof (S.rowsBefore n + i) ≠ 0
      · have := hwf.bnd n i hn hi hb
        rw [h1] at this
        have hr : X.rowBnd = true := by rw [← h2]; simp [hb]
        simpa [hr] using this
      · have hb' : pm.isBndDof (S.rowsBefore n + i) = 0 := by simpa using hb
        have := hwf.int n i hn hi hb'
        rw [h1] at this
        have hr : X.rowBnd = false := by rw [← h2]; simp [hb']
        simpa [hr] using this
    have := (colMajor_inj ha hdi).mp h5
    exact ⟨h1, this.1.symm, this.2.symm, h2, h3⟩
  · rintro ⟨h1, h2, h3, h4, h5⟩
    refine ⟨h1, h4, h5, ?_, ?_⟩
    · intro hD hs
      rw [hX hD] at hs; cases hs
    · rw [h2, h3]


theorem get_eq_data_full (M : DNekMat) (hs : M.storage = .eFULL) (a b : Nat) :
    M.get a b = M.data (a + b * M.rows) := by
  unfold DNekMat.get
  rw [CalculateIndex_full _ hs]

/-- The entries after the scatter loop, for a well-formed patch map. -/
theorem scatterLoop_reference (pm : PatchMap) (S : DNekScalBlkMat)
    (nPatches : Nat) (nBnd nInt : List Nat) (st : MatrixStorage)
    (hwf : PatchMapWellFormed pm S nPatches nBnd nInt) :
    ∃ r : Nat × SubstructuredMat,
      scatterLoop pm st S (allocateSubstructuredMat nPatches nBnd nInt st) = .ok r ∧
      r.2.SameDims (allocateSubstructuredMat nPatches nBnd nInt st) ∧
      ∀ X p a b, p < nPatches →
        a < (if X.rowBnd = true then nBnd else nInt).getD p 0 →
        (X = .D → st = .eFULL) →
        (r.2.block X p).get a b = scatterReference pm S X p a b := by
  obtain ⟨r, hr, _, hd, hv⟩ := scatterLoop_ok pm st S
    (allocateSubstructuredMat nPatches nBnd nInt st)
    (fun Y q hY => allocate_storage_full _ _ _ _ _ _ hY) hwf.blocks hwf.samePatch
  refine ⟨r, hr, hd, ?_⟩
  intro X p a b hp ha hX
  have hst : (r.2.block X p).storage = .eFULL := by
    rw [(hd X p).2.2]
    by_cases hD : X = .D
    · subst hD; rw [allocate_storage_D]; exact hX rfl
    · exact allocate_storage_full _ _ _ _ _ _ hD
  rw [get_eq_data_full _ hst, hv, allocate_data, zero_add, (hd X p).1,
    allocate_rows _ _ _ _ _ _ hp]
  unfold scatterReference
  apply Finset.sum_congr rfl
  intro n hn
  apply Finset.sum_congr rfl
  intro i hi
  apply Finset.sum_congr rfl
  intro j _
  exact scatterContribution_eq_reference pm S nPatches nBnd nInt st hwf X p a b hp ha hX n i j
    (Finset.mem_range.mp hn) (Finset.mem_range.mp hi)

/-- C3: scatter-accumulate equals its reference sum.  For a well-formed patch
map the scatter loop of `ConstructNextLevelCondensedSystem` succeeds, and
afterwards entry `(a, b)` of the matrix of kind `X` of new patch `p` (`A`
bnd/bnd, `B` bnd/int, `C` int/bnd, `D` int/int, `D` in full storage) is the
sum over every previous-level Schur block `n` and every pair of its rows
`(i, j)` whose patch-map entries, read at offset `cnt` (the rows of the
blocks before `n`), have `patchId = p`, `dofId[i] = a`, `dofId[j] = b` and
the boundary flags of the kind `X`, of `sign[i] * sign[j] * S_n(i,j)`; an
entry that no pair is mapped to is zero. -/
theorem ConstructNextLevelCondensedSystem_scatter_reference (mt : MatrixType)
    (SchurCompl : DNekScalBlkMat) (d : AssemblyMapData)
    (hwf : PatchMapWellFormed d.patchMapFromPrevLevel SchurCompl d.numPatches
      d.numLocalBndCoeffsPerPatch d.numLocalIntCoeffsPerPatch) :
    ∃ r : Nat × SubstructuredMat,
      scatterLoop d.patchMapFromPrevLevel (storageTypeD mt) SchurCompl
        (allocateSubstructuredMat d.numPatches d.numLocalBndCoeffsPerPatch
          d.numLocalIntCoeffsPerPatch (storageTypeD mt)) = .ok r ∧
      ∀ X p a b, p < d.numPatches →
        a < (if X.rowBnd = true then d.numLocalBndCoeffsPerPatch
              else d.numLocalIntCoeffsPerPatch).getD p 0 →
        b < (if X.colBnd = true then d.numLocalBndCoeffsPerPatch
              else d.numLocalIntCoeffsPerPatch).getD p 0 →
        (X = .D → storageTypeD mt = .eFULL) →
        (r.2.block X p).get a b = scatterReference d.patchMapFromPrevLevel SchurCompl X p a b := by
  obtain ⟨r, hr, _, hv⟩ := scatterLoop_reference d.patchMapFromPrevLevel SchurCompl d.numPatches
    d.numLocalBndCoeffsPerPatch d.numLocalIntCoeffsPerPatch (storageTypeD mt) hwf
  exact ⟨r, hr, fun X p a b hp ha _ hX => hv X p a b hp ha hX⟩


theorem scatterRow_error (pm : PatchMap) (cnt : Nat) (st : MatrixStorage) (S : DNekScalMat)
    (i m : Nat) (sub : SubstructuredMat)
    (hbad : ∃ j, j < m ∧ pm.patchId (cnt + i) ≠ pm.patchId (cnt + j)) :
    (List.range m).foldlM (fun s2 j => scatterEntry pm cnt st S i j s2) sub =
      .error .ConfigurationError := by
  refine foldlM_range_error _ (fun _ _ => True) _ m sub trivial ?_ ?_
  · intro k s1 _ _
    unfold scatterEntry
    beta_reduce
    split_ifs
    · right; rfl
    · left; exact ⟨_, rfl, trivial⟩
  · obtain ⟨j, hj, hne⟩ := hbad
    refine ⟨j, hj, fun s1 _ => ?_⟩
    unfold scatterEntry
    rw [if_pos hne]

theorem scatterRow_ok_or_error (pm : PatchMap) (cnt : Nat) (st : MatrixStorage)
    (S : DNekScalMat) (i m : Nat) (sub : SubstructuredMat) :
    (∃ s', (List.range m).foldlM (fun s2 j => scatterEntry pm cnt st S i j s2) sub = .ok s') ∨
      (List.range m).foldlM (fun s2 j => scatterEntry pm cnt st S i j s2) sub =
        .error .ConfigurationError := by
  rcases foldlM_range_ok_or_error (fun s2 j => scatterEntry pm cnt st S i j s2)
      (fun _ _ => True) .ConfigurationError m sub trivial
      (fun k s1 _ _ => by
        unfold scatterEntry
        beta_reduce
        split_ifs
        · right; rfl
        · left; exact ⟨_, rfl, trivial⟩) with ⟨s', h, _⟩ | h
  · exact Or.inl ⟨s', h⟩
  · exact Or.inr h

theorem scatterBlock_error (pm : PatchMap) (cnt : Nat) (st : MatrixStorage) (S : DNekScalMat)
    (sub : SubstructuredMat)
    (hbad : ∃ i j, i < S.GetRows ∧ j < S.GetRows ∧
      pm.patchId (cnt + i) ≠ pm.patchId (cnt + j)) :
    scatterBlock pm cnt st S sub = .error .ConfigurationError := by
  unfold scatterBlock
  refine foldlM_range_error _ (fun _ _ => True) _ S.GetRows sub trivial ?_ ?_
  · intro k s1 _ _
    rcases scatterRow_ok_or_error pm cnt st S k S.GetRows s1 with ⟨s', h⟩ | h
    · left; exact ⟨s', h, trivial⟩
    · right; exact h
  · obtain ⟨i, j, hi, hj, hne⟩ := hbad
    exact ⟨i, hi, fun s1 _ => scatterRow_error pm cnt st S i S.GetRows s1 ⟨j, hj, hne⟩⟩

theorem scatterBlock_ok_or_error (pm : PatchMap) (cnt : Nat) (st : MatrixStorage)
    (S : DNekScalMat) (sub : SubstructuredMat) :
    (∃ s', scatterBlock pm cnt st S sub = .ok s') ∨
      scatterBlock pm cnt st S sub = .error .ConfigurationError := by
  unfold scatterBlock
  rcases foldlM_range_ok_or_error
      (fun sub1 i =>
        (List.range S.GetRows).foldlM (fun sub2 j => scatterEntry pm cnt st S i j sub2) sub1)
      (fun _ _ => True) .ConfigurationError S.GetRows sub trivial
      (fun k s1 _ _ => by
        rcases scatterRow_ok_or_error pm cnt st S k S.GetRows s1 with ⟨s', h⟩ | h
        · left; exact ⟨s', h, trivial⟩
        · right; exact h) with ⟨s', h, _⟩ | h
  · exact Or.inl ⟨s', h⟩
  · exact Or.inr h

/-- The scatter loop raises the configuration error on a patch map with a
mismatch. -/
theorem scatterLoop_error (pm : PatchMap) (st : MatrixStorage) (S : DNekScalBlkMat)
    (sub : SubstructuredMat)
    (hblk : ∀ n, n < S.GetNumberOfBlockRows → S.GetBlock n n ≠ none)
    (hbad : PatchMapMismatch pm S) :
    scatterLoop pm st S sub = .error .ConfigurationError := by
  unfold scatterLoop
  refine foldlM_range_error _ (fun k (s : Nat × SubstructuredMat) => s.1 = S.rowsBefore k) _
    S.GetNumberOfBlockRows (0, sub) (by simp [DNekScalBlkMat.rowsBefore]) ?_ ?_
  · intro k s1 hk hI
    unfold scatterLoopStep
    cases hB : S.GetBlock k k with
    | none => exact absurd hB (hblk k hk)
    | some B =>
      simp only
      rcases scatterBlock_ok_or_error pm s1.1 st B s1.2 with ⟨s', h⟩ | h
      · left
        rw [h]
        refine ⟨_, rfl, ?_⟩
        simp only [rowsBefore_succ, hI, blockRows_of_some S k B hB]
      · right
        rw [h]
  · obtain ⟨n, hn, i, j, hi, hj, hne⟩ := hbad
    refine ⟨n, hn, fun s1 hI => ?_⟩
    unfold scatterLoopStep
    cases hB : S.GetBlock n n with
    | none => exact absurd hB (hblk n hn)
    | some B =>
      simp only
      have hr := blockRows_of_some S n B hB
      rw [scatterBlock_error pm s1.1 st B s1.2 ⟨i, j, by omega, by omega, by rw [hI]; exact hne⟩]

theorem condenseLoop_error (Invert : DNekMat → Option DNekMat) (nPatches : Nat)
    (nInt : List Nat) (sub : SubstructuredMat) (e : ErrorKind)
    (h : condenseLoop Invert nPatches nInt sub = .error e) : e = .SingularBlockError := by
  unfold condenseLoop at h
  rcases foldlM_range_ok_or_error (condenseStep Invert nInt)
      (fun _ _ => True) .SingularBlockError nPatches sub trivial
      (fun k s1 _ _ => by
        unfold condenseStep
        split_ifs
        · unfold condensePatch
          cases Invert (s1.D k) with
          | none => right; rfl
          | some invD => left; exact ⟨_, rfl, trivial⟩
        · left; exact ⟨_, rfl, trivial⟩) with ⟨s', h', _⟩ | h'
  · rw [h'] at h; cases h
  · rw [h'] at h
    injection h with h
    exact h.symm

/-- C10: a malformed patch map is fatal.  When the Schur complement of this
level is held with all its diagonal blocks set, and the construction of the
level after next raises no configuration error of its own,
`ConstructNextLevelCondensedSystem` fails with the configuration error if
and only if some previous-level Schur block has two rows `i`, `j` whose
patch-map entries have `patchId[i] != patchId[j]`; when every block maps all
its rows to one new patch the scatter loop succeeds. -/
theorem ConstructNextLevelCondensedSystem_configurationError_iff
    (Invert : DNekMat → Option DNekMat) (mt : MatrixType)
    (v_Recurse : BlkMatrices → Except ErrorKind GlobalLinSysStaticCond)
    (m : Members) (d : AssemblyMapData) (S : DNekScalBlkMat)
    (hS : m.m_schurCompl = some S)
    (hblk : ∀ n, n < S.GetNumberOfBlockRows → S.GetBlock n n ≠ none)
    (hrec : ∀ blk, v_Recurse blk ≠ .error .ConfigurationError) :
    (ConstructNextLevelCondensedSystem Invert mt v_Recurse m d = .error .ConfigurationError ↔
        PatchMapMismatch d.patchMapFromPrevLevel S) ∧
      (¬ PatchMapMismatch d.patchMapFromPrevLevel S →
        ∃ r, scatterLoop d.patchMapFromPrevLevel (storageTypeD mt) S
          (allocateSubstructuredMat d.numPatches d.numLocalBndCoeffsPerPatch
            d.numLocalIntCoeffsPerPatch (storageTypeD mt)) = .ok r) := by
  have hok : ¬ PatchMapMismatch d.patchMapFromPrevLevel S →
      ∃ r, scatterLoop d.patchMapFromPrevLevel (storageTypeD mt) S
        (allocateSubstructuredMat d.numPatches d.numLocalBndCoeffsPerPatch
          d.numLocalIntCoeffsPerPatch (storageTypeD mt)) = .ok r := by
    intro hno
    obtain ⟨r, hr, _⟩ := scatterLoop_ok d.patchMapFromPrevLevel (storageTypeD mt) S
      (allocateSubstructuredMat d.numPatches d.numLocalBndCoeffsPerPatch
        d.numLocalIntCoeffsPerPatch (storageTypeD mt))
      (fun Y q hY => allocate_storage_full _ _ _ _ _ _ hY) hblk hno
    exact ⟨r, hr⟩
  refine ⟨⟨?_, ?_⟩, hok⟩
  · intro h
    by_contra hno
    obtain ⟨r, hr⟩ := hok hno
    unfold ConstructNextLevelCondensedSystem ConstructNextLevelCondensedSystem_blkMatrices at h
    simp only [hS, hr] at h
    cases hc : condenseLoop Invert d.numPatches d.numLocalIntCoeffsPerPatch r.2 with
    | error e =>
      have := condenseLoop_error _ _ _ _ _ hc
      subst this
      simp only [hc] at h
      cases h
    | ok s2 =>
      simp only [hc] at h
      split at h
      · rename_i e he
        injection h with h
        subst h
        exact hrec _ he
      · cases h
  · intro hbad
    unfold ConstructNextLevelCondensedSystem ConstructNextLevelCondensedSystem_blkMatrices
    simp only [hS, scatterLoop_error _ _ _ _ hblk hbad]


/-- What a loop that succeeded has carried along. -/
theorem foldlM_range_inv {σ : Type} (f : σ → Nat → Except ErrorKind σ) (Inv : Nat → σ → Prop)
    (n : Nat) (s s' : σ) (h0 : Inv 0 s)
    (hstep : ∀ k s1 s2, k < n → Inv k s1 → f s1 k = .ok s2 → Inv (k + 1) s2)
    (h : (List.range n).foldlM f s = .ok s') : Inv n s' := by
  induction n generalizing s' with
  | zero =>
    have : s = s' := by
      have h' : (Except.ok s : Except ErrorKind σ) = .ok s' := h
      injection h'
    subst this; exact h0
  | succ n ih =>
    rw [foldlM_range_succ] at h
    cases h1 : (List.range n).foldlM f s with
    | error e => rw [h1] at h; cases h
    | ok s1 =>
      rw [h1] at h
      exact hstep n s1 s' (by omega) (ih s1 (fun k a b hk => hstep k a b (by omega)) h1) h

theorem foldl_range_succ {σ : Type} (f : σ → Nat → σ) (n : Nat) (s : σ) :
    (List.range (n + 1)).foldl f s = f ((List.range n).foldl f s) n := by
  rw [List.range_succ, List.foldl_append]
  rfl

theorem fillBlkMatrix_sizes (nPatches : Nat) (rowSizes colSizes : List Nat)
    (mats : Nat → DNekMat) :
    (fillBlkMatrix nPatches rowSizes colSizes mats).rowSizes = rowSizes ∧
      (fillBlkMatrix nPatches rowSizes colSizes mats).colSizes = colSizes := by
  unfold fillBlkMatrix
  induction nPatches with
  | zero => exact ⟨rfl, rfl⟩
  | succ n ih =>
    rw [foldl_range_succ]
    exact ih

/-- STEP 3 sets block `(i, i)` of patch `i` to its matrix with scale one and
no other block. -/
theorem fillBlkMatrix_blocks (nPatches : Nat) (rowSizes colSizes : List Nat)
    (mats : Nat → DNekMat) (a b : Nat) :
    (fillBlkMatrix nPatches rowSizes colSizes mats).blocks a b =
      if a = b ∧ a < nPatches then some ⟨1, mats a⟩ else none := by
  unfold fillBlkMatrix
  induction nPatches with
  | zero => simp [DNekScalBlkMat.allocate]
  | succ n ih =>
    rw [foldl_range_succ]
    generalize (List.range n).foldl (fun M i => M.SetBlock i i ⟨1, mats i⟩)
      (DNekScalBlkMat.allocate rowSizes colSizes) = M at ih ⊢
    show (if a = n ∧ b = n then some ⟨1, mats n⟩ else M.blocks a b) = _
    rw [ih]
    by_cases h1 : a = n ∧ b = n
    · obtain ⟨rfl, rfl⟩ := h1
      simp
    · rw [if_neg h1]
      by_cases h2 : a = b ∧ a < n
      · rw [if_pos h2, if_pos ⟨h2.1, by omega⟩]
      · rw [if_neg h2, if_neg]
        rintro ⟨h3, h4⟩
        subst h3
        by_cases h5 : a = n
        · exact h1 ⟨h5, h5⟩
        · exact h2 ⟨rfl, by omega⟩

theorem ofEntries_get (rows cols : Nat) (old : NekArray) (f : Nat → Nat → NekDouble)
    (a b : Nat) (ha : a < rows) (hb : b < cols) :
    (DNekMat.ofEntries rows cols old f).get a b = f a b := by
  unfold DNekMat.get DNekMat.CalculateIndex DNekMat.ofEntries
  simp only
  have h1 : a + b * rows < rows * cols := by
    calc a + b * rows < rows + b * rows := by omega
      _ = rows * (b + 1) := by ring
      _ ≤ rows * cols := Nat.mul_le_mul_left _ hb
  rw [if_pos h1]
  have h2 : (a + b * rows) % rows = a := by
    rw [Nat.add_mul_mod_self_right, Nat.mod_eq_of_lt ha]
  have h3 : (a + b * rows) / rows = b := by
    rw [Nat.add_mul_div_right _ _ (by omega), Nat.div_eq_of_lt ha, zero_add]
  rw [h2, h3]

/-- Entries of `B * invD` as written by line 574. -/
theorem mulAssign_get (X Y : DNekMat) (a b : Nat) (ha : a < X.rows) (hb : b < Y.cols) :
    (X.mulAssign Y).get a b = ∑ k in Finset.range X.cols, X.get a k * Y.get k b := by
  unfold DNekMat.mulAssign
  rw [ofEntries_get _ _ _ _ _ _ ha hb]

/-- Entries of `A - BinvD * C` as written by the `Dgemm` call of line 580. -/
theorem Dgemm_get (A X C : DNekMat) (hA : A.storage = .eFULL) (hX : X.storage = .eFULL)
    (hC : C.storage = .eFULL) (hr : X.rows = A.rows) (a b : Nat) (ha : a < A.rows)
    (hb : b < C.cols) :
    (A.subMulAssign X C).get a b =
      A.get a b - ∑ k in Finset.range C.rows, X.get a k * C.get k b := by
  have h2 : (a + b * A.rows) % A.rows = a := by
    rw [Nat.add_mul_mod_self_right, Nat.mod_eq_of_lt ha]
  have h3 : (a + b * A.rows) / A.rows = b := by
    rw [Nat.add_mul_div_right _ _ (by omega), Nat.div_eq_of_lt ha, zero_add]
  simp only [DNekMat.subMulAssign, DNekMat.get, DNekMat.CalculateIndex, hA, hX, hC, Dgemm, h2, h3]
  rw [if_pos ⟨by omega, hb⟩]
  ring


/-- One pass of STEP 2 that succeeds. -/
theorem condenseStep_ok (Invert : DNekMat → Option DNekMat) (nInt : List Nat)
    (s s2 : SubstructuredMat) (k : Nat) (h : condenseStep Invert nInt s k = .ok s2) :
    (nInt.getD k 0 ≠ 0 → ∃ invD, Invert (s.D k) = some invD ∧
      s2.A = Function.update s.A k ((s.A k).subMulAssign ((s.B k).mulAssign invD) (s.C k)) ∧
      s2.B = Function.update s.B k ((s.B k).mulAssign invD) ∧
      s2.C = Function.update s.C k (s.C k) ∧
      s2.D = Function.update s.D k invD) ∧
    (nInt.getD k 0 = 0 → s2 = s) := by
  unfold condenseStep at h
  split_ifs at h with hk
  · refine ⟨fun _ => ?_, fun h0 => absurd h0 hk⟩
    unfold condensePatch at h
    cases hI : Invert (s.D k) with
    | none => simp [hI] at h
    | some invD =>
      simp only [hI] at h
      injection h with h
      subst h
      exact ⟨invD, rfl, rfl, rfl, rfl, rfl⟩
  · refine ⟨fun h1 => absurd h1 hk, fun _ => ?_⟩
    injection h with h
    exact h.symm

/-- STEP 2 as a whole: the patches with interior DOFs are condensed from
their scatter-accumulated matrices, the others are left as they are. -/
theorem condenseLoop_spec (Invert : DNekMat → Option DNekMat) (nPatches : Nat)
    (nInt : List Nat) (s1 s2 : SubstructuredMat)
    (h : condenseLoop Invert nPatches nInt s1 = .ok s2) (i : Nat) :
    (i < nPatches ∧ nInt.getD i 0 ≠ 0 → ∃ invD, Invert (s1.D i) = some invD ∧
      s2.A i = (s1.A i).subMulAssign ((s1.B i).mulAssign invD) (s1.C i) ∧
      s2.B i = (s1.B i).mulAssign invD ∧ s2.C i = s1.C i ∧ s2.D i = invD) ∧
    (¬ (i < nPatches ∧ nInt.getD i 0 ≠ 0) →
      s2.A i = s1.A i ∧ s2.B i = s1.B i ∧ s2.C i = s1.C i ∧ s2.D i = s1.D i) := by
  unfold condenseLoop at h
  refine foldlM_range_inv (condenseStep Invert nInt)
    (fun k s =>
      (i < k ∧ nInt.getD i 0 ≠ 0 → ∃ invD, Invert (s1.D i) = some invD ∧
        s.A i = (s1.A i).subMulAssign ((s1.B i).mulAssign invD) (s1.C i) ∧
        s.B i = (s1.B i).mulAssign invD ∧ s.C i = s1.C i ∧ s.D i = invD) ∧
      (¬ (i < k ∧ nInt.getD i 0 ≠ 0) →
        s.A i = s1.A i ∧ s.B i = s1.B i ∧ s.C i = s1.C i ∧ s.D i = s1.D i))
    nPatches s1 s2 ?_ ?_ h
  · exact ⟨fun hi => absurd hi.1 (by omega), fun _ => ⟨rfl, rfl, rfl, rfl⟩⟩
  · intro k sa sb hk hI hstep
    obtain ⟨hs1, hs0⟩ := condenseStep_ok Invert nInt sa sb k hstep
    by_cases hik : i = k
    · subst hik
      have hprev := hI.2 (by omega)
      by_cases hn : nInt.getD i 0 = 0
      · rw [hs0 hn]
        exact ⟨fun hc => absurd hn hc.2, fun _ => hprev⟩
      · obtain ⟨invD, hinv, hA, hB, hC, hD⟩ := hs1 hn
        refine ⟨fun _ => ⟨invD, ?_, ?_, ?_, ?_, ?_⟩, fun hc => absurd ⟨by omega, hn⟩ hc⟩
        · rw [← hprev.2.2.2]; exact hinv
        · rw [hA, Function.update_same, hprev.1, hprev.2.1, hprev.2.2.1]
        · rw [hB, Function.update_same, hprev.2.1]
        · rw [hC, Function.update_same, hprev.2.2.1]
        · rw [hD, Function.update_same]
    · have e : sb.A i = sa.A i ∧ sb.B i = sa.B i ∧ sb.C i = sa.C i ∧ sb.D i = sa.D i := by
        by_cases hn : nInt.getD k 0 = 0
        · rw [hs0 hn]; exact ⟨rfl, rfl, rfl, rfl⟩
        · obtain ⟨invD, _, hA, hB, hC, hD⟩ := hs1 hn
          rw [hA, hB, hC, hD]
          exact ⟨Function.update_noteq hik _ _, Function.update_noteq hik _ _,
            Function.update_noteq hik _ _, Function.update_noteq hik _ _⟩
      rw [e.1, e.2.1, e.2.2.1, e.2.2.2]
      constructor
      · intro hc
        exact hI.1 ⟨by omega, hc.2⟩
      · intro hc
        exact hI.2 (fun hc' => hc ⟨by omega, hc'.2⟩)

/-- STEP 2 succeeds when the inversion does for every patch with interior
DOFs. -/
theorem condenseLoop_ok (Invert : DNekMat → Option DNekMat) (nPatches : Nat)
    (nInt : List Nat) (s1 : SubstructuredMat)
    (hinv : ∀ i, i < nPatches → nInt.getD i 0 ≠ 0 → Invert (s1.D i) ≠ none) :
    ∃ s2, condenseLoop Invert nPatches nInt s1 = .ok s2 := by
  unfold condenseLoop
  obtain ⟨s2, h, _⟩ := foldlM_range_ok (condenseStep Invert nInt)
    (fun k s => ∀ i, k ≤ i → s.D i = s1.D i) nPatches s1 (fun _ _ => rfl)
    (fun k sa hk hI => by
      unfold condenseStep
      split_ifs with hn
      · unfold condensePatch
        cases hi : Invert (sa.D k) with
        | none => rw [hI k (le_refl k)] at hi; exact absurd hi (hinv k hk hn)
        | some invD =>
          refine ⟨_, rfl, ?_⟩
          intro i hi'
          simp only
          rw [Function.update_noteq (by omega)]
          exact hI i (by omega)
      · exact ⟨sa, rfl, fun i hi => hI i (by omega)⟩)
  exact ⟨s2, h⟩


theorem scatterBlock_dims (pm : PatchMap) (cnt : Nat) (st : MatrixStorage) (S : DNekScalMat)
    (sub s' : SubstructuredMat) (h : scatterBlock pm cnt st S sub = .ok s') :
    s'.SameDims sub := by
  unfold scatterBlock at h
  refine foldlM_range_inv _ (fun _ s => s.SameDims sub) S.GetRows sub s' (SameDims_refl _) ?_ h
  intro k sa sb _ hI hstep
  refine SameDims_trans ?_ hI
  refine foldlM_range_inv _ (fun _ s => s.SameDims sa) S.GetRows sa sb (SameDims_refl _) ?_ hstep
  intro j ta tb _ hJ hs
  unfold scatterEntry at hs
  split_ifs at hs
  injection hs with hs
  subst hs
  exact SameDims_trans (scatterAdd_dims _ _ _ _ _ _ _) hJ

/-- The scatter loop changes no dimension or storage layout. -/
theorem scatterLoop_dims (pm : PatchMap) (st : MatrixStorage) (S : DNekScalBlkMat)
    (sub : SubstructuredMat) (r : Nat × SubstructuredMat)
    (h : scatterLoop pm st S sub = .ok r) : r.2.SameDims sub := by
  unfold scatterLoop at h
  refine foldlM_range_inv (scatterLoopStep pm st S) (fun _ s => s.2.SameDims sub)
    S.GetNumberOfBlockRows (0, sub) r (SameDims_refl _) ?_ h
  intro k sa sb _ hI hstep
  unfold scatterLoopStep at hstep
  split at hstep
  · cases hstep
  · split at hstep
    · cases hstep
    · rename_i sub1 hb
      injection hstep with hstep
      subst hstep
      exact SameDims_trans (scatterBlock_dims _ _ _ _ _ _ hb) hI

/-- Dimensions and storage layouts of matrices with those of the allocation. -/
theorem SameDims_allocate (s : SubstructuredMat) (nPatches : Nat) (nBnd nInt : List Nat)
    (st : MatrixStorage) (hd : s.SameDims (allocateSubstructuredMat nPatches nBnd nInt st))
    (i : Nat) (hi : i < nPatches) :
    ((s.A i).rows = nBnd.getD i 0 ∧ (s.A i).cols = nBnd.getD i 0 ∧ (s.A i).storage = .eFULL) ∧
    ((s.B i).rows = nBnd.getD i 0 ∧ (s.B i).cols = nInt.getD i 0 ∧ (s.B i).storage = .eFULL) ∧
    ((s.C i).rows = nInt.getD i 0 ∧ (s.C i).cols = nBnd.getD i 0 ∧ (s.C i).storage = .eFULL) ∧
    ((s.D i).rows = nInt.getD i 0 ∧ (s.D i).cols = nInt.getD i 0 ∧ (s.D i).storage = st) := by
  have dA := hd .A i
  have dB := hd .B i
  have dC := hd .C i
  have dD := hd .D i
  simp only [SubstructuredMat.block, allocateSubstructuredMat, hi, if_true] at dA dB dC dD
  exact ⟨dA, dB, dC, dD⟩

/-- The blocks handed to the next level, for a patch with interior DOFs. -/
theorem blkMatrices_blocks (Invert : DNekMat → Option DNekMat)
    (mt : MatrixType) (SchurCompl : DNekScalBlkMat) (d : AssemblyMapData)
    (r : Nat × SubstructuredMat) (blk : BlkMatrices)
    (hInv : ∀ M R, Invert M = some R → R.rows = M.rows ∧ R.cols = M.cols)
    (hscatter : scatterLoop d.patchMapFromPrevLevel (storageTypeD mt) SchurCompl
      (allocateSubstructuredMat d.numPatches d.numLocalBndCoeffsPerPatch
        d.numLocalIntCoeffsPerPatch (storageTypeD mt)) = .ok r)
    (hblk : ConstructNextLevelCondensedSystem_blkMatrices Invert mt (some SchurCompl) d
      = .ok blk)
    (i : Nat) (hi : i < d.numPatches) (hint : d.numLocalIntCoeffsPerPatch.getD i 0 ≠ 0) :
    ∃ invD BinvD Schur : DNekMat,
      Invert (r.2.D i) = some invD ∧
      blk.schurCompl.GetBlock i i = some ⟨1, Schur⟩ ∧
      blk.BinvD.GetBlock i i = some ⟨1, BinvD⟩ ∧
      blk.C.GetBlock i i = some ⟨1, r.2.C i⟩ ∧
      blk.invD.GetBlock i i = some ⟨1, invD⟩ ∧
      (∀ a b, a < d.numLocalBndCoeffsPerPatch.getD i 0 →
        b < d.numLocalIntCoeffsPerPatch.getD i 0 →
        BinvD.get a b = ∑ k in Finset.range (d.numLocalIntCoeffsPerPatch.getD i 0),
          (r.2.B i).get a k * invD.get k b) ∧
      (∀ a b, a < d.numLocalBndCoeffsPerPatch.getD i 0 →
        b < d.numLocalBndCoeffsPerPatch.getD i 0 →
        Schur.get a b = (r.2.A i).get a b
          - ∑ k in Finset.range (d.numLocalIntCoeffsPerPatch.getD i 0),
              BinvD.get a k * (r.2.C i).get k b) := by
  have hd := scatterLoop_dims _ _ _ _ _ hscatter
  unfold ConstructNextLevelCondensedSystem_blkMatrices at hblk
  simp only [hscatter] at hblk
  cases hc : condenseLoop Invert d.numPatches d.numLocalIntCoeffsPerPatch r.2 with
  | error e => simp [hc] at hblk
  | ok s2 =>
    simp only [hc] at hblk
    injection hblk with hblk
    subst hblk
    obtain ⟨invD, hinv, hA, hB, hC, hD⟩ :=
      (condenseLoop_spec Invert _ _ r.2 s2 hc i).1 ⟨hi, hint⟩
    obtain ⟨dA, dB, dC, dD⟩ := SameDims_allocate _ _ _ _ _ hd i hi
    have hcols : invD.cols = d.numLocalIntCoeffsPerPatch.getD i 0 := by
      rw [(hInv _ _ hinv).2, dD.2.1]
    refine ⟨invD, (r.2.B i).mulAssign invD,
      (r.2.A i).subMulAssign ((r.2.B i).mulAssign invD) (r.2.C i), hinv, ?_, ?_, ?_, ?_, ?_, ?_⟩
    · simp only [DNekScalBlkMat.GetBlock, fillBlkMatrix_blocks, hi, and_self, if_true, hA]
    · simp only [DNekScalBlkMat.GetBlock, fillBlkMatrix_blocks, hi, and_self, if_true, hB]
    · simp only [DNekScalBlkMat.GetBlock, fillBlkMatrix_blocks, hi, and_self, if_true, hC]
    · simp only [DNekScalBlkMat.GetBlock, fillBlkMatrix_blocks, hi, and_self, if_true, hD]
    · intro a b ha hb
      rw [mulAssign_get _ _ _ _ (by rw [dB.1]; exact ha) (by rw [hcols]; exact hb), dB.2.1]
    · intro a b ha hb
      rw [Dgemm_get _ _ _ dA.2.2 rfl dC.2.2 (by simp [DNekMat.mulAssign, DNekMat.ofEntries, dA.1, dB.1])
        a b (by rw [dA.1]; exact ha) (by rw [dC.2.1]; exact hb), dC.1]

/-- C2: what `ConstructNextLevelCondensedSystem` hands to the next level.  For
every new patch `i` with at least one interior DOF, diagonal block `(i, i)`
of the four block-diagonal matrices `blkMatrices[0..3]` is, each wrapped
with scale one: the Schur complement `A_i - (B_i * invD_i) * C_i`, the
product `B_i * invD_i`, the matrix `C_i` unchanged, and `invD_i`, the
inverse of `D_i` that the library routine returned, where `A_i`, `B_i`,
`C_i`, `D_i` are the scatter-accumulated matrices of the patch. -/
theorem ConstructNextLevelCondensedSystem_blocks (Invert : DNekMat → Option DNekMat)
    (mt : MatrixType) (SchurCompl : DNekScalBlkMat) (d : AssemblyMapData)
    (r : Nat × SubstructuredMat) (blk : BlkMatrices)
    (hInv : ∀ M R, Invert M = some R → R.rows = M.rows ∧ R.cols = M.cols)
    (hscatter : scatterLoop d.patchMapFromPrevLevel (storageTypeD mt) SchurCompl
      (allocateSubstructuredMat d.numPatches d.numLocalBndCoeffsPerPatch
        d.numLocalIntCoeffsPerPatch (storageTypeD mt)) = .ok r)
    (hblk : ConstructNextLevelCondensedSystem_blkMatrices Invert mt (some SchurCompl) d
      = .ok blk)
    (i : Nat) (hi : i < d.numPatches) (hint : d.numLocalIntCoeffsPerPatch.getD i 0 ≠ 0) :
    ∃ invD BinvD Schur : DNekMat,
      Invert (r.2.D i) = some invD ∧
      blk.schurCompl.GetBlock i i = some ⟨1, Schur⟩ ∧
      blk.BinvD.GetBlock i i = some ⟨1, BinvD⟩ ∧
      blk.C.GetBlock i i = some ⟨1, r.2.C i⟩ ∧
      blk.invD.GetBlock i i = some ⟨1, invD⟩ ∧
      (∀ a b, a < d.numLocalBndCoeffsPerPatch.getD i 0 →
        b < d.numLocalIntCoeffsPerPatch.getD i 0 →
        BinvD.get a b = ∑ k in Finset.range (d.numLocalIntCoeffsPerPatch.getD i 0),
          (r.2.B i).get a k * invD.get k b) ∧
      (∀ a b, a < d.numLocalBndCoeffsPerPatch.getD i 0 →
        b < d.numLocalBndCoeffsPerPatch.getD i 0 →
        Schur.get a b = (r.2.A i).get a b
          - ∑ k in Finset.range (d.numLocalIntCoeffsPerPatch.getD i 0),
              BinvD.get a k * (r.2.C i).get k b) :=
  blkMatrices_blocks Invert mt SchurCompl d r blk hInv hscatter hblk i hi hint


theorem ex2_GetBlock (n : Nat) (hn : n < 2) :
    ex2SchurCompl.GetBlock n n = some ⟨1, DNekMat.ofList 2 2 [2, -1, -1, 2]⟩ := by
  interval_cases n <;> simp [ex2SchurCompl, DNekScalBlkMat.GetBlock, DNekScalBlkMat.ofBlocks]

theorem ex2_blockRows (n : Nat) (hn : n < 2) : ex2SchurCompl.blockRows n = 2 := by
  rw [blockRows_of_some _ _ _ (ex2_GetBlock n hn)]; rfl

theorem ex2_rowsBefore (n : Nat) (hn : n < 2) : ex2SchurCompl.rowsBefore n = 2 * n := by
  interval_cases n
  · simp [DNekScalBlkMat.rowsBefore]
  · simp [DNekScalBlkMat.rowsBefore, ex2_blockRows]

theorem ex2_wellFormed :
    PatchMapWellFormed ex2Data1.patchMapFromPrevLevel ex2SchurCompl ex2Data1.numPatches
      ex2Data1.numLocalBndCoeffsPerPatch ex2Data1.numLocalIntCoeffsPerPatch where
  blocks := fun n hn => by
    have hn' : n < 2 := hn
    rw [ex2_GetBlock n hn']; simp
  samePatch := by
    rintro ⟨n, _, i, j, _, _, h⟩
    exact h rfl
  patch := fun n i _ _ => Nat.zero_lt_one
  bnd := fun n i _ _ _ => by
    simp only [ex2Data1]
    split_ifs <;> simp
  int := fun n i _ _ h => by
    generalize ex2SchurCompl.rowsBefore n + i = r at h ⊢
    have h' : (if r = 0 ∨ r = 3 then 1 else 0) = 0 := h
    have h3 : ¬ r = 3 := by
      intro h3
      rw [if_pos (Or.inr h3)] at h'
      exact absurd h' (by decide)
    show (if r = 3 then 1 else 0) < 1
    rw [if_neg h3]
    exact Nat.zero_lt_one

theorem ex2_reference_D :
    scatterReference ex2Data1.patchMapFromPrevLevel ex2SchurCompl .D 0 0 0 = 4 := by
  have h2 : ex2SchurCompl.GetNumberOfBlockRows = 2 := rfl
  simp only [scatterReference, h2, Finset.sum_range_succ, Finset.sum_range_zero, zero_add,
    ex2_blockRows 0 (by decide), ex2_blockRows 1 (by decide),
    ex2_rowsBefore 0 (by decide), ex2_rowsBefore 1 (by decide)]
  simp [ex2Data1, SubBlock.rowBnd, SubBlock.colBnd, DNekScalBlkMat.entry,
    ex2_GetBlock 0 (by decide), ex2_GetBlock 1 (by decide), DNekScalMat.get, DNekMat.get,
    DNekMat.CalculateIndex, DNekMat.ofList]
  norm_num

/-- The inner scope of `ConstructNextLevelCondensedSystem` succeeds when the
scatter loop does and the inversion has a value for every patch with interior
DOFs. -/
theorem ConstructNextLevelCondensedSystem_blkMatrices_ok (Invert : DNekMat → Option DNekMat)
    (mt : MatrixType) (SchurCompl : DNekScalBlkMat) (d : AssemblyMapData)
    (r : Nat × SubstructuredMat)
    (hscatter : scatterLoop d.patchMapFromPrevLevel (storageTypeD mt) SchurCompl
      (allocateSubstructuredMat d.numPatches d.numLocalBndCoeffsPerPatch
        d.numLocalIntCoeffsPerPatch (storageTypeD mt)) = .ok r)
    (hinv : ∀ i, i < d.numPatches → d.numLocalIntCoeffsPerPatch.getD i 0 ≠ 0 →
      Invert (r.2.D i) ≠ none) :
    ∃ s2, condenseLoop Invert d.numPatches d.numLocalIntCoeffsPerPatch r.2 = .ok s2 ∧
      ConstructNextLevelCondensedSystem_blkMatrices Invert mt (some SchurCompl) d =
        .ok { schurCompl := fillBlkMatrix d.numPatches d.numLocalBndCoeffsPerPatch
                d.numLocalBndCoeffsPerPatch s2.A
              BinvD := fillBlkMatrix d.numPatches d.numLocalBndCoeffsPerPatch
                d.numLocalIntCoeffsPerPatch s2.B
              C := fillBlkMatrix d.numPatches d.numLocalIntCoeffsPerPatch
                d.numLocalBndCoeffsPerPatch s2.C
              invD := fillBlkMatrix d.numPatches d.numLocalIntCoeffsPerPatch
                d.numLocalIntCoeffsPerPatch s2.D } := by
  obtain ⟨s2, h2⟩ := condenseLoop_ok Invert d.numPatches d.numLocalIntCoeffsPerPatch r.2 hinv
  refine ⟨s2, h2, ?_⟩
  unfold ConstructNextLevelCondensedSystem_blkMatrices
  simp only [hscatter, h2]

/-- The scatter loop of the two-level example and the invertibility of the
interior matrix it accumulates. -/
theorem ex2_scatter :
    ∃ r : Nat × SubstructuredMat,
      scatterLoop ex2Data1.patchMapFromPrevLevel (storageTypeD .eOtherMatrixType) ex2SchurCompl
        (allocateSubstructuredMat ex2Data1.numPatches ex2Data1.numLocalBndCoeffsPerPatch
          ex2Data1.numLocalIntCoeffsPerPatch (storageTypeD .eOtherMatrixType)) = .ok r ∧
      ∀ i, i < ex2Data1.numPatches → ex2Data1.numLocalIntCoeffsPerPatch.getD i 0 ≠ 0 →
        invertOneByOne (r.2.D i) ≠ none := by
  obtain ⟨r, hr, hd, hv⟩ := scatterLoop_reference ex2Data1.patchMapFromPrevLevel ex2SchurCompl
    ex2Data1.numPatches ex2Data1.numLocalBndCoeffsPerPatch ex2Data1.numLocalIntCoeffsPerPatch
    (storageTypeD .eOtherMatrixType) ex2_wellFormed
  refine ⟨r, hr, ?_⟩
  intro i hi _
  have hi0 : i = 0 := by
    have : i < 1 := hi
    omega
  subst hi0
  obtain ⟨_, _, _, dD⟩ := SameDims_allocate _ _ _ _ _ hd 0 hi
  have h4 := hv .D 0 0 0 hi (by decide) (fun _ => rfl)
  rw [ex2_reference_D] at h4
  have hdata : (r.2.D 0).data 0 = 4 := by
    have : (r.2.block .D 0).get 0 0 = (r.2.D 0).data 0 := by
      have hfull : (r.2.D 0).storage = .eFULL := dD.2.2
      simp [SubstructuredMat.block, DNekMat.get, DNekMat.CalculateIndex, hfull]
    rw [← this, h4]
  unfold invertOneByOne
  rw [if_pos ⟨dD.1, dD.2.1, by rw [hdata]; norm_num⟩]
  simp

theorem invertOneByOne_dims (M R : DNekMat) (h : invertOneByOne M = some R) :
    R.rows = M.rows ∧ R.cols = M.cols := by
  unfold invertOneByOne at h
  split_ifs at h with hc
  injection h with h
  subst h
  exact ⟨hc.1.symm, hc.2.1.symm⟩

/-- Witness of C3 on the two-level example. -/
theorem ConstructNextLevelCondensedSystem_scatter_reference_witness :
    PatchMapWellFormed ex2Data1.patchMapFromPrevLevel ex2SchurCompl ex2Data1.numPatches
        ex2Data1.numLocalBndCoeffsPerPatch ex2Data1.numLocalIntCoeffsPerPatch ∧
      ∃ r : Nat × SubstructuredMat,
        scatterLoop ex2Data1.patchMapFromPrevLevel (storageTypeD .eOtherMatrixType)
          ex2SchurCompl
          (allocateSubstructuredMat ex2Data1.numPatches ex2Data1.numLocalBndCoeffsPerPatch
            ex2Data1.numLocalIntCoeffsPerPatch (storageTypeD .eOtherMatrixType)) = .ok r ∧
        ∀ X p a b, p < ex2Data1.numPatches →
          a < (if X.rowBnd = true then ex2Data1.numLocalBndCoeffsPerPatch
                else ex2Data1.numLocalIntCoeffsPerPatch).getD p 0 →
          b < (if X.colBnd = true then ex2Data1.numLocalBndCoeffsPerPatch
                else ex2Data1.numLocalIntCoeffsPerPatch).getD p 0 →
          (X = .D → storageTypeD .eOtherMatrixType = .eFULL) →
          (r.2.block X p).get a b =
            scatterReference ex2Data1.patchMapFromPrevLevel ex2SchurCompl X p a b :=
  ⟨ex2_wellFormed,
    ConstructNextLevelCondensedSystem_scatter_reference .eOtherMatrixType ex2SchurCompl ex2Data1
      ex2_wellFormed⟩

/-- Witness of C2 on the two-level example. -/
theorem ConstructNextLevelCondensedSystem_blocks_witness :
    ∃ (r : Nat × SubstructuredMat) (blk : BlkMatrices),
      scatterLoop ex2Data1.patchMapFromPrevLevel (storageTypeD .eOtherMatrixType) ex2SchurCompl
        (allocateSubstructuredMat ex2Data1.numPatches ex2Data1.numLocalBndCoeffsPerPatch
          ex2Data1.numLocalIntCoeffsPerPatch (storageTypeD .eOtherMatrixType)) = .ok r ∧
      ConstructNextLevelCondensedSystem_blkMatrices invertOneByOne .eOtherMatrixType
        (some ex2SchurCompl) ex2Data1 = .ok blk ∧
      ∃ invD BinvD Schur : DNekMat,
        invertOneByOne (r.2.D 0) = some invD ∧
        blk.schurCompl.GetBlock 0 0 = some ⟨1, Schur⟩ ∧
        blk.BinvD.GetBlock 0 0 = some ⟨1, BinvD⟩ ∧
        blk.C.GetBlock 0 0 = some ⟨1, r.2.C 0⟩ ∧
        blk.invD.GetBlock 0 0 = some ⟨1, invD⟩ ∧
        (∀ a b, a < ex2Data1.numLocalBndCoeffsPerPatch.getD 0 0 →
          b < ex2Data1.numLocalIntCoeffsPerPatch.getD 0 0 →
          BinvD.get a b = ∑ k in Finset.range (ex2Data1.numLocalIntCoeffsPerPatch.getD 0 0),
            (r.2.B 0).get a k * invD.get k b) ∧
        (∀ a b, a < ex2Data1.numLocalBndCoeffsPerPatch.getD 0 0 →
          b < ex2Data1.numLocalBndCoeffsPerPatch.getD 0 0 →
          Schur.get a b = (r.2.A 0).get a b
            - ∑ k in Finset.range (ex2Data1.numLocalIntCoeffsPerPatch.getD 0 0),
                BinvD.get a k * (r.2.C 0).get k b) := by
  obtain ⟨r, hr, hinv⟩ := ex2_scatter
  obtain ⟨s2, _, hblk⟩ := ConstructNextLevelCondensedSystem_blkMatrices_ok invertOneByOne
    .eOtherMatrixType ex2SchurCompl ex2Data1 r hr hinv
  exact ⟨r, _, hr, hblk,
    ConstructNextLevelCondensedSystem_blocks invertOneByOne .eOtherMatrixType ex2SchurCompl
      ex2Data1 r _ invertOneByOne_dims hr hblk 0 (by decide) (by decide)⟩

/-- Witness of C10 on the two-level example, whose patch map has no
mismatch. -/
theorem ConstructNextLevelCondensedSystem_configurationError_iff_witness :
    (ConstructNextLevelCondensedSystem invertOneByOne .eOtherMatrixType
          (fun blk => .ok (.terminal ⟨some blk.schurCompl, blk.BinvD, blk.C, blk.invD,
            zeroArray⟩)) ex2Members ex2Data1 = .error .ConfigurationError ↔
        PatchMapMismatch ex2Data1.patchMapFromPrevLevel ex2SchurCompl) ∧
      (¬ PatchMapMismatch ex2Data1.patchMapFromPrevLevel ex2SchurCompl →
        ∃ r, scatterLoop ex2Data1.patchMapFromPrevLevel (storageTypeD .eOtherMatrixType)
          ex2SchurCompl
          (allocateSubstructuredMat ex2Data1.numPatches ex2Data1.numLocalBndCoeffsPerPatch
            ex2Data1.numLocalIntCoeffsPerPatch (storageTypeD .eOtherMatrixType)) = .ok r) :=
  ConstructNextLevelCondensedSystem_configurationError_iff invertOneByOne .eOtherMatrixType
    (fun blk => .ok (.terminal ⟨some blk.schurCompl, blk.BinvD, blk.C, blk.invD, zeroArray⟩))
    ex2Members ex2Data1 ex2SchurCompl rfl ex2_wellFormed.blocks
    (fun _ h => by cases h)


/-- The block-diagonal product in terms of the block entries. -/
theorem mulVec_entry (M : DNekScalBlkMat) (x : NekArray) (I : Nat) :
    M.mulVec x I =
      (match locate M.rowSizes I with
       | none => 0
       | some (n, i) =>
         ∑ j in Finset.range (M.colSizes.getD n 0),
           M.entry n i j * x (blockOffset M.colSizes n + j)) := by
  unfold DNekScalBlkMat.mulVec DNekScalBlkMat.entry DNekScalBlkMat.GetBlock
  cases locate M.rowSizes I with
  | none => rfl
  | some p =>
    obtain ⟨n, i⟩ := p
    simp only
    cases M.blocks n n with
    | none => simp
    | some B => rfl

theorem mulVec_add (M : DNekScalBlkMat) (x y : NekArray) (I : Nat) :
    M.mulVec (fun k => x k + y k) I = M.mulVec x I + M.mulVec y I := by
  simp only [mulVec_entry]
  cases locate M.rowSizes I with
  | none => simp
  | some p =>
    obtain ⟨n, i⟩ := p
    simp only [mul_add, Finset.sum_add_distrib]

theorem mulVec_sub (M : DNekScalBlkMat) (x y : NekArray) (I : Nat) :
    M.mulVec (fun k => x k - y k) I = M.mulVec x I - M.mulVec y I := by
  simp only [mulVec_entry]
  cases locate M.rowSizes I with
  | none => simp
  | some p =>
    obtain ⟨n, i⟩ := p
    simp only [mul_sub, Finset.sum_sub_distrib]

theorem AssembleBnd_add (d : AssemblyMapData) (a b : NekArray) (g : Nat) :
    d.AssembleBnd (fun i => a i + b i) g = d.AssembleBnd a g + d.AssembleBnd b g := by
  unfold AssemblyMapData.AssembleBnd UniversalAssembleBnd
  rw [← Finset.sum_add_distrib]
  apply Finset.sum_congr rfl
  intro i _
  split_ifs
  · ring
  · simp

theorem GlobalToLocalBnd_congr (d : AssemblyMapData) (x y : NekArray)
    (hmap : ∀ i, i < d.numLocalBndCoeffs → d.localToGlobalBndMap i < d.numGlobalBndCoeffs)
    (h : ∀ g, g < d.numGlobalBndCoeffs → x g = y g) (i : Nat) (hi : i < d.numLocalBndCoeffs) :
    d.GlobalToLocalBnd x i = d.GlobalToLocalBnd y i := by
  unfold AssemblyMapData.GlobalToLocalBnd
  rw [h _ (hmap i hi)]

/-- The interior solve turns a solved boundary system into the condensed
equations of the level. -/
theorem level_condensed (m : Members) (d : AssemblyMapData) (S : DNekScalBlkMat)
    (inp out outB wsp5 : NekArray) (hwf : d.WellFormed) (hfit : m.Fits S d)
    (hF : ∀ k, d.offF + d.numGlobalBndCoeffs ≤ k → wsp5 k = v_Solve_fillF d inp [] m.m_wsp k)
    (hD : ∀ g, g < d.numGlobalDirBndCoeffs → outB g = out g)
    (hB : ∀ k, k < d.nGlobHomBndDofs →
      d.AssembleBnd (S.mulVec (d.GlobalToLocalBnd outB)) (d.numGlobalDirBndCoeffs + k) =
        inp (d.numGlobalDirBndCoeffs + k)
          - d.AssembleBnd (m.m_BinvD.mulVec (view inp d.numGlobalBndCoeffs))
              (d.numGlobalDirBndCoeffs + k)) :
    CondensedEquations d S m.m_BinvD m.m_C m.m_invD inp out
      (v_Solve_interior m d false wsp5 outB).2 := by
  have hloc : ∀ i, i < d.numLocalBndCoeffs →
      d.GlobalToLocalBnd (v_Solve_interior m d false wsp5 outB).2 i = d.GlobalToLocalBnd outB i :=
    fun i hi => GlobalToLocalBnd_congr d _ _ hwf.mapRange
      (fun g hg => v_Solve_interior_bnd _ _ _ _ _ _ hg) i hi
  refine ⟨?_, ?_, ?_⟩
  · intro g hg
    rw [v_Solve_interior_bnd _ _ _ _ _ _ (by have := hwf.dirLe; omega), hD g hg]
  · intro k hk
    rw [AssembleBnd_add]
    have e : d.AssembleBnd
        (S.mulVec (d.GlobalToLocalBnd (v_Solve_interior m d false wsp5 outB).2))
        (d.numGlobalDirBndCoeffs + k) =
        d.AssembleBnd (S.mulVec (d.GlobalToLocalBnd outB)) (d.numGlobalDirBndCoeffs + k) := by
      apply AssembleBnd_congr
      intro i _
      apply mulVec_congr
      intro q hq
      exact hloc q (by rw [hfit.schurCols, hwf.bndSum] at hq; exact hq)
    rw [e, hB k hk]
    ring
  · intro k hk
    have hInt : d.nIntDofs ≠ 0 := by omega
    have := v_Solve_interior_rhs m d inp [] wsp5 outB hInt
      (by rw [hfit.cCols, hwf.bndSum]) (by rw [hfit.invDCols, hwf.intSum]) hwf.mapRange hF k hk
    have hdfc : dirForcCalculated [] = false := rfl
    rw [hdfc] at this
    rw [this]
    apply mulVec_congr
    intro q _
    simp [v_Solve_interiorLocBnd]


theorem v_Solve_terminalBnd_eq (vt : Virtuals) (m : Members) (d : AssemblyMapData)
    (wsp out : NekArray) (hdir : d.numGlobalDirBndCoeffs ≤ d.numGlobalBndCoeffs) (g : Nat) :
    v_Solve_terminalBnd vt m d wsp out g =
      out g + (if d.numGlobalDirBndCoeffs ≤ g ∧ g < d.numGlobalBndCoeffs then
        v_Solve_pert vt m d wsp g else 0) := by
  have hhom : d.nGlobHomBndDofs = d.numGlobalBndCoeffs - d.numGlobalDirBndCoeffs := rfl
  unfold v_Solve_terminalBnd blit
  by_cases h : d.numGlobalDirBndCoeffs ≤ g ∧ g < d.numGlobalBndCoeffs
  · have e : d.numGlobalDirBndCoeffs + (g - d.numGlobalDirBndCoeffs) = g := by omega
    rw [if_pos h, if_pos ⟨h.1, by omega⟩]
    show out (d.numGlobalDirBndCoeffs + (g - d.numGlobalDirBndCoeffs))
      + v_Solve_pert vt m d wsp (d.numGlobalDirBndCoeffs + (g - d.numGlobalDirBndCoeffs)) = _
    rw [e]
  · rw [if_neg h, if_neg (by omega), add_zero]

theorem GlobalToLocalBnd_add (d : AssemblyMapData) (x y : NekArray) (i : Nat) :
    d.GlobalToLocalBnd (fun g => x g + y g) i =
      d.GlobalToLocalBnd x i + d.GlobalToLocalBnd y i := by
  unfold AssemblyMapData.GlobalToLocalBnd
  ring

theorem v_Solve_fillF_F_nil (d : AssemblyMapData) (inp wsp : NekArray) (q : Nat)
    (hq : q < d.numGlobalCoeffs) : v_Solve_fillF d inp [] wsp (d.offF + q) = inp q := by
  rw [v_Solve_fillF_F _ _ _ _ _ hq]
  simp [dirForcCalculated]

/-- The boundary system after the terminal boundary solve with an exact
solver and identity transforms, no Dirichlet forcing being supplied. -/
theorem terminal_boundary_solved (vt : Virtuals) (m : Members) (d : AssemblyMapData)
    (S : DNekScalBlkMat) (inp out wsp5 : NekArray)
    (hS : m.m_schurCompl = some S) (hwf : d.WellFormed) (hfit : m.Fits S d)
    (hid : IdentityTransforms vt) (hex : ExactSolver vt S d)
    (hf : v_Solve_forward vt m d true false out (v_Solve_fillF d inp [] m.m_wsp) = some wsp5)
    (k : Nat) (hk : k < d.nGlobHomBndDofs) :
    d.AssembleBnd (S.mulVec (d.GlobalToLocalBnd (v_Solve_terminalBnd vt m d wsp5 out)))
        (d.numGlobalDirBndCoeffs + k) =
      inp (d.numGlobalDirBndCoeffs + k)
        - d.AssembleBnd (m.m_BinvD.mulVec (view inp d.numGlobalBndCoeffs))
            (d.numGlobalDirBndCoeffs + k) := by
  have hoff : d.offF = 2 * d.numLocalBndCoeffs + (d.numGlobalBndCoeffs - d.numGlobalDirBndCoeffs) := rfl
  have hhom : d.nGlobHomBndDofs = d.numGlobalBndCoeffs - d.numGlobalDirBndCoeffs := rfl
  have hint : d.nIntDofs = d.numGlobalCoeffs - d.numGlobalBndCoeffs := rfl
  have hdir := hwf.dirLe
  have hbnd := hwf.bndLe
  -- the forcing handed to the solver
  have hF5 := v_Solve_forward_FHomBnd vt m d true false out _ wsp5 hf
    (by rw [hfit.binvDCols, hwf.intSum])
    (fun S' hS' => by
      rw [hS] at hS'; injection hS' with hS'; subst hS'
      rw [hfit.schurCols, hwf.bndSum]) hid.1 k hk
  rw [Nat.add_assoc d.offF, v_Solve_fillF_F_nil _ _ _ _ (by omega), ← Nat.add_assoc] at hF5
  simp only [hS, true_and, if_true, and_self] at hF5
  -- the perturbation solves the boundary system for that forcing
  have hp := hex (view wsp5 d.offF) k hk
  simp only [view_apply, ← Nat.add_assoc] at hp
  -- split the boundary values into the values on entry and the perturbation
  have e1 : d.AssembleBnd (S.mulVec (d.GlobalToLocalBnd (v_Solve_terminalBnd vt m d wsp5 out)))
      (d.numGlobalDirBndCoeffs + k) =
      d.AssembleBnd (S.mulVec (d.GlobalToLocalBnd out)) (d.numGlobalDirBndCoeffs + k)
      + d.AssembleBnd (S.mulVec (d.GlobalToLocalBnd (fun g =>
          if d.numGlobalDirBndCoeffs ≤ g ∧ g < d.numGlobalBndCoeffs then
            vt.SolveLinearSystem (some S) d.numGlobalBndCoeffs (view wsp5 d.offF) zeroArray d
              d.numGlobalDirBndCoeffs g
          else 0))) (d.numGlobalDirBndCoeffs + k) := by
    rw [← AssembleBnd_add]
    apply AssembleBnd_congr
    intro i _
    rw [← mulVec_add]
    apply mulVec_congr
    intro q _
    rw [← GlobalToLocalBnd_add]
    unfold AssemblyMapData.GlobalToLocalBnd
    rw [v_Solve_terminalBnd_eq _ _ _ _ _ hdir]
    simp only [v_Solve_pert, hid.2, hS]
  rw [e1, hp, hF5]
  unfold AssemblyMapData.AssembleBndOffset
  simp only [view_apply, if_false, Bool.false_eq_true, false_and, sub_zero]
  rw [AssembleBnd_add]
  have e2 : d.AssembleBnd
      (fun i => m.m_BinvD.mulVec (view (v_Solve_fillF d inp [] m.m_wsp)
        (d.offF + d.numGlobalBndCoeffs)) i) (d.numGlobalDirBndCoeffs + k) =
      d.AssembleBnd (m.m_BinvD.mulVec (view inp d.numGlobalBndCoeffs))
        (d.numGlobalDirBndCoeffs + k) := by
    apply AssembleBnd_congr
    intro i _
    apply mulVec_congr
    intro q hq
    rw [hfit.binvDCols, hwf.intSum] at hq
    simp only [view_apply]
    rw [Nat.add_assoc, v_Solve_fillF_F_nil _ _ _ _ (by omega)]
  rw [e2]
  ring

/-- The terminal level of a `v_Solve` call without Dirichlet forcing, with an
exact solver and identity transforms, returns a solution of the condensed
equations. -/
theorem terminal_condensed (vt : Virtuals) (H H' : GlobalLinSysStaticCond)
    (inp out out' : NekArray) (d : AssemblyMapData) (S : DNekScalBlkMat)
    (h : H.v_Solve vt inp out (.last d) [] = some (H', out'))
    (hS : H.m.m_schurCompl = some S) (hwf : d.WellFormed) (hfit : H.m.Fits S d)
    (hid : IdentityTransforms vt) (hex : ExactSolver vt S d) :
    CondensedEquations d S H.m.m_BinvD H.m.m_C H.m.m_invD inp out out' := by
  rw [v_Solve_last] at h
  have hdfc : dirForcCalculated [] = false := rfl
  rw [hdfc] at h
  have hhom : d.nGlobHomBndDofs = d.numGlobalBndCoeffs - d.numGlobalDirBndCoeffs := rfl
  split_ifs at h with hHom
  · split at h
    · simp at h
    · rename_i wsp5 hf
      simp only [Option.some.injEq, Prod.mk.injEq] at h
      rw [← h.2]
      apply level_condensed _ _ _ _ _ _ _ hwf hfit
      · intro k hk
        exact v_Solve_forward_FInt vt _ d _ _ _ _ _ hf (fun sc F n k _ => by rw [hid.1]) k hk
      · intro g hg
        rw [v_Solve_terminalBnd_eq _ _ _ _ _ hwf.dirLe, if_neg (by omega), add_zero]
      · exact terminal_boundary_solved vt _ d S inp out wsp5 hS hwf hfit hid hex hf
  · simp only [Option.some.injEq, Prod.mk.injEq] at h
    rw [← h.2]
    apply level_condensed _ _ _ _ _ _ _ hwf hfit
    · intro k _; rfl
    · intro g _; rfl
    · intro k hk
      omega


theorem getD_pos_lt {l : List Nat} {n j : Nat} (h : j < l.getD n 0) : n < l.length := by
  by_contra hn
  rw [List.getD_eq_default _ _ (by omega)] at h
  omega

/-- The product of two block-diagonal matrices with a vector, block by
block. -/
theorem mulVec_mulVec (X Y : DNekScalBlkMat) (w : NekArray) (hXY : X.colSizes = Y.rowSizes)
    (I n i : Nat) (hI : locate X.rowSizes I = some (n, i)) :
    X.mulVec (Y.mulVec w) I =
      ∑ j in Finset.range (X.colSizes.getD n 0), X.entry n i j *
        ∑ k in Finset.range (Y.colSizes.getD n 0),
          Y.entry n j k * w (blockOffset Y.colSizes n + k) := by
  rw [mulVec_entry, hI]
  simp only
  apply Finset.sum_congr rfl
  intro j hj
  have hj' := Finset.mem_range.mp hj
  rw [mulVec_entry, ← hXY, locate_offset (getD_pos_lt hj') hj']

theorem mulVec_of_locate (X : DNekScalBlkMat) (w : NekArray) (I n i : Nat)
    (hI : locate X.rowSizes I = some (n, i)) :
    X.mulVec w I = ∑ j in Finset.range (X.colSizes.getD n 0),
      X.entry n i j * w (blockOffset X.colSizes n + j) := by
  rw [mulVec_entry, hI]

theorem mulVec_of_locate_none (X : DNekScalBlkMat) (w : NekArray) (I : Nat)
    (hI : locate X.rowSizes I = none) : X.mulVec w I = 0 := by
  rw [mulVec_entry, hI]

/-- `S * u + BinvD * (C * u) = A * u` for the condensed blocks. -/
theorem schur_identity (m : Members) (S A B D : DNekScalBlkMat) (d : AssemblyMapData)
    (hwf : d.WellFormed) (hfit : m.Fits S d) (hcf : CondensedFrom m S A B D d)
    (u : NekArray) (I : Nat) :
    S.mulVec u I + m.m_BinvD.mulVec (m.m_C.mulVec u) I = A.mulVec u I := by
  cases hI : locate d.numLocalBndCoeffsPerPatch I with
  | none =>
    rw [mulVec_of_locate_none S _ _ (by rw [hfit.schurRows]; exact hI),
      mulVec_of_locate_none m.m_BinvD _ _ (by rw [hfit.binvDRows]; exact hI),
      mulVec_of_locate_none A _ _ (by rw [hcf.aRows]; exact hI), add_zero]
  | some p =>
    obtain ⟨n, i⟩ := p
    obtain ⟨hn, hi, _⟩ := locate_some hI
    rw [hwf.bndLength] at hn
    rw [mulVec_of_locate S _ _ n i (by rw [hfit.schurRows]; exact hI),
      mulVec_mulVec m.m_BinvD m.m_C u (by rw [hfit.binvDCols, hfit.cRows]) I n i
        (by rw [hfit.binvDRows]; exact hI),
      mulVec_of_locate A _ _ n i (by rw [hcf.aRows]; exact hI),
      hfit.schurCols, hfit.binvDCols, hfit.cCols, hcf.aCols]
    simp only [Finset.mul_sum]
    rw [Finset.sum_comm, ← Finset.sum_add_distrib]
    apply Finset.sum_congr rfl
    intro j hj
    rw [hcf.schur n i j hn hi (Finset.mem_range.mp hj), sub_mul, Finset.sum_mul]
    have : ∀ k, m.m_BinvD.entry n i k * (m.m_C.entry n k j *
        u (blockOffset d.numLocalBndCoeffsPerPatch n + j)) =
        m.m_BinvD.entry n i k * m.m_C.entry n k j *
          u (blockOffset d.numLocalBndCoeffsPerPatch n + j) := fun k => by ring
    simp only [this]
    ring

/-- `B * (invD * w) = BinvD * w` for the condensed blocks. -/
theorem binvD_identity (m : Members) (S A B D : DNekScalBlkMat) (d : AssemblyMapData)
    (hwf : d.WellFormed) (hfit : m.Fits S d) (hcf : CondensedFrom m S A B D d)
    (w : NekArray) (I : Nat) :
    B.mulVec (m.m_invD.mulVec w) I = m.m_BinvD.mulVec w I := by
  cases hI : locate d.numLocalBndCoeffsPerPatch I with
  | none =>
    rw [mulVec_of_locate_none B _ _ (by rw [hcf.bRows]; exact hI),
      mulVec_of_locate_none m.m_BinvD _ _ (by rw [hfit.binvDRows]; exact hI)]
  | some p =>
    obtain ⟨n, i⟩ := p
    obtain ⟨hn, hi, _⟩ := locate_some hI
    rw [hwf.bndLength] at hn
    rw [mulVec_mulVec B m.m_invD w (by rw [hcf.bCols, hfit.invDRows]) I n i
        (by rw [hcf.bRows]; exact hI),
      mulVec_of_locate m.m_BinvD _ _ n i (by rw [hfit.binvDRows]; exact hI),
      hcf.bCols, hfit.invDCols, hfit.binvDCols]
    simp only [Finset.mul_sum]
    rw [Finset.sum_comm]
    apply Finset.sum_congr rfl
    intro j hj
    rw [hcf.binvD n i j hn hi (Finset.mem_range.mp hj), Finset.sum_mul]
    apply Finset.sum_congr rfl
    intro k _
    ring

/-- `D * (invD * w) = w` on the interior DOFs for the condensed blocks. -/
theorem inv_identity (m : Members) (S A B D : DNekScalBlkMat) (d : AssemblyMapData)
    (hwf : d.WellFormed) (hfit : m.Fits S d) (hcf : CondensedFrom m S A B D d)
    (w : NekArray) (K : Nat) (hK : K < d.nIntDofs) :
    D.mulVec (m.m_invD.mulVec w) K = w K := by
  rw [← hwf.intSum] at hK
  obtain ⟨n, i, hI⟩ := locate_of_lt hK
  obtain ⟨hn, hi, hKe⟩ := locate_some hI
  rw [hwf.intLength] at hn
  rw [mulVec_mulVec D m.m_invD w (by rw [hcf.dCols, hfit.invDRows]) K n i
      (by rw [hcf.dRows]; exact hI), hcf.dCols, hfit.invDCols]
  simp only [Finset.mul_sum]
  rw [Finset.sum_comm]
  have : ∀ k ∈ Finset.range (d.numLocalIntCoeffsPerPatch.getD n 0),
      ∑ j in Finset.range (d.numLocalIntCoeffsPerPatch.getD n 0),
        D.entry n i j * (m.m_invD.entry n j k *
          w (blockOffset d.numLocalIntCoeffsPerPatch n + k)) =
      if i = k then w (blockOffset d.numLocalIntCoeffsPerPatch n + k) else 0 := by
    intro k hk
    have h1 := hcf.inv n i k hn hi (Finset.mem_range.mp hk)
    have h2 : ∀ j, D.entry n i j * (m.m_invD.entry n j k *
        w (blockOffset d.numLocalIntCoeffsPerPatch n + k)) =
        D.entry n i j * m.m_invD.entry n j k *
          w (blockOffset d.numLocalIntCoeffsPerPatch n + k) := fun j => by ring
    simp only [h2]
    rw [← Finset.sum_mul, h1]
    split_ifs <;> simp
  rw [Finset.sum_congr rfl this, Finset.sum_ite_eq, if_pos (Finset.mem_range.mpr hi), hKe]

/-- The condensed equations of a level imply the equations of the system of
the blocks `[[A, B], [C, D]]`, in operator form. -/
theorem condensed_to_dense (m : Members) (S A B D : DNekScalBlkMat) (d : AssemblyMapData)
    (hwf : d.WellFormed) (hfit : m.Fits S d) (hcf : CondensedFrom m S A B D d)
    (inp out x : NekArray)
    (hce : CondensedEquations d S m.m_BinvD m.m_C m.m_invD inp out x) :
    (∀ k, k < d.nGlobHomBndDofs →
      d.AssembleBnd (fun i => A.mulVec (d.GlobalToLocalBnd x) i
        + B.mulVec (view x d.numGlobalBndCoeffs) i) (d.numGlobalDirBndCoeffs + k)
        = inp (d.numGlobalDirBndCoeffs + k)) ∧
    (∀ k, k < d.nIntDofs →
      m.m_C.mulVec (d.GlobalToLocalBnd x) k + D.mulVec (view x d.numGlobalBndCoeffs) k
        = inp (d.numGlobalBndCoeffs + k)) := by
  obtain ⟨_, hE1, hE2⟩ := hce
  have hxI : ∀ (M : DNekScalBlkMat), M.colSizes = d.numLocalIntCoeffsPerPatch → ∀ I,
      M.mulVec (view x d.numGlobalBndCoeffs) I =
        M.mulVec (m.m_invD.mulVec (fun q => inp (d.numGlobalBndCoeffs + q)
          - m.m_C.mulVec (d.GlobalToLocalBnd x) q)) I := by
    intro M hM I
    apply mulVec_congr
    intro q hq
    rw [hM, hwf.intSum] at hq
    exact hE2 q hq
  constructor
  · intro k hk
    rw [← hE1 k hk]
    apply AssembleBnd_congr
    intro i _
    rw [hxI B hcf.bCols, binvD_identity m S A B D d hwf hfit hcf, mulVec_sub,
      ← schur_identity m S A B D d hwf hfit hcf]
    have : (fun k => inp (d.numGlobalBndCoeffs + k)) = view inp d.numGlobalBndCoeffs := rfl
    rw [this]
    ring
  · intro k hk
    rw [hxI D hcf.dCols, inv_identity m S A B D d hwf hfit hcf _ k hk]
    ring


/-- A sum over flat indices is the sum over the blocks of the sums over the
indices inside each block. -/
theorem sum_blocks (sizes : List Nat) (f : Nat → NekDouble) :
    ∑ J in Finset.range sizes.sum, f J =
      ∑ n in Finset.range sizes.length, ∑ j in Finset.range (sizes.getD n 0),
        f (blockOffset sizes n + j) := by
  induction sizes generalizing f with
  | nil => simp
  | cons s ss ih =>
    rw [List.sum_cons, Finset.sum_range_add, List.length_cons, Finset.sum_range_succ',
      ih (fun J => f (s + J))]
    simp only [List.getD_cons_succ, List.getD_cons_zero, blockOffset_cons_succ, blockOffset_zero,
      zero_add, Nat.add_assoc]
    ring

theorem flatEntry_offset (M : DNekScalBlkMat) (I n i n' j : Nat)
    (hI : locate M.rowSizes I = some (n, i)) (hn' : n' < M.colSizes.length)
    (hj : j < M.colSizes.getD n' 0) :
    M.flatEntry I (blockOffset M.colSizes n' + j) = if n = n' then M.entry n i j else 0 := by
  unfold DNekScalBlkMat.flatEntry
  rw [hI, locate_offset hn' hj]

/-- The block-diagonal product as a sum over flat column indices. -/
theorem mulVec_flat (M : DNekScalBlkMat) (x : NekArray) (I : Nat) :
    M.mulVec x I = ∑ J in Finset.range M.colSizes.sum, M.flatEntry I J * x J := by
  cases hI : locate M.rowSizes I with
  | none =>
    rw [mulVec_of_locate_none _ _ _ hI]
    symm
    apply Finset.sum_eq_zero
    intro J _
    simp [DNekScalBlkMat.flatEntry, hI]
  | some p =>
    obtain ⟨n, i⟩ := p
    rw [mulVec_of_locate _ _ _ n i hI, sum_blocks]
    have h1 : ∀ n' ∈ Finset.range M.colSizes.length,
        ∑ j in Finset.range (M.colSizes.getD n' 0),
          M.flatEntry I (blockOffset M.colSizes n' + j) * x (blockOffset M.colSizes n' + j) =
        if n = n' then ∑ j in Finset.range (M.colSizes.getD n 0),
          M.entry n i j * x (blockOffset M.colSizes n + j) else 0 := by
      intro n' hn'
      by_cases hnn : n = n'
      · subst hnn
        rw [if_pos rfl]
        apply Finset.sum_congr rfl
        intro j hj
        rw [flatEntry_offset M I n i n j hI (Finset.mem_range.mp hn') (Finset.mem_range.mp hj),
          if_pos rfl]
      · rw [if_neg hnn]
        apply Finset.sum_eq_zero
        intro j hj
        rw [flatEntry_offset M I n i n' j hI (Finset.mem_range.mp hn') (Finset.mem_range.mp hj),
          if_neg hnn, zero_mul]
    rw [Finset.sum_congr rfl h1, Finset.sum_ite_eq]
    split_ifs with hn
    · rfl
    · apply Finset.sum_eq_zero
      intro j hj
      have := getD_pos_lt (Finset.mem_range.mp hj)
      exact absurd (Finset.mem_range.mpr this) hn

theorem sum_indicator_mul (N a : Nat) (ha : a < N) (P : Prop) [Decidable P] (c : NekDouble)
    (f : Nat → NekDouble) :
    ∑ h in Finset.range N, (if P ∧ a = h then c else 0) * f h = if P then c * f a else 0 := by
  by_cases hP : P
  · simp only [hP, true_and, if_true, ite_mul, zero_mul]
    rw [Finset.sum_ite_eq, if_pos (Finset.mem_range.mpr ha)]
  · simp [hP]


/-- A boundary row of the assembled dense matrix applied to a vector. -/
theorem assembledMatrix_row_bnd (d : AssemblyMapData) (A B C D : DNekScalBlkMat)
    (hwf : d.WellFormed) (hA : A.colSizes = d.numLocalBndCoeffsPerPatch)
    (hB : B.colSizes = d.numLocalIntCoeffsPerPatch) (x : NekArray) (g : Nat)
    (hg : g < d.numGlobalBndCoeffs) :
    ∑ h in Finset.range d.numGlobalCoeffs, assembledMatrix d A B C D g h * x h =
      d.AssembleBnd (fun i => A.mulVec (d.GlobalToLocalBnd x) i
        + B.mulVec (view x d.numGlobalBndCoeffs) i) g := by
  have hN : d.numGlobalCoeffs = d.numGlobalBndCoeffs + d.nIntDofs := by
    have := hwf.bndLe
    unfold AssemblyMapData.nIntDofs; omega
  rw [hN, Finset.sum_range_add]
  have h1 : ∑ h in Finset.range d.numGlobalBndCoeffs, assembledMatrix d A B C D g h * x h =
      ∑ l in Finset.range d.numLocalBndCoeffs,
        if d.localToGlobalBndMap l = g then
          d.localToGlobalBndSign l * A.mulVec (d.GlobalToLocalBnd x) l else 0 := by
    have e : ∀ h ∈ Finset.range d.numGlobalBndCoeffs, assembledMatrix d A B C D g h * x h =
        ∑ l in Finset.range d.numLocalBndCoeffs, ∑ l' in Finset.range d.numLocalBndCoeffs,
          (if d.localToGlobalBndMap l = g ∧ d.localToGlobalBndMap l' = h then
            d.localToGlobalBndSign l * d.localToGlobalBndSign l' * A.flatEntry l l'
          else 0) * x h := by
      intro h hh
      unfold assembledMatrix
      rw [if_pos hg, if_pos (Finset.mem_range.mp hh), Finset.sum_mul]
      apply Finset.sum_congr rfl
      intro l _
      rw [Finset.sum_mul]
    rw [Finset.sum_congr rfl e, Finset.sum_comm]
    apply Finset.sum_congr rfl
    intro l _
    rw [Finset.sum_comm]
    have e2 : ∀ l' ∈ Finset.range d.numLocalBndCoeffs,
        ∑ h in Finset.range d.numGlobalBndCoeffs,
          (if d.localToGlobalBndMap l = g ∧ d.localToGlobalBndMap l' = h then
            d.localToGlobalBndSign l * d.localToGlobalBndSign l' * A.flatEntry l l'
          else 0) * x h =
        if d.localToGlobalBndMap l = g then
          d.localToGlobalBndSign l * d.localToGlobalBndSign l' * A.flatEntry l l'
            * x (d.localToGlobalBndMap l') else 0 := by
      intro l' hl'
      exact sum_indicator_mul _ _ (hwf.mapRange l' (Finset.mem_range.mp hl')) _ _ _
    rw [Finset.sum_congr rfl e2]
    split_ifs with hl
    · rw [mulVec_flat, hA, hwf.bndSum, Finset.mul_sum]
      apply Finset.sum_congr rfl
      intro l' _
      unfold AssemblyMapData.GlobalToLocalBnd
      ring
    · simp
  have h2 : ∑ q in Finset.range d.nIntDofs,
      assembledMatrix d A B C D g (d.numGlobalBndCoeffs + q) * x (d.numGlobalBndCoeffs + q) =
      ∑ l in Finset.range d.numLocalBndCoeffs,
        if d.localToGlobalBndMap l = g then
          d.localToGlobalBndSign l * B.mulVec (view x d.numGlobalBndCoeffs) l else 0 := by
    have e : ∀ q ∈ Finset.range d.nIntDofs,
        assembledMatrix d A B C D g (d.numGlobalBndCoeffs + q) * x (d.numGlobalBndCoeffs + q) =
        ∑ l in Finset.range d.numLocalBndCoeffs,
          (if d.localToGlobalBndMap l = g then
            d.localToGlobalBndSign l * B.flatEntry l q else 0) * x (d.numGlobalBndCoeffs + q) := by
      intro q _
      unfold assembledMatrix
      rw [if_pos hg, if_neg (by omega), Finset.sum_mul, Nat.add_sub_cancel_left]
    rw [Finset.sum_congr rfl e, Finset.sum_comm]
    apply Finset.sum_congr rfl
    intro l _
    split_ifs with hl
    · rw [mulVec_flat, hB, hwf.intSum, Finset.mul_sum]
      apply Finset.sum_congr rfl
      intro q _
      simp only [view_apply]
      ring
    · simp
  rw [h1, h2, ← Finset.sum_add_distrib]
  unfold AssemblyMapData.AssembleBnd UniversalAssembleBnd
  apply Finset.sum_congr rfl
  intro l _
  split_ifs
  · ring
  · simp

/-- An interior row of the assembled dense matrix applied to a vector. -/
theorem assembledMatrix_row_int (d : AssemblyMapData) (A B C D : DNekScalBlkMat)
    (hwf : d.WellFormed) (hC : C.colSizes = d.numLocalBndCoeffsPerPatch)
    (hD : D.colSizes = d.numLocalIntCoeffsPerPatch) (x : NekArray) (k : Nat) :
    ∑ h in Finset.range d.numGlobalCoeffs,
        assembledMatrix d A B C D (d.numGlobalBndCoeffs + k) h * x h =
      C.mulVec (d.GlobalToLocalBnd x) k + D.mulVec (view x d.numGlobalBndCoeffs) k := by
  have hN : d.numGlobalCoeffs = d.numGlobalBndCoeffs + d.nIntDofs := by
    have := hwf.bndLe
    unfold AssemblyMapData.nIntDofs; omega
  rw [hN, Finset.sum_range_add]
  congr 1
  · have e : ∀ h ∈ Finset.range d.numGlobalBndCoeffs,
        assembledMatrix d A B C D (d.numGlobalBndCoeffs + k) h * x h =
        ∑ l' in Finset.range d.numLocalBndCoeffs,
          (if True ∧ d.localToGlobalBndMap l' = h then
            C.flatEntry k l' * d.localToGlobalBndSign l' else 0) * x h := by
      intro h hh
      unfold assembledMatrix
      rw [if_neg (by omega), if_pos (Finset.mem_range.mp hh), Finset.sum_mul,
        Nat.add_sub_cancel_left]
      simp only [true_and]
    rw [Finset.sum_congr rfl e, Finset.sum_comm, mulVec_flat, hC, hwf.bndSum]
    apply Finset.sum_congr rfl
    intro l' hl'
    rw [sum_indicator_mul _ _ (hwf.mapRange l' (Finset.mem_range.mp hl')), if_pos trivial]
    unfold AssemblyMapData.GlobalToLocalBnd
    ring
  · rw [mulVec_flat, hD, hwf.intSum]
    apply Finset.sum_congr rfl
    intro q _
    unfold assembledMatrix
    rw [if_neg (by omega), if_neg (by omega), Nat.add_sub_cancel_left, Nat.add_sub_cancel_left]
    rfl


/-- The solution of the condensed equations of a level solves the assembled
dense system of the blocks `[[A, B], [C, D]]` on every row that is not a
Dirichlet row. -/
theorem condensed_solves_assembled (m : Members) (S A B D : DNekScalBlkMat)
    (d : AssemblyMapData) (hwf : d.WellFormed) (hfit : m.Fits S d)
    (hcf : CondensedFrom m S A B D d) (inp out x : NekArray)
    (hce : CondensedEquations d S m.m_BinvD m.m_C m.m_invD inp out x) (g : Nat)
    (hg1 : d.numGlobalDirBndCoeffs ≤ g) (hg2 : g < d.numGlobalCoeffs) :
    ∑ h in Finset.range d.numGlobalCoeffs, assembledMatrix d A B m.m_C D g h * x h = inp g := by
  obtain ⟨hb, hi⟩ := condensed_to_dense m S A B D d hwf hfit hcf inp out x hce
  have hhom : d.nGlobHomBndDofs = d.numGlobalBndCoeffs - d.numGlobalDirBndCoeffs := rfl
  have hint : d.nIntDofs = d.numGlobalCoeffs - d.numGlobalBndCoeffs := rfl
  by_cases hgb : g < d.numGlobalBndCoeffs
  · rw [assembledMatrix_row_bnd d A B m.m_C D hwf hcf.aCols hcf.bCols x g hgb]
    have := hb (g - d.numGlobalDirBndCoeffs) (by omega)
    have e : d.numGlobalDirBndCoeffs + (g - d.numGlobalDirBndCoeffs) = g := by omega
    rw [e] at this
    exact this
  · have e : d.numGlobalBndCoeffs + (g - d.numGlobalBndCoeffs) = g := by omega
    have := assembledMatrix_row_int d A B m.m_C D hwf hfit.cCols hcf.dCols x
      (g - d.numGlobalBndCoeffs)
    rw [e] at this
    rw [this]
    have h2 := hi (g - d.numGlobalBndCoeffs) (by omega)
    rw [e] at h2
    exact h2

/-- C1 (amended): single-level exactness.  For a terminal system whose stored
blocks are `S = A - B*invD*C`, `BinvD = B*invD`, `C` and `invD` with
`D*invD = 1`, with well-formed map data, an exact terminal boundary solver
and identity basis transforms, a `v_Solve` call without Dirichlet forcing
returns, the Dirichlet entries of `out` keep their supplied values, and `out`
satisfies every other row of the dense system assembled from the blocks
`[[A, B], [C, D]]`. -/
theorem v_Solve_single_level_exactness (vt : Virtuals) (H : GlobalLinSysStaticCond)
    (inp out : NekArray) (d : AssemblyMapData) (S A B D : DNekScalBlkMat)
    (hS : H.m.m_schurCompl = some S) (hwf : d.WellFormed) (hfit : H.m.Fits S d)
    (hcf : CondensedFrom H.m S A B D d) (hid : IdentityTransforms vt)
    (hex : ExactSolver vt S d) :
    ∃ H' out', H.v_Solve vt inp out (.last d) [] = some (H', out') ∧
      (∀ g, g < d.numGlobalDirBndCoeffs → out' g = out g) ∧
      (∀ g, d.numGlobalDirBndCoeffs ≤ g → g < d.numGlobalCoeffs →
        ∑ h in Finset.range d.numGlobalCoeffs,
          assembledMatrix d A B H.m.m_C D g h * out' h = inp g) := by
  obtain ⟨H', out', h⟩ := v_Solve_returns vt H inp out (.last d) []
    (by
      cases H <;> simp only [GlobalLinSysStaticCond.Holds, GlobalLinSysStaticCond.m] at hS ⊢ <;>
        rw [hS] <;> simp)
  have hce := terminal_condensed vt H H' inp out out' d S h hS hwf hfit hid hex
  exact ⟨H', out', h, hce.1,
    fun g hg1 hg2 => condensed_solves_assembled H.m S A B D d hwf hfit hcf inp out out' hce g hg1 hg2⟩


theorem single_entry (v : NekDouble) (i j : Nat) : (DNekScalBlkMat.single v).entry 0 i j = v := by
  simp [DNekScalBlkMat.entry, DNekScalBlkMat.GetBlock, DNekScalBlkMat.single,
    DNekScalBlkMat.SetBlock, DNekScalMat.get, DNekMat.get, DNekMat.single]

theorem single_flatEntry (v : NekDouble) (I J : Nat) :
    (DNekScalBlkMat.single v).flatEntry I J = if I = 0 ∧ J = 0 then v else 0 := by
  unfold DNekScalBlkMat.flatEntry
  have hr : (DNekScalBlkMat.single v).rowSizes = [1] := rfl
  have hc : (DNekScalBlkMat.single v).colSizes = [1] := rfl
  rw [hr, hc]
  by_cases hI : I = 0
  · by_cases hJ : J = 0
    · subst hI; subst hJ
      simp [locate, single_entry]
    · have : ¬ J < 1 := by omega
      simp [locate, this, hJ]
  · have : ¬ I < 1 := by omega
    simp [locate, this, hI]

theorem ex1_wellFormed : ex1Data.WellFormed where
  bndSum := rfl
  intSum := rfl
  bndLength := rfl
  intLength := rfl
  mapRange := fun _ _ => Nat.zero_lt_one
  dirLe := Nat.zero_le _
  bndLe := by decide

theorem ex1_fits : ex1Members.Fits (DNekScalBlkMat.single 2) ex1Data where
  schurRows := rfl
  schurCols := rfl
  binvDRows := rfl
  binvDCols := rfl
  cRows := rfl
  cCols := rfl
  invDRows := rfl
  invDCols := rfl

theorem ex1_condensedFrom :
    CondensedFrom ex1Members (DNekScalBlkMat.single 2) (DNekScalBlkMat.single 3)
      (DNekScalBlkMat.single 1) (DNekScalBlkMat.single 1) ex1Data where
  aRows := rfl
  aCols := rfl
  bRows := rfl
  bCols := rfl
  dRows := rfl
  dCols := rfl
  binvD := fun n i j hn _ _ => by
    have hn0 : n = 0 := by
      have : n < 1 := hn
      omega
    subst hn0
    simp [ex1Members, ex1Data, single_entry]
  schur := fun n i j hn _ _ => by
    have hn0 : n = 0 := by
      have : n < 1 := hn
      omega
    subst hn0
    simp [ex1Members, ex1Data, single_entry]
    norm_num
  inv := fun n i j hn hi hj => by
    have hn0 : n = 0 := by
      have : n < 1 := hn
      omega
    subst hn0
    have hi0 : i = 0 := by
      have : i < 1 := hi
      omega
    have hj0 : j = 0 := by
      have : j < 1 := hj
      omega
    subst hi0; subst hj0
    simp [ex1Members, ex1Data, single_entry]

theorem baseVirtuals_identity
    (solver : Option DNekScalBlkMat → Nat → NekArray → NekArray → AssemblyMapData → Nat →
      NekArray) : IdentityTransforms (baseVirtuals solver) :=
  ⟨fun _ _ _ => rfl, fun _ _ => rfl⟩

theorem ex1_exactSolver :
    ExactSolver (baseVirtuals oneDofSolver) (DNekScalBlkMat.single 2) ex1Data := by
  intro F k hk
  have hk0 : k = 0 := by
    have : k < 1 := hk
    omega
  subst hk0
  simp [AssemblyMapData.AssembleBnd, UniversalAssembleBnd, ex1Data, single_mulVec,
    AssemblyMapData.GlobalToLocalBnd, baseVirtuals, oneDofSolver]
  field_simp


/-- Witness of C1 (amended) on the one-element example `[[3, 1], [1, 1]]`. -/
theorem v_Solve_single_level_exactness_witness :
    (GlobalLinSysStaticCond.terminal ex1Members).m.m_schurCompl = some (DNekScalBlkMat.single 2) ∧
    ex1Data.WellFormed ∧
    (GlobalLinSysStaticCond.terminal ex1Members).m.Fits (DNekScalBlkMat.single 2) ex1Data ∧
    CondensedFrom (GlobalLinSysStaticCond.terminal ex1Members).m (DNekScalBlkMat.single 2)
      (DNekScalBlkMat.single 3) (DNekScalBlkMat.single 1) (DNekScalBlkMat.single 1) ex1Data ∧
    IdentityTransforms (baseVirtuals oneDofSolver) ∧
    ExactSolver (baseVirtuals oneDofSolver) (DNekScalBlkMat.single 2) ex1Data ∧
    ∃ H' out', (GlobalLinSysStaticCond.terminal ex1Members).v_Solve (baseVirtuals oneDofSolver)
        ex1Rhs zeroArray (.last ex1Data) [] = some (H', out') ∧
      (∀ g, g < ex1Data.numGlobalDirBndCoeffs → out' g = zeroArray g) ∧
      (∀ g, ex1Data.numGlobalDirBndCoeffs ≤ g → g < ex1Data.numGlobalCoeffs →
        ∑ h in Finset.range ex1Data.numGlobalCoeffs,
          assembledMatrix ex1Data (DNekScalBlkMat.single 3) (DNekScalBlkMat.single 1)
            (GlobalLinSysStaticCond.terminal ex1Members).m.m_C (DNekScalBlkMat.single 1) g h
            * out' h = ex1Rhs g) :=
  ⟨rfl, ex1_wellFormed, ex1_fits, ex1_condensedFrom, baseVirtuals_identity _, ex1_exactSolver,
    v_Solve_single_level_exactness (baseVirtuals oneDofSolver) (.terminal ex1Members) ex1Rhs
      zeroArray ex1Data (DNekScalBlkMat.single 2) (DNekScalBlkMat.single 3)
      (DNekScalBlkMat.single 1) (DNekScalBlkMat.single 1) rfl ex1_wellFormed ex1_fits
      ex1_condensedFrom (baseVirtuals_identity _) ex1_exactSolver⟩

/-- The result of `v_Solve` on the one-element example when Dirichlet forcing
(here zero) is supplied and the boundary entry of `out` is `1` on entry. -/
theorem ex1_solve_with_dirForcing (H' : GlobalLinSysStaticCond) (out' : NekArray)
    (h : (GlobalLinSysStaticCond.terminal ex1Members).v_Solve (baseVirtuals oneDofSolver)
      ex1Rhs (fun k => if k = 0 then 1 else 0) (.last ex1Data) [0, 0] = some (H', out')) :
    out' 0 = 5 / 2 ∧ out' 1 = -3 / 2 := by
  rw [v_Solve_last] at h
  have hhom : ex1Data.nGlobHomBndDofs ≠ 0 := by decide
  rw [if_pos hhom] at h
  have hf : v_Solve_forward (baseVirtuals oneDofSolver) ex1Members ex1Data true
      (dirForcCalculated [0, 0]) (fun k => if k = 0 then 1 else 0)
      (v_Solve_fillF ex1Data ex1Rhs [0, 0] ex1Members.m_wsp) =
      some (v_Solve_dummyCommunication ex1Data true
        (blit (v_Solve_assembleSubtract ex1Data
            (blit (v_Solve_fillF ex1Data ex1Rhs [0, 0] ex1Members.m_wsp) 0 1
              (ex1Members.m_BinvD.mulVec
                (view (v_Solve_fillF ex1Data ex1Rhs [0, 0] ex1Members.m_wsp) 4))))
          3 2
          (view (v_Solve_assembleSubtract ex1Data
            (blit (v_Solve_fillF ex1Data ex1Rhs [0, 0] ex1Members.m_wsp) 0 1
              (ex1Members.m_BinvD.mulVec
                (view (v_Solve_fillF ex1Data ex1Rhs [0, 0] ex1Members.m_wsp) 4)))) 3))) := rfl
  simp only [GlobalLinSysStaticCond.m, hf, Option.some.injEq, Prod.mk.injEq] at h
  obtain ⟨-, h2⟩ := h
  subst h2
  constructor
  · simp [v_Solve_interior, ex1Data, AssemblyMapData.nIntDofs, AssemblyMapData.nGlobHomBndDofs,
      ex1Members, single_mulVec, blit, view, AssemblyMapData.offF, v_Solve_terminalBnd,
      v_Solve_pert, baseVirtuals, oneDofSolver, v_Solve_dummyCommunication,
      v_Solve_assembleSubtract, v_Solve_fillF, ex1Rhs, AssemblyMapData.AssembleBndOffset,
      AssemblyMapData.AssembleBnd, AssemblyMapData.offTmp, UniversalAssembleBnd,
      AssemblyMapData.GlobalToLocalBnd, v_Solve_interiorLocBnd, zeroArray, dirForcCalculated]
    norm_num
  · simp [v_Solve_interior, ex1Data, AssemblyMapData.nIntDofs, AssemblyMapData.nGlobHomBndDofs,
      ex1Members, single_mulVec, blit, view, AssemblyMapData.offF, v_Solve_terminalBnd,
      v_Solve_pert, baseVirtuals, oneDofSolver, v_Solve_dummyCommunication,
      v_Solve_assembleSubtract, v_Solve_fillF, ex1Rhs, AssemblyMapData.AssembleBndOffset,
      AssemblyMapData.AssembleBnd, AssemblyMapData.offTmp, UniversalAssembleBnd,
      AssemblyMapData.GlobalToLocalBnd, v_Solve_interiorLocBnd, zeroArray, dirForcCalculated]
    norm_num


/-- Counterexample to C1 as stated: on the one-element example
`[[3, 1], [1, 1]]`, whose stored blocks, solver and transforms are as the
claim asks, a `v_Solve` call with Dirichlet forcing supplied (here zero) and
the boundary entry of `out` equal to `1` on entry returns `(5/2, -3/2)`,
for which the boundary row of the assembled dense system gives `6` and not
the right-hand side `4`. -/
theorem v_Solve_single_level_exactness_counterexample :
    ex1Members.m_schurCompl = some (DNekScalBlkMat.single 2) ∧
    ex1Data.WellFormed ∧
    ex1Members.Fits (DNekScalBlkMat.single 2) ex1Data ∧
    CondensedFrom ex1Members (DNekScalBlkMat.single 2)
      (DNekScalBlkMat.single 3) (DNekScalBlkMat.single 1) (DNekScalBlkMat.single 1) ex1Data ∧
    IdentityTransforms (baseVirtuals oneDofSolver) ∧
    ExactSolver (baseVirtuals oneDofSolver) (DNekScalBlkMat.single 2) ex1Data ∧
    ∃ H' out', (GlobalLinSysStaticCond.terminal ex1Members).v_Solve (baseVirtuals oneDofSolver)
        ex1Rhs (fun k => if k = 0 then 1 else 0) (.last ex1Data) [0, 0] = some (H', out') ∧
      ∑ h in Finset.range ex1Data.numGlobalCoeffs,
          assembledMatrix ex1Data (DNekScalBlkMat.single 3) (DNekScalBlkMat.single 1)
            ex1Members.m_C (DNekScalBlkMat.single 1) 0 h * out' h = 6 ∧
      ex1Rhs 0 = 4 := by
  refine ⟨rfl, ex1_wellFormed, ex1_fits, ex1_condensedFrom, baseVirtuals_identity _,
    ex1_exactSolver, ?_⟩
  obtain ⟨H', out', h⟩ := v_Solve_returns (baseVirtuals oneDofSolver)
    (.terminal ex1Members) ex1Rhs (fun k => if k = 0 then 1 else 0) (.last ex1Data) [0, 0]
    ex1_Holds
  obtain ⟨h0, h1⟩ := ex1_solve_with_dirForcing H' out' h
  refine ⟨H', out', h, ?_, by simp [ex1Rhs]⟩
  have hN : ex1Data.numGlobalCoeffs = 2 := rfl
  rw [hN]
  simp only [Finset.sum_range_succ, Finset.sum_range_zero, zero_add, h0, h1]
  simp [assembledMatrix, ex1Data, ex1Members, single_flatEntry]
  norm_num


/-! ### Reuse of the workspace -/

theorem wspLength_eq (d : AssemblyMapData) :
    v_Initialise_wspLength d = d.offF + d.numGlobalCoeffs := by
  unfold v_Initialise_wspLength AssemblyMapData.offF; omega

theorem v_Solve_fillF_agree (d : AssemblyMapData) (inp : NekArray) (df : List NekDouble)
    (w w' : NekArray) (h : ∀ k, v_Initialise_wspLength d ≤ k → w k = w' k) (k : Nat)
    (hk : d.offF ≤ k) : v_Solve_fillF d inp df w k = v_Solve_fillF d inp df w' k := by
  by_cases hin : k < d.offF + d.numGlobalCoeffs
  · unfold v_Solve_fillF
    split_ifs <;> rw [blit_inside _ _ _ _ _ hk hin, blit_inside _ _ _ _ _ hk hin]
  · rw [v_Solve_fillF_outside _ _ _ _ _ (by omega), v_Solve_fillF_outside _ _ _ _ _ (by omega)]
    exact h k (by rw [wspLength_eq]; omega)

theorem v_Solve_locBndForcing_agree (m : Members) (d : AssemblyMapData) (atLast dfc : Bool)
    (out w w' w2 : NekArray) (hfit : m.FitsWorkspace d)
    (h : ∀ k, d.offF ≤ k → w k = w' k)
    (h2 : v_Solve_locBndForcing m d atLast dfc out w = some w2) :
    ∃ w2', v_Solve_locBndForcing m d atLast dfc out w' = some w2' ∧
      ∀ k, (k < d.numLocalBndCoeffs ∨ d.offF ≤ k) → w2 k = w2' k := by
  have hoff : d.offF = 2 * d.numLocalBndCoeffs + d.nGlobHomBndDofs := rfl
  unfold v_Solve_locBndForcing at h2 ⊢
  split_ifs at h2 ⊢ with c1 c2
  · cases hS : v_PreSolve m d.staticCondLevel with
    | none => rw [hS] at h2; simp at h2
    | some S =>
      rw [hS] at h2
      simp only [Option.some.injEq] at h2
      refine ⟨_, rfl, ?_⟩
      intro k hk
      rw [← h2]
      rcases Nat.lt_or_ge k d.numLocalBndCoeffs with hlt | hge
      · rw [blit_zero_inside _ _ _ _ hlt, blit_zero_inside _ _ _ _ hlt]
        congr 1
        · apply mulVec_congr
          intro j _
          simp only [view_apply]
          rw [blit_above _ _ _ _ _ (by omega), blit_above _ _ _ _ _ (by omega)]
          exact h _ (by omega)
        · apply mulVec_congr
          intro j hj
          have := hfit.1 S hS
          rw [blit_zero_inside _ _ _ _ (by omega), blit_zero_inside _ _ _ _ (by omega)]
      · have hk' : d.offF ≤ k := by omega
        rw [blit_above _ _ _ _ _ (by omega), blit_above _ _ _ _ _ (by omega),
          blit_above _ _ _ _ _ (by omega), blit_above _ _ _ _ _ (by omega)]
        exact h k hk'
  · cases hS : v_PreSolve m d.staticCondLevel with
    | none => rw [hS] at h2; simp at h2
    | some S =>
      rw [hS] at h2
      simp only [Option.some.injEq] at h2
      refine ⟨_, rfl, ?_⟩
      intro k hk
      rw [← h2]
      rcases Nat.lt_or_ge k d.numLocalBndCoeffs with hlt | hge
      · rw [blit_zero_inside _ _ _ _ hlt, blit_zero_inside _ _ _ _ hlt]
        apply mulVec_congr
        intro j hj
        have := hfit.1 S hS
        rw [blit_zero_inside _ _ _ _ (by omega), blit_zero_inside _ _ _ _ (by omega)]
      · have hk' : d.offF ≤ k := by omega
        rw [blit_above _ _ _ _ _ (by omega), blit_above _ _ _ _ _ (by omega),
          blit_above _ _ _ _ _ (by omega), blit_above _ _ _ _ _ (by omega)]
        exact h k hk'
  · simp only [Option.some.injEq] at h2
    refine ⟨_, rfl, ?_⟩
    intro k hk
    rw [← h2]
    rcases Nat.lt_or_ge k d.numLocalBndCoeffs with hlt | hge
    · rw [blit_zero_inside _ _ _ _ hlt, blit_zero_inside _ _ _ _ hlt]
      apply mulVec_congr
      intro j _
      simp only [view_apply]
      exact h _ (by omega)
    · have hk' : d.offF ≤ k := by omega
      rw [blit_above _ _ _ _ _ (by omega), blit_above _ _ _ _ _ (by omega)]
      exact h k hk'

theorem v_Solve_assembleSubtract_agree (d : AssemblyMapData) (w w' : NekArray)
    (h : ∀ k, (k < d.numLocalBndCoeffs ∨ d.offF ≤ k) → w k = w' k) (k : Nat)
    (hk : k < d.numLocalBndCoeffs ∨ d.offTmp ≤ k) :
    v_Solve_assembleSubtract d w k = v_Solve_assembleSubtract d w' k := by
  have hoff : d.offF = 2 * d.numLocalBndCoeffs + d.nGlobHomBndDofs := rfl
  have htmp : d.offTmp = 2 * d.numLocalBndCoeffs := rfl
  have h1 : ∀ k, (k < d.numLocalBndCoeffs ∨ d.offTmp ≤ k) →
      blit w d.offTmp d.nGlobHomBndDofs (d.AssembleBndOffset w d.numGlobalDirBndCoeffs) k
        = blit w' d.offTmp d.nGlobHomBndDofs (d.AssembleBndOffset w' d.numGlobalDirBndCoeffs) k := by
    intro k hk
    by_cases hin : d.offTmp ≤ k ∧ k < d.offTmp + d.nGlobHomBndDofs
    · rw [blit_inside _ _ _ _ _ hin.1 hin.2, blit_inside _ _ _ _ _ hin.1 hin.2]
      unfold AssemblyMapData.AssembleBndOffset
      simp only [view_apply]
      exact AssembleBnd_congr d w w' (fun i hi => h i (Or.inl hi)) _
    · rw [blit_outside _ _ _ _ _ hin, blit_outside _ _ _ _ _ hin]
      exact h k (by omega)
  unfold v_Solve_assembleSubtract
  by_cases hin : d.offF + d.numGlobalDirBndCoeffs ≤ k ∧
      k < d.offF + d.numGlobalDirBndCoeffs + d.nGlobHomBndDofs
  · rw [blit_inside _ _ _ _ _ hin.1 hin.2, blit_inside _ _ _ _ _ hin.1 hin.2]
    rw [h1 _ (by omega), h1 _ (by omega)]
  · rw [blit_outside _ _ _ _ _ hin, blit_outside _ _ _ _ _ hin]
    exact h1 k hk

theorem v_Solve_dummyStep_agree (d : AssemblyMapData) (w w' : NekArray)
    (h : ∀ k, (k < d.numLocalBndCoeffs ∨ d.offTmp ≤ k) → w k = w' k) (k : Nat)
    (hk : k < d.numLocalBndCoeffs ∨ d.offTmp ≤ k) :
    v_Solve_dummyStep d w k = v_Solve_dummyStep d w' k := by
  have hoff : d.offF = 2 * d.numLocalBndCoeffs + d.nGlobHomBndDofs := rfl
  have htmp : d.offTmp = 2 * d.numLocalBndCoeffs := rfl
  have h1 : ∀ k, (k < d.numLocalBndCoeffs ∨ d.offTmp ≤ k) →
      blit w d.offTmp d.nGlobHomBndDofs
          (view (UniversalAssembleBnd zeroArray) d.numGlobalDirBndCoeffs) k
        = blit w' d.offTmp d.nGlobHomBndDofs
          (view (UniversalAssembleBnd zeroArray) d.numGlobalDirBndCoeffs) k := by
    intro k hk
    by_cases hin : d.offTmp ≤ k ∧ k < d.offTmp + d.nGlobHomBndDofs
    · rw [blit_inside _ _ _ _ _ hin.1 hin.2, blit_inside _ _ _ _ _ hin.1 hin.2]
    · rw [blit_outside _ _ _ _ _ hin, blit_outside _ _ _ _ _ hin]
      exact h k hk
  unfold v_Solve_dummyStep
  by_cases hin : d.offF + d.numGlobalDirBndCoeffs ≤ k ∧
      k < d.offF + d.numGlobalDirBndCoeffs + d.nGlobHomBndDofs
  · rw [blit_inside _ _ _ _ _ hin.1 hin.2, blit_inside _ _ _ _ _ hin.1 hin.2]
    rw [h1 _ (by omega), h1 _ (by omega)]
  · rw [blit_outside _ _ _ _ _ hin, blit_outside _ _ _ _ _ hin]
    exact h1 k hk

theorem v_Solve_dummyCommunication_agree (d : AssemblyMapData) (atLast : Bool) (w w' : NekArray)
    (h : ∀ k, (k < d.numLocalBndCoeffs ∨ d.offTmp ≤ k) → w k = w' k) (k : Nat)
    (hk : k < d.numLocalBndCoeffs ∨ d.offTmp ≤ k) :
    v_Solve_dummyCommunication d atLast w k = v_Solve_dummyCommunication d atLast w' k := by
  unfold v_Solve_dummyCommunication
  split_ifs
  · generalize List.range' d.staticCondLevel (d.lowestStaticCondLevel - d.staticCondLevel) = l
    induction l generalizing w w' k with
    | nil => exact h k hk
    | cons a l ih =>
      rw [List.foldl_cons, List.foldl_cons]
      exact ih _ _ (fun k hk => v_Solve_dummyStep_agree d w w' h k hk) k hk
  · exact h k hk


theorem v_Solve_forward_agree (vt : Virtuals) (m : Members) (d : AssemblyMapData)
    (atLast dfc : Bool) (out w w' w5 : NekArray) (hfit : m.FitsWorkspace d)
    (h : ∀ k, d.offF ≤ k → w k = w' k)
    (h5 : v_Solve_forward vt m d atLast dfc out w = some w5) :
    ∃ w5', v_Solve_forward vt m d atLast dfc out w' = some w5' ∧
      ∀ k, (k < d.numLocalBndCoeffs ∨ d.offTmp ≤ k) → w5 k = w5' k := by
  have hoff : d.offF = 2 * d.numLocalBndCoeffs + d.nGlobHomBndDofs := rfl
  have htmp : d.offTmp = 2 * d.numLocalBndCoeffs := rfl
  unfold v_Solve_forward at h5 ⊢
  cases h2 : v_Solve_locBndForcing m d atLast dfc out w with
  | none => rw [h2] at h5; simp at h5
  | some w2 =>
    obtain ⟨w2', e2, a2⟩ := v_Solve_locBndForcing_agree m d atLast dfc out w w' w2 hfit h h2
    rw [h2] at h5
    rw [e2]
    simp only [Option.some.injEq] at h5 ⊢
    refine ⟨_, rfl, ?_⟩
    rw [← h5]
    have a4 := v_Solve_assembleSubtract_agree d w2 w2' a2
    have hv : view (v_Solve_assembleSubtract d w2) d.offF
        = view (v_Solve_assembleSubtract d w2') d.offF := by
      funext j
      simp only [view_apply]
      exact a4 _ (Or.inr (by omega))
    apply v_Solve_dummyCommunication_agree
    intro k hk
    by_cases hin : d.offF ≤ k ∧ k < d.offF + d.numGlobalCoeffs
    · rw [blit_inside _ _ _ _ _ hin.1 hin.2, blit_inside _ _ _ _ _ hin.1 hin.2, hv]
    · rw [blit_outside _ _ _ _ _ hin, blit_outside _ _ _ _ _ hin]
      exact a4 k hk

theorem v_Solve_interior_agree (m : Members) (d : AssemblyMapData) (dfc : Bool)
    (w w' out : NekArray) (hfit : m.FitsWorkspace d) (h : ∀ k, d.offF ≤ k → w k = w' k) :
    (v_Solve_interior m d dfc w out).2 = (v_Solve_interior m d dfc w' out).2 := by
  have hoff : d.offF = 2 * d.numLocalBndCoeffs + d.nGlobHomBndDofs := rfl
  unfold v_Solve_interior
  split_ifs with c1 c2
  · dsimp only
    refine congrArg (blit out _ _) ?_
    refine congrArg m.m_invD.mulVec ?_
    funext j
    simp only [view_apply]
    by_cases hj : j < d.nIntDofs
    · rw [blit_inside_add _ _ _ _ _ hj, blit_inside_add _ _ _ _ _ hj]
      congr 1
      · rw [blit_above _ _ _ _ _ (by omega), blit_above _ _ _ _ _ (by omega)]
        exact h _ (by omega)
      · apply mulVec_congr
        intro i hi
        have := hfit.2.1
        rw [blit_zero_inside _ _ _ _ (by omega), blit_zero_inside _ _ _ _ (by omega)]
    · rw [blit_above _ _ _ _ _ (by omega), blit_above _ _ _ _ _ (by omega),
        blit_above _ _ _ _ _ (by omega), blit_above _ _ _ _ _ (by omega)]
      exact h _ (by omega)
  · dsimp only
    refine congrArg (blit out _ _) ?_
    refine congrArg m.m_invD.mulVec ?_
    funext j
    simp only [view_apply]
    exact h _ (by omega)
  · rfl

/-- The interior solve writes inside the allocated workspace only. -/
theorem v_Solve_interior_beyond (m : Members) (d : AssemblyMapData) (dfc : Bool)
    (w out : NekArray) (k : Nat) (hk : v_Initialise_wspLength d ≤ k) :
    (v_Solve_interior m d dfc w out).1 k = w k := by
  have hoff : d.offF = 2 * d.numLocalBndCoeffs + d.nGlobHomBndDofs := rfl
  have hint : d.nIntDofs = d.numGlobalCoeffs - d.numGlobalBndCoeffs := rfl
  rw [wspLength_eq] at hk
  unfold v_Solve_interior
  split_ifs with c1 c2
  · dsimp only
    rw [blit_outside _ _ _ _ _ (by omega), blit_above _ _ _ _ _ (by omega)]
  · rfl
  · rfl

/-- Lines 153-205 write inside the allocated workspace only. -/
theorem v_Solve_forward_beyond (vt : Virtuals) (m : Members) (d : AssemblyMapData)
    (atLast dfc : Bool) (out w w5 : NekArray) (hle : d.numGlobalBndCoeffs ≤ d.numGlobalCoeffs)
    (h5 : v_Solve_forward vt m d atLast dfc out w = some w5) (k : Nat)
    (hk : v_Initialise_wspLength d ≤ k) : w5 k = w k := by
  have hoff : d.offF = 2 * d.numLocalBndCoeffs + d.nGlobHomBndDofs := rfl
  have htmp : d.offTmp = 2 * d.numLocalBndCoeffs := rfl
  have hhom : d.nGlobHomBndDofs = d.numGlobalBndCoeffs - d.numGlobalDirBndCoeffs := rfl
  rw [wspLength_eq] at hk
  unfold v_Solve_forward at h5
  split at h5
  · simp at h5
  · rename_i w2 h2
    simp only [Option.some.injEq] at h5
    rw [← h5, v_Solve_dummyCommunication_outside _ _ _ _ (by omega) (by omega),
      blit_outside _ _ _ _ _ (by omega),
      v_Solve_assembleSubtract_outside _ _ _ (by omega) (by omega),
      v_Solve_locBndForcing_above _ _ _ _ _ _ _ h2 _ (by omega)]

theorem v_Solve_forward_wsp (vt : Virtuals) (m : Members) (w0 : NekArray)
    (d : AssemblyMapData) (atLast dfc : Bool) (out w : NekArray) :
    v_Solve_forward vt { m with m_wsp := w0 } d atLast dfc out w
      = v_Solve_forward vt m d atLast dfc out w := rfl

theorem v_Solve_interior_wsp (m : Members) (w0 : NekArray) (d : AssemblyMapData) (dfc : Bool)
    (w out : NekArray) :
    v_Solve_interior { m with m_wsp := w0 } d dfc w out = v_Solve_interior m d dfc w out := rfl

theorem v_Solve_terminalBnd_wsp (vt : Virtuals) (m : Members) (w0 : NekArray)
    (d : AssemblyMapData) (w out : NekArray) :
    v_Solve_terminalBnd vt { m with m_wsp := w0 } d w out = v_Solve_terminalBnd vt m d w out :=
  rfl

theorem v_Solve_terminalBnd_agree (vt : Virtuals) (m : Members) (d : AssemblyMapData)
    (w w' out : NekArray) (h : ∀ k, d.offF ≤ k → w k = w' k) :
    v_Solve_terminalBnd vt m d w out = v_Solve_terminalBnd vt m d w' out := by
  have hv : view w d.offF = view w' d.offF := by
    funext j
    simp only [view_apply]
    exact h _ (by omega)
  unfold v_Solve_terminalBnd v_Solve_pert
  rw [hv]

theorem SameStored_eq (m m' : Members) (d : AssemblyMapData) (h : m.SameStored m' d) :
    m' = { m with m_wsp := m'.m_wsp } := by
  obtain ⟨h1, h2, h3, h4, _⟩ := h
  cases m
  cases m'
  simp only at h1 h2 h3 h4
  subst h1 h2 h3 h4
  rfl


theorem SameStored_exists (m m' : Members) (d : AssemblyMapData) (h : m.SameStored m' d) :
    ∃ w', m' = { m with m_wsp := w' } ∧ ∀ k, v_Initialise_wspLength d ≤ k → m.m_wsp k = w' k :=
  ⟨m'.m_wsp, SameStored_eq m m' d h, h.2.2.2.2⟩

theorem SameStored_setWsp (m0 m : Members) (d : AssemblyMapData) (w : NekArray)
    (h : m0.SameStored m d) (hw : ∀ k, v_Initialise_wspLength d ≤ k → w k = m.m_wsp k) :
    m0.SameStored { m with m_wsp := w } d :=
  ⟨h.1, h.2.1, h.2.2.1, h.2.2.2.1, fun k hk => (h.2.2.2.2 k hk).trans (hw k hk).symm⟩

theorem SameUpToWorkspace_refl (H : GlobalLinSysStaticCond) (map : AssemblyMap)
    (hfit : H.FitsMap map) : H.SameUpToWorkspace H map := by
  induction H generalizing map with
  | terminal m =>
    cases map with
    | last d => exact ⟨rfl, rfl, rfl, rfl, fun _ _ => rfl⟩
    | level d next => exact hfit.elim
  | recursive m child ih =>
    cases map with
    | last d => exact hfit.elim
    | level d next => exact ⟨⟨rfl, rfl, rfl, rfl, fun _ _ => rfl⟩, ih next hfit.2⟩

/-- The vector returned by `v_Solve` does not depend on what the allocated
workspaces hold when the call starts. -/
theorem v_Solve_workspace_independent (vt : Virtuals) (H H' : GlobalLinSysStaticCond)
    (map : AssemblyMap) (inp out : NekArray) (df : List NekDouble)
    (H1 : GlobalLinSysStaticCond) (o : NekArray)
    (hrel : H.SameUpToWorkspace H' map) (hfit : H.FitsMap map)
    (h : H.v_Solve vt inp out map df = some (H1, o)) :
    ∃ H1', H'.v_Solve vt inp out map df = some (H1', o) := by
  induction H generalizing H' map inp out H1 o df with
  | terminal m =>
    cases map with
    | level d next => exact hfit.elim
    | last d =>
      cases H' with
      | recursive m' c' => exact hrel.elim
      | terminal m' =>
        have hfit' : m.FitsWorkspace d := hfit
        obtain ⟨w', rfl, hw⟩ := SameStored_exists m m' d hrel
        have a1 := v_Solve_fillF_agree d inp df m.m_wsp w' hw
        have htmp : d.offTmp ≤ d.offF := Nat.le_add_right _ _
        rw [v_Solve_last] at h ⊢
        simp only [GlobalLinSysStaticCond.m] at h ⊢
        rw [v_Solve_forward_wsp, v_Solve_interior_wsp, v_Solve_interior_wsp]
        split_ifs at h ⊢ with c
        · cases h5 : v_Solve_forward vt m d true (dirForcCalculated df) out
              (v_Solve_fillF d inp df m.m_wsp) with
          | none => rw [h5] at h; simp at h
          | some w5 =>
            obtain ⟨w5', e5, a5⟩ := v_Solve_forward_agree vt m d true _ out _ _ w5 hfit' a1 h5
            have a5' : ∀ k, d.offF ≤ k → w5 k = w5' k := fun k hk => a5 k (Or.inr (by omega))
            rw [h5] at h
            rw [e5]
            simp only [Option.some.injEq, Prod.mk.injEq] at h ⊢
            refine ⟨_, rfl, ?_⟩
            rw [v_Solve_interior_wsp, v_Solve_terminalBnd_wsp,
              ← v_Solve_terminalBnd_agree vt m d w5 w5' out a5',
              ← v_Solve_interior_agree m d _ w5 w5' _ hfit' a5']
            exact h.2
        · simp only [Option.some.injEq, Prod.mk.injEq] at h ⊢
          refine ⟨_, rfl, ?_⟩
          rw [← v_Solve_interior_agree m d _ _ _ _ hfit' a1]
          exact h.2
  | recursive m child ih =>
    cases map with
    | last d => exact hfit.elim
    | level d next =>
      cases H' with
      | terminal m' => exact hrel.elim
      | recursive m' child' =>
        have hfit' : m.FitsWorkspace d := hfit.1
        obtain ⟨w', rfl, hw⟩ := SameStored_exists m m' d hrel.1
        have a1 := v_Solve_fillF_agree d inp df m.m_wsp w' hw
        have htmp : d.offTmp ≤ d.offF := Nat.le_add_right _ _
        rw [v_Solve_level_recursive] at h ⊢
        rw [v_Solve_forward_wsp, v_Solve_interior_wsp, v_Solve_interior_wsp]
        split_ifs at h ⊢ with c
        · cases h5 : v_Solve_forward vt m d false (dirForcCalculated df) out
              (v_Solve_fillF d inp df m.m_wsp) with
          | none => rw [h5] at h; simp at h
          | some w5 =>
            obtain ⟨w5', e5, a5⟩ := v_Solve_forward_agree vt m d false _ out _ _ w5 hfit' a1 h5
            have a5' : ∀ k, d.offF ≤ k → w5 k = w5' k := fun k hk => a5 k (Or.inr (by omega))
            have hv : view w5 d.offF = view w5' d.offF := by
              funext j
              simp only [view_apply]
              exact a5' _ (by omega)
            rw [h5] at h
            rw [e5]
            simp only at h ⊢
            cases hc : child.v_Solve vt (view w5 d.offF) out next [] with
            | none => rw [hc] at h; simp at h
            | some r =>
              obtain ⟨c1, o1⟩ := r
              obtain ⟨c1', hc'⟩ := ih child' next _ _ _ c1 o1 hrel.2 hfit.2 hc
              rw [hc] at h
              rw [← hv, hc']
              simp only [Option.some.injEq, Prod.mk.injEq] at h ⊢
              refine ⟨_, rfl, ?_⟩
              rw [v_Solve_interior_wsp, ← v_Solve_interior_agree m d _ w5 w5' _ hfit' a5']
              exact h.2
        · simp only [Option.some.injEq, Prod.mk.injEq] at h ⊢
          refine ⟨_, rfl, ?_⟩
          rw [← v_Solve_interior_agree m d _ _ _ _ hfit' a1]
          exact h.2


/-- A call that returns leaves the chain as it was apart from the contents
of the allocated workspaces. -/
theorem v_Solve_keeps (vt : Virtuals) (H0 H H1 : GlobalLinSysStaticCond)
    (map : AssemblyMap) (inp out : NekArray) (df : List NekDouble) (o : NekArray)
    (hrel : H0.SameUpToWorkspace H map) (hfit : H.FitsMap map)
    (h : H.v_Solve vt inp out map df = some (H1, o)) :
    H0.SameUpToWorkspace H1 map ∧ H1.FitsMap map := by
  induction H generalizing H0 H1 map inp out o df with
  | terminal m =>
    cases map with
    | level d next => exact hfit.elim
    | last d =>
      cases H0 with
      | recursive m0 c0 => exact hrel.elim
      | terminal m0 =>
        have hfit' : m.FitsWorkspace d := hfit
        have hrel' : m0.SameStored m d := hrel
        have hlen := wspLength_eq d
        rw [v_Solve_last] at h
        simp only [GlobalLinSysStaticCond.m, GlobalLinSysStaticCond.setWsp] at h
        split_ifs at h with c
        · cases h5 : v_Solve_forward vt m d true (dirForcCalculated df) out
              (v_Solve_fillF d inp df m.m_wsp) with
          | none => rw [h5] at h; simp at h
          | some w5 =>
            rw [h5] at h
            simp only [Option.some.injEq, Prod.mk.injEq] at h
            rw [← h.1]
            refine ⟨SameStored_setWsp m0 m d _ hrel' ?_, hfit'⟩
            intro k hk
            rw [v_Solve_interior_beyond _ _ _ _ _ _ hk,
              v_Solve_forward_beyond vt m d _ _ _ _ _ hfit'.2.2 h5 k hk,
              v_Solve_fillF_outside _ _ _ _ _ (by omega)]
        · simp only [Option.some.injEq, Prod.mk.injEq] at h
          rw [← h.1]
          refine ⟨SameStored_setWsp m0 m d _ hrel' ?_, hfit'⟩
          intro k hk
          rw [v_Solve_interior_beyond _ _ _ _ _ _ hk, v_Solve_fillF_outside _ _ _ _ _ (by omega)]
  | recursive m child ih =>
    cases map with
    | last d => exact hfit.elim
    | level d next =>
      cases H0 with
      | terminal m0 => exact hrel.elim
      | recursive m0 child0 =>
        have hfit' : m.FitsWorkspace d := hfit.1
        have hrel' : m0.SameStored m d := hrel.1
        have hlen := wspLength_eq d
        rw [v_Solve_level_recursive] at h
        split_ifs at h with c
        · cases h5 : v_Solve_forward vt m d false (dirForcCalculated df) out
              (v_Solve_fillF d inp df m.m_wsp) with
          | none => rw [h5] at h; simp at h
          | some w5 =>
            rw [h5] at h
            simp only at h
            cases hc : child.v_Solve vt (view w5 d.offF) out next [] with
            | none => rw [hc] at h; simp at h
            | some r =>
              obtain ⟨c1, o1⟩ := r
              rw [hc] at h
              simp only [Option.some.injEq, Prod.mk.injEq] at h
              obtain ⟨ihr, ihf⟩ := ih child0 c1 next _ _ _ o1 hrel.2 hfit.2 hc
              rw [← h.1]
              refine ⟨⟨SameStored_setWsp m0 m d _ hrel' ?_, ihr⟩, hfit', ihf⟩
              intro k hk
              rw [v_Solve_interior_beyond _ _ _ _ _ _ hk,
                v_Solve_forward_beyond vt m d _ _ _ _ _ hfit'.2.2 h5 k hk,
                v_Solve_fillF_outside _ _ _ _ _ (by omega)]
        · simp only [Option.some.injEq, Prod.mk.injEq] at h
          rw [← h.1]
          refine ⟨⟨SameStored_setWsp m0 m d _ hrel' ?_, hrel.2⟩, hfit', hfit.2⟩
          intro k hk
          rw [v_Solve_interior_beyond _ _ _ _ _ _ hk, v_Solve_fillF_outside _ _ _ _ _ (by omega)]

/-- What a successful construction of the block matrices has gone through:
the scatter loop, the condensation loop and STEP 3. -/
theorem blkMatrices_inv (Invert : DNekMat → Option DNekMat) (mt : MatrixType)
    (sc : Option DNekScalBlkMat) (d : AssemblyMapData) (blk : BlkMatrices)
    (h : ConstructNextLevelCondensedSystem_blkMatrices Invert mt sc d = .ok blk) :
    ∃ S r s2, sc = some S ∧
      scatterLoop d.patchMapFromPrevLevel (storageTypeD mt) S
        (allocateSubstructuredMat d.numPatches d.numLocalBndCoeffsPerPatch
          d.numLocalIntCoeffsPerPatch (storageTypeD mt)) = .ok r ∧
      condenseLoop Invert d.numPatches d.numLocalIntCoeffsPerPatch r.2 = .ok s2 ∧
      blk = { schurCompl := fillBlkMatrix d.numPatches d.numLocalBndCoeffsPerPatch
                d.numLocalBndCoeffsPerPatch s2.A
              BinvD := fillBlkMatrix d.numPatches d.numLocalBndCoeffsPerPatch
                d.numLocalIntCoeffsPerPatch s2.B
              C := fillBlkMatrix d.numPatches d.numLocalIntCoeffsPerPatch
                d.numLocalBndCoeffsPerPatch s2.C
              invD := fillBlkMatrix d.numPatches d.numLocalIntCoeffsPerPatch
                d.numLocalIntCoeffsPerPatch s2.D } := by
  unfold ConstructNextLevelCondensedSystem_blkMatrices at h
  cases sc with
  | none => simp at h
  | some S =>
    simp only at h
    cases hs : scatterLoop d.patchMapFromPrevLevel (storageTypeD mt) S
        (allocateSubstructuredMat d.numPatches d.numLocalBndCoeffsPerPatch
          d.numLocalIntCoeffsPerPatch (storageTypeD mt)) with
    | error e => rw [hs] at h; simp at h
    | ok r =>
      rw [hs] at h
      simp only at h
      cases hc : condenseLoop Invert d.numPatches d.numLocalIntCoeffsPerPatch r.2 with
      | error e => rw [hc] at h; simp at h
      | ok s2 =>
        rw [hc] at h
        simp only [Except.ok.injEq] at h
        exact ⟨S, r, s2, rfl, hs, hc, h.symm⟩

/-- What a successful `v_Initialise` on a map with a next level has gone
through: the block matrices of the next level and its initialisation. -/
theorem v_Initialise_level (Invert : DNekMat → Option DNekMat) (mt : MatrixType)
    (m : Members) (d : AssemblyMapData) (next : AssemblyMap) (H : GlobalLinSysStaticCond)
    (h : v_Initialise Invert mt m (.level d next) = .ok H) :
    ∃ blk child,
      ConstructNextLevelCondensedSystem_blkMatrices Invert mt m.m_schurCompl next.d = .ok blk ∧
      v_Initialise Invert mt
        { m_schurCompl := some blk.schurCompl, m_BinvD := blk.BinvD, m_C := blk.C,
          m_invD := blk.invD, m_wsp := zeroArray } next = .ok child ∧
      H = .recursive { m with m_wsp := zeroArray, m_schurCompl := none } child := by
  rw [v_Initialise] at h
  unfold ConstructNextLevelCondensedSystem at h
  simp only at h
  cases hb : ConstructNextLevelCondensedSystem_blkMatrices Invert mt m.m_schurCompl next.d with
  | error e => rw [hb] at h; simp at h
  | ok blk =>
    rw [hb] at h
    simp only at h
    cases hc : v_Initialise Invert mt
        { m_schurCompl := some blk.schurCompl, m_BinvD := blk.BinvD, m_C := blk.C,
          m_invD := blk.invD, m_wsp := zeroArray } next with
    | error e => rw [hc] at h; simp at h
    | ok child =>
      rw [hc] at h
      simp only [Except.ok.injEq] at h
      exact ⟨blk, child, rfl, hc, h.symm⟩


theorem LevelsWellFormed_d (map : AssemblyMap) (h : map.LevelsWellFormed) : map.d.WellFormed := by
  cases map with
  | last d => exact h
  | level d next => exact h.1

/-- An initialised chain has one object per level of a well-formed map, each
fitting its workspace, and holds what `v_Solve` dereferences. -/
theorem v_Initialise_fits (Invert : DNekMat → Option DNekMat) (mt : MatrixType)
    (map : AssemblyMap) (m : Members) (H : GlobalLinSysStaticCond)
    (hwf : map.LevelsWellFormed) (hfit : m.FitsWorkspace map.d) (hS : m.m_schurCompl ≠ none)
    (h : v_Initialise Invert mt m map = .ok H) : H.FitsMap map ∧ H.Holds map := by
  induction map generalizing m H with
  | last d =>
    rw [v_Initialise] at h
    simp only [Except.ok.injEq] at h
    subst h
    exact ⟨hfit, hS⟩
  | level d next ih =>
    obtain ⟨blk, child, hb, hc, rfl⟩ := v_Initialise_level Invert mt m d next H h
    obtain ⟨S, r, s2, hsc, hr, hs2, rfl⟩ := blkMatrices_inv _ _ _ _ _ hb
    have hwn : next.d.WellFormed := LevelsWellFormed_d next hwf.2
    have hchild := ih _ child hwf.2
      ⟨fun S1 h1 => by
          simp only [Option.some.injEq] at h1
          subst h1
          rw [(fillBlkMatrix_sizes _ _ _ _).2, hwn.bndSum],
        by
          show (fillBlkMatrix _ _ _ _).colSizes.sum ≤ _
          rw [(fillBlkMatrix_sizes _ _ _ _).2, hwn.bndSum],
        hwn.bndLe⟩
      (by simp) hc
    exact ⟨⟨⟨fun S1 h1 => (by cases h1), hfit.2.1, hfit.2.2⟩, hchild.1⟩, hchild.2⟩

theorem Fits_FitsWorkspace (m : Members) (S : DNekScalBlkMat) (d : AssemblyMapData)
    (hS : m.m_schurCompl = some S) (hfit : m.Fits S d) (hwf : d.WellFormed) :
    m.FitsWorkspace d := by
  refine ⟨fun S1 h1 => ?_, ?_, hwf.bndLe⟩
  · rw [hS] at h1
    simp only [Option.some.injEq] at h1
    subst h1
    rw [hfit.schurCols, hwf.bndSum]
  · rw [hfit.cCols, hwf.bndSum]

/-- Reuse of an initialised chain: three calls in a row, the third with the
arguments of the first, return the same vector in the first and the third. -/
theorem v_Solve_reuse (Invert : DNekMat → Option DNekMat) (mt : MatrixType) (vt : Virtuals)
    (m0 : Members) (S0 : DNekScalBlkMat) (map : AssemblyMap) (H0 : GlobalLinSysStaticCond)
    (rhs1 rhs2 out : NekArray) (dirForcing : List NekDouble)
    (hinit : v_Initialise Invert mt m0 map = .ok H0)
    (hS : m0.m_schurCompl = some S0) (hfit : m0.Fits S0 map.d)
    (hwf : map.LevelsWellFormed) :
    ∃ H1 out1 H2 out2 H3 out3,
      H0.v_Solve vt rhs1 out map dirForcing = some (H1, out1) ∧
      H1.v_Solve vt rhs2 out map dirForcing = some (H2, out2) ∧
      H2.v_Solve vt rhs1 out map dirForcing = some (H3, out3) ∧
      out3 = out1 := by
  obtain ⟨hF0, hH0⟩ := v_Initialise_fits Invert mt map m0 H0 hwf
    (Fits_FitsWorkspace m0 S0 map.d hS hfit (LevelsWellFormed_d map hwf)) (by simp [hS]) hinit
  obtain ⟨H1, o1, e1⟩ := v_Solve_returns vt H0 rhs1 out map dirForcing hH0
  obtain ⟨r01, hF1⟩ := v_Solve_keeps vt H0 H0 H1 map _ _ _ _
    (SameUpToWorkspace_refl H0 map hF0) hF0 e1
  obtain ⟨X, o2, e2⟩ := v_Solve_returns vt H0 rhs2 out map dirForcing hH0
  obtain ⟨H2, e2'⟩ := v_Solve_workspace_independent vt H0 H1 map _ _ _ X o2 r01 hF0 e2
  obtain ⟨r02, hF2⟩ := v_Solve_keeps vt H0 H1 H2 map _ _ _ _ r01 hF1 e2'
  obtain ⟨H3, e3⟩ := v_Solve_workspace_independent vt H0 H2 map _ _ _ H1 o1 r02 hF0 e1
  exact ⟨H1, o1, H2, o2, H3, o1, e1, e2', e3, rfl⟩

/-- C8: reuse invariance.  For every chain of objects initialised by
`v_Initialise` from a leaf system that fits a well-formed chain of maps, and
all right-hand sides `rhs1`, `rhs2`, the calls `v_Solve(rhs1)`, `v_Solve(rhs2)`
and `v_Solve(rhs1)` again, each from the same `out` and Dirichlet forcing and
each on the chain the call before has left, all return, and the two `rhs1`
calls return the same `out`: what an earlier call has left in the workspaces
`m_wsp` does not reach the result. -/
theorem v_Solve_reuse_invariance (Invert : DNekMat → Option DNekMat) (mt : MatrixType)
    (vt : Virtuals) (m0 : Members) (S0 : DNekScalBlkMat) (map : AssemblyMap)
    (H0 : GlobalLinSysStaticCond) (rhs1 rhs2 out : NekArray) (dirForcing : List NekDouble)
    (hinit : v_Initialise Invert mt m0 map = .ok H0)
    (hS : m0.m_schurCompl = some S0) (hfit : m0.Fits S0 map.d)
    (hwf : map.LevelsWellFormed) :
    ∃ H1 out1 H2 out2 H3 out3,
      H0.v_Solve vt rhs1 out map dirForcing = some (H1, out1) ∧
      H1.v_Solve vt rhs2 out map dirForcing = some (H2, out2) ∧
      H2.v_Solve vt rhs1 out map dirForcing = some (H3, out3) ∧
      out3 = out1 :=
  v_Solve_reuse Invert mt vt m0 S0 map H0 rhs1 rhs2 out dirForcing hinit hS hfit hwf


theorem v_Initialise_level_ok (Invert : DNekMat → Option DNekMat) (mt : MatrixType)
    (m : Members) (d : AssemblyMapData) (next : AssemblyMap) (blk : BlkMatrices)
    (child : GlobalLinSysStaticCond)
    (hb : ConstructNextLevelCondensedSystem_blkMatrices Invert mt m.m_schurCompl next.d = .ok blk)
    (hc : v_Initialise Invert mt
        { m_schurCompl := some blk.schurCompl, m_BinvD := blk.BinvD, m_C := blk.C,
          m_invD := blk.invD, m_wsp := zeroArray } next = .ok child) :
    v_Initialise Invert mt m (.level d next) =
      .ok (.recursive { m with m_wsp := zeroArray, m_schurCompl := none } child) := by
  rw [v_Initialise]
  unfold ConstructNextLevelCondensedSystem
  simp only [hb, hc]

theorem ex2Data0_wellFormed : ex2Data0.WellFormed := by
  refine ⟨rfl, rfl, rfl, rfl, ?_, by decide, by decide⟩
  intro i _
  show (if i = 0 then 0 else if i = 3 then 1 else 2) < 3
  split_ifs <;> omega

theorem ex2Data1_wellFormed : ex2Data1.WellFormed := by
  refine ⟨rfl, rfl, rfl, rfl, ?_, by decide, by decide⟩
  intro i _
  show (if i = 0 then 0 else 1) < 2
  split_ifs <;> omega

theorem ex2_levelsWellFormed : ex2Map.LevelsWellFormed :=
  ⟨ex2Data0_wellFormed, ex2Data1_wellFormed⟩

theorem ex2_fits : ex2Members.Fits ex2SchurCompl ex2Data0 :=
  ⟨rfl, rfl, rfl, rfl, rfl, rfl, rfl, rfl⟩

/-- The two-level example initialises. -/
theorem ex2_initialised :
    ∃ H0, v_Initialise invertOneByOne .eOtherMatrixType ex2Members ex2Map = .ok H0 := by
  obtain ⟨r, hr, hinv⟩ := ex2_scatter
  obtain ⟨s2, _, hblk⟩ := ConstructNextLevelCondensedSystem_blkMatrices_ok invertOneByOne
    .eOtherMatrixType ex2SchurCompl ex2Data1 r hr hinv
  exact ⟨_, v_Initialise_level_ok invertOneByOne .eOtherMatrixType ex2Members ex2Data0
    (.last ex2Data1) _ _ hblk (by rw [v_Initialise])⟩

/-- Witness of C8 on the two-level example. -/
theorem v_Solve_reuse_invariance_witness :
    ∃ H0, v_Initialise invertOneByOne .eOtherMatrixType ex2Members ex2Map = .ok H0 ∧
      ex2Members.m_schurCompl = some ex2SchurCompl ∧
      ex2Members.Fits ex2SchurCompl ex2Data0 ∧ ex2Map.LevelsWellFormed ∧
      ∃ H1 out1 H2 out2 H3 out3,
        H0.v_Solve (baseVirtuals oneDofSolver) (fun k => if k = 2 then 1 else 0) zeroArray ex2Map
            [] = some (H1, out1) ∧
        H1.v_Solve (baseVirtuals oneDofSolver) (fun _ => 1) zeroArray ex2Map [] = some (H2, out2) ∧
        H2.v_Solve (baseVirtuals oneDofSolver) (fun k => if k = 2 then 1 else 0) zeroArray ex2Map
            [] = some (H3, out3) ∧
        out3 = out1 := by
  obtain ⟨H0, h0⟩ := ex2_initialised
  exact ⟨H0, h0, rfl, ex2_fits, ex2_levelsWellFormed,
    v_Solve_reuse_invariance invertOneByOne .eOtherMatrixType (baseVirtuals oneDofSolver)
      ex2Members ex2SchurCompl ex2Map H0 (fun k => if k = 2 then 1 else 0) (fun _ => 1) zeroArray
      [] h0 rfl ex2_fits ex2_levelsWellFormed⟩


/-! ### Uniqueness of the solution of the condensed equations -/

theorem AssembleBnd_sub (d : AssemblyMapData) (a b : NekArray) (g : Nat) :
    d.AssembleBnd (fun i => a i - b i) g = d.AssembleBnd a g - d.AssembleBnd b g := by
  unfold AssemblyMapData.AssembleBnd UniversalAssembleBnd
  rw [← Finset.sum_sub_distrib]
  apply Finset.sum_congr rfl
  intro i _
  split_ifs
  · ring
  · simp

theorem GlobalToLocalBnd_sub (d : AssemblyMapData) (x y : NekArray) (i : Nat) :
    d.GlobalToLocalBnd (fun g => x g - y g) i =
      d.GlobalToLocalBnd x i - d.GlobalToLocalBnd y i := by
  unfold AssemblyMapData.GlobalToLocalBnd
  ring

/-- The assembled Schur complement applied to a difference. -/
theorem boundary_sub (d : AssemblyMapData) (S : DNekScalBlkMat) (x y : NekArray) (g : Nat) :
    d.AssembleBnd (S.mulVec (d.GlobalToLocalBnd (fun h => x h - y h))) g =
      d.AssembleBnd (S.mulVec (d.GlobalToLocalBnd x)) g
        - d.AssembleBnd (S.mulVec (d.GlobalToLocalBnd y)) g := by
  rw [← AssembleBnd_sub]
  apply AssembleBnd_congr
  intro i _
  rw [← mulVec_sub]
  apply mulVec_congr
  intro k _
  exact GlobalToLocalBnd_sub d x y k

/-- The condensed equations of a level have at most one solution when the
homogeneous boundary system has. -/
theorem condensed_unique (d : AssemblyMapData) (S BinvD C invD : DNekScalBlkMat)
    (inp out x y : NekArray) (hwf : d.WellFormed)
    (hC : C.colSizes.sum = d.numLocalBndCoeffs)
    (hinj : BoundaryInjective d S)
    (hx : CondensedEquations d S BinvD C invD inp out x)
    (hy : CondensedEquations d S BinvD C invD inp out y) :
    ∀ g, g < d.numGlobalCoeffs → x g = y g := by
  obtain ⟨x1, x2, x3⟩ := hx
  obtain ⟨y1, y2, y3⟩ := hy
  have hz : ∀ g, g < d.numGlobalBndCoeffs → (fun h => x h - y h) g = 0 := by
    apply hinj
    · intro g hg
      show x g - y g = 0
      rw [x1 g hg, y1 g hg, sub_self]
    · intro k hk
      rw [boundary_sub]
      have ex := x2 k hk
      have ey := y2 k hk
      rw [AssembleBnd_add] at ex ey
      linarith
  have hb : ∀ g, g < d.numGlobalBndCoeffs → x g = y g := fun g hg => by
    have := hz g hg
    simp only at this
    linarith
  intro g hg
  by_cases hgb : g < d.numGlobalBndCoeffs
  · exact hb g hgb
  · have hint : d.nIntDofs = d.numGlobalCoeffs - d.numGlobalBndCoeffs := rfl
    have e : g = d.numGlobalBndCoeffs + (g - d.numGlobalBndCoeffs) := by omega
    rw [e, x3 _ (by omega), y3 _ (by omega)]
    congr 1
    funext q
    congr 1
    apply mulVec_congr
    intro i hi
    exact GlobalToLocalBnd_congr d x y hwf.mapRange hb i (by rw [← hC]; exact hi)


theorem mulVec_smul (M : DNekScalBlkMat) (c : NekDouble) (x : NekArray) (I : Nat) :
    M.mulVec (fun k => c * x k) I = c * M.mulVec x I := by
  simp only [mulVec_entry]
  cases locate M.rowSizes I with
  | none => simp
  | some p =>
    obtain ⟨n, i⟩ := p
    simp only [Finset.mul_sum]
    apply Finset.sum_congr rfl
    intro j _
    ring

theorem AssembleBnd_smul (d : AssemblyMapData) (c : NekDouble) (a : NekArray) (g : Nat) :
    d.AssembleBnd (fun i => c * a i) g = c * d.AssembleBnd a g := by
  unfold AssemblyMapData.AssembleBnd UniversalAssembleBnd
  rw [Finset.mul_sum]
  apply Finset.sum_congr rfl
  intro i _
  split_ifs
  · ring
  · simp

theorem boundary_add (d : AssemblyMapData) (S : DNekScalBlkMat) (x y : NekArray) (g : Nat) :
    d.AssembleBnd (S.mulVec (d.GlobalToLocalBnd (fun h => x h + y h))) g =
      d.AssembleBnd (S.mulVec (d.GlobalToLocalBnd x)) g
        + d.AssembleBnd (S.mulVec (d.GlobalToLocalBnd y)) g := by
  rw [← AssembleBnd_add]
  apply AssembleBnd_congr
  intro i _
  rw [← mulVec_add]
  apply mulVec_congr
  intro k _
  exact GlobalToLocalBnd_add d x y k

theorem boundary_smul (d : AssemblyMapData) (S : DNekScalBlkMat) (c : NekDouble) (x : NekArray)
    (g : Nat) :
    d.AssembleBnd (S.mulVec (d.GlobalToLocalBnd (fun h => c * x h))) g =
      c * d.AssembleBnd (S.mulVec (d.GlobalToLocalBnd x)) g := by
  rw [← AssembleBnd_smul]
  apply AssembleBnd_congr
  intro i _
  rw [← mulVec_smul]
  apply mulVec_congr
  intro k _
  unfold AssemblyMapData.GlobalToLocalBnd
  ring

/-- The assembled Schur complement sees the boundary entries of a vector
only. -/
theorem boundary_congr (d : AssemblyMapData) (S : DNekScalBlkMat) (x y : NekArray)
    (hwf : d.WellFormed) (hS : S.colSizes.sum = d.numLocalBndCoeffs)
    (h : ∀ g, g < d.numGlobalBndCoeffs → x g = y g) (g : Nat) :
    d.AssembleBnd (S.mulVec (d.GlobalToLocalBnd x)) g =
      d.AssembleBnd (S.mulVec (d.GlobalToLocalBnd y)) g := by
  apply AssembleBnd_congr
  intro i _
  apply mulVec_congr
  intro k hk
  exact GlobalToLocalBnd_congr d x y hwf.mapRange h k (by rw [← hS]; exact hk)

/-- A terminal solver that is exact for every forcing makes the homogeneous
boundary system onto, hence one to one: it is a square linear system. -/
theorem exact_injective (vt : Virtuals) (S : DNekScalBlkMat) (d : AssemblyMapData)
    (hwf : d.WellFormed) (hS : S.colSizes.sum = d.numLocalBndCoeffs)
    (hex : ExactSolver vt S d) : BoundaryInjective d S := by
  have hhom : d.nGlobHomBndDofs = d.numGlobalBndCoeffs - d.numGlobalDirBndCoeffs := rfl
  have hdir := hwf.dirLe
  let E : (Fin d.nGlobHomBndDofs → ℚ) → NekArray := fun v g =>
    if h : d.numGlobalDirBndCoeffs ≤ g ∧ g < d.numGlobalBndCoeffs then
      v ⟨g - d.numGlobalDirBndCoeffs, by omega⟩
    else 0
  have hEadd : ∀ v w, E (v + w) = fun g => E v g + E w g := by
    intro v w
    funext g
    simp only [E]
    split_ifs <;> simp
  have hEsmul : ∀ (c : ℚ) v, E (c • v) = fun g => c * E v g := by
    intro c v
    funext g
    simp only [E]
    split_ifs <;> simp
  let K : (Fin d.nGlobHomBndDofs → ℚ) →ₗ[ℚ] (Fin d.nGlobHomBndDofs → ℚ) :=
    { toFun := fun v k =>
        d.AssembleBnd (S.mulVec (d.GlobalToLocalBnd (E v))) (d.numGlobalDirBndCoeffs + k)
      map_add' := by
        intro v w
        funext k
        simp only [Pi.add_apply]
        rw [hEadd, boundary_add]
      map_smul' := by
        intro c v
        funext k
        simp only [Pi.smul_apply, smul_eq_mul, RingHom.id_apply]
        rw [hEsmul, boundary_smul] }
  have hKapp : ∀ v k, K v k =
      d.AssembleBnd (S.mulVec (d.GlobalToLocalBnd (E v))) (d.numGlobalDirBndCoeffs + k) :=
    fun _ _ => rfl
  have hsurj : Function.Surjective K := by
    intro t
    let F : NekArray := fun g =>
      if h : d.numGlobalDirBndCoeffs ≤ g ∧ g < d.numGlobalBndCoeffs then
        t ⟨g - d.numGlobalDirBndCoeffs, by omega⟩
      else 0
    refine ⟨fun k => vt.SolveLinearSystem (some S) d.numGlobalBndCoeffs F zeroArray d
      d.numGlobalDirBndCoeffs (d.numGlobalDirBndCoeffs + k), ?_⟩
    funext k
    rw [hKapp]
    have e := hex F k k.2
    have hF : F (d.numGlobalDirBndCoeffs + k) = t k := by
      simp only [F]
      rw [dif_pos ⟨by omega, by have := k.2; omega⟩]
      congr 1
      apply Fin.ext
      simp
    rw [← hF, ← e]
    apply congrArg (fun z => d.AssembleBnd (S.mulVec (d.GlobalToLocalBnd z))
      (d.numGlobalDirBndCoeffs + k))
    funext g
    simp only [E]
    split_ifs with hg
    · have : d.numGlobalDirBndCoeffs + (g - d.numGlobalDirBndCoeffs) = g := by omega
      simp only [this]
    · rfl
  have hinj : Function.Injective K := LinearMap.injective_iff_surjective.mpr hsurj
  intro z hzD hzK g hg
  by_cases hgd : g < d.numGlobalDirBndCoeffs
  · exact hzD g hgd
  · have hv : K (fun k => z (d.numGlobalDirBndCoeffs + k)) = K 0 := by
      rw [map_zero]
      funext k
      rw [hKapp, Pi.zero_apply, ← hzK k k.2]
      apply boundary_congr d S _ _ hwf hS
      intro h hh
      simp only [E]
      split_ifs with c
      · have : d.numGlobalDirBndCoeffs + (h - d.numGlobalDirBndCoeffs) = h := by omega
        simp only [this]
      · rw [hzD h (by omega)]
    have := congrFun (hinj hv) ⟨g - d.numGlobalDirBndCoeffs, by omega⟩
    simp only [Pi.zero_apply] at this
    have e : d.numGlobalDirBndCoeffs + (g - d.numGlobalDirBndCoeffs) = g := by omega
    rw [e] at this
    exact this


/-! ### Sums over the pairs of rows of the previous-level blocks -/

theorem blockOffset_succ (sizes : List Nat) (n : Nat) (hn : n < sizes.length) :
    blockOffset sizes (n + 1) = blockOffset sizes n + sizes.getD n 0 := by
  unfold blockOffset
  rw [List.sum_take_succ _ _ hn, List.getD_eq_getElem _ _ hn]

theorem BlocksSet_blockRows (S : DNekScalBlkMat) (sizes : List Nat) (h : S.BlocksSet sizes)
    (n : Nat) (hn : n < sizes.length) : S.blockRows n = sizes.getD n 0 := by
  obtain ⟨B, hB, hr⟩ := h n hn
  rw [blockRows_of_some S n B hB, hr]

theorem BlocksSet_rowsBefore (S : DNekScalBlkMat) (sizes : List Nat) (h : S.BlocksSet sizes)
    (n : Nat) (hn : n ≤ sizes.length) : S.rowsBefore n = blockOffset sizes n := by
  induction n with
  | zero => simp [DNekScalBlkMat.rowsBefore, blockOffset]
  | succ k ih =>
    rw [rowsBefore_succ, ih (by omega), BlocksSet_blockRows S sizes h k (by omega),
      blockOffset_succ sizes k (by omega)]

theorem sumPairs_congr (S : DNekScalBlkMat) (f g : Nat → Nat → NekDouble → NekDouble)
    (h : ∀ n i j, n < S.GetNumberOfBlockRows → i < S.blockRows n → j < S.blockRows n →
      f (S.rowsBefore n + i) (S.rowsBefore n + j) (S.entry n i j) =
        g (S.rowsBefore n + i) (S.rowsBefore n + j) (S.entry n i j)) :
    S.sumPairs f = S.sumPairs g := by
  unfold DNekScalBlkMat.sumPairs
  apply Finset.sum_congr rfl
  intro n hn
  apply Finset.sum_congr rfl
  intro i hi
  apply Finset.sum_congr rfl
  intro j hj
  exact h n i j (Finset.mem_range.mp hn) (Finset.mem_range.mp hi) (Finset.mem_range.mp hj)

theorem sumPairs_add (S : DNekScalBlkMat) (f g : Nat → Nat → NekDouble → NekDouble) :
    S.sumPairs f + S.sumPairs g = S.sumPairs (fun r r' e => f r r' e + g r r' e) := by
  unfold DNekScalBlkMat.sumPairs
  simp only [Finset.sum_add_distrib]

theorem sumPairs_sum (S : DNekScalBlkMat) (N : Nat)
    (F : Nat → Nat → Nat → NekDouble → NekDouble) :
    ∑ b in Finset.range N, S.sumPairs (F b) =
      S.sumPairs (fun r r' e => ∑ b in Finset.range N, F b r r' e) := by
  unfold DNekScalBlkMat.sumPairs
  rw [Finset.sum_comm]
  apply Finset.sum_congr rfl
  intro n _
  rw [Finset.sum_comm]
  apply Finset.sum_congr rfl
  intro i _
  rw [Finset.sum_comm]

theorem sumPairs_mul_left (S : DNekScalBlkMat) (c : NekDouble)
    (f : Nat → Nat → NekDouble → NekDouble) :
    c * S.sumPairs f = S.sumPairs (fun r r' e => c * f r r' e) := by
  unfold DNekScalBlkMat.sumPairs
  simp only [Finset.mul_sum]

theorem sumPairs_mul_right (S : DNekScalBlkMat) (c : NekDouble)
    (f : Nat → Nat → NekDouble → NekDouble) :
    S.sumPairs f * c = S.sumPairs (fun r r' e => f r r' e * c) := by
  unfold DNekScalBlkMat.sumPairs
  simp only [Finset.sum_mul]

theorem sumPairs_ite (S : DNekScalBlkMat) (c : Prop) [Decidable c]
    (f : Nat → Nat → NekDouble → NekDouble) :
    (if c then S.sumPairs f else 0) = S.sumPairs (fun r r' e => if c then f r r' e else 0) := by
  split_ifs
  · rfl
  · unfold DNekScalBlkMat.sumPairs
    simp

theorem scatterReference_eq_sumPairs (pm : PatchMap) (S : DNekScalBlkMat) (X : SubBlock)
    (p a b : Nat) :
    scatterReference pm S X p a b =
      S.sumPairs (fun r r' e =>
        if pm.patchId r = p ∧ pm.dofId r = a ∧ pm.dofId r' = b ∧
            decide (pm.isBndDof r ≠ 0) = X.rowBnd ∧ decide (pm.isBndDof r' ≠ 0) = X.colBnd then
          pm.sign r * pm.sign r' * e
        else 0) := rfl

/-- The assembled product of the Schur complement with a local vector, as a
sum over the pairs of rows of its blocks. -/
theorem AssembleBnd_mulVec_sumPairs (d : AssemblyMapData) (S : DNekScalBlkMat)
    (hwf : d.WellFormed) (hrows : S.rowSizes = d.numLocalBndCoeffsPerPatch)
    (hcols : S.colSizes = d.numLocalBndCoeffsPerPatch)
    (hset : S.BlocksSet d.numLocalBndCoeffsPerPatch) (u : NekArray) (g : Nat) :
    d.AssembleBnd (S.mulVec u) g =
      S.sumPairs (fun r r' e =>
        if d.localToGlobalBndMap r = g then d.localToGlobalBndSign r * (e * u r') else 0) := by
  unfold AssemblyMapData.AssembleBnd UniversalAssembleBnd DNekScalBlkMat.sumPairs
  beta_reduce
  rw [← hwf.bndSum, sum_blocks]
  have hlen : S.GetNumberOfBlockRows = d.numLocalBndCoeffsPerPatch.length := by
    unfold DNekScalBlkMat.GetNumberOfBlockRows
    rw [hrows]
  rw [hlen]
  apply Finset.sum_congr rfl
  intro n hn
  have hn' := Finset.mem_range.mp hn
  rw [BlocksSet_blockRows S _ hset n hn', BlocksSet_rowsBefore S _ hset n (by omega)]
  apply Finset.sum_congr rfl
  intro i hi
  have hi' := Finset.mem_range.mp hi
  rw [mulVec_of_locate S u _ n i (by rw [hrows]; exact locate_offset hn' hi'), hcols]
  split_ifs
  · rw [Finset.mul_sum]
  · simp


theorem LevelSetup.numRows {d d1 : AssemblyMapData} {S : DNekScalBlkMat}
    (hs : LevelSetup d d1 S) :
    S.GetNumberOfBlockRows = d.numLocalBndCoeffsPerPatch.length := by
  unfold DNekScalBlkMat.GetNumberOfBlockRows
  rw [hs.rows]

/-- A row of a block of the Schur complement is a local boundary DOF of the
level. -/
theorem LevelSetup.row_lt {d d1 : AssemblyMapData} {S : DNekScalBlkMat}
    (hs : LevelSetup d d1 S) {n i : Nat} (hn : n < S.GetNumberOfBlockRows)
    (hi : i < S.blockRows n) : S.rowsBefore n + i < d.numLocalBndCoeffs := by
  rw [hs.numRows] at hn
  rw [BlocksSet_blockRows S _ hs.blocks n hn] at hi
  rw [BlocksSet_rowsBefore S _ hs.blocks n (by omega), ← hs.wf.bndSum]
  exact blockOffset_add_lt hi

/-- The rows of one block go to one patch of the next level. -/
theorem LevelSetup.same {d d1 : AssemblyMapData} {S : DNekScalBlkMat}
    (hs : LevelSetup d d1 S) {n i j : Nat} (hn : n < S.GetNumberOfBlockRows)
    (hi : i < S.blockRows n) (hj : j < S.blockRows n) :
    d1.patchMapFromPrevLevel.patchId (S.rowsBefore n + i) =
      d1.patchMapFromPrevLevel.patchId (S.rowsBefore n + j) := by
  rw [hs.numRows] at hn
  rw [BlocksSet_blockRows S _ hs.blocks n hn] at hi hj
  rw [BlocksSet_rowsBefore S _ hs.blocks n (by omega)]
  exact hs.link.samePatch n i j (by rw [← hs.wf.bndLength]; exact hn) hi hj

/-- The position of a row in its patch of the next level lies inside the
counts of the patch for the flag of the row. -/
theorem LevelSetup.dofId_lt {d d1 : AssemblyMapData} {S : DNekScalBlkMat}
    (hs : LevelSetup d d1 S) {r : Nat} (hr : r < d.numLocalBndCoeffs) (b : Bool)
    (hb : decide (d1.patchMapFromPrevLevel.isBndDof r ≠ 0) = b) :
    d1.patchMapFromPrevLevel.dofId r <
      (d1.patchCounts b).getD (d1.patchMapFromPrevLevel.patchId r) 0 := by
  unfold AssemblyMapData.patchCounts
  cases b with
  | true =>
    have : d1.patchMapFromPrevLevel.isBndDof r ≠ 0 := by simpa using hb
    simpa using (hs.link.bnd r hr this).1
  | false =>
    have : d1.patchMapFromPrevLevel.isBndDof r = 0 := by simpa using hb
    simpa using (hs.link.int r hr this).1

/-- A row of reference sums times a vector, as a sum over the pairs of rows
of the previous-level blocks. -/
theorem reference_mulVec {d d1 : AssemblyMapData} {S : DNekScalBlkMat}
    (hs : LevelSetup d d1 S) (X : SubBlock) (p a : Nat) (v : NekArray) :
    ∑ b in Finset.range ((d1.patchCounts X.colBnd).getD p 0),
        scatterReference d1.patchMapFromPrevLevel S X p a b * v b =
      S.sumPairs (fun r r' e =>
        if d1.patchMapFromPrevLevel.patchId r = p ∧ d1.patchMapFromPrevLevel.dofId r = a ∧
            decide (d1.patchMapFromPrevLevel.isBndDof r ≠ 0) = X.rowBnd ∧
            decide (d1.patchMapFromPrevLevel.isBndDof r' ≠ 0) = X.colBnd then
          d1.patchMapFromPrevLevel.sign r * d1.patchMapFromPrevLevel.sign r' * e
            * v (d1.patchMapFromPrevLevel.dofId r')
        else 0) := by
  simp only [scatterReference_eq_sumPairs, sumPairs_mul_right]
  rw [sumPairs_sum]
  apply sumPairs_congr
  intro n i j hn hi hj
  beta_reduce
  by_cases hc : d1.patchMapFromPrevLevel.patchId (S.rowsBefore n + i) = p ∧
      d1.patchMapFromPrevLevel.dofId (S.rowsBefore n + i) = a ∧
      decide (d1.patchMapFromPrevLevel.isBndDof (S.rowsBefore n + i) ≠ 0) = X.rowBnd ∧
      decide (d1.patchMapFromPrevLevel.isBndDof (S.rowsBefore n + j) ≠ 0) = X.colBnd
  · rw [if_pos hc]
    have hlt := hs.dofId_lt (hs.row_lt hn hj) X.colBnd hc.2.2.2
    rw [← hs.same hn hi hj, hc.1] at hlt
    rw [Finset.sum_eq_single (d1.patchMapFromPrevLevel.dofId (S.rowsBefore n + j))]
    · rw [if_pos ⟨hc.1, hc.2.1, rfl, hc.2.2.1, hc.2.2.2⟩]
    · intro b _ hb
      rw [if_neg (fun h => hb h.2.2.1.symm), zero_mul]
    · intro h
      exact absurd (Finset.mem_range.mpr hlt) h
  · rw [if_neg hc]
    apply Finset.sum_eq_zero
    intro b _
    rw [if_neg (fun h => hc ⟨h.1, h.2.1, h.2.2.2.1, h.2.2.2.2⟩), zero_mul]

/-- Row `a` of patch `p` of the two matrices of one row kind, applied to a
boundary and an interior vector of the next level. -/
theorem reference_row {d d1 : AssemblyMapData} {S : DNekScalBlkMat}
    (hs : LevelSetup d d1 S) (XA XB : SubBlock) (hXA : XA.colBnd = true)
    (hXB : XB.colBnd = false) (hrow : XB.rowBnd = XA.rowBnd) (MA MB : DNekScalBlkMat)
    (hA : IsReference d1 S XA MA) (hB : IsReference d1 S XB MB) (p a : Nat)
    (hp : p < d1.numPatches) (ha : a < (d1.patchCounts XA.rowBnd).getD p 0) (u xI : NekArray) :
    MA.mulVec u (blockOffset (d1.patchCounts XA.rowBnd) p + a)
        + MB.mulVec xI (blockOffset (d1.patchCounts XA.rowBnd) p + a) =
      S.sumPairs (fun r r' e =>
        if d1.patchMapFromPrevLevel.patchId r = p ∧ d1.patchMapFromPrevLevel.dofId r = a ∧
            decide (d1.patchMapFromPrevLevel.isBndDof r ≠ 0) = XA.rowBnd then
          d1.patchMapFromPrevLevel.sign r * d1.patchMapFromPrevLevel.sign r' * e
            * (if d1.patchMapFromPrevLevel.isBndDof r' ≠ 0 then
                u (blockOffset d1.numLocalBndCoeffsPerPatch p
                  + d1.patchMapFromPrevLevel.dofId r')
              else
                xI (blockOffset d1.numLocalIntCoeffsPerPatch p
                  + d1.patchMapFromPrevLevel.dofId r'))
        else 0) := by
  have hlen : p < (d1.patchCounts XA.rowBnd).length := by
    unfold AssemblyMapData.patchCounts
    split_ifs
    · rw [hs.wf1.bndLength]; exact hp
    · rw [hs.wf1.intLength]; exact hp
  have hcA : d1.patchCounts XA.colBnd = d1.numLocalBndCoeffsPerPatch := by
    rw [hXA]; rfl
  have hcB : d1.patchCounts XB.colBnd = d1.numLocalIntCoeffsPerPatch := by
    rw [hXB]; rfl
  rw [mulVec_of_locate MA u _ p a (by rw [hA.rows]; exact locate_offset hlen ha),
    mulVec_of_locate MB xI _ p a (by rw [hB.rows, hrow]; exact locate_offset hlen ha),
    hA.cols, hB.cols]
  have eA : ∑ b in Finset.range ((d1.patchCounts XA.colBnd).getD p 0),
        MA.entry p a b * u (blockOffset (d1.patchCounts XA.colBnd) p + b) =
      ∑ b in Finset.range ((d1.patchCounts XA.colBnd).getD p 0),
        scatterReference d1.patchMapFromPrevLevel S XA p a b
          * (fun b => u (blockOffset (d1.patchCounts XA.colBnd) p + b)) b :=
    Finset.sum_congr rfl (fun b hb => by
      rw [hA.entry p a b hp ha (Finset.mem_range.mp hb)])
  have eB : ∑ b in Finset.range ((d1.patchCounts XB.colBnd).getD p 0),
        MB.entry p a b * xI (blockOffset (d1.patchCounts XB.colBnd) p + b) =
      ∑ b in Finset.range ((d1.patchCounts XB.colBnd).getD p 0),
        scatterReference d1.patchMapFromPrevLevel S XB p a b
          * (fun b => xI (blockOffset (d1.patchCounts XB.colBnd) p + b)) b :=
    Finset.sum_congr rfl (fun b hb => by
      rw [hB.entry p a b hp (by rw [hrow]; exact ha) (Finset.mem_range.mp hb)])
  rw [eA, eB]
  rw [reference_mulVec hs XA p a (fun b => u (blockOffset (d1.patchCounts XA.colBnd) p + b)),
    reference_mulVec hs XB p a (fun b => xI (blockOffset (d1.patchCounts XB.colBnd) p + b)),
    sumPairs_add]
  apply sumPairs_congr
  intro n i j hn hi hj
  beta_reduce
  have hpt : d1.patchCounts true = d1.numLocalBndCoeffsPerPatch := rfl
  have hpf : d1.patchCounts false = d1.numLocalIntCoeffsPerPatch := rfl
  rw [hXA, hXB, hrow, hpt, hpf]
  by_cases hb : d1.patchMapFromPrevLevel.isBndDof (S.rowsBefore n + j) ≠ 0
  · have h1 : decide (d1.patchMapFromPrevLevel.isBndDof (S.rowsBefore n + j) ≠ 0) = true := by
      simpa using hb
    simp only [h1, and_true, if_pos hb, Bool.true_eq_false, and_false, if_false, add_zero]
  · have h1 : decide (d1.patchMapFromPrevLevel.isBndDof (S.rowsBefore n + j) ≠ 0) = false := by
      simpa using hb
    simp only [h1, and_true, if_neg hb, Bool.false_eq_true, and_false, if_false, zero_add]


theorem blockOffset_inj {sizes : List Nat} {n i n' i' : Nat} (hn : n < sizes.length)
    (hi : i < sizes.getD n 0) (hn' : n' < sizes.length) (hi' : i' < sizes.getD n' 0)
    (h : blockOffset sizes n + i = blockOffset sizes n' + i') : n = n' ∧ i = i' := by
  have e1 := locate_offset hn hi
  have e2 := locate_offset hn' hi'
  rw [h, e2] at e1
  simp only [Option.some.injEq, Prod.mk.injEq] at e1
  exact ⟨e1.1.symm, e1.2.symm⟩

/-- What a row of a previous-level block contributes to the gather of this
level is its patch-map sign times what the next level presents for it. -/
theorem LevelSetup.gather {d d1 : AssemblyMapData} {S : DNekScalBlkMat}
    (hs : LevelSetup d d1 S) (x : NekArray) {r : Nat} (hr : r < d.numLocalBndCoeffs) :
    d.GlobalToLocalBnd x r =
      d1.patchMapFromPrevLevel.sign r *
        (if d1.patchMapFromPrevLevel.isBndDof r ≠ 0 then
          d1.GlobalToLocalBnd x
            (blockOffset d1.numLocalBndCoeffsPerPatch (d1.patchMapFromPrevLevel.patchId r)
              + d1.patchMapFromPrevLevel.dofId r)
        else
          view x d1.numGlobalBndCoeffs
            (blockOffset d1.numLocalIntCoeffsPerPatch (d1.patchMapFromPrevLevel.patchId r)
              + d1.patchMapFromPrevLevel.dofId r)) := by
  unfold AssemblyMapData.GlobalToLocalBnd
  by_cases hb : d1.patchMapFromPrevLevel.isBndDof r ≠ 0
  · obtain ⟨_, hmap, hsign⟩ := hs.link.bnd r hr hb
    rw [if_pos hb, hmap, hsign]
    ring
  · have hb' : d1.patchMapFromPrevLevel.isBndDof r = 0 := by simpa using hb
    obtain ⟨_, hmap, hsign⟩ := hs.link.int r hr hb'
    rw [if_neg hb, hmap, hsign, view_apply]

/-- Level consistency, boundary rows: on a global boundary DOF of the next
level, the assembled Schur complement of this level is the assembled
`[A, B]` of the next level. -/
theorem level_consistency_bnd {d d1 : AssemblyMapData} {S : DNekScalBlkMat}
    (hs : LevelSetup d d1 S) (A1 B1 : DNekScalBlkMat) (hA : IsReference d1 S .A A1)
    (hB : IsReference d1 S .B B1) (x : NekArray) (g : Nat)
    (hg : g < d1.numGlobalBndCoeffs) :
    d.AssembleBnd (S.mulVec (d.GlobalToLocalBnd x)) g =
      d1.AssembleBnd (fun l => A1.mulVec (d1.GlobalToLocalBnd x) l
        + B1.mulVec (view x d1.numGlobalBndCoeffs) l) g := by
  rw [AssembleBnd_mulVec_sumPairs d S hs.wf hs.rows hs.cols hs.blocks]
  have hR : d1.AssembleBnd (fun l => A1.mulVec (d1.GlobalToLocalBnd x) l
        + B1.mulVec (view x d1.numGlobalBndCoeffs) l) g =
      ∑ p in Finset.range d1.numLocalBndCoeffsPerPatch.length,
        ∑ a in Finset.range (d1.numLocalBndCoeffsPerPatch.getD p 0),
          S.sumPairs (fun r r' e =>
            if d1.localToGlobalBndMap (blockOffset d1.numLocalBndCoeffsPerPatch p + a) = g then
              d1.localToGlobalBndSign (blockOffset d1.numLocalBndCoeffsPerPatch p + a) *
                (if d1.patchMapFromPrevLevel.patchId r = p ∧
                    d1.patchMapFromPrevLevel.dofId r = a ∧
                    decide (d1.patchMapFromPrevLevel.isBndDof r ≠ 0) = true then
                  d1.patchMapFromPrevLevel.sign r * d1.patchMapFromPrevLevel.sign r' * e
                    * (if d1.patchMapFromPrevLevel.isBndDof r' ≠ 0 then
                        d1.GlobalToLocalBnd x (blockOffset d1.numLocalBndCoeffsPerPatch p
                          + d1.patchMapFromPrevLevel.dofId r')
                      else
                        view x d1.numGlobalBndCoeffs
                          (blockOffset d1.numLocalIntCoeffsPerPatch p
                            + d1.patchMapFromPrevLevel.dofId r'))
                else 0)
            else 0) := by
    unfold AssemblyMapData.AssembleBnd UniversalAssembleBnd
    beta_reduce
    rw [← hs.wf1.bndSum, sum_blocks]
    apply Finset.sum_congr rfl
    intro p hp
    apply Finset.sum_congr rfl
    intro a ha
    have hp' : p < d1.numPatches := by
      rw [← hs.wf1.bndLength]; exact Finset.mem_range.mp hp
    have e := reference_row hs .A .B rfl rfl rfl A1 B1 hA hB p a hp' (Finset.mem_range.mp ha)
      (d1.GlobalToLocalBnd x) (view x d1.numGlobalBndCoeffs)
    change A1.mulVec _ (blockOffset d1.numLocalBndCoeffsPerPatch p + a)
      + B1.mulVec _ (blockOffset d1.numLocalBndCoeffsPerPatch p + a) = _ at e
    rw [e, sumPairs_mul_left, sumPairs_ite]
    rfl
  rw [hR, Finset.sum_congr rfl (fun p _ => sumPairs_sum S _ _), sumPairs_sum]
  apply sumPairs_congr
  intro n i j hn hi hj
  beta_reduce
  have hr := hs.row_lt hn hi
  have hr' := hs.row_lt hn hj
  have hsame := hs.same hn hi hj
  by_cases hb : d1.patchMapFromPrevLevel.isBndDof (S.rowsBefore n + i) ≠ 0
  · obtain ⟨hlt, hmap, hsign⟩ := hs.link.bnd _ hr hb
    have hpatch := hs.link.patch _ hr
    have hdec : decide (d1.patchMapFromPrevLevel.isBndDof (S.rowsBefore n + i) ≠ 0) = true := by
      simpa using hb
    rw [Finset.sum_eq_single (d1.patchMapFromPrevLevel.patchId (S.rowsBefore n + i))]
    · rw [Finset.sum_eq_single (d1.patchMapFromPrevLevel.dofId (S.rowsBefore n + i))]
      · simp only [eq_self_iff_true, true_and, hdec, if_true]
        rw [← hmap, hs.gather x hr', hsign, ← hsame]
        split_ifs <;> ring
      · intro a _ ha
        have ha' : ¬ d1.patchMapFromPrevLevel.dofId (S.rowsBefore n + i) = a := fun h => ha h.symm
        simp only [ha', false_and, and_false, if_false, mul_zero, ite_self]
      · intro h
        exact absurd (Finset.mem_range.mpr hlt) h
    · intro p _ hp
      have hp' : ¬ d1.patchMapFromPrevLevel.patchId (S.rowsBefore n + i) = p := fun h => hp h.symm
      simp only [hp', false_and, if_false, mul_zero, ite_self, Finset.sum_const_zero]
    · intro h
      rw [hs.wf1.bndLength] at h
      exact absurd (Finset.mem_range.mpr hpatch) h
  · have hb' : d1.patchMapFromPrevLevel.isBndDof (S.rowsBefore n + i) = 0 := by simpa using hb
    have hdec : decide (d1.patchMapFromPrevLevel.isBndDof (S.rowsBefore n + i) ≠ 0) = false := by
      simpa using hb'
    obtain ⟨_, hmap, _⟩ := hs.link.int _ hr hb'
    have hne : ¬ d.localToGlobalBndMap (S.rowsBefore n + i) = g := by rw [hmap]; omega
    simp only [hne, hdec, Bool.false_eq_true, and_false, if_false, mul_zero, ite_self,
      Finset.sum_const_zero]


/-- Level consistency, interior rows: on a global DOF that the next level
makes interior, the assembled Schur complement of this level is the row of
`[C, D]` of the next level. -/
theorem level_consistency_int {d d1 : AssemblyMapData} {S : DNekScalBlkMat}
    (hs : LevelSetup d d1 S) (C1 D1 : DNekScalBlkMat) (hC : IsReference d1 S .C C1)
    (hD : IsReference d1 S .D D1) (x : NekArray) (q : Nat) (hq : q < d1.nIntDofs) :
    d.AssembleBnd (S.mulVec (d.GlobalToLocalBnd x)) (d1.numGlobalBndCoeffs + q) =
      C1.mulVec (d1.GlobalToLocalBnd x) q + D1.mulVec (view x d1.numGlobalBndCoeffs) q := by
  rw [AssembleBnd_mulVec_sumPairs d S hs.wf hs.rows hs.cols hs.blocks]
  rw [← hs.wf1.intSum] at hq
  obtain ⟨p, a, hloc⟩ := locate_of_lt hq
  obtain ⟨hp, ha, hqe⟩ := locate_some hloc
  have hp' : p < d1.numPatches := by rw [← hs.wf1.intLength]; exact hp
  have e := reference_row hs .C .D rfl rfl rfl C1 D1 hC hD p a hp' ha
    (d1.GlobalToLocalBnd x) (view x d1.numGlobalBndCoeffs)
  change C1.mulVec _ (blockOffset d1.numLocalIntCoeffsPerPatch p + a)
    + D1.mulVec _ (blockOffset d1.numLocalIntCoeffsPerPatch p + a) = _ at e
  rw [hqe, e]
  apply sumPairs_congr
  intro n i j hn hi hj
  beta_reduce
  have hr := hs.row_lt hn hi
  have hr' := hs.row_lt hn hj
  have hsame := hs.same hn hi hj
  by_cases hb : d1.patchMapFromPrevLevel.isBndDof (S.rowsBefore n + i) ≠ 0
  · obtain ⟨hlt, hmap, _⟩ := hs.link.bnd _ hr hb
    have hdec : decide (d1.patchMapFromPrevLevel.isBndDof (S.rowsBefore n + i) ≠ 0) = true := by
      simpa using hb
    have hrange := hs.wf1.mapRange _ (by
      rw [← hs.wf1.bndSum]
      exact blockOffset_add_lt hlt)
    have hne : ¬ d.localToGlobalBndMap (S.rowsBefore n + i)
        = d1.numGlobalBndCoeffs + (blockOffset d1.numLocalIntCoeffsPerPatch p + a) := by
      rw [hmap]; omega
    have hr0 : SubBlock.C.rowBnd = false := rfl
    simp only [hne, hdec, hr0, Bool.true_eq_false, and_false, if_false]
  · have hb' : d1.patchMapFromPrevLevel.isBndDof (S.rowsBefore n + i) = 0 := by simpa using hb
    have hdec : decide (d1.patchMapFromPrevLevel.isBndDof (S.rowsBefore n + i) ≠ 0) = false := by
      simpa using hb'
    obtain ⟨hlt, hmap, hsign⟩ := hs.link.int _ hr hb'
    have hpatch := hs.link.patch _ hr
    have hr0 : SubBlock.C.rowBnd = false := rfl
    by_cases hpa : d1.patchMapFromPrevLevel.patchId (S.rowsBefore n + i) = p ∧
        d1.patchMapFromPrevLevel.dofId (S.rowsBefore n + i) = a
    · have hm : d.localToGlobalBndMap (S.rowsBefore n + i)
          = d1.numGlobalBndCoeffs + (blockOffset d1.numLocalIntCoeffsPerPatch p + a) := by
        rw [hmap, hpa.1, hpa.2]
      rw [if_pos hm, if_pos ⟨hpa.1, hpa.2, by rw [hdec, hr0]⟩, hs.gather x hr', hsign,
        ← hsame, hpa.1]
      ring
    · have hm : ¬ d.localToGlobalBndMap (S.rowsBefore n + i)
          = d1.numGlobalBndCoeffs + (blockOffset d1.numLocalIntCoeffsPerPatch p + a) := by
        rw [hmap]
        intro h
        have h' := blockOffset_inj (by rw [hs.wf1.intLength]; exact hpatch) hlt hp ha
          (Nat.add_left_cancel h)
        exact hpa h'
      rw [if_neg hm, if_neg (fun h => hpa ⟨h.1, h.2.1⟩)]


/-! ### The blocks of the next level -/

theorem fillBlkMatrix_entry (nPatches : Nat) (rowSizes colSizes : List Nat)
    (mats : Nat → DNekMat) (p a b : Nat) (hp : p < nPatches) :
    (fillBlkMatrix nPatches rowSizes colSizes mats).entry p a b = (mats p).get a b := by
  unfold DNekScalBlkMat.entry DNekScalBlkMat.GetBlock
  rw [fillBlkMatrix_blocks, if_pos ⟨rfl, hp⟩]
  simp [DNekScalMat.get]

theorem fillBlkMatrix_congr (nPatches : Nat) (rowSizes colSizes : List Nat)
    (mats mats' : Nat → DNekMat) (h : ∀ p, p < nPatches → mats p = mats' p) :
    fillBlkMatrix nPatches rowSizes colSizes mats = fillBlkMatrix nPatches rowSizes colSizes mats' := by
  have h1 := fillBlkMatrix_sizes nPatches rowSizes colSizes mats
  have h2 := fillBlkMatrix_sizes nPatches rowSizes colSizes mats'
  have h3 : (fillBlkMatrix nPatches rowSizes colSizes mats).blocks
      = (fillBlkMatrix nPatches rowSizes colSizes mats').blocks := by
    funext a b
    rw [fillBlkMatrix_blocks, fillBlkMatrix_blocks]
    split_ifs with c
    · rw [h a c.2]
    · rfl
  cases hM : fillBlkMatrix nPatches rowSizes colSizes mats
  cases hM' : fillBlkMatrix nPatches rowSizes colSizes mats'
  rw [hM] at h1 h3
  rw [hM'] at h2 h3
  simp only at h1 h2 h3
  rw [h1.1, h1.2, h2.1, h2.2, h3]

theorem LevelSetup.patchMapWellFormed {d d1 : AssemblyMapData} {S : DNekScalBlkMat}
    (hs : LevelSetup d d1 S) :
    PatchMapWellFormed d1.patchMapFromPrevLevel S d1.numPatches d1.numLocalBndCoeffsPerPatch
      d1.numLocalIntCoeffsPerPatch where
  blocks := fun n hn => by
    rw [hs.numRows] at hn
    obtain ⟨B, hB, _⟩ := hs.blocks n hn
    rw [hB]
    simp
  samePatch := by
    rintro ⟨n, hn, i, j, hi, hj, hne⟩
    exact hne (hs.same hn hi hj)
  patch := fun n i hn hi => hs.link.patch _ (hs.row_lt hn hi)
  bnd := fun n i hn hi hb => (hs.link.bnd _ (hs.row_lt hn hi) hb).1
  int := fun n i hn hi hb => (hs.link.int _ (hs.row_lt hn hi) hb).1

/-- After the scatter loop, the entries of the patch matrices kept in full
storage are the reference sums. -/
theorem scatter_reference_full {d d1 : AssemblyMapData} {S : DNekScalBlkMat}
    (hs : LevelSetup d d1 S) (st : MatrixStorage) (r : Nat × SubstructuredMat)
    (hr : scatterLoop d1.patchMapFromPrevLevel st S
      (allocateSubstructuredMat d1.numPatches d1.numLocalBndCoeffsPerPatch
        d1.numLocalIntCoeffsPerPatch st) = .ok r)
    (X : SubBlock) (hX : X = .D → st = .eFULL) (p a b : Nat) (hp : p < d1.numPatches)
    (ha : a < (d1.patchCounts X.rowBnd).getD p 0) :
    (r.2.block X p).get a b = scatterReference d1.patchMapFromPrevLevel S X p a b := by
  obtain ⟨r', hr', _, hv⟩ := scatterLoop_reference d1.patchMapFromPrevLevel S d1.numPatches
    d1.numLocalBndCoeffsPerPatch d1.numLocalIntCoeffsPerPatch st hs.patchMapWellFormed
  rw [hr] at hr'
  simp only [Except.ok.injEq] at hr'
  subst hr'
  exact hv X p a b hp ha hX

theorem isReference_fill {d1 : AssemblyMapData} {S : DNekScalBlkMat} (X : SubBlock)
    (mats : Nat → DNekMat)
    (hv : ∀ p a b, p < d1.numPatches → a < (d1.patchCounts X.rowBnd).getD p 0 →
      b < (d1.patchCounts X.colBnd).getD p 0 →
      (mats p).get a b = scatterReference d1.patchMapFromPrevLevel S X p a b) :
    IsReference d1 S X
      (fillBlkMatrix d1.numPatches (d1.patchCounts X.rowBnd) (d1.patchCounts X.colBnd) mats) where
  rows := (fillBlkMatrix_sizes _ _ _ _).1
  cols := (fillBlkMatrix_sizes _ _ _ _).2
  entry := fun p a b hp ha hb => by
    rw [fillBlkMatrix_entry _ _ _ _ _ _ _ hp]
    exact hv p a b hp ha hb


/-! ### Symmetric storage of `D` -/

theorem packed_succ (b : Nat) : (b + 1) * (b + 1 + 1) / 2 = b * (b + 1) / 2 + (b + 1) := by
  have : (b + 1) * (b + 1 + 1) = b * (b + 1) + 2 * (b + 1) := by ring
  rw [this, Nat.add_mul_div_left _ _ (by norm_num : 0 < 2)]

theorem packed_mono {b e : Nat} (h : b ≤ e) : b * (b + 1) / 2 ≤ e * (e + 1) / 2 :=
  Nat.div_le_div_right (Nat.mul_le_mul h (Nat.succ_le_succ h))

/-- The packed index of the upper triangle is one to one. -/
theorem packed_inj {a b c e : Nat} (hab : a ≤ b) (hce : c ≤ e)
    (h : a + b * (b + 1) / 2 = c + e * (e + 1) / 2) : a = c ∧ b = e := by
  have hbe : b = e := by
    rcases Nat.lt_trichotomy b e with hlt | heq | hgt
    · have := packed_mono (show b + 1 ≤ e from hlt)
      rw [packed_succ] at this
      omega
    · exact heq
    · have := packed_mono (show e + 1 ≤ b from hgt)
      rw [packed_succ] at this
      omega
  subst hbe
  exact ⟨by omega, rfl⟩

theorem get_symm (M : DNekMat) (h : M.storage = .eSYMMETRIC) (i j : Nat) :
    M.get i j = M.get j i := by
  unfold DNekMat.get DNekMat.CalculateIndex
  rw [h]
  simp only
  by_cases h1 : i ≤ j
  · by_cases h2 : j ≤ i
    · have : i = j := by omega
      subst this
      rfl
    · rw [if_pos h1, if_neg h2]
  · have h2 : j ≤ i := by omega
    rw [if_neg h1, if_pos h2]

theorem transpose_rowBnd (X : SubBlock) : X.transpose.rowBnd = X.colBnd := by
  cases X <;> rfl

theorem transpose_colBnd (X : SubBlock) : X.transpose.colBnd = X.rowBnd := by
  cases X <;> rfl

/-- With symmetric previous-level blocks, the reference sum of a kind of
patch matrix is that of the transposed kind at the exchanged position. -/
theorem reference_transpose {d d1 : AssemblyMapData} {S : DNekScalBlkMat}
    (hs : LevelSetup d d1 S) (hsym : S.Symmetric) (X : SubBlock) (p a b : Nat) :
    scatterReference d1.patchMapFromPrevLevel S X p a b =
      scatterReference d1.patchMapFromPrevLevel S X.transpose p b a := by
  unfold scatterReference
  apply Finset.sum_congr rfl
  intro n hn
  rw [Finset.sum_comm]
  apply Finset.sum_congr rfl
  intro j hj
  apply Finset.sum_congr rfl
  intro i hi
  have hn' := Finset.mem_range.mp hn
  have hi' := Finset.mem_range.mp hi
  have hj' := Finset.mem_range.mp hj
  have hsame := hs.same hn' hi' hj'
  rw [transpose_rowBnd, transpose_colBnd, hsym n i j hi' hj']
  by_cases hc : d1.patchMapFromPrevLevel.patchId (S.rowsBefore n + i) = p ∧
      d1.patchMapFromPrevLevel.dofId (S.rowsBefore n + i) = a ∧
      d1.patchMapFromPrevLevel.dofId (S.rowsBefore n + j) = b ∧
      decide (d1.patchMapFromPrevLevel.isBndDof (S.rowsBefore n + i) ≠ 0) = X.rowBnd ∧
      decide (d1.patchMapFromPrevLevel.isBndDof (S.rowsBefore n + j) ≠ 0) = X.colBnd
  · rw [if_pos hc, if_pos ⟨by rw [← hsame]; exact hc.1, hc.2.2.1, hc.2.1, hc.2.2.2.2,
      hc.2.2.2.1⟩]
    ring
  · rw [if_neg hc, if_neg (fun h => hc ⟨by rw [hsame]; exact h.1, h.2.2.1, h.2.1, h.2.2.2.2,
      h.2.2.2.1⟩)]

/-- After the scatter loop in symmetric mode, with symmetric previous-level
blocks, the entries of `D` read through the symmetric layout are the
reference sums. -/
theorem scatter_reference_sym {d d1 : AssemblyMapData} {S : DNekScalBlkMat}
    (hs : LevelSetup d d1 S) (hsym : S.Symmetric) (r : Nat × SubstructuredMat)
    (hr : scatterLoop d1.patchMapFromPrevLevel .eSYMMETRIC S
      (allocateSubstructuredMat d1.numPatches d1.numLocalBndCoeffsPerPatch
        d1.numLocalIntCoeffsPerPatch .eSYMMETRIC) = .ok r)
    (p a b : Nat) :
    (r.2.block .D p).get a b = scatterReference d1.patchMapFromPrevLevel S .D p a b := by
  have hwf := hs.patchMapWellFormed
  obtain ⟨r', hr', _, hd, hv⟩ := scatterLoop_ok d1.patchMapFromPrevLevel .eSYMMETRIC S
    (allocateSubstructuredMat d1.numPatches d1.numLocalBndCoeffsPerPatch
      d1.numLocalIntCoeffsPerPatch .eSYMMETRIC)
    (fun Y q hY => allocate_storage_full _ _ _ _ _ _ hY) hwf.blocks hwf.samePatch
  rw [hr] at hr'
  simp only [Except.ok.injEq] at hr'
  subst hr'
  have hst : (r.2.block .D p).storage = .eSYMMETRIC := by
    rw [(hd .D p).2.2, allocate_storage_D]
  have hst0 : ((allocateSubstructuredMat d1.numPatches d1.numLocalBndCoeffsPerPatch
      d1.numLocalIntCoeffsPerPatch .eSYMMETRIC).block .D p).storage = .eSYMMETRIC :=
    allocate_storage_D _ _ _ _ _
  have hupper : ∀ a b, a ≤ b →
      (r.2.block .D p).get a b = scatterReference d1.patchMapFromPrevLevel S .D p a b := by
    intro a b hab
    unfold DNekMat.get DNekMat.CalculateIndex
    rw [hst]
    simp only
    rw [if_pos hab, hv, allocate_data, zero_add]
    unfold scatterReference
    apply Finset.sum_congr rfl
    intro n _
    apply Finset.sum_congr rfl
    intro i _
    apply Finset.sum_congr rfl
    intro j _
    unfold scatterContribution DNekMat.CalculateIndex
    rw [hst0]
    simp only
    apply if_congr _ rfl rfl
    constructor
    · rintro ⟨h1, h2, h3, h4, h5⟩
      have hle : d1.patchMapFromPrevLevel.dofId (S.rowsBefore n + i) ≤
          d1.patchMapFromPrevLevel.dofId (S.rowsBefore n + j) := by simpa using h4
      rw [if_pos hle] at h5
      have := packed_inj hab hle h5
      exact ⟨h1, this.1.symm, this.2.symm, h2, h3⟩
    · rintro ⟨h1, h2, h3, h4, h5⟩
      refine ⟨h1, h4, h5, fun _ _ => by rw [h2, h3]; exact hab, ?_⟩
      rw [h2, h3, if_pos hab]
  by_cases hab : a ≤ b
  · exact hupper a b hab
  · rw [get_symm _ hst, hupper b a (by omega), reference_transpose hs hsym .D p b a]
    rfl


/-- After the scatter loop the entries of every patch matrix are the
reference sums: in full storage always, and for `D` in symmetric storage when
the previous-level blocks are symmetric. -/
theorem scatter_reference_all {d d1 : AssemblyMapData} {S : DNekScalBlkMat}
    (hs : LevelSetup d d1 S) (mt : MatrixType)
    (hsym : storageTypeD mt = .eSYMMETRIC → S.Symmetric) (r : Nat × SubstructuredMat)
    (hr : scatterLoop d1.patchMapFromPrevLevel (storageTypeD mt) S
      (allocateSubstructuredMat d1.numPatches d1.numLocalBndCoeffsPerPatch
        d1.numLocalIntCoeffsPerPatch (storageTypeD mt)) = .ok r)
    (X : SubBlock) (p a b : Nat) (hp : p < d1.numPatches)
    (ha : a < (d1.patchCounts X.rowBnd).getD p 0) :
    (r.2.block X p).get a b = scatterReference d1.patchMapFromPrevLevel S X p a b := by
  by_cases hD : X = .D
  · cases hst : storageTypeD mt with
    | eFULL =>
      rw [hst] at hr
      exact scatter_reference_full hs .eFULL r hr X (fun _ => rfl) p a b hp ha
    | eSYMMETRIC =>
      rw [hst] at hr
      subst hD
      exact scatter_reference_sym hs (hsym hst) r hr p a b
  · exact scatter_reference_full hs _ r hr X (fun h => absurd h hD) p a b hp ha

theorem scalGet_one (M : DNekMat) (i j : Nat) : (⟨1, M⟩ : DNekScalMat).get i j = M.get i j := by
  simp [DNekScalMat.get]

/-- The matrices of the next level are the static condensation of the
reference blocks, fit the map of the next level, and the new Schur complement
has every block set. -/
theorem next_level_condensed (Invert : DNekMat → Option DNekMat) (mt : MatrixType)
    {d d1 : AssemblyMapData} {S : DNekScalBlkMat} (hInv : InvertSpec Invert)
    (hs : LevelSetup d d1 S) (hsym : storageTypeD mt = .eSYMMETRIC → S.Symmetric)
    (blk : BlkMatrices)
    (hb : ConstructNextLevelCondensedSystem_blkMatrices Invert mt (some S) d1 = .ok blk) :
    ∃ A1 B1 D1 : DNekScalBlkMat,
      IsReference d1 S .A A1 ∧ IsReference d1 S .B B1 ∧ IsReference d1 S .C blk.C ∧
      IsReference d1 S .D D1 ∧
      CondensedFrom ⟨some blk.schurCompl, blk.BinvD, blk.C, blk.invD, zeroArray⟩
        blk.schurCompl A1 B1 D1 d1 ∧
      Members.Fits ⟨some blk.schurCompl, blk.BinvD, blk.C, blk.invD, zeroArray⟩
        blk.schurCompl d1 ∧
      blk.schurCompl.BlocksSet d1.numLocalBndCoeffsPerPatch ∧
      (∀ n, ¬ n < d1.numPatches → blk.schurCompl.blockRows n = 0) ∧
      (storageTypeD mt = .eSYMMETRIC → ∀ n k l, blk.invD.entry n k l = blk.invD.entry n l k) := by
  obtain ⟨S', r, s2, hS', hr, hs2, hblk⟩ := blkMatrices_inv _ _ _ _ _ hb
  simp only [Option.some.injEq] at hS'
  subst hS'
  have hd := scatterLoop_dims _ _ _ _ _ hr
  have href := scatter_reference_all hs mt hsym r hr
  have hspec := condenseLoop_spec Invert _ _ r.2 s2 hs2
  have hC : ∀ p, s2.C p = r.2.C p := by
    intro p
    by_cases hc : p < d1.numPatches ∧ d1.numLocalIntCoeffsPerPatch.getD p 0 ≠ 0
    · obtain ⟨_, _, _, _, h, _⟩ := (hspec p).1 hc
      exact h
    · exact ((hspec p).2 hc).2.2.1
  have hblkC : blk.C = fillBlkMatrix d1.numPatches d1.numLocalIntCoeffsPerPatch
      d1.numLocalBndCoeffsPerPatch r.2.C := by
    rw [hblk]
    exact fillBlkMatrix_congr _ _ _ _ _ (fun p _ => hC p)
  have hSchur : blk.schurCompl = fillBlkMatrix d1.numPatches d1.numLocalBndCoeffsPerPatch
      d1.numLocalBndCoeffsPerPatch s2.A := by rw [hblk]
  have hBinvD : blk.BinvD = fillBlkMatrix d1.numPatches d1.numLocalBndCoeffsPerPatch
      d1.numLocalIntCoeffsPerPatch s2.B := by rw [hblk]
  have hinvD : blk.invD = fillBlkMatrix d1.numPatches d1.numLocalIntCoeffsPerPatch
      d1.numLocalIntCoeffsPerPatch s2.D := by rw [hblk]
  have hInvDims : ∀ M R, Invert M = some R → R.rows = M.rows ∧ R.cols = M.cols :=
    fun M R h => ⟨(hInv M R h).1, (hInv M R h).2.1⟩
  refine ⟨fillBlkMatrix d1.numPatches d1.numLocalBndCoeffsPerPatch
      d1.numLocalBndCoeffsPerPatch r.2.A,
    fillBlkMatrix d1.numPatches d1.numLocalBndCoeffsPerPatch
      d1.numLocalIntCoeffsPerPatch r.2.B,
    fillBlkMatrix d1.numPatches d1.numLocalIntCoeffsPerPatch
      d1.numLocalIntCoeffsPerPatch r.2.D, ?_, ?_, ?_, ?_, ?_, ?_, ?_, ?_, ?_⟩
  · exact isReference_fill .A r.2.A (fun p a b hp ha _ => href .A p a b hp ha)
  · exact isReference_fill .B r.2.B (fun p a b hp ha _ => href .B p a b hp ha)
  · rw [hblkC]
    exact isReference_fill .C r.2.C (fun p a b hp ha _ => href .C p a b hp ha)
  · exact isReference_fill .D r.2.D (fun p a b hp ha _ => href .D p a b hp ha)
  · refine ⟨(fillBlkMatrix_sizes _ _ _ _).1, (fillBlkMatrix_sizes _ _ _ _).2,
      (fillBlkMatrix_sizes _ _ _ _).1, (fillBlkMatrix_sizes _ _ _ _).2,
      (fillBlkMatrix_sizes _ _ _ _).1, (fillBlkMatrix_sizes _ _ _ _).2, ?_, ?_, ?_⟩
    · intro n i j hn hi hj
      have hint : d1.numLocalIntCoeffsPerPatch.getD n 0 ≠ 0 := by omega
      obtain ⟨invD, BinvD, Schur, _, _, hB, _, hD, hBv, _⟩ :=
        blkMatrices_blocks Invert mt S d1 r blk hInvDims hr hb n hn hint
      show blk.BinvD.entry n i j = ∑ k in Finset.range _, _ * blk.invD.entry n k j
      rw [entry_of_some _ _ _ hB, entry_of_some _ _ _ hD, scalGet_one, hBv i j hi hj]
      apply Finset.sum_congr rfl
      intro k _
      rw [fillBlkMatrix_entry _ _ _ _ _ _ _ hn, scalGet_one]
    · intro n i j hn hi hj
      show blk.schurCompl.entry n i j = _ - ∑ k in Finset.range _,
        blk.BinvD.entry n i k * blk.C.entry n k j
      by_cases hint : d1.numLocalIntCoeffsPerPatch.getD n 0 ≠ 0
      · obtain ⟨invD, BinvD, Schur, _, hS, hB, hCb, _, _, hSv⟩ :=
          blkMatrices_blocks Invert mt S d1 r blk hInvDims hr hb n hn hint
        rw [entry_of_some _ _ _ hS, entry_of_some _ _ _ hB, entry_of_some _ _ _ hCb,
          scalGet_one, hSv i j hi hj, fillBlkMatrix_entry _ _ _ _ _ _ _ hn]
        congr 1
        apply Finset.sum_congr rfl
        intro k _
        rw [scalGet_one, scalGet_one]
      · have h0 : d1.numLocalIntCoeffsPerPatch.getD n 0 = 0 := by omega
        have hA := ((hspec n).2 (fun h => hint h.2)).1
        rw [h0, Finset.sum_range_zero, sub_zero, hSchur, fillBlkMatrix_entry _ _ _ _ _ _ _ hn,
          fillBlkMatrix_entry _ _ _ _ _ _ _ hn, hA]
    · intro n i j hn hi hj
      have hint : d1.numLocalIntCoeffsPerPatch.getD n 0 ≠ 0 := by omega
      obtain ⟨invD, hinv, _, _, _, hD2⟩ := (hspec n).1 ⟨hn, hint⟩
      obtain ⟨_, _, _, dD⟩ := SameDims_allocate _ _ _ _ _ hd n hn
      have hI := (hInv _ _ hinv).2.2.2 i j (by rw [dD.1]; exact hi) (by rw [dD.1]; exact hj)
      rw [dD.2.1] at hI
      rw [← hI]
      apply Finset.sum_congr rfl
      intro k _
      show _ * blk.invD.entry n k j = _
      rw [hinvD, fillBlkMatrix_entry _ _ _ _ _ _ _ hn, fillBlkMatrix_entry _ _ _ _ _ _ _ hn, hD2]
  · rw [hblk]
    exact ⟨(fillBlkMatrix_sizes _ _ _ _).1, (fillBlkMatrix_sizes _ _ _ _).2,
      (fillBlkMatrix_sizes _ _ _ _).1, (fillBlkMatrix_sizes _ _ _ _).2,
      (fillBlkMatrix_sizes _ _ _ _).1, (fillBlkMatrix_sizes _ _ _ _).2,
      (fillBlkMatrix_sizes _ _ _ _).1, (fillBlkMatrix_sizes _ _ _ _).2⟩
  · intro n hn
    have hn' : n < d1.numPatches := by rw [← hs.wf1.bndLength]; exact hn
    obtain ⟨dA, _, _, _⟩ := SameDims_allocate _ _ _ _ _ hd n hn'
    refine ⟨⟨1, s2.A n⟩, ?_, ?_⟩
    · rw [hSchur]
      unfold DNekScalBlkMat.GetBlock
      rw [fillBlkMatrix_blocks, if_pos ⟨rfl, hn'⟩]
    · show (s2.A n).rows = _
      by_cases hc : n < d1.numPatches ∧ d1.numLocalIntCoeffsPerPatch.getD n 0 ≠ 0
      · obtain ⟨invD, _, hA, _⟩ := (hspec n).1 hc
        rw [hA]
        exact dA.1
      · rw [((hspec n).2 hc).1]
        exact dA.1
  · intro n hn
    rw [hSchur]
    unfold DNekScalBlkMat.blockRows DNekScalBlkMat.GetBlock
    rw [fillBlkMatrix_blocks, if_neg (fun h => hn h.2)]
  · intro hst n k l
    rw [hinvD]
    by_cases hn : n < d1.numPatches
    · rw [fillBlkMatrix_entry _ _ _ _ _ _ _ hn, fillBlkMatrix_entry _ _ _ _ _ _ _ hn]
      obtain ⟨_, _, _, dD⟩ := SameDims_allocate _ _ _ _ _ hd n hn
      apply get_symm
      by_cases hc : n < d1.numPatches ∧ d1.numLocalIntCoeffsPerPatch.getD n 0 ≠ 0
      · obtain ⟨invD, hinv, _, _, _, hD2⟩ := (hspec n).1 hc
        rw [hD2, (hInv _ _ hinv).2.2.1, dD.2.2, hst]
      · rw [((hspec n).2 hc).2.2.2, dD.2.2, hst]
    · unfold DNekScalBlkMat.entry DNekScalBlkMat.GetBlock
      rw [fillBlkMatrix_blocks, if_neg (fun h => hn h.2)]

/-- Symmetric storage of `D` keeps the Schur complement of the next level
symmetric when that of this level is. -/
theorem next_level_symmetric (Invert : DNekMat → Option DNekMat) (mt : MatrixType)
    {d d1 : AssemblyMapData} {S : DNekScalBlkMat} (hInv : InvertSpec Invert)
    (hs : LevelSetup d d1 S) (hst : storageTypeD mt = .eSYMMETRIC) (hsym : S.Symmetric)
    (blk : BlkMatrices)
    (hb : ConstructNextLevelCondensedSystem_blkMatrices Invert mt (some S) d1 = .ok blk) :
    blk.schurCompl.Symmetric := by
  obtain ⟨A1, B1, D1, hA, hB, hC, _, hcf, _, hset, hout, hinvsym⟩ :=
    next_level_condensed Invert mt hInv hs (fun _ => hsym) blk hb
  have hv := hinvsym hst
  intro n i j hi hj
  by_cases hn : n < d1.numPatches
  · have hrows := BlocksSet_blockRows _ _ hset n (by rw [hs.wf1.bndLength]; exact hn)
    rw [hrows] at hi hj
    have e1 := hcf.schur n i j hn hi hj
    have e2 := hcf.schur n j i hn hj hi
    simp only at e1 e2
    rw [e1, e2]
    have hAA : A1.entry n i j = A1.entry n j i := by
      rw [hA.entry n i j hn hi hj, hA.entry n j i hn hj hi,
        reference_transpose hs hsym .A n i j]
      rfl
    have hCB : ∀ k, k < d1.numLocalIntCoeffsPerPatch.getD n 0 → ∀ a,
        a < d1.numLocalBndCoeffsPerPatch.getD n 0 → blk.C.entry n k a = B1.entry n a k := by
      intro k hk a ha
      rw [hC.entry n k a hn hk ha, hB.entry n a k hn ha hk,
        reference_transpose hs hsym .C n k a]
      rfl
    rw [hAA]
    congr 1
    have expand : ∀ a b, a < d1.numLocalBndCoeffsPerPatch.getD n 0 →
        b < d1.numLocalBndCoeffsPerPatch.getD n 0 →
        ∑ k in Finset.range (d1.numLocalIntCoeffsPerPatch.getD n 0),
          blk.BinvD.entry n a k * blk.C.entry n k b =
        ∑ k in Finset.range (d1.numLocalIntCoeffsPerPatch.getD n 0),
          ∑ l in Finset.range (d1.numLocalIntCoeffsPerPatch.getD n 0),
            B1.entry n a l * blk.invD.entry n l k * B1.entry n b k := by
      intro a b ha hb'
      apply Finset.sum_congr rfl
      intro k hk
      have hk' := Finset.mem_range.mp hk
      have e3 := hcf.binvD n a k hn ha hk'
      simp only at e3
      rw [e3, hCB k hk' b hb', Finset.sum_mul]
    rw [expand i j hi hj, expand j i hj hi, Finset.sum_comm]
    apply Finset.sum_congr rfl
    intro l _
    apply Finset.sum_congr rfl
    intro k _
    rw [hv n k l]
    ring
  · rw [hout n hn] at hi
    omega


/-! ### The condensed equations through the levels -/

/-- The homogeneous boundary forcing handed to the next level, no Dirichlet
forcing being supplied. -/
theorem forward_forcing_nonterminal (vt : Virtuals) (m : Members) (d : AssemblyMapData)
    (S : DNekScalBlkMat) (inp out w0 w5 : NekArray) (hwf : d.WellFormed) (hfit : m.Fits S d)
    (hnone : m.m_schurCompl = none) (hid : IdentityTransforms vt)
    (h5 : v_Solve_forward vt m d false false out (v_Solve_fillF d inp [] w0) = some w5)
    (k : Nat) (hk : k < d.nGlobHomBndDofs) :
    w5 (d.offF + (d.numGlobalDirBndCoeffs + k)) =
      inp (d.numGlobalDirBndCoeffs + k)
        - d.AssembleBnd (m.m_BinvD.mulVec (view inp d.numGlobalBndCoeffs))
            (d.numGlobalDirBndCoeffs + k) := by
  have hhom : d.nGlobHomBndDofs = d.numGlobalBndCoeffs - d.numGlobalDirBndCoeffs := rfl
  have hint : d.nIntDofs = d.numGlobalCoeffs - d.numGlobalBndCoeffs := rfl
  have hle := hwf.bndLe
  have hdir := hwf.dirLe
  have := v_Solve_forward_FHomBnd vt m d false false out _ w5 h5
    (by rw [hfit.binvDCols, hwf.intSum]) (fun S' hS' => by rw [hnone] at hS'; cases hS')
    hid.1 k hk
  rw [← Nat.add_assoc, this, Nat.add_assoc, v_Solve_fillF_F_nil _ _ _ _ (by omega)]
  unfold AssemblyMapData.AssembleBndOffset
  rw [view_apply]
  congr 1
  apply AssembleBnd_congr
  intro i _
  simp only [Bool.false_eq_true, and_false, if_false, add_zero]
  apply mulVec_congr
  intro j hj
  rw [hfit.binvDCols, hwf.intSum] at hj
  rw [view_apply, view_apply, Nat.add_assoc, v_Solve_fillF_F_nil _ _ _ _ (by omega)]

theorem Fits_setWsp (m : Members) (S : DNekScalBlkMat) (d : AssemblyMapData)
    (sc : Option DNekScalBlkMat) (w : NekArray) (h : m.Fits S d) :
    Members.Fits { m with m_wsp := w, m_schurCompl := sc } S d :=
  ⟨h.schurRows, h.schurCols, h.binvDRows, h.binvDCols, h.cRows, h.cCols, h.invDRows,
    h.invDCols⟩

/-- Through a chain of levels built by `v_Initialise`, a `v_Solve` call
without Dirichlet forcing returns a solution of the condensed equations of
the first level. -/
theorem multilevel_condensed (Invert : DNekMat → Option DNekMat) (mt : MatrixType)
    (vt : Virtuals) (hInv : InvertSpec Invert) (hid : IdentityTransforms vt)
    (map : AssemblyMap) (m : Members) (S : DNekScalBlkMat) (H : GlobalLinSysStaticCond)
    (hS : m.m_schurCompl = some S) (hwf : map.LevelsWellFormed) (hlink : map.Linked)
    (hfit : m.Fits S map.d) (hset : S.BlocksSet map.d.numLocalBndCoeffsPerPatch)
    (hsym : storageTypeD mt = .eSYMMETRIC → S.Symmetric)
    (hinit : v_Initialise Invert mt m map = .ok H)
    (hex : ∀ St, H.terminalSchur = some St → ExactSolver vt St map.lastData)
    (inp out : NekArray) :
    ∃ H' x, H.v_Solve vt inp out map [] = some (H', x) ∧
      CondensedEquations map.d S m.m_BinvD m.m_C m.m_invD inp out x := by
  induction map generalizing m S H inp out with
  | last d =>
    rw [v_Initialise] at hinit
    simp only [Except.ok.injEq] at hinit
    subst hinit
    obtain ⟨H', x, h⟩ := v_Solve_returns vt (.terminal { m with m_wsp := zeroArray }) inp out
      (.last d) [] (by
        show m.m_schurCompl ≠ none
        rw [hS]; simp)
    exact ⟨H', x, h, terminal_condensed vt _ H' inp out x d S h hS hwf
      (Fits_setWsp m S d m.m_schurCompl zeroArray hfit) hid (hex S hS)⟩
  | level d next ih =>
    obtain ⟨blk, child, hb, hc, rfl⟩ := v_Initialise_level Invert mt m d next H hinit
    rw [hS] at hb
    have hwf0 : d.WellFormed := hwf.1
    have hwf1 : next.d.WellFormed := LevelsWellFormed_d next hwf.2
    have hs : LevelSetup d next.d S :=
      ⟨hwf0, hwf1, hlink.1, hfit.schurRows, hfit.schurCols, hset⟩
    obtain ⟨A1, B1, D1, hA, hB, hC, hD, hcf, hfit1, hset1, _, _⟩ :=
      next_level_condensed Invert mt hInv hs hsym blk hb
    have hsym1 : storageTypeD mt = .eSYMMETRIC → blk.schurCompl.Symmetric :=
      fun hst => next_level_symmetric Invert mt hInv hs hst (hsym hst) blk hb
    have hfit' := Fits_setWsp m S d none zeroArray hfit
    have hhom : d.nGlobHomBndDofs = d.numGlobalBndCoeffs - d.numGlobalDirBndCoeffs := rfl
    have hhom1 : next.d.nGlobHomBndDofs
        = next.d.numGlobalBndCoeffs - next.d.numGlobalDirBndCoeffs := rfl
    have hint1 : next.d.nIntDofs = next.d.numGlobalCoeffs - next.d.numGlobalBndCoeffs := rfl
    have hdfc : dirForcCalculated [] = false := rfl
    rw [v_Solve_level_recursive, hdfc]
    by_cases hHom : d.nGlobHomBndDofs ≠ 0
    · rw [if_pos hHom]
      obtain ⟨w5, h5⟩ := v_Solve_forward_isSome vt
        { m with m_wsp := zeroArray, m_schurCompl := none } d false false out
        (v_Solve_fillF d inp [] zeroArray) (fun h => by cases h)
      obtain ⟨c1, o1, hc1, hce1⟩ := ih _ blk.schurCompl child rfl hwf.2 hlink.2 hfit1 hset1
        hsym1 hc hex (view w5 d.offF) out
      obtain ⟨hdense1, hdense2⟩ := condensed_to_dense _ blk.schurCompl A1 B1 D1 next.d hwf1
        hfit1 hcf (view w5 d.offF) out o1 hce1
      simp only [h5, hc1]
      refine ⟨_, _, rfl, ?_⟩
      refine level_condensed { m with m_wsp := zeroArray, m_schurCompl := none } d S inp out
        o1 w5 hwf0 hfit' ?_ ?_ ?_
      · intro k hk
        exact v_Solve_forward_FInt vt _ d false false out _ w5 h5
          (fun sc F n k _ => by rw [hid.1]) k hk
      · intro g hg
        exact hce1.1 g (by rw [hlink.1.dirCoeffs]; exact hg)
      · intro k hk
        rw [← forward_forcing_nonterminal vt _ d S inp out zeroArray w5 hwf0 hfit' rfl hid h5
          k hk]
        have hgc := hlink.1.globalCoeffs
        have hdc := hlink.1.dirCoeffs
        have hle1 := hwf1.bndLe
        have hdir1 := hwf1.dirLe
        by_cases hg : d.numGlobalDirBndCoeffs + k < next.d.numGlobalBndCoeffs
        · rw [level_consistency_bnd hs A1 B1 hA hB o1 _ hg]
          have := hdense1 k (by omega)
          rw [hdc] at this
          rw [this, view_apply]
        · have e : d.numGlobalDirBndCoeffs + k = next.d.numGlobalBndCoeffs
              + (d.numGlobalDirBndCoeffs + k - next.d.numGlobalBndCoeffs) := by omega
          have := hdense2 (d.numGlobalDirBndCoeffs + k - next.d.numGlobalBndCoeffs) (by omega)
          rw [e, level_consistency_int hs blk.C D1 hC hD o1 _ (by omega)]
          rw [this, view_apply]
    · rw [if_neg hHom]
      refine ⟨_, _, rfl, ?_⟩
      refine level_condensed { m with m_wsp := zeroArray, m_schurCompl := none } d S inp out
        out _ hwf0 hfit' (fun _ _ => rfl) (fun _ _ => rfl) ?_
      intro k hk
      omega


/-- Depth invariance without Dirichlet forcing: the multi-level and the
one-level chain of the same leaf system return the same vector. -/
theorem depth_invariance (Invert : DNekMat → Option DNekMat) (mt : MatrixType)
    (vt : Virtuals) (map : AssemblyMap) (m0 : Members) (S0 : DNekScalBlkMat)
    (Hm : GlobalLinSysStaticCond) (inp out : NekArray)
    (hInv : InvertSpec Invert) (hid : IdentityTransforms vt)
    (hS : m0.m_schurCompl = some S0) (hwf : map.LevelsWellFormed) (hlink : map.Linked)
    (hfit : m0.Fits S0 map.d) (hset : S0.BlocksSet map.d.numLocalBndCoeffsPerPatch)
    (hsym : storageTypeD mt = .eSYMMETRIC → S0.Symmetric)
    (hinit : v_Initialise Invert mt m0 map = .ok Hm)
    (hexM : ∀ St, Hm.terminalSchur = some St → ExactSolver vt St map.lastData)
    (hex1 : ExactSolver vt S0 map.d) :
    ∃ H1 Hm' x H1' y,
      v_Initialise Invert mt m0 (.last map.d) = .ok H1 ∧
      Hm.v_Solve vt inp out map [] = some (Hm', x) ∧
      H1.v_Solve vt inp out (.last map.d) [] = some (H1', y) ∧
      ∀ g, g < map.d.numGlobalCoeffs → x g = y g := by
  have hwf0 := LevelsWellFormed_d map hwf
  obtain ⟨Hm', x, hx, hcx⟩ := multilevel_condensed Invert mt vt hInv hid map m0 S0 Hm hS hwf
    hlink hfit hset hsym hinit hexM inp out
  have hinit1 : v_Initialise Invert mt m0 (.last map.d)
      = .ok (.terminal { m0 with m_wsp := zeroArray }) := by rw [v_Initialise]
  obtain ⟨H1', y, hy, hcy⟩ := multilevel_condensed Invert mt vt hInv hid (.last map.d) m0 S0
    _ hS hwf0 trivial hfit hset hsym hinit1 (fun St hSt => by
      have : m0.m_schurCompl = some St := hSt
      rw [hS] at this
      simp only [Option.some.injEq] at this
      subst this
      exact hex1) inp out
  refine ⟨_, Hm', x, H1', y, hinit1, hx, hy, ?_⟩
  exact condensed_unique map.d S0 m0.m_BinvD m0.m_C m0.m_invD inp out x y hwf0
    (by rw [hfit.cCols, hwf0.bndSum])
    (exact_injective vt S0 map.d hwf0 (by rw [hfit.schurCols, hwf0.bndSum]) hex1) hcx hcy

/-- C4 (amended): depth invariance, in exact arithmetic, for calls without
Dirichlet forcing.  For every leaf-level system that fits a chain of
well-formed, linked maps (every Schur block set, and symmetric when the
matrix type is one whose `D` is stored symmetrically), and every right-hand
side and `out`: when `v_Initialise` has built the multi-level chain (every
`D` block having been inverted by an inversion routine that returns the
inverse), the basis transforms are the identity and the terminal solvers of
the multi-level and of the one-level chain are exact, the `v_Solve` calls
through the multi-level chain and through the one-level chain of the same
leaf system, with no Dirichlet forcing supplied, both return, and return
the same vector. -/
theorem v_Solve_depth_invariance (Invert : DNekMat → Option DNekMat) (mt : MatrixType)
    (vt : Virtuals) (map : AssemblyMap) (m0 : Members) (S0 : DNekScalBlkMat)
    (Hm : GlobalLinSysStaticCond) (inp out : NekArray)
    (hInv : InvertSpec Invert) (hid : IdentityTransforms vt)
    (hS : m0.m_schurCompl = some S0) (hwf : map.LevelsWellFormed) (hlink : map.Linked)
    (hfit : m0.Fits S0 map.d) (hset : S0.BlocksSet map.d.numLocalBndCoeffsPerPatch)
    (hsym : storageTypeD mt = .eSYMMETRIC → S0.Symmetric)
    (hinit : v_Initialise Invert mt m0 map = .ok Hm)
    (hexM : ∀ St, Hm.terminalSchur = some St → ExactSolver vt St map.lastData)
    (hex1 : ExactSolver vt S0 map.d) :
    ∃ H1 Hm' x H1' y,
      v_Initialise Invert mt m0 (.last map.d) = .ok H1 ∧
      Hm.v_Solve vt inp out map [] = some (Hm', x) ∧
      H1.v_Solve vt inp out (.last map.d) [] = some (H1', y) ∧
      ∀ g, g < map.d.numGlobalCoeffs → x g = y g :=
  depth_invariance Invert mt vt map m0 S0 Hm inp out hInv hid hS hwf hlink hfit hset hsym hinit
    hexM hex1


/-! ### The two-level example -/

theorem invertOneByOne_spec : InvertSpec invertOneByOne := by
  intro M R h
  unfold invertOneByOne at h
  split_ifs at h with hc
  injection h with h
  subst h
  refine ⟨hc.1.symm, hc.2.1.symm, rfl, ?_⟩
  intro i j hi hj
  rw [hc.1] at hi hj
  have hi0 : i = 0 := by omega
  have hj0 : j = 0 := by omega
  subst hi0 hj0
  rw [hc.2.1]
  have h0 : M.CalculateIndex 0 0 = 0 := by
    unfold DNekMat.CalculateIndex
    cases M.storage <;> simp
  simp only [Finset.sum_range_one, DNekMat.get, h0, if_true]
  exact mul_inv_cancel₀ hc.2.2

theorem ex2_link : LevelLink ex2Data0 ex2Data1 := by
  refine ⟨rfl, rfl, fun _ _ _ _ _ _ => rfl, fun _ _ => Nat.zero_lt_one, ?_, ?_⟩
  · intro r hr hb
    have hr4 : r < 4 := hr
    interval_cases r
    · refine ⟨by decide, rfl, ?_⟩
      norm_num [ex2Data0, ex2Data1, blockOffset]
    · exact absurd rfl hb
    · exact absurd rfl hb
    · refine ⟨by decide, rfl, ?_⟩
      norm_num [ex2Data0, ex2Data1, blockOffset]
  · intro r hr hb
    have hr4 : r < 4 := hr
    interval_cases r
    · exact absurd hb (by decide)
    · refine ⟨by decide, rfl, ?_⟩
      norm_num [ex2Data0, ex2Data1]
    · refine ⟨by decide, rfl, ?_⟩
      norm_num [ex2Data0, ex2Data1]
    · exact absurd hb (by decide)

theorem ex2_linked : ex2Map.Linked := ⟨ex2_link, trivial⟩

theorem ex2_blocksSet : ex2SchurCompl.BlocksSet ex2Data0.numLocalBndCoeffsPerPatch := by
  intro n hn
  have hn2 : n < 2 := hn
  refine ⟨_, ex2_GetBlock n hn2, ?_⟩
  interval_cases n <;> rfl

theorem ex2_entry (n i j : Nat) (hn : n < 2) :
    ex2SchurCompl.entry n i j = (DNekMat.ofList 2 2 [2, -1, -1, 2]).get i j := by
  rw [entry_of_some _ _ _ (ex2_GetBlock n hn), scalGet_one]

theorem ex2_mulVec (x : NekArray) (I : Nat) :
    ex2SchurCompl.mulVec x I =
      if I = 0 then 2 * x 0 - x 1 else if I = 1 then - x 0 + 2 * x 1
      else if I = 2 then 2 * x 2 - x 3 else if I = 3 then - x 2 + 2 * x 3 else 0 := by
  have hrows : ex2SchurCompl.rowSizes = [2, 2] := rfl
  have hcols : ex2SchurCompl.colSizes = [2, 2] := rfl
  by_cases h4 : I < 4
  · interval_cases I
    · rw [mulVec_of_locate _ _ _ 0 0 (by rw [hrows]; decide), hcols]
      simp [Finset.sum_range_succ, ex2_entry, DNekMat.get, DNekMat.CalculateIndex,
        DNekMat.ofList, blockOffset]
      ring
    · rw [mulVec_of_locate _ _ _ 0 1 (by rw [hrows]; decide), hcols]
      simp [Finset.sum_range_succ, ex2_entry, DNekMat.get, DNekMat.CalculateIndex,
        DNekMat.ofList, blockOffset]
    · rw [mulVec_of_locate _ _ _ 1 0 (by rw [hrows]; decide), hcols]
      simp [Finset.sum_range_succ, ex2_entry, DNekMat.get, DNekMat.CalculateIndex,
        DNekMat.ofList, blockOffset]
      ring
    · rw [mulVec_of_locate _ _ _ 1 1 (by rw [hrows]; decide), hcols]
      simp [Finset.sum_range_succ, ex2_entry, DNekMat.get, DNekMat.CalculateIndex,
        DNekMat.ofList, blockOffset]
  · have h0 : I ≠ 0 := by omega
    have h1 : I ≠ 1 := by omega
    have h2 : I ≠ 2 := by omega
    have h3 : I ≠ 3 := by omega
    have e : locate ex2SchurCompl.rowSizes I = none := by
      cases hl : locate ex2SchurCompl.rowSizes I with
      | none => rfl
      | some p =>
        obtain ⟨n, i⟩ := p
        obtain ⟨hn, hi, hI⟩ := locate_some hl
        have := blockOffset_add_lt hi
        rw [← hI] at this
        exact absurd this h4
    rw [mulVec_of_locate_none _ _ _ e]
    simp [h0, h1, h2, h3]

theorem ex2_exactSolver :
    ExactSolver (baseVirtuals oneDofSolver) ex2SchurCompl ex2Data0 := by
  intro F k hk
  have hk0 : k = 0 := by
    have : k < 1 := hk
    omega
  subst hk0
  simp [AssemblyMapData.AssembleBnd, UniversalAssembleBnd, ex2Data0, ex2_mulVec,
    AssemblyMapData.GlobalToLocalBnd, baseVirtuals, oneDofSolver, Finset.sum_range_succ]
  field_simp
  ring

theorem ex2_terminal_exact (vt : Virtuals) (St : DNekScalBlkMat) :
    ExactSolver vt St ex2Map.lastData := by
  intro F k hk
  have : k < 0 := hk
  omega


/-- Witness of C4 (amended) on the two-level example. -/
theorem v_Solve_depth_invariance_witness :
    ∃ Hm, v_Initialise invertOneByOne .eOtherMatrixType ex2Members ex2Map = .ok Hm ∧
      InvertSpec invertOneByOne ∧ IdentityTransforms (baseVirtuals oneDofSolver) ∧
      ex2Members.m_schurCompl = some ex2SchurCompl ∧ ex2Map.LevelsWellFormed ∧ ex2Map.Linked ∧
      ex2Members.Fits ex2SchurCompl ex2Map.d ∧
      ex2SchurCompl.BlocksSet ex2Map.d.numLocalBndCoeffsPerPatch ∧
      (∀ St, Hm.terminalSchur = some St →
        ExactSolver (baseVirtuals oneDofSolver) St ex2Map.lastData) ∧
      ExactSolver (baseVirtuals oneDofSolver) ex2SchurCompl ex2Map.d ∧
      ∃ H1 Hm' x H1' y,
        v_Initialise invertOneByOne .eOtherMatrixType ex2Members (.last ex2Map.d) = .ok H1 ∧
        Hm.v_Solve (baseVirtuals oneDofSolver) (fun _ => 1) zeroArray ex2Map [] = some (Hm', x) ∧
        H1.v_Solve (baseVirtuals oneDofSolver) (fun _ => 1) zeroArray (.last ex2Map.d) []
          = some (H1', y) ∧
        ∀ g, g < ex2Map.d.numGlobalCoeffs → x g = y g := by
  obtain ⟨Hm, hm⟩ := ex2_initialised
  exact ⟨Hm, hm, invertOneByOne_spec, baseVirtuals_identity oneDofSolver, rfl,
    ex2_levelsWellFormed, ex2_linked, ex2_fits, ex2_blocksSet,
    fun St _ => ex2_terminal_exact _ St, ex2_exactSolver,
    v_Solve_depth_invariance invertOneByOne .eOtherMatrixType (baseVirtuals oneDofSolver)
      ex2Map ex2Members ex2SchurCompl Hm (fun _ => 1) zeroArray invertOneByOne_spec
      (baseVirtuals_identity oneDofSolver) rfl ex2_levelsWellFormed ex2_linked ex2_fits
      ex2_blocksSet (fun h => by cases h) hm (fun St _ => ex2_terminal_exact _ St)
      ex2_exactSolver⟩


/-! ### A call with Dirichlet forcing on the two-level example -/

theorem mulVec_zero (M : DNekScalBlkMat) (x : NekArray)
    (h : ∀ k, k < M.colSizes.sum → x k = 0) (I : Nat) : M.mulVec x I = 0 := by
  rw [mulVec_congr M x (fun k => 0 * x k) (fun k hk => by rw [h k hk]; exact (zero_mul _).symm) I,
    mulVec_smul, zero_mul]

theorem AssembleBnd_zero (d : AssemblyMapData) (a : NekArray)
    (h : ∀ i, i < d.numLocalBndCoeffs → a i = 0) (g : Nat) : d.AssembleBnd a g = 0 := by
  rw [AssembleBnd_congr d a (fun i => 0 * a i) (fun i hi => by rw [h i hi]; exact (zero_mul _).symm) g,
    AssembleBnd_smul, zero_mul]

/-- With a zero right-hand side and zero Dirichlet forcing values the
homogeneous boundary forcing is zero whenever the Schur-complement term is
left out. -/
theorem forward_zero (vt : Virtuals) (m : Members) (d : AssemblyMapData) (atLast : Bool)
    (out w0 w5 : NekArray) (df : List NekDouble) (hdf : ∀ q, df.getD q 0 = 0)
    (hid : IdentityTransforms vt) (hwf : d.WellFormed)
    (hB : m.m_BinvD.colSizes.sum ≤ d.nIntDofs)
    (hS : ∀ S, m.m_schurCompl = some S → S.colSizes.sum ≤ d.numLocalBndCoeffs)
    (h5 : v_Solve_forward vt m d atLast true out (v_Solve_fillF d zeroArray df w0) = some w5)
    (k : Nat) (hk : k < d.nGlobHomBndDofs) :
    w5 (d.offF + d.numGlobalDirBndCoeffs + k) = 0 := by
  have hhom : d.nGlobHomBndDofs = d.numGlobalBndCoeffs - d.numGlobalDirBndCoeffs := rfl
  have hint : d.nIntDofs = d.numGlobalCoeffs - d.numGlobalBndCoeffs := rfl
  have hle := hwf.bndLe
  have hdir := hwf.dirLe
  have hF : ∀ q, q < d.numGlobalCoeffs → v_Solve_fillF d zeroArray df w0 (d.offF + q) = 0 := by
    intro q hq
    rw [v_Solve_fillF_F _ _ _ _ _ hq, hdf]
    simp [zeroArray]
  rw [v_Solve_forward_FHomBnd vt m d atLast true out _ w5 h5 hB hS hid.1 k hk, Nat.add_assoc,
    hF _ (by omega)]
  unfold AssemblyMapData.AssembleBndOffset
  rw [view_apply, AssembleBnd_zero, sub_zero]
  intro i _
  simp only [Bool.true_eq_false, false_and, if_false, add_zero]
  apply mulVec_zero
  intro j hj
  rw [view_apply, Nat.add_assoc]
  exact hF _ (by omega)

/-- The interior solve of a level returns zero interior entries for a zero
interior right-hand side and zero boundary entries, no Dirichlet forcing
being supplied. -/
theorem v_Solve_interior_zero (m : Members) (d : AssemblyMapData) (inp outB : NekArray)
    (hInt : d.nIntDofs ≠ 0) (hC : m.m_C.colSizes.sum ≤ d.numLocalBndCoeffs)
    (hD : m.m_invD.colSizes.sum ≤ d.nIntDofs)
    (hmap : ∀ i, i < d.numLocalBndCoeffs → d.localToGlobalBndMap i < d.numGlobalBndCoeffs)
    (hinp : ∀ q, q < d.nIntDofs → inp (d.numGlobalBndCoeffs + q) = 0)
    (hout : ∀ g, g < d.numGlobalBndCoeffs → outB g = 0) (k : Nat) (hk : k < d.nIntDofs) :
    (v_Solve_interior m d false (v_Solve_fillF d inp [] m.m_wsp) outB).2
      (d.numGlobalBndCoeffs + k) = 0 := by
  have := v_Solve_interior_rhs m d inp [] (v_Solve_fillF d inp [] m.m_wsp) outB hInt hC hD hmap
    (fun _ _ => rfl) k hk
  have hdfc : dirForcCalculated [] = false := rfl
  rw [hdfc] at this
  rw [this]
  apply mulVec_zero
  intro q hq
  rw [hinp q (by omega)]
  simp only [Bool.false_eq_true, false_and, if_false, sub_zero, zero_sub, neg_eq_zero]
  apply mulVec_zero
  intro i hi
  unfold v_Solve_interiorLocBnd
  rw [if_neg (by simp)]
  unfold AssemblyMapData.GlobalToLocalBnd
  rw [v_Solve_interior_bnd _ _ _ _ _ _ (hmap i (by omega)), hout _ (hmap i (by omega)),
    mul_zero]


theorem getD_singleton_zero (q : Nat) : ([0] : List NekDouble).getD q 0 = 0 := by
  cases q <;> simp

/-- The one-level chain of the two-level example, called with a zero
right-hand side, zero Dirichlet forcing values and the initial value `1` in
the homogeneous boundary entry of `out`: the entry comes back as `1`. -/
theorem ex2_one_level_dirForcing (H1' : GlobalLinSysStaticCond) (y : NekArray)
    (h : (GlobalLinSysStaticCond.terminal { ex2Members with m_wsp := zeroArray }).v_Solve
      (baseVirtuals oneDofSolver) zeroArray (fun k => if k = 2 then 1 else 0) (.last ex2Data0)
      [0] = some (H1', y)) : y 2 = 1 := by
  have hHom : ex2Data0.nGlobHomBndDofs ≠ 0 := by decide
  have hdfc : dirForcCalculated ([0] : List NekDouble) = true := rfl
  rw [v_Solve_last, if_pos hHom, hdfc] at h
  simp only [GlobalLinSysStaticCond.m] at h
  cases h5 : v_Solve_forward (baseVirtuals oneDofSolver) { ex2Members with m_wsp := zeroArray }
      ex2Data0 true true (fun k => if k = 2 then 1 else 0)
      (v_Solve_fillF ex2Data0 zeroArray [0] zeroArray) with
  | none => rw [h5] at h; simp at h
  | some w5 =>
    rw [h5] at h
    simp only [Option.some.injEq, Prod.mk.injEq] at h
    have hz := forward_zero (baseVirtuals oneDofSolver) { ex2Members with m_wsp := zeroArray }
      ex2Data0 true (fun k => if k = 2 then 1 else 0) zeroArray w5 [0] getD_singleton_zero
      (baseVirtuals_identity _) ex2Data0_wellFormed (by decide)
      (fun S hS => by
        have : some ex2SchurCompl = some S := hS
        simp only [Option.some.injEq] at this
        subst this
        decide) h5 0 (by decide)
    have hz' : w5 (ex2Data0.offF + 2) = 0 := hz
    have hcond : ex2Data0.numGlobalDirBndCoeffs ≤ 2 ∧ 2 < ex2Data0.numGlobalBndCoeffs :=
      ⟨by decide, by decide⟩
    have hnd : ex2Data0.numGlobalDirBndCoeffs = 2 := rfl
    rw [← h.2, v_Solve_interior_bnd _ _ _ _ _ _ (by decide),
      v_Solve_terminalBnd_eq _ _ _ _ _ (by decide) 2, if_pos hcond]
    simp [v_Solve_pert, baseVirtuals, oneDofSolver, ex2Members, hnd, hz']

/-- The two-level chain of the two-level example, called with the same
arguments: the homogeneous boundary entry of `out` comes back as `0`. -/
theorem ex2_multi_level_dirForcing (Hm Hm' : GlobalLinSysStaticCond) (x : NekArray)
    (hm : v_Initialise invertOneByOne .eOtherMatrixType ex2Members ex2Map = .ok Hm)
    (h : Hm.v_Solve (baseVirtuals oneDofSolver) zeroArray (fun k => if k = 2 then 1 else 0)
      ex2Map [0] = some (Hm', x)) : x 2 = 0 := by
  obtain ⟨blk, child, hb, hc, rfl⟩ := v_Initialise_level _ _ ex2Members ex2Data0
    (.last ex2Data1) Hm hm
  rw [v_Initialise] at hc
  simp only [Except.ok.injEq] at hc
  subst hc
  have hs : LevelSetup ex2Data0 ex2Data1 ex2SchurCompl :=
    ⟨ex2Data0_wellFormed, ex2Data1_wellFormed, ex2_link, rfl, rfl, ex2_blocksSet⟩
  obtain ⟨A1, B1, D1, _, _, _, _, _, hfit1, _, _, _⟩ :=
    next_level_condensed invertOneByOne .eOtherMatrixType invertOneByOne_spec hs
      (fun h => by cases h) blk hb
  have hHom : ex2Data0.nGlobHomBndDofs ≠ 0 := by decide
  have hHom1 : ¬ ex2Data1.nGlobHomBndDofs ≠ 0 := by decide
  have hdfc : dirForcCalculated ([0] : List NekDouble) = true := rfl
  rw [show ex2Map = .level ex2Data0 (.last ex2Data1) from rfl, v_Solve_level_recursive,
    if_pos hHom, hdfc] at h
  cases h5 : v_Solve_forward (baseVirtuals oneDofSolver)
      { ex2Members with m_wsp := zeroArray, m_schurCompl := none }
      ex2Data0 false true (fun k => if k = 2 then 1 else 0)
      (v_Solve_fillF ex2Data0 zeroArray [0] zeroArray) with
  | none => rw [h5] at h; simp at h
  | some w5 =>
    rw [h5] at h
    simp only at h
    rw [v_Solve_last, if_neg hHom1] at h
    simp only [Option.some.injEq, Prod.mk.injEq, GlobalLinSysStaticCond.m] at h
    have hz := forward_zero (baseVirtuals oneDofSolver)
      { ex2Members with m_wsp := zeroArray, m_schurCompl := none }
      ex2Data0 false (fun k => if k = 2 then 1 else 0) zeroArray w5 [0] getD_singleton_zero
      (baseVirtuals_identity _) ex2Data0_wellFormed (by decide)
      (fun S hS => by cases hS) h5 0 (by decide)
    have hz' : w5 (ex2Data0.offF + 2) = 0 := hz
    rw [← h.2, v_Solve_interior_bnd _ _ _ _ _ _ (by decide)]
    refine v_Solve_interior_zero _ ex2Data1 (view w5 ex2Data0.offF)
      (fun k => if k = 2 then 1 else 0) (by decide) ?_ ?_ ex2Data1_wellFormed.mapRange ?_ ?_ 0
      (by decide)
    · show blk.C.colSizes.sum ≤ _
      rw [hfit1.cCols, ex2Data1_wellFormed.bndSum]
    · show blk.invD.colSizes.sum ≤ _
      rw [hfit1.invDCols, ex2Data1_wellFormed.intSum]
    · intro q hq
      have hq0 : q = 0 := by
        have : q < 1 := hq
        omega
      subst hq0
      exact hz'
    · intro g hg
      have hg2 : g < 2 := hg
      simp only
      rw [if_neg (by omega)]


theorem ex2_holds (Hm : GlobalLinSysStaticCond)
    (hm : v_Initialise invertOneByOne .eOtherMatrixType ex2Members ex2Map = .ok Hm) :
    Hm.Holds ex2Map :=
  (v_Initialise_fits invertOneByOne .eOtherMatrixType ex2Map ex2Members Hm ex2_levelsWellFormed
    (Fits_FitsWorkspace ex2Members ex2SchurCompl ex2Data0 rfl ex2_fits ex2Data0_wellFormed)
    (by simp [ex2Members]) hm).2

/-- Counterexample to C4 as stated: on the two-level example, with every
proviso of the claim in force, a call that supplies Dirichlet forcing (all
values zero, as are the right-hand side and the Dirichlet entries of `out`)
and starts from the value `1` in the homogeneous boundary entry of `out`
returns `0` in that entry through the two-level chain and `1` through the
one-level chain of the same leaf system. -/
theorem v_Solve_depth_invariance_counterexample :
    ∃ Hm, v_Initialise invertOneByOne .eOtherMatrixType ex2Members ex2Map = .ok Hm ∧
      InvertSpec invertOneByOne ∧ IdentityTransforms (baseVirtuals oneDofSolver) ∧
      (∀ St, Hm.terminalSchur = some St →
        ExactSolver (baseVirtuals oneDofSolver) St ex2Map.lastData) ∧
      ExactSolver (baseVirtuals oneDofSolver) ex2SchurCompl ex2Map.d ∧
      ∃ H1 Hm' x H1' y,
        v_Initialise invertOneByOne .eOtherMatrixType ex2Members (.last ex2Map.d) = .ok H1 ∧
        Hm.v_Solve (baseVirtuals oneDofSolver) zeroArray (fun k => if k = 2 then 1 else 0)
          ex2Map [0] = some (Hm', x) ∧
        H1.v_Solve (baseVirtuals oneDofSolver) zeroArray (fun k => if k = 2 then 1 else 0)
          (.last ex2Map.d) [0] = some (H1', y) ∧
        x 2 = 0 ∧ y 2 = 1 := by
  obtain ⟨Hm, hm⟩ := ex2_initialised
  obtain ⟨Hm', x, hx⟩ := v_Solve_returns (baseVirtuals oneDofSolver) Hm zeroArray
    (fun k => if k = 2 then 1 else 0) ex2Map [0] (ex2_holds Hm hm)
  obtain ⟨H1', y, hy⟩ := v_Solve_returns (baseVirtuals oneDofSolver)
    (.terminal { ex2Members with m_wsp := zeroArray }) zeroArray
    (fun k => if k = 2 then 1 else 0) (.last ex2Data0) [0] (by
      show ex2Members.m_schurCompl ≠ none
      simp [ex2Members])
  refine ⟨Hm, hm, invertOneByOne_spec, baseVirtuals_identity oneDofSolver,
    fun St _ => ex2_terminal_exact _ St, ex2_exactSolver,
    .terminal { ex2Members with m_wsp := zeroArray }, Hm', x, H1', y, ?_, hx, hy,
    ex2_multi_level_dirForcing Hm Hm' x hm hx, ex2_one_level_dirForcing H1' y hy⟩
  rw [v_Initialise]


/-! ### The right-hand side and the storage of `D` -/

theorem rhs_split (d : AssemblyMapData) (inp : NekArray) (dirForcing : List NekDouble)
    (wsp : NekArray) (hdir : d.numGlobalDirBndCoeffs ≤ d.numGlobalBndCoeffs)
    (hbnd : d.numGlobalBndCoeffs ≤ d.numGlobalCoeffs) :
    (∀ q, q < d.numGlobalCoeffs →
      view (v_Solve_fillF d inp dirForcing wsp) d.offF q =
        if dirForcing.length ≠ 0 ∧ d.numGlobalDirBndCoeffs ≠ 0 then inp q - dirForcing.getD q 0
        else inp q) ∧
    (∀ k, ¬ (d.offF ≤ k ∧ k < d.offF + d.numGlobalCoeffs) →
      v_Solve_fillF d inp dirForcing wsp k = wsp k) ∧
    v_Initialise_wspLength d = d.offF + d.numGlobalCoeffs ∧
    d.numGlobalDirBndCoeffs + d.nGlobHomBndDofs + d.nIntDofs = d.numGlobalCoeffs ∧
    (v_Solve_F_HomBnd d).offset = d.numGlobalDirBndCoeffs ∧
    (v_Solve_F_HomBnd d).offset + (v_Solve_F_HomBnd d).dim = (v_Solve_F_Int d).offset ∧
    (v_Solve_F_Int d).offset + (v_Solve_F_Int d).dim = d.numGlobalCoeffs ∧
    (∀ q, q < d.numGlobalCoeffs ↔
      (q < d.numGlobalDirBndCoeffs ∨ (v_Solve_F_HomBnd d).Covers q ∨ (v_Solve_F_Int d).Covers q)) ∧
    (∀ q, ¬ (q < d.numGlobalDirBndCoeffs ∧ (v_Solve_F_HomBnd d).Covers q) ∧
      ¬ (q < d.numGlobalDirBndCoeffs ∧ (v_Solve_F_Int d).Covers q) ∧
      ¬ ((v_Solve_F_HomBnd d).Covers q ∧ (v_Solve_F_Int d).Covers q)) ∧
    (∀ q, (v_Solve_F_GlobBnd d).Covers q ↔
      (q < d.numGlobalDirBndCoeffs ∨ (v_Solve_F_HomBnd d).Covers q)) := by
  have hhom : d.nGlobHomBndDofs = d.numGlobalBndCoeffs - d.numGlobalDirBndCoeffs := rfl
  have hint : d.nIntDofs = d.numGlobalCoeffs - d.numGlobalBndCoeffs := rfl
  refine ⟨?_, fun k hk => v_Solve_fillF_outside d inp dirForcing wsp k hk, wspLength_eq d,
    by omega, rfl, ?_, ?_, ?_, ?_, ?_⟩
  · intro q hq
    rw [view_apply, v_Solve_fillF_F _ _ _ _ _ hq]
    unfold dirForcCalculated
    by_cases hc : dirForcing.length ≠ 0 ∧ d.numGlobalDirBndCoeffs ≠ 0
    · rw [if_pos hc, if_pos ⟨by simpa using hc.1, hc.2⟩]
    · rw [if_neg hc, if_neg (fun h => hc ⟨by simpa using h.1, h.2⟩), sub_zero]
  · show d.numGlobalDirBndCoeffs + d.nGlobHomBndDofs = d.numGlobalBndCoeffs
    omega
  · show d.numGlobalBndCoeffs + d.nIntDofs = d.numGlobalCoeffs
    omega
  · intro q
    unfold FWrapper.Covers v_Solve_F_HomBnd v_Solve_F_Int
    simp only
    omega
  · intro q
    unfold FWrapper.Covers v_Solve_F_HomBnd v_Solve_F_Int
    simp only
    omega
  · intro q
    unfold FWrapper.Covers v_Solve_F_HomBnd v_Solve_F_GlobBnd
    simp only
    omega

/-- C19: right-hand-side split.  In every `v_Solve` call on a map whose
Dirichlet DOFs are among the boundary DOFs and whose boundary DOFs are among
the global DOFs, the working vector `F` (the last `nGlobDofs` entries of the
workspace, and the only ones lines 122-131 write) equals `in - dirForcing`
when Dirichlet forcing is supplied and `nDirBndDofs > 0`, and `in`
otherwise; the Dirichlet segment `[0, nDirBndDofs)`, the wrapper `F_HomBnd`
on `[nDirBndDofs, nGlobBndDofs)` and the wrapper `F_Int` on
`[nGlobBndDofs, nGlobDofs)` are contiguous, pairwise disjoint and cover `F`
exactly, with `nDirBndDofs + nGlobHomBndDofs + nIntDofs = nGlobDofs`; the
wrapper `F_GlobBnd` is the first two together. -/
theorem v_Solve_rhs_split (d : AssemblyMapData) (inp : NekArray) (dirForcing : List NekDouble)
    (wsp : NekArray) (hdir : d.numGlobalDirBndCoeffs ≤ d.numGlobalBndCoeffs)
    (hbnd : d.numGlobalBndCoeffs ≤ d.numGlobalCoeffs) :
    (∀ q, q < d.numGlobalCoeffs →
      view (v_Solve_fillF d inp dirForcing wsp) d.offF q =
        if dirForcing.length ≠ 0 ∧ d.numGlobalDirBndCoeffs ≠ 0 then inp q - dirForcing.getD q 0
        else inp q) ∧
    (∀ k, ¬ (d.offF ≤ k ∧ k < d.offF + d.numGlobalCoeffs) →
      v_Solve_fillF d inp dirForcing wsp k = wsp k) ∧
    v_Initialise_wspLength d = d.offF + d.numGlobalCoeffs ∧
    d.numGlobalDirBndCoeffs + d.nGlobHomBndDofs + d.nIntDofs = d.numGlobalCoeffs ∧
    (v_Solve_F_HomBnd d).offset = d.numGlobalDirBndCoeffs ∧
    (v_Solve_F_HomBnd d).offset + (v_Solve_F_HomBnd d).dim = (v_Solve_F_Int d).offset ∧
    (v_Solve_F_Int d).offset + (v_Solve_F_Int d).dim = d.numGlobalCoeffs ∧
    (∀ q, q < d.numGlobalCoeffs ↔
      (q < d.numGlobalDirBndCoeffs ∨ (v_Solve_F_HomBnd d).Covers q ∨ (v_Solve_F_Int d).Covers q)) ∧
    (∀ q, ¬ (q < d.numGlobalDirBndCoeffs ∧ (v_Solve_F_HomBnd d).Covers q) ∧
      ¬ (q < d.numGlobalDirBndCoeffs ∧ (v_Solve_F_Int d).Covers q) ∧
      ¬ ((v_Solve_F_HomBnd d).Covers q ∧ (v_Solve_F_Int d).Covers q)) ∧
    (∀ q, (v_Solve_F_GlobBnd d).Covers q ↔
      (q < d.numGlobalDirBndCoeffs ∨ (v_Solve_F_HomBnd d).Covers q)) :=
  rhs_split d inp dirForcing wsp hdir hbnd

/-- C20: storage selection for `D`.  Every `D` block that
`ConstructNextLevelCondensedSystem` allocates has the storage `storageTypeD`,
which is symmetric exactly when the matrix type is mass, Laplacian or
Helmholtz and full for every other matrix type; the `A`, `B` and `C` blocks
are always in full storage. -/
theorem ConstructNextLevelCondensedSystem_storage_selection (mt : MatrixType)
    (nPatches : Nat) (nBnd nInt : List Nat) (p : Nat) :
    ((allocateSubstructuredMat nPatches nBnd nInt (storageTypeD mt)).D p).storage =
        (if mt = .eMass ∨ mt = .eLaplacian ∨ mt = .eHelmholtz then MatrixStorage.eSYMMETRIC
          else MatrixStorage.eFULL) ∧
      (((allocateSubstructuredMat nPatches nBnd nInt (storageTypeD mt)).D p).storage
          = .eSYMMETRIC ↔ (mt = .eMass ∨ mt = .eLaplacian ∨ mt = .eHelmholtz)) ∧
      (((allocateSubstructuredMat nPatches nBnd nInt (storageTypeD mt)).D p).storage
          = .eFULL ↔ ¬ (mt = .eMass ∨ mt = .eLaplacian ∨ mt = .eHelmholtz)) ∧
      ((allocateSubstructuredMat nPatches nBnd nInt (storageTypeD mt)).A p).storage = .eFULL ∧
      ((allocateSubstructuredMat nPatches nBnd nInt (storageTypeD mt)).B p).storage = .eFULL ∧
      ((allocateSubstructuredMat nPatches nBnd nInt (storageTypeD mt)).C p).storage = .eFULL := by
  have hD := allocate_storage_D nPatches nBnd nInt (storageTypeD mt) p
  have hA := allocate_storage_full nPatches nBnd nInt (storageTypeD mt) .A p (by decide)
  have hB := allocate_storage_full nPatches nBnd nInt (storageTypeD mt) .B p (by decide)
  have hC := allocate_storage_full nPatches nBnd nInt (storageTypeD mt) .C p (by decide)
  simp only [SubstructuredMat.block] at hD hA hB hC
  rw [hD]
  refine ⟨rfl, ?_, ?_, hA, hB, hC⟩
  · unfold storageTypeD
    split_ifs with h <;> simp [h]
  · unfold storageTypeD
    split_ifs with h <;> simp [h]

/-- Witness of C19 on the leaf map of the two-level example. -/
theorem v_Solve_rhs_split_witness :
    ex2Data0.numGlobalDirBndCoeffs ≤ ex2Data0.numGlobalBndCoeffs ∧
    ex2Data0.numGlobalBndCoeffs ≤ ex2Data0.numGlobalCoeffs ∧
    (∀ q, q < ex2Data0.numGlobalCoeffs →
      view (v_Solve_fillF ex2Data0 (fun _ => 1) [1, 1] zeroArray) ex2Data0.offF q =
        if ([1, 1] : List NekDouble).length ≠ 0 ∧ ex2Data0.numGlobalDirBndCoeffs ≠ 0 then
          (fun _ => (1 : NekDouble)) q - ([1, 1] : List NekDouble).getD q 0
        else (fun _ => (1 : NekDouble)) q) ∧
    ex2Data0.numGlobalDirBndCoeffs + ex2Data0.nGlobHomBndDofs + ex2Data0.nIntDofs
      = ex2Data0.numGlobalCoeffs :=
  ⟨ex2Data0_wellFormed.dirLe, ex2Data0_wellFormed.bndLe,
    (v_Solve_rhs_split ex2Data0 (fun _ => 1) [1, 1] zeroArray ex2Data0_wellFormed.dirLe
      ex2Data0_wellFormed.bndLe).1,
    (v_Solve_rhs_split ex2Data0 (fun _ => 1) [1, 1] zeroArray ex2Data0_wellFormed.dirLe
      ex2Data0_wellFormed.bndLe).2.2.2.1⟩


/-! ### Fatal errors of the level construction -/

/-- The condensation loop stops with the singular-block error at a patch with
interior DOFs whose `D` block the inversion routine has no value for. -/
theorem condenseLoop_singular (Invert : DNekMat → Option DNekMat) (nPatches : Nat)
    (nInt : List Nat) (s1 : SubstructuredMat)
    (hsing : ∃ i, i < nPatches ∧ nInt.getD i 0 ≠ 0 ∧ Invert (s1.D i) = none) :
    condenseLoop Invert nPatches nInt s1 = .error .SingularBlockError := by
  obtain ⟨i0, hi0, hint0, hnone⟩ := hsing
  unfold condenseLoop
  refine foldlM_range_error _ (fun k (s : SubstructuredMat) => ∀ i, k ≤ i → s.D i = s1.D i)
    .SingularBlockError nPatches s1 (fun _ _ => rfl) ?_ ⟨i0, hi0, ?_⟩
  · intro k s hk hI
    unfold condenseStep
    by_cases hint : nInt.getD k 0 ≠ 0
    · rw [if_pos hint]
      unfold condensePatch
      cases hinv : Invert (s.D k) with
      | none => right; rfl
      | some invD =>
        left
        refine ⟨_, rfl, ?_⟩
        intro i hi
        show Function.update s.D k _ i = _
        rw [Function.update_noteq (by omega)]
        exact hI i (by omega)
    · rw [if_neg hint]
      exact Or.inl ⟨s, rfl, fun i hi => hI i (by omega)⟩
  · intro s hI
    unfold condenseStep condensePatch
    rw [if_pos hint0, hI i0 (le_refl _), hnone]

/-- A singular interior block stops the construction of the block matrices
and of the next level. -/
theorem singular_fatal (Invert : DNekMat → Option DNekMat) (mt : MatrixType)
    (v_Recurse : BlkMatrices → Except ErrorKind GlobalLinSysStaticCond)
    (m : Members) (d : AssemblyMapData) (S : DNekScalBlkMat) (r : Nat × SubstructuredMat)
    (hS : m.m_schurCompl = some S)
    (hscatter : scatterLoop d.patchMapFromPrevLevel (storageTypeD mt) S
      (allocateSubstructuredMat d.numPatches d.numLocalBndCoeffsPerPatch
        d.numLocalIntCoeffsPerPatch (storageTypeD mt)) = .ok r)
    (hrec : ∀ blk, v_Recurse blk ≠ .error .SingularBlockError) :
    (ConstructNextLevelCondensedSystem Invert mt v_Recurse m d = .error .SingularBlockError ↔
      ∃ i, i < d.numPatches ∧ d.numLocalIntCoeffsPerPatch.getD i 0 ≠ 0 ∧
        Invert (r.2.D i) = none) ∧
    ((∃ i, i < d.numPatches ∧ d.numLocalIntCoeffsPerPatch.getD i 0 ≠ 0 ∧
        Invert (r.2.D i) = none) →
      ConstructNextLevelCondensedSystem_blkMatrices Invert mt m.m_schurCompl d
        = .error .SingularBlockError) := by
  have hblk : (∃ i, i < d.numPatches ∧ d.numLocalIntCoeffsPerPatch.getD i 0 ≠ 0 ∧
        Invert (r.2.D i) = none) →
      ConstructNextLevelCondensedSystem_blkMatrices Invert mt m.m_schurCompl d
        = .error .SingularBlockError := by
    intro hsing
    unfold ConstructNextLevelCondensedSystem_blkMatrices
    simp only [hS, hscatter, condenseLoop_singular Invert _ _ r.2 hsing]
  refine ⟨⟨?_, ?_⟩, hblk⟩
  · intro h
    by_contra hno
    have hinv : ∀ i, i < d.numPatches → d.numLocalIntCoeffsPerPatch.getD i 0 ≠ 0 →
        Invert (r.2.D i) ≠ none := fun i hi hint hn => hno ⟨i, hi, hint, hn⟩
    obtain ⟨s2, _, hok⟩ := ConstructNextLevelCondensedSystem_blkMatrices_ok Invert mt S d r
      hscatter hinv
    rw [← hS] at hok
    unfold ConstructNextLevelCondensedSystem at h
    simp only [hok] at h
    split at h
    · rename_i e he
      simp only [Except.error.injEq] at h
      subst h
      exact hrec _ he
    · simp at h
  · intro hsing
    unfold ConstructNextLevelCondensedSystem
    simp only [hblk hsing]


/-- Two-patch example: the scatter puts `a` into the `D` block of patch 0 and
`b` into the `D` block of patch 1. -/
theorem ex3_scatter (a b : NekDouble) (mt : MatrixType) (lvl : Nat) :
    ∃ r : Nat × SubstructuredMat,
      scatterLoop (ex3Data lvl).patchMapFromPrevLevel (storageTypeD mt) (ex3SchurCompl a b)
        (allocateSubstructuredMat (ex3Data lvl).numPatches
          (ex3Data lvl).numLocalBndCoeffsPerPatch
          (ex3Data lvl).numLocalIntCoeffsPerPatch (storageTypeD mt)) = .ok r ∧
      (r.2.D 0).rows = 1 ∧ (r.2.D 0).cols = 1 ∧ (r.2.D 0).data 0 = a ∧
      (r.2.D 1).rows = 1 ∧ (r.2.D 1).cols = 1 ∧ (r.2.D 1).data 0 = b := by
  refine ⟨_, rfl, ?_⟩
  cases hst : storageTypeD mt <;>
  simp [scatterAdd, DNekMat.addEntry, DNekMat.addRaw,
    DNekMat.CalculateIndex, allocateSubstructuredMat, ex3Data, ex3SchurCompl,
    DNekScalMat.get, DNekScalMat.GetRows, DNekMat.get, DNekMat.ofList, zeroArray, Function.update, hst]


theorem invertOneByOne_zero (M : DNekMat) (h : M.data 0 = 0) : invertOneByOne M = none := by
  unfold invertOneByOne
  rw [if_neg]
  intro hc
  exact hc.2.2 h

theorem invertOneByOne_nonzero (M : DNekMat) (hr : M.rows = 1) (hc : M.cols = 1)
    (h : M.data 0 ≠ 0) : invertOneByOne M ≠ none := by
  unfold invertOneByOne
  rw [if_pos ⟨hr, hc, h⟩]
  simp

/-- Two-patch example: with a zero block for one patch the construction of
the next level stops with the singular-block error. -/
theorem ex3_singular (a b : NekDouble) (hab : a = 0 ∨ b = 0) (mt : MatrixType) (lvl : Nat) :
    ConstructNextLevelCondensedSystem invertOneByOne mt ex3Recurse (ex3Members a b)
      (ex3Data lvl) = .error .SingularBlockError := by
  obtain ⟨r, hr, _, _, ha, _, _, hb⟩ := ex3_scatter a b mt lvl
  refine (singular_fatal invertOneByOne mt ex3Recurse (ex3Members a b) (ex3Data lvl)
    (ex3SchurCompl a b) r rfl hr (fun blk h => by cases h)).1.2 ?_
  rcases hab with h | h
  · exact ⟨0, show 0 < 2 by omega, show (1 : Nat) ≠ 0 by omega,
      invertOneByOne_zero _ (by rw [ha, h])⟩
  · exact ⟨1, show 1 < 2 by omega, show (1 : Nat) ≠ 0 by omega,
      invertOneByOne_zero _ (by rw [hb, h])⟩

/-- An inversion routine that meets its contract has no value on a matrix
that is not invertible. -/
theorem Invert_none_of_not_invertible (Invert : DNekMat → Option DNekMat)
    (hInv : InvertSpec Invert) (M : DNekMat) (h : ¬ M.IsInvertible) : Invert M = none := by
  cases hM : Invert M with
  | none => rfl
  | some R => exact absurd ⟨fun k j => R.get k j, (hInv M R hM).2.2.2⟩ h

/-- The first entry of a dense matrix is the first raw value. -/
theorem DNekMat.get_zero_zero (M : DNekMat) : M.get 0 0 = M.data 0 := by
  unfold DNekMat.get DNekMat.CalculateIndex
  cases M.storage <;> simp

/-- A 1 x 1 matrix with entry zero is not invertible. -/
theorem not_invertible_of_zero (M : DNekMat) (hr : M.rows = 1) (hc : M.cols = 1)
    (h : M.data 0 = 0) : ¬ M.IsInvertible := by
  rintro ⟨R, hR⟩
  have h0 := hR 0 0 (by omega) (by omega)
  rw [hc, Finset.sum_range_one, DNekMat.get_zero_zero, h, zero_mul, if_pos rfl] at h0
  exact zero_ne_one h0

/-- A 1 x 1 matrix with a non-zero entry is invertible. -/
theorem invertible_of_nonzero (M : DNekMat) (hr : M.rows = 1) (hc : M.cols = 1)
    (h : M.data 0 ≠ 0) : M.IsInvertible := by
  refine ⟨fun _ _ => (M.data 0)⁻¹, ?_⟩
  intro i j hi hj
  have hi0 : i = 0 := by omega
  have hj0 : j = 0 := by omega
  subst hi0
  subst hj0
  rw [hc, Finset.sum_range_one, DNekMat.get_zero_zero, if_pos rfl]
  exact mul_inv_cancel₀ h

/-- A block that is not invertible, in a patch with interior DOFs, stops the
construction of the block matrices and of the next level, whatever `v_Recurse`
is, for every inversion routine that meets its contract. -/
theorem not_invertible_fatal (Invert : DNekMat → Option DNekMat) (hInv : InvertSpec Invert)
    (mt : MatrixType) (v_Recurse : BlkMatrices → Except ErrorKind GlobalLinSysStaticCond)
    (m : Members) (d : AssemblyMapData) (S : DNekScalBlkMat) (r : Nat × SubstructuredMat)
    (hS : m.m_schurCompl = some S)
    (hscatter : scatterLoop d.patchMapFromPrevLevel (storageTypeD mt) S
      (allocateSubstructuredMat d.numPatches d.numLocalBndCoeffsPerPatch
        d.numLocalIntCoeffsPerPatch (storageTypeD mt)) = .ok r)
    (hsing : ∃ i, i < d.numPatches ∧ d.numLocalIntCoeffsPerPatch.getD i 0 ≠ 0 ∧
      ¬ (r.2.D i).IsInvertible) :
    ConstructNextLevelCondensedSystem Invert mt v_Recurse m d = .error .SingularBlockError ∧
    ConstructNextLevelCondensedSystem_blkMatrices Invert mt m.m_schurCompl d
      = .error .SingularBlockError ∧
    ∀ H, ConstructNextLevelCondensedSystem Invert mt v_Recurse m d ≠ .ok H := by
  obtain ⟨i, hi, hint, hni⟩ := hsing
  have hnone : ∃ i, i < d.numPatches ∧ d.numLocalIntCoeffsPerPatch.getD i 0 ≠ 0 ∧
      Invert (r.2.D i) = none :=
    ⟨i, hi, hint, Invert_none_of_not_invertible Invert hInv _ hni⟩
  have hblk := (singular_fatal Invert mt (fun _ => .error .NullDereference) m d S r hS hscatter
    (fun blk h => by cases h)).2 hnone
  have hmain : ConstructNextLevelCondensedSystem Invert mt v_Recurse m d
      = .error .SingularBlockError := by
    unfold ConstructNextLevelCondensedSystem
    simp only [hblk]
  refine ⟨hmain, hblk, ?_⟩
  intro H hH
  rw [hmain] at hH
  cases hH

/-- C17: a singular interior block is fatal.  For every inversion routine that
meets its contract (a result, when there is one, is the inverse), when the
scatter of the previous level's Schur complement has finished and the
accumulated `D` block of some patch with interior DOFs is not invertible,
`ConstructNextLevelCondensedSystem` fails with the singular-block error for
every `v_Recurse`, so no next level is produced and no block matrices are
handed on; the failure is the one raised by the inversion of the block and
carries neither patch nor level. -/
theorem ConstructNextLevelCondensedSystem_singular_block_fatal
    (Invert : DNekMat → Option DNekMat) (hInv : InvertSpec Invert) (mt : MatrixType)
    (v_Recurse : BlkMatrices → Except ErrorKind GlobalLinSysStaticCond)
    (m : Members) (d : AssemblyMapData) (S : DNekScalBlkMat) (r : Nat × SubstructuredMat)
    (hS : m.m_schurCompl = some S)
    (hscatter : scatterLoop d.patchMapFromPrevLevel (storageTypeD mt) S
      (allocateSubstructuredMat d.numPatches d.numLocalBndCoeffsPerPatch
        d.numLocalIntCoeffsPerPatch (storageTypeD mt)) = .ok r)
    (hsing : ∃ i, i < d.numPatches ∧ d.numLocalIntCoeffsPerPatch.getD i 0 ≠ 0 ∧
      ¬ (r.2.D i).IsInvertible) :
    ConstructNextLevelCondensedSystem Invert mt v_Recurse m d = .error .SingularBlockError ∧
    ConstructNextLevelCondensedSystem_blkMatrices Invert mt m.m_schurCompl d
      = .error .SingularBlockError ∧
    ∀ H, ConstructNextLevelCondensedSystem Invert mt v_Recurse m d ≠ .ok H :=
  not_invertible_fatal Invert hInv mt v_Recurse m d S r hS hscatter hsing

/-- Witness of C17 on the two-patch example with blocks `(0)` and `(1)`: the
block `(0)` of patch 0 is not invertible and the construction fails. -/
theorem ConstructNextLevelCondensedSystem_singular_block_fatal_witness :
    InvertSpec invertOneByOne ∧
    ∃ r, scatterLoop (ex3Data 1).patchMapFromPrevLevel (storageTypeD .eOtherMatrixType)
        (ex3SchurCompl 0 1)
        (allocateSubstructuredMat (ex3Data 1).numPatches (ex3Data 1).numLocalBndCoeffsPerPatch
          (ex3Data 1).numLocalIntCoeffsPerPatch (storageTypeD .eOtherMatrixType)) = .ok r ∧
      (0 < (ex3Data 1).numPatches ∧ (ex3Data 1).numLocalIntCoeffsPerPatch.getD 0 0 ≠ 0 ∧
        ¬ (r.2.D 0).IsInvertible) ∧
      ConstructNextLevelCondensedSystem invertOneByOne .eOtherMatrixType ex3Recurse
        (ex3Members 0 1) (ex3Data 1) = .error .SingularBlockError ∧
      ConstructNextLevelCondensedSystem_blkMatrices invertOneByOne .eOtherMatrixType
        (ex3Members 0 1).m_schurCompl (ex3Data 1) = .error .SingularBlockError ∧
      ∀ H, ConstructNextLevelCondensedSystem invertOneByOne .eOtherMatrixType ex3Recurse
        (ex3Members 0 1) (ex3Data 1) ≠ .ok H := by
  obtain ⟨r, hr, hr0, hc0, ha, _, _, _⟩ := ex3_scatter 0 1 .eOtherMatrixType 1
  have hni : ¬ (r.2.D 0).IsInvertible := not_invertible_of_zero _ hr0 hc0 ha
  exact ⟨invertOneByOne_spec, r, hr, ⟨by decide, by decide, hni⟩,
    ConstructNextLevelCondensedSystem_singular_block_fatal invertOneByOne invertOneByOne_spec
      .eOtherMatrixType ex3Recurse (ex3Members 0 1) (ex3Data 1) (ex3SchurCompl 0 1) r rfl hr
      ⟨0, by decide, by decide, hni⟩⟩

/-- Counterexample to C17 as stated: on the two-patch example the block that
is not invertible belongs to patch 0 at level 1 in one run and to patch 1 at
level 2 in the other, and both runs end in the same failure, so no patch and
level can be read off it. -/
theorem ConstructNextLevelCondensedSystem_singular_block_fatal_counterexample :
    InvertSpec invertOneByOne ∧
    (∃ r, scatterLoop (ex3Data 1).patchMapFromPrevLevel (storageTypeD .eOtherMatrixType)
        (ex3SchurCompl 0 1)
        (allocateSubstructuredMat (ex3Data 1).numPatches (ex3Data 1).numLocalBndCoeffsPerPatch
          (ex3Data 1).numLocalIntCoeffsPerPatch (storageTypeD .eOtherMatrixType)) = .ok r ∧
        ¬ (r.2.D 0).IsInvertible ∧ (r.2.D 1).IsInvertible ∧
        invertOneByOne (r.2.D 0) = none ∧ invertOneByOne (r.2.D 1) ≠ none) ∧
    (∃ r, scatterLoop (ex3Data 2).patchMapFromPrevLevel (storageTypeD .eOtherMatrixType)
        (ex3SchurCompl 1 0)
        (allocateSubstructuredMat (ex3Data 2).numPatches (ex3Data 2).numLocalBndCoeffsPerPatch
          (ex3Data 2).numLocalIntCoeffsPerPatch (storageTypeD .eOtherMatrixType)) = .ok r ∧
        (r.2.D 0).IsInvertible ∧ ¬ (r.2.D 1).IsInvertible ∧
        invertOneByOne (r.2.D 0) ≠ none ∧ invertOneByOne (r.2.D 1) = none) ∧
    ConstructNextLevelCondensedSystem invertOneByOne .eOtherMatrixType ex3Recurse
        (ex3Members 0 1) (ex3Data 1) =
      ConstructNextLevelCondensedSystem invertOneByOne .eOtherMatrixType ex3Recurse
        (ex3Members 1 0) (ex3Data 2) ∧
    ¬ ∃ identify : Except ErrorKind GlobalLinSysStaticCond → Nat × Nat,
      identify (ConstructNextLevelCondensedSystem invertOneByOne .eOtherMatrixType ex3Recurse
        (ex3Members 0 1) (ex3Data 1)) = (0, 1) ∧
      identify (ConstructNextLevelCondensedSystem invertOneByOne .eOtherMatrixType ex3Recurse
        (ex3Members 1 0) (ex3Data 2)) = (1, 2) := by
  have e1 := ex3_singular 0 1 (Or.inl rfl) .eOtherMatrixType 1
  have e2 := ex3_singular 1 0 (Or.inr rfl) .eOtherMatrixType 2
  refine ⟨invertOneByOne_spec, ?_, ?_, by rw [e1, e2], ?_⟩
  · obtain ⟨r, hr, hr0, hc0, ha, hr1, hc1, hb⟩ := ex3_scatter 0 1 .eOtherMatrixType 1
    exact ⟨r, hr, not_invertible_of_zero _ hr0 hc0 ha,
      invertible_of_nonzero _ hr1 hc1 (by rw [hb]; exact one_ne_zero),
      invertOneByOne_zero _ ha,
      invertOneByOne_nonzero _ hr1 hc1 (by rw [hb]; exact one_ne_zero)⟩
  · obtain ⟨r, hr, hr0, hc0, ha, hr1, hc1, hb⟩ := ex3_scatter 1 0 .eOtherMatrixType 2
    exact ⟨r, hr, invertible_of_nonzero _ hr0 hc0 (by rw [ha]; exact one_ne_zero),
      not_invertible_of_zero _ hr1 hc1 hb,
      invertOneByOne_nonzero _ hr0 hc0 (by rw [ha]; exact one_ne_zero),
      invertOneByOne_zero _ hb⟩
  · rintro ⟨identify, h1, h2⟩
    rw [e1] at h1
    rw [e2, h1] at h2
    exact absurd h2 (by decide)


/-! ### No dimension check -/

/-- An error of a loop over `range n` is an error of one of its passes. -/
theorem foldlM_range_error_of {σ : Type} (f : σ → Nat → Except ErrorKind σ)
    (P : ErrorKind → Prop) (n : Nat) (s : σ) (e : ErrorKind)
    (hstep : ∀ k s1 e1, k < n → f s1 k = .error e1 → P e1)
    (h : (List.range n).foldlM f s = .error e) : P e := by
  induction n with
  | zero => cases h
  | succ n ih =>
    rw [foldlM_range_succ] at h
    cases h1 : (List.range n).foldlM f s with
    | error e1 =>
      rw [h1] at h
      injection h with h
      subst h
      exact ih (fun k s1 e1 hk => hstep k s1 e1 (by omega)) h1
    | ok s1 =>
      rw [h1] at h
      exact hstep n s1 e (by omega) h

/-- The scatter loop fails only by the patch-id assertion or on a block of
the previous Schur complement that is not set. -/
theorem scatterLoop_error_kind (pm : PatchMap) (st : MatrixStorage) (S : DNekScalBlkMat)
    (sub : SubstructuredMat) (e : ErrorKind) (h : scatterLoop pm st S sub = .error e) :
    e = .ConfigurationError ∨ e = .NullDereference := by
  unfold scatterLoop at h
  refine foldlM_range_error_of _ (fun e => e = .ConfigurationError ∨ e = .NullDereference)
    _ _ e ?_ h
  intro k s1 e1 _ hk
  unfold scatterLoopStep at hk
  cases hB : S.GetBlock k k with
  | none =>
    rw [hB] at hk
    injection hk with hk
    exact Or.inr hk.symm
  | some B =>
    rw [hB] at hk
    dsimp only at hk
    rcases scatterBlock_ok_or_error pm s1.1 st B s1.2 with ⟨s', hs⟩ | hs
    · rw [hs] at hk
      cases hk
    · rw [hs] at hk
      injection hk with hk
      exact Or.inl hk.symm

/-- The inner scope of `ConstructNextLevelCondensedSystem` fails only by the
patch-id assertion, on a Schur complement or block that is not set, or on a
singular `D` block. -/
theorem blkMatrices_error_kind (Invert : DNekMat → Option DNekMat) (mt : MatrixType)
    (sc : Option DNekScalBlkMat) (d : AssemblyMapData) (e : ErrorKind)
    (h : ConstructNextLevelCondensedSystem_blkMatrices Invert mt sc d = .error e) :
    e = .ConfigurationError ∨ e = .NullDereference ∨ e = .SingularBlockError := by
  unfold ConstructNextLevelCondensedSystem_blkMatrices at h
  cases sc with
  | none =>
    injection h with h
    exact Or.inr (Or.inl h.symm)
  | some S =>
    dsimp only at h
    cases hs : scatterLoop d.patchMapFromPrevLevel (storageTypeD mt) S
        (allocateSubstructuredMat d.numPatches d.numLocalBndCoeffsPerPatch
          d.numLocalIntCoeffsPerPatch (storageTypeD mt)) with
    | error e1 =>
      rw [hs] at h
      injection h with h
      subst h
      rcases scatterLoop_error_kind _ _ _ _ _ hs with h1 | h1
      · exact Or.inl h1
      · exact Or.inr (Or.inl h1)
    | ok r =>
      rw [hs] at h
      dsimp only at h
      cases hc : condenseLoop Invert d.numPatches d.numLocalIntCoeffsPerPatch r.2 with
      | error e1 =>
        rw [hc] at h
        injection h with h
        subst h
        exact Or.inr (Or.inr (condenseLoop_error _ _ _ _ _ hc))
      | ok s2 =>
        rw [hc] at h
        cases h

/-- The method `v_Initialise` fails only by the patch-id assertion, on a Schur
complement or block that is not set, or on a singular `D` block. -/
theorem v_Initialise_error_kind (Invert : DNekMat → Option DNekMat) (mt : MatrixType)
    (map : AssemblyMap) (m : Members) (e : ErrorKind)
    (h : v_Initialise Invert mt m map = .error e) :
    e = .ConfigurationError ∨ e = .NullDereference ∨ e = .SingularBlockError := by
  induction map generalizing m with
  | last d =>
    rw [v_Initialise] at h
    cases h
  | level d next ih =>
    rw [v_Initialise] at h
    unfold ConstructNextLevelCondensedSystem at h
    dsimp only at h
    cases hb : ConstructNextLevelCondensedSystem_blkMatrices Invert mt m.m_schurCompl next.d with
    | error e1 =>
      rw [hb] at h
      injection h with h
      subst h
      exact blkMatrices_error_kind _ _ _ _ _ hb
    | ok blk =>
      rw [hb] at h
      dsimp only at h
      cases hc : v_Initialise Invert mt
          { m_schurCompl := some blk.schurCompl, m_BinvD := blk.BinvD, m_C := blk.C,
            m_invD := blk.invD, m_wsp := zeroArray } next with
      | error e1 =>
        rw [hc] at h
        injection h with h
        subst h
        exact ih _ hc
      | ok child =>
        rw [hc] at h
        cases h


/-- With a `v_Recurse` that does not look at the object the method is
`ConstructNextLevelCondensedSystem`. -/
theorem onObject_eq (Invert : DNekMat → Option DNekMat) (mt : MatrixType)
    (v_Recurse : BlkMatrices → Except ErrorKind GlobalLinSysStaticCond)
    (m : Members) (d : AssemblyMapData) :
    ConstructNextLevelCondensedSystem_onObject Invert mt (fun _ => v_Recurse) m d =
      ConstructNextLevelCondensedSystem Invert mt v_Recurse m d := by
  unfold ConstructNextLevelCondensedSystem_onObject ConstructNextLevelCondensedSystem
    ConstructNextLevelCondensedSystem_release
  rfl

/-- A successful `ConstructNextLevelCondensedSystem`: the elimination has run
over all patches, `v_Recurse` was called on the object without its Schur
complement, and the object keeps its other matrices. -/
theorem onObject_inv (Invert : DNekMat → Option DNekMat) (mt : MatrixType)
    (v_Recurse : Members → BlkMatrices → Except ErrorKind GlobalLinSysStaticCond)
    (m : Members) (d : AssemblyMapData) (H : GlobalLinSysStaticCond)
    (h : ConstructNextLevelCondensedSystem_onObject Invert mt v_Recurse m d = .ok H) :
    ∃ S r s2 blk child, m.m_schurCompl = some S ∧
      scatterLoop d.patchMapFromPrevLevel (storageTypeD mt) S
        (allocateSubstructuredMat d.numPatches d.numLocalBndCoeffsPerPatch
          d.numLocalIntCoeffsPerPatch (storageTypeD mt)) = .ok r ∧
      condenseLoop Invert d.numPatches d.numLocalIntCoeffsPerPatch r.2 = .ok s2 ∧
      blk = { schurCompl := fillBlkMatrix d.numPatches d.numLocalBndCoeffsPerPatch
                d.numLocalBndCoeffsPerPatch s2.A
              BinvD := fillBlkMatrix d.numPatches d.numLocalBndCoeffsPerPatch
                d.numLocalIntCoeffsPerPatch s2.B
              C := fillBlkMatrix d.numPatches d.numLocalIntCoeffsPerPatch
                d.numLocalBndCoeffsPerPatch s2.C
              invD := fillBlkMatrix d.numPatches d.numLocalIntCoeffsPerPatch
                d.numLocalIntCoeffsPerPatch s2.D } ∧
      v_Recurse { m with m_schurCompl := none } blk = .ok child ∧
      H = .recursive { m with m_schurCompl := none } child ∧
      H.m.m_schurCompl = none ∧ H.m.m_BinvD = m.m_BinvD ∧ H.m.m_C = m.m_C ∧
      H.m.m_invD = m.m_invD := by
  unfold ConstructNextLevelCondensedSystem_onObject at h
  cases hb : ConstructNextLevelCondensedSystem_blkMatrices Invert mt m.m_schurCompl d with
  | error e =>
    rw [hb] at h
    cases h
  | ok blk =>
    rw [hb] at h
    dsimp only at h
    unfold ConstructNextLevelCondensedSystem_release at h
    dsimp only at h
    obtain ⟨S, r, s2, hS, hs, hc, hblk⟩ := blkMatrices_inv Invert mt _ d blk hb
    cases hv : v_Recurse { m with m_schurCompl := none } blk with
    | error e =>
      rw [hv] at h
      cases h
    | ok child =>
      rw [hv] at h
      injection h with h
      subst h
      exact ⟨S, r, s2, blk, child, hS, hs, hc, hblk, hv, rfl, rfl, rfl, rfl, rfl⟩

/-- After `v_Initialise` every level with a next level holds no Schur
complement and the terminal level holds one. -/
theorem v_Initialise_released (Invert : DNekMat → Option DNekMat) (mt : MatrixType)
    (map : AssemblyMap) (m : Members) (H : GlobalLinSysStaticCond)
    (h : v_Initialise Invert mt m map = .ok H) (hm : m.m_schurCompl ≠ none) :
    H.SchurReleased := by
  induction map generalizing m H with
  | last d =>
    rw [v_Initialise] at h
    injection h with h
    subst h
    exact hm
  | level d next ih =>
    obtain ⟨blk, child, _, hc, hH⟩ := v_Initialise_level Invert mt m d next H h
    subst hH
    exact ⟨rfl, ih _ child hc (by simp)⟩


/-- Two-level example: `ConstructNextLevelCondensedSystem` succeeds on the
leaf object. -/
theorem ex2_onObject :
    ∃ H, ConstructNextLevelCondensedSystem_onObject invertOneByOne .eOtherMatrixType
      (fun _ => ex3Recurse) ex2Members ex2Data1 = .ok H := by
  obtain ⟨r, hr, hinv⟩ := ex2_scatter
  obtain ⟨s2, _, hblk⟩ := ConstructNextLevelCondensedSystem_blkMatrices_ok invertOneByOne
    .eOtherMatrixType ex2SchurCompl ex2Data1 r hr hinv
  unfold ConstructNextLevelCondensedSystem_onObject
  rw [show ex2Members.m_schurCompl = some ex2SchurCompl from rfl, hblk]
  exact ⟨_, rfl⟩

/-- C14: Schur-complement lifecycle.  When `ConstructNextLevelCondensedSystem`
succeeds at a level, the elimination loop has finished for all patches, the
call of `v_Recurse` with the new block matrices was made on the object with
its `m_schurCompl` already empty, and the object it leaves holds no Schur
complement and its unchanged `m_BinvD`, `m_C` and `m_invD`; consequently after
`v_Initialise` on an object that holds a Schur complement every level with a
next level holds none and the terminal level holds one. -/
theorem ConstructNextLevelCondensedSystem_schur_lifecycle
    (Invert : DNekMat → Option DNekMat) (mt : MatrixType)
    (v_Recurse : Members → BlkMatrices → Except ErrorKind GlobalLinSysStaticCond)
    (m : Members) (d : AssemblyMapData) (map : AssemblyMap) :
    (∀ H, ConstructNextLevelCondensedSystem_onObject Invert mt v_Recurse m d = .ok H →
      ∃ S r s2 blk child, m.m_schurCompl = some S ∧
        scatterLoop d.patchMapFromPrevLevel (storageTypeD mt) S
          (allocateSubstructuredMat d.numPatches d.numLocalBndCoeffsPerPatch
            d.numLocalIntCoeffsPerPatch (storageTypeD mt)) = .ok r ∧
        condenseLoop Invert d.numPatches d.numLocalIntCoeffsPerPatch r.2 = .ok s2 ∧
        blk = { schurCompl := fillBlkMatrix d.numPatches d.numLocalBndCoeffsPerPatch
                  d.numLocalBndCoeffsPerPatch s2.A
                BinvD := fillBlkMatrix d.numPatches d.numLocalBndCoeffsPerPatch
                  d.numLocalIntCoeffsPerPatch s2.B
                C := fillBlkMatrix d.numPatches d.numLocalIntCoeffsPerPatch
                  d.numLocalBndCoeffsPerPatch s2.C
                invD := fillBlkMatrix d.numPatches d.numLocalIntCoeffsPerPatch
                  d.numLocalIntCoeffsPerPatch s2.D } ∧
        v_Recurse { m with m_schurCompl := none } blk = .ok child ∧
        H = .recursive { m with m_schurCompl := none } child ∧
        H.m.m_schurCompl = none ∧ H.m.m_BinvD = m.m_BinvD ∧ H.m.m_C = m.m_C ∧
        H.m.m_invD = m.m_invD) ∧
    (∀ vr, ConstructNextLevelCondensedSystem Invert mt vr m d =
      ConstructNextLevelCondensedSystem_onObject Invert mt (fun _ => vr) m d) ∧
    (∀ H, v_Initialise Invert mt m map = .ok H → m.m_schurCompl ≠ none →
      H.SchurReleased) :=
  ⟨fun H h => onObject_inv Invert mt v_Recurse m d H h,
    fun vr => (onObject_eq Invert mt vr m d).symm,
    fun H h hm => v_Initialise_released Invert mt map m H h hm⟩

/-- Witness of C14 on the two-level example. -/
theorem ConstructNextLevelCondensedSystem_schur_lifecycle_witness :
    (∃ H, ConstructNextLevelCondensedSystem_onObject invertOneByOne .eOtherMatrixType
        (fun _ => ex3Recurse) ex2Members ex2Data1 = .ok H ∧
      H.m.m_schurCompl = none ∧ H.m.m_BinvD = ex2Members.m_BinvD ∧
      H.m.m_C = ex2Members.m_C ∧ H.m.m_invD = ex2Members.m_invD) ∧
    (∃ H, v_Initialise invertOneByOne .eOtherMatrixType ex2Members ex2Map = .ok H ∧
      ex2Members.m_schurCompl ≠ none ∧ H.SchurReleased) := by
  obtain ⟨H, hH⟩ := ex2_onObject
  obtain ⟨H0, hH0⟩ := ex2_initialised
  have hm : ex2Members.m_schurCompl ≠ none := by
    rw [show ex2Members.m_schurCompl = some ex2SchurCompl from rfl]
    simp
  have hthm := ConstructNextLevelCondensedSystem_schur_lifecycle invertOneByOne
    .eOtherMatrixType (fun _ => ex3Recurse) ex2Members ex2Data1 ex2Map
  obtain ⟨_, _, _, _, _, _, _, _, _, _, _, h1, h2, h3, h4⟩ := hthm.1 H hH
  exact ⟨⟨H, hH, h1, h2, h3, h4⟩, ⟨H0, hH0, hm, hthm.2.2 H0 hH0 hm⟩⟩


/-! ### Leaf packaging -/

/-- The loop of `SetupTopLevel` for a matrix type other than
`eHybridDGHelmBndLam`: after `k` passes block `(a, a)` with `a < k` of each of
the four matrices is the sub-block of the local matrix and no other block is
set. -/
theorem SetupTopLevel_loop (mt : MatrixType) (L : LocalMatrices) (d : AssemblyMapData)
    (hmt : mt ≠ .eHybridDGHelmBndLam)
    (hloc : ∀ n, n < L.GetNumElmts → L.v_GetStaticCondBlock n ≠ none) :
    ∃ s, (List.range L.GetNumElmts).foldlM (SetupTopLevel_step mt L)
        (SetupTopLevel_allocate d) = .ok s ∧
      (s.schurCompl.rowSizes = d.numLocalBndCoeffsPerPatch ∧
        s.schurCompl.colSizes = d.numLocalBndCoeffsPerPatch ∧
        s.BinvD.rowSizes = d.numLocalBndCoeffsPerPatch ∧
        s.BinvD.colSizes = d.numLocalIntCoeffsPerPatch ∧
        s.C.rowSizes = d.numLocalIntCoeffsPerPatch ∧
        s.C.colSizes = d.numLocalBndCoeffsPerPatch ∧
        s.invD.rowSizes = d.numLocalIntCoeffsPerPatch ∧
        s.invD.colSizes = d.numLocalIntCoeffsPerPatch) ∧
      ∀ a b,
        s.schurCompl.blocks a b
          = (if a = b ∧ a < L.GetNumElmts then L.subBlock a 0 0 else none) ∧
        s.BinvD.blocks a b = (if a = b ∧ a < L.GetNumElmts then L.subBlock a 0 1 else none) ∧
        s.C.blocks a b = (if a = b ∧ a < L.GetNumElmts then L.subBlock a 1 0 else none) ∧
        s.invD.blocks a b = (if a = b ∧ a < L.GetNumElmts then L.subBlock a 1 1 else none) := by
  refine foldlM_range_ok (SetupTopLevel_step mt L)
    (fun k s =>
      (s.schurCompl.rowSizes = d.numLocalBndCoeffsPerPatch ∧
        s.schurCompl.colSizes = d.numLocalBndCoeffsPerPatch ∧
        s.BinvD.rowSizes = d.numLocalBndCoeffsPerPatch ∧
        s.BinvD.colSizes = d.numLocalIntCoeffsPerPatch ∧
        s.C.rowSizes = d.numLocalIntCoeffsPerPatch ∧
        s.C.colSizes = d.numLocalBndCoeffsPerPatch ∧
        s.invD.rowSizes = d.numLocalIntCoeffsPerPatch ∧
        s.invD.colSizes = d.numLocalIntCoeffsPerPatch) ∧
      ∀ a b,
        s.schurCompl.blocks a b = (if a = b ∧ a < k then L.subBlock a 0 0 else none) ∧
        s.BinvD.blocks a b = (if a = b ∧ a < k then L.subBlock a 0 1 else none) ∧
        s.C.blocks a b = (if a = b ∧ a < k then L.subBlock a 1 0 else none) ∧
        s.invD.blocks a b = (if a = b ∧ a < k then L.subBlock a 1 1 else none))
    L.GetNumElmts (SetupTopLevel_allocate d) ?_ ?_
  · refine ⟨⟨rfl, rfl, rfl, rfl, rfl, rfl, rfl, rfl⟩, fun a b => ?_⟩
    have hno : ¬ (a = b ∧ a < 0) := fun h => absurd h.2 (Nat.not_lt_zero a)
    simp only [hno, if_false]
    exact ⟨rfl, rfl, rfl, rfl⟩
  · intro k s hk ⟨hsz, hI⟩
    unfold SetupTopLevel_step
    rw [if_neg hmt]
    cases hl : L.v_GetStaticCondBlock k with
    | none => exact absurd hl (hloc k hk)
    | some loc =>
      refine ⟨_, rfl, hsz, fun a b => ?_⟩
      obtain ⟨h1, h2, h3, h4⟩ := hI a b
      have hsub : ∀ i j, L.subBlock k i j = loc.GetBlock i j := fun i j => by
        unfold LocalMatrices.subBlock
        rw [hl]
        rfl
      simp only [DNekScalBlkMat.SetBlockPtr]
      by_cases hak : a = k ∧ b = k
      · rw [hak.1, hak.2]
        have hc : k = k ∧ k < k + 1 := ⟨rfl, Nat.lt_succ_self k⟩
        simp only [and_self, if_true, hc, hsub]
      · simp only [hak, if_false, h1, h2, h3, h4]
        have hiff : (a = b ∧ a < k + 1) ↔ (a = b ∧ a < k) := by
          constructor
          · rintro ⟨hab, hlt⟩
            refine ⟨hab, ?_⟩
            by_contra hge
            have : a = k := by omega
            exact hak ⟨this, by omega⟩
          · rintro ⟨hab, hlt⟩
            exact ⟨hab, by omega⟩
        simp only [hiff]
        exact ⟨trivial, trivial, trivial, trivial⟩

/-- The loop of `SetupTopLevel` for the matrix type `eHybridDGHelmBndLam`:
only the Schur complement is given blocks, the matrices `v_GetBlock(n)`. -/
theorem SetupTopLevel_loop_HDG (L : LocalMatrices) (d : AssemblyMapData) :
    ∃ s, (List.range L.GetNumElmts).foldlM (SetupTopLevel_step .eHybridDGHelmBndLam L)
        (SetupTopLevel_allocate d) = .ok s ∧
      (∀ a b, s.schurCompl.blocks a b
          = (if a = b ∧ a < L.GetNumElmts then L.v_GetBlock a else none)) ∧
      s.BinvD = (SetupTopLevel_allocate d).BinvD ∧ s.C = (SetupTopLevel_allocate d).C ∧
      s.invD = (SetupTopLevel_allocate d).invD := by
  refine foldlM_range_ok (SetupTopLevel_step .eHybridDGHelmBndLam L)
    (fun k s =>
      (∀ a b, s.schurCompl.blocks a b = (if a = b ∧ a < k then L.v_GetBlock a else none)) ∧
      s.BinvD = (SetupTopLevel_allocate d).BinvD ∧ s.C = (SetupTopLevel_allocate d).C ∧
      s.invD = (SetupTopLevel_allocate d).invD)
    L.GetNumElmts (SetupTopLevel_allocate d) ?_ ?_
  · refine ⟨fun a b => ?_, rfl, rfl, rfl⟩
    have hno : ¬ (a = b ∧ a < 0) := fun h => absurd h.2 (Nat.not_lt_zero a)
    simp only [hno, if_false]
    rfl
  · intro k s hk ⟨hI, hB, hC, hD⟩
    unfold SetupTopLevel_step
    rw [if_pos rfl]
    refine ⟨_, rfl, fun a b => ?_, hB, hC, hD⟩
    simp only [DNekScalBlkMat.SetBlockPtr]
    by_cases hak : a = k ∧ b = k
    · rw [hak.1, hak.2]
      have hc : k = k ∧ k < k + 1 := ⟨rfl, Nat.lt_succ_self k⟩
      simp only [and_self, if_true, hc]
    · simp only [hak, if_false, hI a b]
      have hiff : (a = b ∧ a < k + 1) ↔ (a = b ∧ a < k) := by
        constructor
        · rintro ⟨hab, hlt⟩
          refine ⟨hab, ?_⟩
          by_contra hge
          have : a = k := by omega
          exact hak ⟨this, by omega⟩
        · rintro ⟨hab, hlt⟩
          exact ⟨hab, by omega⟩
      simp only [hiff]


/-- Leaf packaging by `SetupTopLevel`, for both branches of the loop. -/
theorem SetupTopLevel_blocks (mt : MatrixType) (L : LocalMatrices) (m : Members)
    (d : AssemblyMapData) :
    (mt ≠ .eHybridDGHelmBndLam →
      (∀ n, n < L.GetNumElmts → L.v_GetStaticCondBlock n ≠ none) →
      ∃ m1 S, SetupTopLevel mt L m d = .ok m1 ∧ m1.m_schurCompl = some S ∧
        (∀ n, n < L.GetNumElmts →
          S.GetBlock n n = L.subBlock n 0 0 ∧ m1.m_BinvD.GetBlock n n = L.subBlock n 0 1 ∧
          m1.m_C.GetBlock n n = L.subBlock n 1 0 ∧
          m1.m_invD.GetBlock n n = L.subBlock n 1 1) ∧
        (∀ a b, a ≠ b → S.GetBlock a b = none ∧ m1.m_BinvD.GetBlock a b = none ∧
          m1.m_C.GetBlock a b = none ∧ m1.m_invD.GetBlock a b = none)) ∧
    (mt = .eHybridDGHelmBndLam →
      ∃ m1 S, SetupTopLevel mt L m d = .ok m1 ∧ m1.m_schurCompl = some S ∧
        (∀ n, n < L.GetNumElmts → S.GetBlock n n = L.v_GetBlock n) ∧
        (∀ a b, m1.m_BinvD.GetBlock a b = none ∧ m1.m_C.GetBlock a b = none ∧
          m1.m_invD.GetBlock a b = none) ∧
        (∀ a b, a ≠ b → S.GetBlock a b = none)) := by
  constructor
  · intro hmt hloc
    obtain ⟨s, hs, _, hb⟩ := SetupTopLevel_loop mt L d hmt hloc
    have hset : SetupTopLevel mt L m d
        = .ok (Members.mk (some s.schurCompl) s.BinvD s.C s.invD m.m_wsp) := by
      unfold SetupTopLevel
      rw [hs]
    refine ⟨_, s.schurCompl, hset, rfl, ?_, ?_⟩
    · intro n hn
      obtain ⟨h1, h2, h3, h4⟩ := hb n n
      have hc : n = n ∧ n < L.GetNumElmts := ⟨rfl, hn⟩
      simp only [hc, and_self, if_true] at h1 h2 h3 h4
      exact ⟨h1, h2, h3, h4⟩
    · intro a b hab
      obtain ⟨h1, h2, h3, h4⟩ := hb a b
      have hc : ¬ (a = b ∧ a < L.GetNumElmts) := fun h => hab h.1
      simp only [hc, if_false] at h1 h2 h3 h4
      exact ⟨h1, h2, h3, h4⟩
  · intro hmt
    subst hmt
    obtain ⟨s, hs, hb, hB, hC, hD⟩ := SetupTopLevel_loop_HDG L d
    have hset : SetupTopLevel .eHybridDGHelmBndLam L m d
        = .ok (Members.mk (some s.schurCompl) s.BinvD s.C s.invD m.m_wsp) := by
      unfold SetupTopLevel
      rw [hs]
    refine ⟨_, s.schurCompl, hset, rfl, ?_, ?_, ?_⟩
    · intro n hn
      have h1 := hb n n
      have hc : n = n ∧ n < L.GetNumElmts := ⟨rfl, hn⟩
      simp only [hc, and_self, if_true] at h1
      exact h1
    · intro a b
      show s.BinvD.blocks a b = none ∧ s.C.blocks a b = none ∧ s.invD.blocks a b = none
      rw [hB, hC, hD]
      exact ⟨rfl, rfl, rfl⟩
    · intro a b hab
      have h1 := hb a b
      have hc : ¬ (a = b ∧ a < L.GetNumElmts) := fun h => hab h.1
      simp only [hc, if_false] at h1
      exact h1

/-- C13: leaf packaging.  After `SetupTopLevel` for a matrix type other than
`eHybridDGHelmBndLam` (every `v_GetStaticCondBlock(n)` being there), for every
element `n < GetNumElmts()` each of `m_schurCompl`, `m_BinvD`, `m_C`,
`m_invD` holds at `(n, n)` the sub-block `(0,0)`, `(0,1)`, `(1,0)`, `(1,1)` of
the local matrix, and no off-diagonal block is set in any of them; for
`eHybridDGHelmBndLam` only `m_schurCompl` is given a block per element, the
matrix `v_GetBlock(n)`, and `m_BinvD`, `m_C`, `m_invD` hold no block. -/
theorem SetupTopLevel_leaf_packaging (mt : MatrixType) (L : LocalMatrices) (m : Members)
    (d : AssemblyMapData) :
    (mt ≠ .eHybridDGHelmBndLam →
      (∀ n, n < L.GetNumElmts → L.v_GetStaticCondBlock n ≠ none) →
      ∃ m1 S, SetupTopLevel mt L m d = .ok m1 ∧ m1.m_schurCompl = some S ∧
        (∀ n, n < L.GetNumElmts →
          S.GetBlock n n = L.subBlock n 0 0 ∧ m1.m_BinvD.GetBlock n n = L.subBlock n 0 1 ∧
          m1.m_C.GetBlock n n = L.subBlock n 1 0 ∧
          m1.m_invD.GetBlock n n = L.subBlock n 1 1) ∧
        (∀ a b, a ≠ b → S.GetBlock a b = none ∧ m1.m_BinvD.GetBlock a b = none ∧
          m1.m_C.GetBlock a b = none ∧ m1.m_invD.GetBlock a b = none)) ∧
    (mt = .eHybridDGHelmBndLam →
      ∃ m1 S, SetupTopLevel mt L m d = .ok m1 ∧ m1.m_schurCompl = some S ∧
        (∀ n, n < L.GetNumElmts → S.GetBlock n n = L.v_GetBlock n) ∧
        (∀ a b, m1.m_BinvD.GetBlock a b = none ∧ m1.m_C.GetBlock a b = none ∧
          m1.m_invD.GetBlock a b = none) ∧
        (∀ a b, a ≠ b → S.GetBlock a b = none)) :=
  SetupTopLevel_blocks mt L m d

/-- Witness of C13 on the one-element example, for the Helmholtz matrix type
and for `eHybridDGHelmBndLam`. -/
theorem SetupTopLevel_leaf_packaging_witness :
    (∃ m1 S, SetupTopLevel .eHelmholtz ex5Local ex1Members ex1Data = .ok m1 ∧
        m1.m_schurCompl = some S ∧
        (∀ n, n < ex5Local.GetNumElmts →
          S.GetBlock n n = ex5Local.subBlock n 0 0 ∧
          m1.m_BinvD.GetBlock n n = ex5Local.subBlock n 0 1 ∧
          m1.m_C.GetBlock n n = ex5Local.subBlock n 1 0 ∧
          m1.m_invD.GetBlock n n = ex5Local.subBlock n 1 1) ∧
        (∀ a b, a ≠ b → S.GetBlock a b = none ∧ m1.m_BinvD.GetBlock a b = none ∧
          m1.m_C.GetBlock a b = none ∧ m1.m_invD.GetBlock a b = none)) ∧
    (∃ m1 S, SetupTopLevel .eHybridDGHelmBndLam ex5Local ex1Members ex1Data = .ok m1 ∧
        m1.m_schurCompl = some S ∧
        (∀ n, n < ex5Local.GetNumElmts → S.GetBlock n n = ex5Local.v_GetBlock n) ∧
        (∀ a b, m1.m_BinvD.GetBlock a b = none ∧ m1.m_C.GetBlock a b = none ∧
          m1.m_invD.GetBlock a b = none) ∧
        (∀ a b, a ≠ b → S.GetBlock a b = none)) :=
  ⟨(SetupTopLevel_leaf_packaging .eHelmholtz ex5Local ex1Members ex1Data).1 (by decide)
      (fun n _ => by simp [ex5Local]),
    (SetupTopLevel_leaf_packaging .eHybridDGHelmBndLam ex5Local ex1Members ex1Data).2 rfl⟩

/-- Counterexample to C13 as stated: for the matrix type
`eHybridDGHelmBndLam` the one-element example leaves `m_BinvD`, `m_C` and
`m_invD` without a block for element 0, although the local matrix has the
sub-blocks `(0,1)`, `(1,0)` and `(1,1)`. -/
theorem SetupTopLevel_leaf_packaging_counterexample :
    ∃ m1, SetupTopLevel .eHybridDGHelmBndLam ex5Local ex1Members ex1Data = .ok m1 ∧
      0 < ex5Local.GetNumElmts ∧
      m1.m_BinvD.GetBlock 0 0 = none ∧ ex5Local.subBlock 0 0 1 ≠ none ∧
      m1.m_BinvD.GetBlock 0 0 ≠ ex5Local.subBlock 0 0 1 ∧
      m1.m_C.GetBlock 0 0 ≠ ex5Local.subBlock 0 1 0 ∧
      m1.m_invD.GetBlock 0 0 ≠ ex5Local.subBlock 0 1 1 := by
  refine ⟨_, rfl, Nat.zero_lt_one, rfl, ?_, ?_, ?_, ?_⟩ <;>
    simp [LocalMatrices.subBlock, ex5Local, DNekScalBlkMat.GetBlock, SetupTopLevel_allocate,
      DNekScalBlkMat.allocate]


/-! ### Orientation consistency of the scatter -/

/-- Two loops over `range n` whose passes agree on the states the first one
reaches are equal. -/
theorem foldlM_range_congr {σ : Type} (f g : σ → Nat → Except ErrorKind σ)
    (Inv : Nat → σ → Prop) (n : Nat) (s : σ) (h0 : Inv 0 s)
    (hstep : ∀ k s1, k < n → Inv k s1 →
      f s1 k = g s1 k ∧ ∀ s2, f s1 k = .ok s2 → Inv (k + 1) s2) :
    (List.range n).foldlM f s = (List.range n).foldlM g s := by
  have key : ∀ m, m ≤ n → (List.range m).foldlM f s = (List.range m).foldlM g s ∧
      ∀ s', (List.range m).foldlM f s = .ok s' → Inv m s' := by
    intro m
    induction m with
    | zero =>
      intro _
      refine ⟨rfl, fun s' h => ?_⟩
      have h' : (Except.ok s : Except ErrorKind σ) = .ok s' := h
      injection h' with h'
      subst h'
      exact h0
    | succ m ih =>
      intro hm
      obtain ⟨he, hI⟩ := ih (by omega)
      rw [foldlM_range_succ, foldlM_range_succ, ← he]
      cases h1 : (List.range m).foldlM f s with
      | error e => exact ⟨rfl, fun s' h => by cases h⟩
      | ok s1 =>
        obtain ⟨hfg, hnext⟩ := hstep m s1 (by omega) (hI s1 h1)
        exact ⟨hfg, fun s' h => hnext s' h⟩
  exact (key n (le_refl n)).1

/-- Entry `(i, j)` of the orientation-reversed block. -/
theorem orientationReversed_get (s : Nat → NekDouble) (cnt : Nat) (B : DNekScalMat)
    (i j : Nat) (hi : i < B.GetRows) :
    (B.orientationReversed s cnt).get i j = s (cnt + i) * s (cnt + j) * B.get i j := by
  have hr : 0 < B.mat.rows := by
    have : i < B.mat.rows := hi
    omega
  have hi' : i < B.mat.rows := hi
  have hmod : (i + j * B.mat.rows) % B.mat.rows = i := by
    rw [Nat.add_mul_mod_self_right]
    exact Nat.mod_eq_of_lt hi'
  have hdiv : (i + j * B.mat.rows) / B.mat.rows = j := by
    rw [Nat.add_mul_div_right _ _ hr, Nat.div_eq_of_lt hi', zero_add]
  simp only [DNekScalMat.orientationReversed, DNekScalMat.get, DNekMat.get,
    DNekMat.CalculateIndex, hmod, hdiv, one_mul]

/-- The accumulation of one pair of rows with signs `s` is the accumulation
of the orientation-reversed block with all signs `+1`. -/
theorem scatterEntry_orientation (pm : PatchMap) (cnt : Nat) (st : MatrixStorage)
    (B : DNekScalMat) (i j : Nat) (sub : SubstructuredMat) (hi : i < B.GetRows) :
    scatterEntry pm cnt st B i j sub =
      scatterEntry pm.unsigned cnt st (B.orientationReversed pm.sign cnt) i j sub := by
  have hv : pm.unsigned.sign (cnt + i) * pm.unsigned.sign (cnt + j)
      * (B.orientationReversed pm.sign cnt).get i j
      = pm.sign (cnt + i) * pm.sign (cnt + j) * B.get i j := by
    rw [orientationReversed_get pm.sign cnt B i j hi]
    simp only [PatchMap.unsigned, one_mul]
  unfold scatterEntry scatterAdd
  rw [hv]
  rfl

/-- The loops over the rows of one Schur block with signs `s` are those over
the orientation-reversed block with all signs `+1`. -/
theorem scatterBlock_orientation (pm : PatchMap) (cnt : Nat) (st : MatrixStorage)
    (B : DNekScalMat) (sub : SubstructuredMat) :
    scatterBlock pm cnt st B sub =
      scatterBlock pm.unsigned cnt st (B.orientationReversed pm.sign cnt) sub := by
  unfold scatterBlock
  have hrows : (B.orientationReversed pm.sign cnt).GetRows = B.GetRows := rfl
  rw [hrows]
  refine foldlM_range_congr _ _ (fun _ _ => True) _ _ trivial ?_
  intro i s1 hi _
  refine ⟨?_, fun _ _ => trivial⟩
  refine foldlM_range_congr _ _ (fun _ _ => True) _ _ trivial ?_
  intro j s2 _ _
  exact ⟨scatterEntry_orientation pm cnt st B i j s2 hi, fun _ _ => trivial⟩


/-- The scatter of a Schur complement with signs `s` is the scatter of the
orientation-reversed Schur complement with all signs `+1`. -/
theorem scatterLoop_orientation (pm : PatchMap) (st : MatrixStorage) (S : DNekScalBlkMat)
    (sub : SubstructuredMat) :
    scatterLoop pm st S sub =
      scatterLoop pm.unsigned st (S.orientationReversed pm.sign) sub := by
  unfold scatterLoop
  have hn : (S.orientationReversed pm.sign).GetNumberOfBlockRows = S.GetNumberOfBlockRows := rfl
  rw [hn]
  refine foldlM_range_congr _ _ (fun k (s : Nat × SubstructuredMat) => s.1 = S.rowsBefore k)
    _ _ (by simp [DNekScalBlkMat.rowsBefore]) ?_
  intro k s1 _ hI
  have hblk : (S.orientationReversed pm.sign).GetBlock k k
      = (S.GetBlock k k).map (DNekScalMat.orientationReversed pm.sign (S.rowsBefore k)) := by
    simp only [DNekScalBlkMat.orientationReversed, DNekScalBlkMat.GetBlock, if_true]
  unfold scatterLoopStep
  rw [hblk]
  cases hB : S.GetBlock k k with
  | none => exact ⟨rfl, fun s2 h => by cases h⟩
  | some B =>
    simp only [Option.map_some']
    rw [← hI, ← scatterBlock_orientation pm s1.1 st B s1.2]
    have hrows : (B.orientationReversed pm.sign s1.1).GetRows = B.GetRows := rfl
    rw [hrows]
    refine ⟨rfl, fun s2 h => ?_⟩
    cases hs : scatterBlock pm s1.1 st B s1.2 with
    | error e =>
      rw [hs] at h
      cases h
    | ok sub1 =>
      rw [hs] at h
      injection h with h
      subst h
      simp only [rowsBefore_succ, hI, blockRows_of_some S k B hB]

/-- Entry `(i, j)` of diagonal block `n` of the orientation-reversed Schur
complement. -/
theorem orientationReversed_entry (S : DNekScalBlkMat) (s : Nat → NekDouble) (n i j : Nat)
    (hi : i < S.blockRows n) :
    (S.orientationReversed s).entry n i j =
      s (S.rowsBefore n + i) * s (S.rowsBefore n + j) * S.entry n i j := by
  have hblk : (S.orientationReversed s).GetBlock n n
      = (S.GetBlock n n).map (DNekScalMat.orientationReversed s (S.rowsBefore n)) := by
    simp only [DNekScalBlkMat.orientationReversed, DNekScalBlkMat.GetBlock, if_true]
  unfold DNekScalBlkMat.entry
  unfold DNekScalBlkMat.blockRows at hi
  rw [hblk]
  cases hB : S.GetBlock n n with
  | none =>
    rw [hB] at hi
    exact absurd hi (Nat.not_lt_zero i)
  | some B =>
    rw [hB] at hi
    simp only [Option.map_some']
    exact orientationReversed_get s _ B i j hi

/-- Flipping the sign of previous-level DOF `k` negates what a pair of rows
adds when exactly one of the two rows is `k` and leaves it unchanged
otherwise. -/
theorem scatterContribution_flip (pm : PatchMap) (k cnt : Nat) (st : MatrixStorage)
    (val : Nat → Nat → NekDouble) (ref : SubstructuredMat) (X : SubBlock) (p idx i j : Nat) :
    ((cnt + i = k ∧ cnt + j ≠ k) ∨ (cnt + i ≠ k ∧ cnt + j = k) →
      scatterContribution (pm.flipSign k) cnt st val ref X p idx i j
        = - scatterContribution pm cnt st val ref X p idx i j) ∧
    (cnt + i = k ∧ cnt + j = k →
      scatterContribution (pm.flipSign k) cnt st val ref X p idx i j
        = scatterContribution pm cnt st val ref X p idx i j) ∧
    (cnt + i ≠ k ∧ cnt + j ≠ k →
      scatterContribution (pm.flipSign k) cnt st val ref X p idx i j
        = scatterContribution pm cnt st val ref X p idx i j) := by
  have hk : ∀ r, r = k → (pm.flipSign k).sign r = - pm.sign r := fun r hr => by
    subst hr
    simp [PatchMap.flipSign]
  have hnk : ∀ r, r ≠ k → (pm.flipSign k).sign r = pm.sign r := fun r hr => by
    simp [PatchMap.flipSign, Function.update_noteq hr]
  have hshape : ∀ q : PatchMap, q.patchId = pm.patchId → q.dofId = pm.dofId →
      q.isBndDof = pm.isBndDof → ∀ c : NekDouble,
      q.sign (cnt + i) * q.sign (cnt + j) = c * (pm.sign (cnt + i) * pm.sign (cnt + j)) →
      scatterContribution q cnt st val ref X p idx i j
        = c * scatterContribution pm cnt st val ref X p idx i j := by
    intro q h1 h2 h3 c hc
    unfold scatterContribution
    rw [h1, h2, h3, hc]
    split_ifs
    · ring
    · ring
  refine ⟨?_, ?_, ?_⟩
  · intro h
    rw [hshape (pm.flipSign k) rfl rfl rfl (-1) ?_]
    · ring
    · rcases h with ⟨h1, h2⟩ | ⟨h1, h2⟩
      · rw [hk _ h1, hnk _ h2]; ring
      · rw [hnk _ h1, hk _ h2]; ring
  · rintro ⟨h1, h2⟩
    rw [hshape (pm.flipSign k) rfl rfl rfl 1 ?_]
    · ring
    · rw [hk _ h1, hk _ h2]; ring
  · rintro ⟨h1, h2⟩
    rw [hshape (pm.flipSign k) rfl rfl rfl 1 ?_]
    · ring
    · rw [hnk _ h1, hnk _ h2]; ring


/-- In the code of the scatter: with the sign of previous-level DOF `k`
flipped, a pair of rows of which exactly one is `k` accumulates the negated
entry, and every other pair accumulates what it did. -/
theorem scatterAdd_flip (pm : PatchMap) (k cnt : Nat) (st : MatrixStorage) (B : DNekScalMat)
    (i j : Nat) (sub : SubstructuredMat) :
    ((cnt + i = k ∧ cnt + j ≠ k) ∨ (cnt + i ≠ k ∧ cnt + j = k) →
      scatterAdd (pm.flipSign k) cnt st B i j sub
        = scatterAdd pm cnt st ⟨-B.scale, B.mat⟩ i j sub) ∧
    ((cnt + i = k ↔ cnt + j = k) →
      scatterAdd (pm.flipSign k) cnt st B i j sub = scatterAdd pm cnt st B i j sub) := by
  have hk : ∀ r, r = k → (pm.flipSign k).sign r = - pm.sign r := fun r hr => by
    subst hr
    simp [PatchMap.flipSign]
  have hnk : ∀ r, r ≠ k → (pm.flipSign k).sign r = pm.sign r := fun r hr => by
    simp [PatchMap.flipSign, Function.update_noteq hr]
  constructor
  · intro h
    have hv : (pm.flipSign k).sign (cnt + i) * (pm.flipSign k).sign (cnt + j) * B.get i j
        = pm.sign (cnt + i) * pm.sign (cnt + j) * (DNekScalMat.mk (-B.scale) B.mat).get i j := by
      simp only [DNekScalMat.get]
      rcases h with ⟨h1, h2⟩ | ⟨h1, h2⟩
      · rw [hk _ h1, hnk _ h2]; ring
      · rw [hnk _ h1, hk _ h2]; ring
    unfold scatterAdd
    rw [hv]
    rfl
  · intro h
    have hv : (pm.flipSign k).sign (cnt + i) * (pm.flipSign k).sign (cnt + j) * B.get i j
        = pm.sign (cnt + i) * pm.sign (cnt + j) * B.get i j := by
      by_cases h1 : cnt + i = k
      · rw [hk _ h1, hk _ (h.1 h1)]; ring
      · rw [hnk _ h1, hnk _ (fun h2 => h1 (h.2 h2))]
    unfold scatterAdd
    rw [hv]
    rfl

/-- C12: orientation consistency of the scatter.  For every previous-level
Schur complement `S` and sign vector `s`, scattering `S` with the signs `s`
gives the same result (the same new-level blocks, or the same failure) as
scattering the orientation-reversed `diag(s) * S * diag(s)`, whose entries are
`s_i * s_j * S(i,j)`, with all signs `+1`; and flipping the sign of one
previous-level DOF `k` negates what the pairs of rows `(k, j)` and `(j, k)`
with `j != k` add, and leaves what the pair `(k, k)` and every other pair
adds unchanged. -/
theorem ConstructNextLevelCondensedSystem_orientation_consistency (pm : PatchMap)
    (st : MatrixStorage) (S : DNekScalBlkMat) (sub : SubstructuredMat) (k cnt : Nat)
    (B : DNekScalMat) (i j : Nat) :
    scatterLoop pm st S sub = scatterLoop pm.unsigned st (S.orientationReversed pm.sign) sub ∧
    (∀ n a b, a < S.blockRows n →
      (S.orientationReversed pm.sign).entry n a b =
        pm.sign (S.rowsBefore n + a) * pm.sign (S.rowsBefore n + b) * S.entry n a b) ∧
    ((cnt + i = k ∧ cnt + j ≠ k) ∨ (cnt + i ≠ k ∧ cnt + j = k) →
      scatterAdd (pm.flipSign k) cnt st B i j sub
          = scatterAdd pm cnt st ⟨-B.scale, B.mat⟩ i j sub ∧
        ∀ X p idx, scatterContribution (pm.flipSign k) cnt st B.get sub X p idx i j
          = - scatterContribution pm cnt st B.get sub X p idx i j) ∧
    ((cnt + i = k ↔ cnt + j = k) →
      scatterAdd (pm.flipSign k) cnt st B i j sub = scatterAdd pm cnt st B i j sub ∧
        ∀ X p idx, scatterContribution (pm.flipSign k) cnt st B.get sub X p idx i j
          = scatterContribution pm cnt st B.get sub X p idx i j) := by
  refine ⟨scatterLoop_orientation pm st S sub,
    fun n a b ha => orientationReversed_entry S pm.sign n a b ha, ?_, ?_⟩
  · intro h
    exact ⟨(scatterAdd_flip pm k cnt st B i j sub).1 h,
      fun X p idx => (scatterContribution_flip pm k cnt st B.get sub X p idx i j).1 h⟩
  · intro h
    refine ⟨(scatterAdd_flip pm k cnt st B i j sub).2 h, fun X p idx => ?_⟩
    by_cases h1 : cnt + i = k
    · exact (scatterContribution_flip pm k cnt st B.get sub X p idx i j).2.1 ⟨h1, h.1 h1⟩
    · exact (scatterContribution_flip pm k cnt st B.get sub X p idx i j).2.2
        ⟨h1, fun h2 => h1 (h.2 h2)⟩

/-- Witness of C12 on the two-level example, whose previous-level DOF 2 has
sign `-1`: the pair of rows `(2, 3)` and the pair `(2, 2)` of the second
Schur block. -/
theorem ConstructNextLevelCondensedSystem_orientation_consistency_witness :
    scatterLoop ex2Data1.patchMapFromPrevLevel .eFULL ex2SchurCompl
        (allocateSubstructuredMat 1 [2] [1] .eFULL) =
      scatterLoop ex2Data1.patchMapFromPrevLevel.unsigned .eFULL
        (ex2SchurCompl.orientationReversed ex2Data1.patchMapFromPrevLevel.sign)
        (allocateSubstructuredMat 1 [2] [1] .eFULL) ∧
    (0 < ex2SchurCompl.blockRows 1 ∧
      (ex2SchurCompl.orientationReversed ex2Data1.patchMapFromPrevLevel.sign).entry 1 0 1 =
        ex2Data1.patchMapFromPrevLevel.sign (ex2SchurCompl.rowsBefore 1 + 0)
          * ex2Data1.patchMapFromPrevLevel.sign (ex2SchurCompl.rowsBefore 1 + 1)
          * ex2SchurCompl.entry 1 0 1) ∧
    (((2 + 0 = 2 ∧ 2 + 1 ≠ 2) ∨ (2 + 0 ≠ 2 ∧ 2 + 1 = 2)) ∧
      scatterAdd (ex2Data1.patchMapFromPrevLevel.flipSign 2) 2 .eFULL
          ⟨1, DNekMat.ofList 2 2 [2, -1, -1, 2]⟩ 0 1 (allocateSubstructuredMat 1 [2] [1] .eFULL)
        = scatterAdd ex2Data1.patchMapFromPrevLevel 2 .eFULL
          ⟨-1, DNekMat.ofList 2 2 [2, -1, -1, 2]⟩ 0 1
          (allocateSubstructuredMat 1 [2] [1] .eFULL)) ∧
    ((2 + 0 = 2 ↔ 2 + 0 = 2) ∧
      scatterAdd (ex2Data1.patchMapFromPrevLevel.flipSign 2) 2 .eFULL
          ⟨1, DNekMat.ofList 2 2 [2, -1, -1, 2]⟩ 0 0 (allocateSubstructuredMat 1 [2] [1] .eFULL)
        = scatterAdd ex2Data1.patchMapFromPrevLevel 2 .eFULL
          ⟨1, DNekMat.ofList 2 2 [2, -1, -1, 2]⟩ 0 0
          (allocateSubstructuredMat 1 [2] [1] .eFULL)) := by
  have hrows : 0 < ex2SchurCompl.blockRows 1 := by
    rw [ex2_blockRows 1 (by decide)]
    decide
  have hc1 : (2 + 0 = 2 ∧ 2 + 1 ≠ 2) ∨ (2 + 0 ≠ 2 ∧ 2 + 1 = 2) := Or.inl ⟨rfl, by decide⟩
  have hc2 : (2 + 0 = 2 ↔ 2 + 0 = 2) := Iff.rfl
  have h1 := ConstructNextLevelCondensedSystem_orientation_consistency
    ex2Data1.patchMapFromPrevLevel .eFULL ex2SchurCompl
    (allocateSubstructuredMat 1 [2] [1] .eFULL) 2 2 ⟨1, DNekMat.ofList 2 2 [2, -1, -1, 2]⟩ 0 1
  have h2 := ConstructNextLevelCondensedSystem_orientation_consistency
    ex2Data1.patchMapFromPrevLevel .eFULL ex2SchurCompl
    (allocateSubstructuredMat 1 [2] [1] .eFULL) 2 2 ⟨1, DNekMat.ofList 2 2 [2, -1, -1, 2]⟩ 0 0
  exact ⟨h1.1, ⟨hrows, h1.2.1 1 0 1 hrows⟩, ⟨hc1, (h1.2.2.1 hc1).1⟩, ⟨hc2, (h2.2.2.2 hc2).1⟩⟩


/-! ### Collective calls of `v_Solve` -/

/-- The dummy communication does one pass of its loop per recorded call. -/
theorem v_Solve_dummyCommunication_eq (d : AssemblyMapData) (atLastLevel : Bool)
    (wsp : NekArray) :
    v_Solve_dummyCommunication d atLastLevel wsp =
      (v_Solve_dummyCommunication_calls d atLastLevel).foldl
        (fun w _ => v_Solve_dummyStep d w) wsp := by
  unfold v_Solve_dummyCommunication v_Solve_dummyCommunication_calls
  split_ifs
  · rw [List.foldl_map]
  · rfl

/-- With symmetric previous-level blocks and a well-formed patch map, the
reference sum of a kind of patch matrix is that of the transposed kind at the
exchanged position. -/
theorem reference_transpose_wf (pm : PatchMap) (S : DNekScalBlkMat)
    (hsame : ¬ PatchMapMismatch pm S) (hsym : S.Symmetric) (X : SubBlock) (p a b : Nat) :
    scatterReference pm S X p a b = scatterReference pm S X.transpose p b a := by
  unfold scatterReference
  apply Finset.sum_congr rfl
  intro n hn
  rw [Finset.sum_comm]
  apply Finset.sum_congr rfl
  intro j hj
  apply Finset.sum_congr rfl
  intro i hi
  have hn' := Finset.mem_range.mp hn
  have hi' := Finset.mem_range.mp hi
  have hj' := Finset.mem_range.mp hj
  have hsm : pm.patchId (S.rowsBefore n + i) = pm.patchId (S.rowsBefore n + j) := by
    by_contra hne
    exact hsame ⟨n, hn', i, j, hi', hj', hne⟩
  rw [transpose_rowBnd, transpose_colBnd, hsym n i j hi' hj']
  by_cases hc : pm.patchId (S.rowsBefore n + i) = p ∧ pm.dofId (S.rowsBefore n + i) = a ∧
      pm.dofId (S.rowsBefore n + j) = b ∧
      decide (pm.isBndDof (S.rowsBefore n + i) ≠ 0) = X.rowBnd ∧
      decide (pm.isBndDof (S.rowsBefore n + j) ≠ 0) = X.colBnd
  · rw [if_pos hc, if_pos ⟨by rw [← hsm]; exact hc.1, hc.2.2.1, hc.2.1, hc.2.2.2.2,
      hc.2.2.2.1⟩]
    ring
  · rw [if_neg hc, if_neg (fun h => hc ⟨by rw [hsm]; exact h.1, h.2.2.1, h.2.1, h.2.2.2.2,
      h.2.2.2.1⟩)]

/-- After the scatter loop in symmetric mode on a well-formed patch map, with
symmetric previous-level blocks, the entries of `D` read through the symmetric
layout are the reference sums. -/
theorem scatter_reference_sym_wf (pm : PatchMap) (S : DNekScalBlkMat) (nPatches : Nat)
    (nBnd nInt : List Nat) (hwf : PatchMapWellFormed pm S nPatches nBnd nInt)
    (hsym : S.Symmetric) (r : Nat × SubstructuredMat)
    (hr : scatterLoop pm .eSYMMETRIC S
      (allocateSubstructuredMat nPatches nBnd nInt .eSYMMETRIC) = .ok r)
    (p a b : Nat) :
    (r.2.block .D p).get a b = scatterReference pm S .D p a b := by
  obtain ⟨r', hr', _, hd, hv⟩ := scatterLoop_ok pm .eSYMMETRIC S
    (allocateSubstructuredMat nPatches nBnd nInt .eSYMMETRIC)
    (fun Y q hY => allocate_storage_full _ _ _ _ _ _ hY) hwf.blocks hwf.samePatch
  rw [hr] at hr'
  simp only [Except.ok.injEq] at hr'
  subst hr'
  have hst : (r.2.block .D p).storage = .eSYMMETRIC := by
    rw [(hd .D p).2.2, allocate_storage_D]
  have hst0 : ((allocateSubstructuredMat nPatches nBnd nInt .eSYMMETRIC).block .D p).storage
      = .eSYMMETRIC := allocate_storage_D _ _ _ _ _
  have hupper : ∀ a b, a ≤ b →
      (r.2.block .D p).get a b = scatterReference pm S .D p a b := by
    intro a b hab
    unfold DNekMat.get DNekMat.CalculateIndex
    rw [hst]
    simp only
    rw [if_pos hab, hv, allocate_data, zero_add]
    unfold scatterReference
    apply Finset.sum_congr rfl
    intro n _
    apply Finset.sum_congr rfl
    intro i _
    apply Finset.sum_congr rfl
    intro j _
    unfold scatterContribution DNekMat.CalculateIndex
    rw [hst0]
    simp only
    apply if_congr _ rfl rfl
    constructor
    · rintro ⟨h1, h2, h3, h4, h5⟩
      have hle : pm.dofId (S.rowsBefore n + i) ≤ pm.dofId (S.rowsBefore n + j) := by
        simpa using h4
      rw [if_pos hle] at h5
      have := packed_inj hab hle h5
      exact ⟨h1, this.1.symm, this.2.symm, h2, h3⟩
    · rintro ⟨h1, h2, h3, h4, h5⟩
      refine ⟨h1, h4, h5, fun _ _ => by rw [h2, h3]; exact hab, ?_⟩
      rw [h2, h3, if_pos hab]
  by_cases hab : a ≤ b
  · exact hupper a b hab
  · rw [get_symm _ hst, hupper b a (by omega),
      reference_transpose_wf pm S hwf.samePatch hsym .D p b a]
    rfl

/-- The scatter in symmetric mode and the scatter in full mode succeed
together on a well-formed patch map, give the same `A`, `B` and `C` matrices
and the same entries of `D`. -/
theorem scatter_sym_full (pm : PatchMap) (S : DNekScalBlkMat) (nPatches : Nat)
    (nBnd nInt : List Nat) (hwf : PatchMapWellFormed pm S nPatches nBnd nInt)
    (hsym : S.Symmetric) :
    ∃ rs rf : Nat × SubstructuredMat,
      scatterLoop pm .eSYMMETRIC S
        (allocateSubstructuredMat nPatches nBnd nInt .eSYMMETRIC) = .ok rs ∧
      scatterLoop pm .eFULL S (allocateSubstructuredMat nPatches nBnd nInt .eFULL) = .ok rf ∧
      rs.2.SameDims (allocateSubstructuredMat nPatches nBnd nInt .eSYMMETRIC) ∧
      rf.2.SameDims (allocateSubstructuredMat nPatches nBnd nInt .eFULL) ∧
      (∀ X p, X ≠ .D → rs.2.block X p = rf.2.block X p) ∧
      (∀ p a b, p < nPatches → a < nInt.getD p 0 →
        (rs.2.D p).get a b = (rf.2.D p).get a b) := by
  obtain ⟨rs, hrs, _, hds, hvs⟩ := scatterLoop_ok pm .eSYMMETRIC S
    (allocateSubstructuredMat nPatches nBnd nInt .eSYMMETRIC)
    (fun Y q hY => allocate_storage_full _ _ _ _ _ _ hY) hwf.blocks hwf.samePatch
  obtain ⟨rf, hrf, hdf, hvf⟩ := scatterLoop_reference pm S nPatches nBnd nInt .eFULL hwf
  obtain ⟨rf', hrf', _, _, hvf'⟩ := scatterLoop_ok pm .eFULL S
    (allocateSubstructuredMat nPatches nBnd nInt .eFULL)
    (fun Y q hY => allocate_storage_full _ _ _ _ _ _ hY) hwf.blocks hwf.samePatch
  rw [hrf] at hrf'
  simp only [Except.ok.injEq] at hrf'
  subst hrf'
  refine ⟨rs, rf, hrs, hrf, hds, hdf, ?_, ?_⟩
  · intro X p hX
    have hblk : ∀ st, (allocateSubstructuredMat nPatches nBnd nInt st).block X p
        = (allocateSubstructuredMat nPatches nBnd nInt .eFULL).block X p := by
      intro st
      cases X with
      | A => rfl
      | B => rfl
      | C => rfl
      | D => exact absurd rfl hX
    have h1 := hds X p
    have h2 := hdf X p
    rw [hblk] at h1
    have hdata : (rs.2.block X p).data = (rf.2.block X p).data := by
      funext idx
      rw [hvs, hvf', hblk .eSYMMETRIC]
      congr 1
      apply Finset.sum_congr rfl
      intro n _
      apply Finset.sum_congr rfl
      intro i _
      apply Finset.sum_congr rfl
      intro j _
      unfold scatterContribution
      rw [hblk .eSYMMETRIC]
      apply if_congr _ rfl rfl
      constructor
      · rintro ⟨c1, c2, c3, _, c5⟩
        exact ⟨c1, c2, c3, fun h => absurd h hX, c5⟩
      · rintro ⟨c1, c2, c3, _, c5⟩
        exact ⟨c1, c2, c3, fun h => absurd h hX, c5⟩
    cases hs : rs.2.block X p with
    | mk r1 c1 s1 d1 =>
      cases hf : rf.2.block X p with
      | mk r2 c2 s2 d2 =>
        rw [hs] at h1 hdata
        rw [hf] at h2 hdata
        simp only at h1 h2 hdata
        rw [h1.1, h1.2.1, h1.2.2, h2.1, h2.2.1, h2.2.2, hdata]
  · intro p a b hp ha
    have e1 := scatter_reference_sym_wf pm S nPatches nBnd nInt hwf hsym rs hrs p a b
    have e2 := hvf .D p a b hp ha (fun _ => rfl)
    exact e1.trans e2.symm


/-- A square matrix has at most one right inverse. -/
theorem right_inverse_unique (n : Nat) (M R1 R2 : Nat → Nat → NekDouble)
    (h1 : ∀ i j, i < n → j < n →
      ∑ k in Finset.range n, M i k * R1 k j = if i = j then 1 else 0)
    (h2 : ∀ i j, i < n → j < n →
      ∑ k in Finset.range n, M i k * R2 k j = if i = j then 1 else 0) :
    ∀ k j, k < n → j < n → R1 k j = R2 k j := by
  have key : ∀ R : Nat → Nat → NekDouble,
      (∀ i j, i < n → j < n →
        ∑ k in Finset.range n, M i k * R k j = if i = j then 1 else 0) →
      (Matrix.of (fun (i k : Fin n) => M i k)) * (Matrix.of (fun (k j : Fin n) => R k j))
        = (1 : Matrix (Fin n) (Fin n) NekDouble) := by
    intro R h
    ext i j
    rw [Matrix.mul_apply, Matrix.one_apply]
    have := h i j i.2 j.2
    rw [Finset.sum_range] at this
    simp only [Matrix.of_apply, Fin.ext_iff]
    exact this
  have e1 := key R1 h1
  have e2 := key R2 h2
  have e3 := Matrix.mul_eq_one_comm.mp e1
  have heq : Matrix.of (fun (k j : Fin n) => R1 k j) = Matrix.of (fun (k j : Fin n) => R2 k j) := by
    calc Matrix.of (fun (k j : Fin n) => R1 k j)
        = Matrix.of (fun (k j : Fin n) => R1 k j)
            * (Matrix.of (fun (i k : Fin n) => M i k) * Matrix.of (fun (k j : Fin n) => R2 k j)) := by
          rw [e2, mul_one]
      _ = Matrix.of (fun (k j : Fin n) => R2 k j) := by
          rw [← Matrix.mul_assoc, e3, one_mul]
  intro k j hk hj
  have := congrFun (congrFun heq ⟨k, hk⟩) ⟨j, hj⟩
  simpa using this


/-- The elimination of patch matrices that agree in `A`, `B`, `C` and in the
entries of `D` gives the same Schur complement entries, whatever the storage
of `D`. -/
theorem condense_sym_full (Invert : DNekMat → Option DNekMat) (hInv : InvertSpec Invert)
    (nPatches : Nat) (nBnd nInt : List Nat) (rs rf ss sf : SubstructuredMat)
    (hds : rs.SameDims (allocateSubstructuredMat nPatches nBnd nInt .eSYMMETRIC))
    (hdf : rf.SameDims (allocateSubstructuredMat nPatches nBnd nInt .eFULL))
    (hABC : ∀ X p, X ≠ .D → rs.block X p = rf.block X p)
    (hD : ∀ p a b, p < nPatches → a < nInt.getD p 0 → (rs.D p).get a b = (rf.D p).get a b)
    (hs : condenseLoop Invert nPatches nInt rs = .ok ss)
    (hf : condenseLoop Invert nPatches nInt rf = .ok sf)
    (p a b : Nat) (hp : p < nPatches) (ha : a < nBnd.getD p 0) (hb : b < nBnd.getD p 0) :
    (ss.A p).get a b = (sf.A p).get a b := by
  have hA : rs.A p = rf.A p := hABC .A p (by decide)
  have hB : rs.B p = rf.B p := hABC .B p (by decide)
  have hC : rs.C p = rf.C p := hABC .C p (by decide)
  obtain ⟨dA, dB, dC, dDf⟩ := SameDims_allocate rf nPatches nBnd nInt .eFULL hdf p hp
  obtain ⟨_, _, _, dDs⟩ := SameDims_allocate rs nPatches nBnd nInt .eSYMMETRIC hds p hp
  obtain ⟨hs1, hs0⟩ := condenseLoop_spec Invert nPatches nInt rs ss hs p
  obtain ⟨hf1, hf0⟩ := condenseLoop_spec Invert nPatches nInt rf sf hf p
  by_cases hn : nInt.getD p 0 ≠ 0
  · obtain ⟨Rs, hRs, hAs, _⟩ := hs1 ⟨hp, hn⟩
    obtain ⟨Rf, hRf, hAf, _⟩ := hf1 ⟨hp, hn⟩
    obtain ⟨_, hRsc, _, hRsI⟩ := hInv _ _ hRs
    obtain ⟨_, hRfc, _, hRfI⟩ := hInv _ _ hRf
    rw [dDs.1, dDs.2.1] at hRsI
    rw [dDf.1, dDf.2.1] at hRfI
    rw [dDs.2.1] at hRsc
    rw [dDf.2.1] at hRfc
    have huniq := right_inverse_unique (nInt.getD p 0) (rf.D p).get Rs.get Rf.get
      (fun i j hi hj => by
        rw [← hRsI i j hi hj]
        apply Finset.sum_congr rfl
        intro k _
        rw [hD p i k hp hi])
      hRfI
    rw [hAs, hAf, hA, hB, hC]
    have hXs : ((rf.B p).mulAssign Rs).storage = .eFULL := rfl
    have hXf : ((rf.B p).mulAssign Rf).storage = .eFULL := rfl
    have hrs : ((rf.B p).mulAssign Rs).rows = (rf.A p).rows := by
      show (rf.B p).rows = (rf.A p).rows
      rw [dB.1, dA.1]
    have hrf : ((rf.B p).mulAssign Rf).rows = (rf.A p).rows := by
      show (rf.B p).rows = (rf.A p).rows
      rw [dB.1, dA.1]
    rw [Dgemm_get _ _ _ dA.2.2 hXs dC.2.2 hrs a b (by rw [dA.1]; exact ha)
        (by rw [dC.2.1]; exact hb),
      Dgemm_get _ _ _ dA.2.2 hXf dC.2.2 hrf a b (by rw [dA.1]; exact ha)
        (by rw [dC.2.1]; exact hb)]
    congr 1
    apply Finset.sum_congr rfl
    intro k hk
    have hk' : k < nInt.getD p 0 := by
      have := Finset.mem_range.mp hk
      rw [dC.1] at this
      exact this
    rw [mulAssign_get _ _ a k (by rw [dB.1]; exact ha) (by rw [hRsc]; exact hk'),
      mulAssign_get _ _ a k (by rw [dB.1]; exact ha) (by rw [hRfc]; exact hk')]
    congr 1
    apply Finset.sum_congr rfl
    intro l hl
    have hl' : l < nInt.getD p 0 := by
      have := Finset.mem_range.mp hl
      rw [dB.2.1] at this
      exact this
    rw [huniq l k hl' hk']
  · have hno : ¬ (p < nPatches ∧ nInt.getD p 0 ≠ 0) := fun h => hn h.2
    rw [(hs0 hno).1, (hf0 hno).1, hA]


/-- Two-level example: the blocks of the leaf Schur complement are
symmetric. -/
theorem ex2_symmetric : ex2SchurCompl.Symmetric := by
  intro n i j hi hj
  by_cases hn : n < 2
  · rw [ex2_blockRows n hn] at hi hj
    rw [entry_of_some _ _ _ (ex2_GetBlock n hn)]
    interval_cases i <;> interval_cases j <;>
      simp [DNekScalMat.get, DNekMat.get, DNekMat.CalculateIndex, DNekMat.ofList]
  · have hnone : ex2SchurCompl.GetBlock n n = none := by
      have h2 : 2 ≤ n := by omega
      simp [ex2SchurCompl, DNekScalBlkMat.GetBlock, DNekScalBlkMat.ofBlocks, h2]
    unfold DNekScalBlkMat.blockRows at hi
    rw [hnone] at hi
    exact absurd hi (Nat.not_lt_zero i)

/-- C11: symmetric versus full storage of `D`.  For every well-formed patch
map and every previous level all of whose Schur blocks are symmetric, the
scatter in symmetric mode (which writes only the pairs with
`dofId[i] <= dofId[j]`, into the upper triangle) and the scatter in full mode
both succeed, every entry of a `D` block accumulated in symmetric mode,
read through the symmetric layout, equals the entry accumulated in full mode,
the `A`, `B` and `C` blocks are the same, and for an inversion routine that
returns inverses the resulting Schur complements `A - B * invD * C` have the
same entries. -/
theorem ConstructNextLevelCondensedSystem_symmetric_full_storage (pm : PatchMap)
    (S : DNekScalBlkMat) (nPatches : Nat) (nBnd nInt : List Nat)
    (hwf : PatchMapWellFormed pm S nPatches nBnd nInt) (hsym : S.Symmetric) :
    ∃ rs rf : Nat × SubstructuredMat,
      scatterLoop pm .eSYMMETRIC S
        (allocateSubstructuredMat nPatches nBnd nInt .eSYMMETRIC) = .ok rs ∧
      scatterLoop pm .eFULL S (allocateSubstructuredMat nPatches nBnd nInt .eFULL) = .ok rf ∧
      (∀ p a b, p < nPatches → a < nInt.getD p 0 → b < nInt.getD p 0 →
        (rs.2.D p).get a b = (rf.2.D p).get a b) ∧
      (∀ p, rs.2.A p = rf.2.A p ∧ rs.2.B p = rf.2.B p ∧ rs.2.C p = rf.2.C p) ∧
      ∀ Invert, InvertSpec Invert → ∀ ss sf,
        condenseLoop Invert nPatches nInt rs.2 = .ok ss →
        condenseLoop Invert nPatches nInt rf.2 = .ok sf →
        ∀ p a b, p < nPatches → a < nBnd.getD p 0 → b < nBnd.getD p 0 →
          (ss.A p).get a b = (sf.A p).get a b := by
  obtain ⟨rs, rf, hrs, hrf, hds, hdf, hABC, hD⟩ := scatter_sym_full pm S nPatches nBnd nInt hwf
    hsym
  refine ⟨rs, rf, hrs, hrf, fun p a b hp ha _ => hD p a b hp ha,
    fun p => ⟨hABC .A p (by decide), hABC .B p (by decide), hABC .C p (by decide)⟩, ?_⟩
  intro Invert hInv ss sf hs hf p a b hp ha hb
  exact condense_sym_full Invert hInv nPatches nBnd nInt rs.2 rf.2 ss sf hds hdf hABC hD hs hf
    p a b hp ha hb

/-- Witness of C11 on the two-level example, with the inversion routine for
1 x 1 matrices. -/
theorem ConstructNextLevelCondensedSystem_symmetric_full_storage_witness :
    PatchMapWellFormed ex2Data1.patchMapFromPrevLevel ex2SchurCompl ex2Data1.numPatches
        ex2Data1.numLocalBndCoeffsPerPatch ex2Data1.numLocalIntCoeffsPerPatch ∧
    ex2SchurCompl.Symmetric ∧ InvertSpec invertOneByOne ∧
    ∃ (rs rf : Nat × SubstructuredMat) (ss sf : SubstructuredMat),
      scatterLoop ex2Data1.patchMapFromPrevLevel .eSYMMETRIC ex2SchurCompl
        (allocateSubstructuredMat ex2Data1.numPatches ex2Data1.numLocalBndCoeffsPerPatch
          ex2Data1.numLocalIntCoeffsPerPatch .eSYMMETRIC) = .ok rs ∧
      scatterLoop ex2Data1.patchMapFromPrevLevel .eFULL ex2SchurCompl
        (allocateSubstructuredMat ex2Data1.numPatches ex2Data1.numLocalBndCoeffsPerPatch
          ex2Data1.numLocalIntCoeffsPerPatch .eFULL) = .ok rf ∧
      condenseLoop invertOneByOne ex2Data1.numPatches ex2Data1.numLocalIntCoeffsPerPatch rs.2
        = .ok ss ∧
      condenseLoop invertOneByOne ex2Data1.numPatches ex2Data1.numLocalIntCoeffsPerPatch rf.2
        = .ok sf ∧
      (rs.2.D 0).get 0 0 = (rf.2.D 0).get 0 0 ∧
      ∀ a b, a < 2 → b < 2 → (ss.A 0).get a b = (sf.A 0).get a b := by
  obtain ⟨rs, rf, hrs, hrf, hD, _, hS⟩ :=
    ConstructNextLevelCondensedSystem_symmetric_full_storage ex2Data1.patchMapFromPrevLevel
      ex2SchurCompl ex2Data1.numPatches ex2Data1.numLocalBndCoeffsPerPatch
      ex2Data1.numLocalIntCoeffsPerPatch ex2_wellFormed ex2_symmetric
  obtain ⟨rs1, rf1, hrs1, hrf1, hds, hdf, _, _⟩ := scatter_sym_full
    ex2Data1.patchMapFromPrevLevel ex2SchurCompl ex2Data1.numPatches
    ex2Data1.numLocalBndCoeffsPerPatch ex2Data1.numLocalIntCoeffsPerPatch ex2_wellFormed
    ex2_symmetric
  rw [hrs] at hrs1
  rw [hrf] at hrf1
  simp only [Except.ok.injEq] at hrs1 hrf1
  subst hrs1
  subst hrf1
  obtain ⟨r, hr, _, hv⟩ := scatterLoop_reference ex2Data1.patchMapFromPrevLevel ex2SchurCompl
    ex2Data1.numPatches ex2Data1.numLocalBndCoeffsPerPatch ex2Data1.numLocalIntCoeffsPerPatch
    .eFULL ex2_wellFormed
  rw [hrf] at hr
  simp only [Except.ok.injEq] at hr
  subst hr
  have h0 : (0 : Nat) < ex2Data1.numPatches := Nat.zero_lt_one
  have h01 : (0 : Nat) < ex2Data1.numLocalIntCoeffsPerPatch.getD 0 0 := Nat.zero_lt_one
  have hf4 : (rf.2.D 0).get 0 0 = 4 := by
    have := hv .D 0 0 0 h0 h01 (fun _ => rfl)
    rw [ex2_reference_D] at this
    exact this
  have hs4 : (rs.2.D 0).get 0 0 = 4 := (hD 0 0 0 h0 h01 h01).trans hf4
  obtain ⟨_, _, _, dDs⟩ := SameDims_allocate rs.2 _ _ _ _ hds 0 h0
  obtain ⟨_, _, _, dDf⟩ := SameDims_allocate rf.2 _ _ _ _ hdf 0 h0
  have hsdata : (rs.2.D 0).data 0 = 4 := by
    rw [← hs4]
    simp [DNekMat.get, DNekMat.CalculateIndex, dDs.2.2]
  have hfdata : (rf.2.D 0).data 0 = 4 := by
    rw [← hf4]
    simp [DNekMat.get, DNekMat.CalculateIndex, dDf.2.2]
  have hone : ∀ i, i < ex2Data1.numPatches → i = 0 := fun i hi => by
    have : i < 1 := hi
    omega
  obtain ⟨ss, hss⟩ := condenseLoop_ok invertOneByOne ex2Data1.numPatches
    ex2Data1.numLocalIntCoeffsPerPatch rs.2 (fun i hi _ => by
      rw [hone i hi]
      exact invertOneByOne_nonzero _ dDs.1 dDs.2.1 (by rw [hsdata]; norm_num))
  obtain ⟨sf, hsf⟩ := condenseLoop_ok invertOneByOne ex2Data1.numPatches
    ex2Data1.numLocalIntCoeffsPerPatch rf.2 (fun i hi _ => by
      rw [hone i hi]
      exact invertOneByOne_nonzero _ dDf.1 dDf.2.1 (by rw [hfdata]; norm_num))
  exact ⟨ex2_wellFormed, ex2_symmetric, invertOneByOne_spec, rs, rf, ss, sf, hrs, hrf, hss, hsf,
    hD 0 0 0 h0 h01 h01,
    fun a b ha hb => hS invertOneByOne invertOneByOne_spec ss sf hss hsf 0 a b h0 ha hb⟩


/-! ### Workspace layout -/

/-- The three regions of the workspace of `v_Solve` lie one after the other
below the length that `v_Initialise` allocates, and the code of lines 122-178
writes inside them. -/
theorem workspace_layout (d : AssemblyMapData) (inp : NekArray) (dirForcing : List NekDouble)
    (wsp : NekArray) :
    ((v_Solve_V_LocBnd d).offset = 0 ∧ (v_Solve_V_LocBnd d).dim = d.numLocalBndCoeffs ∧
      (v_Solve_V_GlobHomBndTmp d).offset = d.offTmp ∧
      (v_Solve_V_GlobHomBndTmp d).dim = d.nGlobHomBndDofs ∧
      (v_Solve_F d).offset = d.offF ∧ (v_Solve_F d).dim = d.numGlobalCoeffs) ∧
    ((v_Solve_V_LocBnd d).offset + (v_Solve_V_LocBnd d).dim ≤ (v_Solve_V_GlobHomBndTmp d).offset ∧
      (v_Solve_V_GlobHomBndTmp d).offset + (v_Solve_V_GlobHomBndTmp d).dim = (v_Solve_F d).offset ∧
      (v_Solve_F d).offset + (v_Solve_F d).dim = v_Initialise_wspLength d ∧
      v_Initialise_wspLength d
        = 2 * d.numLocalBndCoeffs + d.numGlobalCoeffs + d.nGlobHomBndDofs) ∧
    (∀ k, ¬ ((v_Solve_V_LocBnd d).Covers k ∧ (v_Solve_V_GlobHomBndTmp d).Covers k) ∧
      ¬ ((v_Solve_V_LocBnd d).Covers k ∧ (v_Solve_F d).Covers k) ∧
      ¬ ((v_Solve_V_GlobHomBndTmp d).Covers k ∧ (v_Solve_F d).Covers k)) ∧
    (∀ k, (v_Solve_V_LocBnd d).Covers k ∨ (v_Solve_V_GlobHomBndTmp d).Covers k ∨
        (v_Solve_F d).Covers k → k < v_Initialise_wspLength d) ∧
    (∀ k, ¬ (v_Solve_F d).Covers k → v_Solve_fillF d inp dirForcing wsp k = wsp k) ∧
    (d.numGlobalBndCoeffs ≤ d.numGlobalCoeffs →
      ∀ k, ¬ (v_Solve_V_GlobHomBndTmp d).Covers k → ¬ (v_Solve_F d).Covers k →
        v_Solve_assembleSubtract d wsp k = wsp k) := by
  have hoff : d.offF = 2 * d.numLocalBndCoeffs + d.nGlobHomBndDofs := rfl
  have htmp : d.offTmp = 2 * d.numLocalBndCoeffs := rfl
  have hhom : d.nGlobHomBndDofs = d.numGlobalBndCoeffs - d.numGlobalDirBndCoeffs := rfl
  have hlen := wspLength_eq d
  refine ⟨⟨rfl, rfl, rfl, rfl, rfl, rfl⟩, ⟨?_, rfl, ?_, rfl⟩, ?_, ?_, ?_, ?_⟩
  · show 0 + d.numLocalBndCoeffs ≤ 2 * d.numLocalBndCoeffs
    omega
  · show 2 * d.numLocalBndCoeffs + d.nGlobHomBndDofs + d.numGlobalCoeffs = _
    rw [hlen, hoff]
  · intro k
    simp only [WspRegion.Covers, v_Solve_V_LocBnd, v_Solve_V_GlobHomBndTmp, v_Solve_F]
    refine ⟨?_, ?_, ?_⟩ <;> omega
  · intro k
    simp only [WspRegion.Covers, v_Solve_V_LocBnd, v_Solve_V_GlobHomBndTmp, v_Solve_F]
    rw [hlen, hoff]
    omega
  · intro k hk
    exact v_Solve_fillF_outside d inp dirForcing wsp k hk
  · intro hle k h1 h2
    refine v_Solve_assembleSubtract_outside d wsp k h1 ?_
    intro hc
    apply h2
    simp only [WspRegion.Covers, v_Solve_F]
    rw [hoff, hhom] at hc
    omega

/-- C30: workspace layout.  The three scratch regions of `v_Solve`, `V_LocBnd`
at `[0, nLocBndDofs)`, `V_GlobHomBndTmp` at
`[2*nLocBndDofs, 2*nLocBndDofs + nGlobHomBndDofs)` and `F` at
`[2*nLocBndDofs + nGlobHomBndDofs, 2*nLocBndDofs + nGlobHomBndDofs + nGlobDofs)`,
are pairwise disjoint, lie below the length
`2*nLocalBnd + nGlobal + nGlobHomBndDofs` that `v_Initialise` allocates for
the same map, and `F` ends exactly at that length; lines 122-131 write inside
`F` only and lines 176-178 inside `V_GlobHomBndTmp` and `F` only. -/
theorem v_Solve_workspace_layout (d : AssemblyMapData) (inp : NekArray)
    (dirForcing : List NekDouble) (wsp : NekArray) :
    ((v_Solve_V_LocBnd d).offset = 0 ∧ (v_Solve_V_LocBnd d).dim = d.numLocalBndCoeffs ∧
      (v_Solve_V_GlobHomBndTmp d).offset = d.offTmp ∧
      (v_Solve_V_GlobHomBndTmp d).dim = d.nGlobHomBndDofs ∧
      (v_Solve_F d).offset = d.offF ∧ (v_Solve_F d).dim = d.numGlobalCoeffs) ∧
    ((v_Solve_V_LocBnd d).offset + (v_Solve_V_LocBnd d).dim ≤ (v_Solve_V_GlobHomBndTmp d).offset ∧
      (v_Solve_V_GlobHomBndTmp d).offset + (v_Solve_V_GlobHomBndTmp d).dim = (v_Solve_F d).offset ∧
      (v_Solve_F d).offset + (v_Solve_F d).dim = v_Initialise_wspLength d ∧
      v_Initialise_wspLength d
        = 2 * d.numLocalBndCoeffs + d.numGlobalCoeffs + d.nGlobHomBndDofs) ∧
    (∀ k, ¬ ((v_Solve_V_LocBnd d).Covers k ∧ (v_Solve_V_GlobHomBndTmp d).Covers k) ∧
      ¬ ((v_Solve_V_LocBnd d).Covers k ∧ (v_Solve_F d).Covers k) ∧
      ¬ ((v_Solve_V_GlobHomBndTmp d).Covers k ∧ (v_Solve_F d).Covers k)) ∧
    (∀ k, (v_Solve_V_LocBnd d).Covers k ∨ (v_Solve_V_GlobHomBndTmp d).Covers k ∨
        (v_Solve_F d).Covers k → k < v_Initialise_wspLength d) ∧
    (∀ k, ¬ (v_Solve_F d).Covers k → v_Solve_fillF d inp dirForcing wsp k = wsp k) ∧
    (d.numGlobalBndCoeffs ≤ d.numGlobalCoeffs →
      ∀ k, ¬ (v_Solve_V_GlobHomBndTmp d).Covers k → ¬ (v_Solve_F d).Covers k →
        v_Solve_assembleSubtract d wsp k = wsp k) :=
  workspace_layout d inp dirForcing wsp

/-- Witness of C30 on the leaf level of the two-level example: workspace
index 4 lies in no region and is left as it is. -/
theorem v_Solve_workspace_layout_witness :
    v_Initialise_wspLength ex2Data0 = 14 ∧
    (v_Solve_F ex2Data0).offset + (v_Solve_F ex2Data0).dim = 14 ∧
    ex2Data0.numGlobalBndCoeffs ≤ ex2Data0.numGlobalCoeffs ∧
    ¬ (v_Solve_V_GlobHomBndTmp ex2Data0).Covers 4 ∧ ¬ (v_Solve_F ex2Data0).Covers 4 ∧
    v_Solve_fillF ex2Data0 ex1Rhs [] zeroArray 4 = zeroArray 4 ∧
    v_Solve_assembleSubtract ex2Data0 zeroArray 4 = zeroArray 4 := by
  have h := v_Solve_workspace_layout ex2Data0 ex1Rhs [] zeroArray
  have h1 : ¬ (v_Solve_V_GlobHomBndTmp ex2Data0).Covers 4 := by
    unfold WspRegion.Covers; decide
  have h2 : ¬ (v_Solve_F ex2Data0).Covers 4 := by
    unfold WspRegion.Covers; decide
  have hle : ex2Data0.numGlobalBndCoeffs ≤ ex2Data0.numGlobalCoeffs := by decide
  exact ⟨by decide, by decide, hle, h1, h2, h.2.2.2.2.1 4 h2, h.2.2.2.2.2 hle 4 h1 h2⟩


/-! ### The query `v_GetNumBlocks` -/

/-- The Schur complement that `SetupTopLevel` leaves has one block row per
entry of the per-patch boundary counts. -/
theorem SetupTopLevel_numBlocks (mt : MatrixType) (L : LocalMatrices) (m m1 : Members)
    (d : AssemblyMapData) (h : SetupTopLevel mt L m d = .ok m1) :
    v_GetNumBlocks m1 = some d.numLocalBndCoeffsPerPatch.length := by
  unfold SetupTopLevel at h
  cases hs : (List.range L.GetNumElmts).foldlM (SetupTopLevel_step mt L)
      (SetupTopLevel_allocate d) with
  | error e =>
    rw [hs] at h
    cases h
  | ok s =>
    rw [hs] at h
    injection h with h
    subst h
    have hrows : s.schurCompl.rowSizes = d.numLocalBndCoeffsPerPatch := by
      refine foldlM_range_inv (SetupTopLevel_step mt L)
        (fun _ (s : BlkMatrices) => s.schurCompl.rowSizes = d.numLocalBndCoeffsPerPatch)
        L.GetNumElmts (SetupTopLevel_allocate d) s rfl ?_ hs
      intro k s1 s2 _ hI hstep
      unfold SetupTopLevel_step at hstep
      split_ifs at hstep
      · injection hstep with hstep
        subst hstep
        exact hI
      · cases hl : L.v_GetStaticCondBlock k with
        | none =>
          rw [hl] at hstep
          cases hstep
        | some loc =>
          rw [hl] at hstep
          injection hstep with hstep
          subst hstep
          exact hI
    show some s.schurCompl.GetNumberOfBlockRows = _
    unfold DNekScalBlkMat.GetNumberOfBlockRows
    rw [hrows]

/-- After `v_Initialise` on a well-formed chain of maps, `v_GetNumBlocks` has
no value on the levels with a next level and returns the number of patches on
the terminal level. -/
theorem v_Initialise_numBlocks (Invert : DNekMat → Option DNekMat) (mt : MatrixType)
    (map : AssemblyMap) (m : Members) (H : GlobalLinSysStaticCond)
    (h : v_Initialise Invert mt m map = .ok H)
    (hm : v_GetNumBlocks m = some map.d.numPatches) (hwf : map.LevelsWellFormed) :
    H.NumBlocksDefined map := by
  induction map generalizing m H with
  | last d =>
    rw [v_Initialise] at h
    injection h with h
    subst h
    exact hm
  | level d next ih =>
    obtain ⟨blk, child, hb, hc, hH⟩ := v_Initialise_level Invert mt m d next H h
    subst hH
    refine ⟨rfl, ih _ child hc ?_ hwf.2⟩
    obtain ⟨_, _, _, _, _, _, hblk⟩ := blkMatrices_inv Invert mt _ next.d blk hb
    rw [hblk]
    show some (fillBlkMatrix _ _ _ _).GetNumberOfBlockRows = _
    unfold DNekScalBlkMat.GetNumberOfBlockRows
    rw [(fillBlkMatrix_sizes _ _ _ _).1, (LevelsWellFormed_d next hwf.2).bndLength]

/-- C29: `v_GetNumBlocks` is defined only while the Schur complement is held.
After `SetupTopLevel` it returns the number of diagonal block rows of
`m_schurCompl`, the number of patches of the level (for per-patch counts that
are as many as the patches); after `v_Initialise` on a well-formed chain of
maps it returns the number of patches on the terminal level and has no value
on every level with a next level; and on the object that
`ConstructNextLevelCondensedSystem` leaves, `m_schurCompl` being released, it
has no value. -/
theorem v_GetNumBlocks_defined (Invert : DNekMat → Option DNekMat) (mt : MatrixType)
    (L : LocalMatrices) (m : Members) (d : AssemblyMapData) (map : AssemblyMap)
    (v_Recurse : BlkMatrices → Except ErrorKind GlobalLinSysStaticCond) :
    (∀ S, m.m_schurCompl = some S → v_GetNumBlocks m = some S.GetNumberOfBlockRows) ∧
    (m.m_schurCompl = none → v_GetNumBlocks m = none) ∧
    (∀ m1, SetupTopLevel mt L m d = .ok m1 →
      d.numLocalBndCoeffsPerPatch.length = d.numPatches →
      v_GetNumBlocks m1 = some d.numPatches) ∧
    (∀ H, v_Initialise Invert mt m map = .ok H → v_GetNumBlocks m = some map.d.numPatches →
      map.LevelsWellFormed → H.NumBlocksDefined map) ∧
    (∀ H, ConstructNextLevelCondensedSystem Invert mt v_Recurse m d = .ok H →
      v_GetNumBlocks H.m = none) := by
  refine ⟨?_, ?_, ?_, ?_, ?_⟩
  · intro S hS
    unfold v_GetNumBlocks
    rw [hS]
  · intro hS
    unfold v_GetNumBlocks
    rw [hS]
  · intro m1 h hlen
    rw [SetupTopLevel_numBlocks mt L m m1 d h, hlen]
  · intro H h hm hwf
    exact v_Initialise_numBlocks Invert mt map m H h hm hwf
  · intro H h
    rw [← onObject_eq] at h
    obtain ⟨_, _, _, _, _, _, _, _, _, _, _, h1, _⟩ := onObject_inv Invert mt _ m d H h
    unfold v_GetNumBlocks
    rw [h1]

/-- Witness of C29: the one-element example after `SetupTopLevel`, and the
two-level example after `v_Initialise` and after
`ConstructNextLevelCondensedSystem`. -/
theorem v_GetNumBlocks_defined_witness :
    (∃ m1, SetupTopLevel .eHelmholtz ex5Local ex1Members ex1Data = .ok m1 ∧
      ex1Data.numLocalBndCoeffsPerPatch.length = ex1Data.numPatches ∧
      v_GetNumBlocks m1 = some 1) ∧
    (∃ H, v_Initialise invertOneByOne .eOtherMatrixType ex2Members ex2Map = .ok H ∧
      v_GetNumBlocks ex2Members = some ex2Map.d.numPatches ∧ ex2Map.LevelsWellFormed ∧
      H.NumBlocksDefined ex2Map) ∧
    (∃ H, ConstructNextLevelCondensedSystem invertOneByOne .eOtherMatrixType ex3Recurse
        ex2Members ex2Data1 = .ok H ∧ v_GetNumBlocks H.m = none) := by
  have hthm := v_GetNumBlocks_defined invertOneByOne .eOtherMatrixType ex5Local ex2Members
    ex2Data1 ex2Map ex3Recurse
  have hthm1 := v_GetNumBlocks_defined invertOneByOne .eHelmholtz ex5Local ex1Members
    ex1Data ex2Map ex3Recurse
  obtain ⟨m1, _, hm1, _⟩ := (SetupTopLevel_blocks .eHelmholtz ex5Local ex1Members ex1Data).1
    (by decide) (fun n _ => by simp [ex5Local])
  obtain ⟨H0, hH0⟩ := ex2_initialised
  obtain ⟨H1, hH1⟩ := ex2_onObject
  rw [onObject_eq] at hH1
  exact ⟨⟨m1, hm1, rfl, hthm1.2.2.1 m1 hm1 rfl⟩,
    ⟨H0, hH0, rfl, ex2_levelsWellFormed, hthm.2.2.2.1 H0 hH0 rfl ex2_levelsWellFormed⟩,
    ⟨H1, hH1, hthm.2.2.2.2 H1 hH1⟩⟩


/-! ### Patches without interior DOFs -/

/-- The elimination loop consults the inversion routine only on the `D`
blocks of the patches with interior DOFs. -/
theorem condenseLoop_congr (Invert Invert1 : DNekMat → Option DNekMat) (nPatches : Nat)
    (nInt : List Nat) (s1 : SubstructuredMat)
    (h : ∀ i, i < nPatches → nInt.getD i 0 ≠ 0 → Invert1 (s1.D i) = Invert (s1.D i)) :
    condenseLoop Invert1 nPatches nInt s1 = condenseLoop Invert nPatches nInt s1 := by
  unfold condenseLoop
  refine foldlM_range_congr _ _ (fun k (s : SubstructuredMat) => ∀ i, k ≤ i → s.D i = s1.D i)
    nPatches s1 (fun _ _ => rfl) ?_
  intro k s hk hI
  have hstep : condenseStep Invert1 nInt s k = condenseStep Invert nInt s k := by
    unfold condenseStep
    by_cases hn : nInt.getD k 0 ≠ 0
    · rw [if_pos hn, if_pos hn]
      unfold condensePatch
      rw [hI k (le_refl k), h k hk hn]
    · rw [if_neg hn, if_neg hn]
  refine ⟨hstep, ?_⟩
  intro s2 h2
  obtain ⟨hs1, hs0⟩ := condenseStep_ok Invert1 nInt s s2 k h2
  intro i hi
  by_cases hn : nInt.getD k 0 ≠ 0
  · obtain ⟨_, _, _, _, _, hD⟩ := hs1 hn
    rw [hD, Function.update_noteq (by omega)]
    exact hI i (by omega)
  · have hn0 : nInt.getD k 0 = 0 := by
      by_contra hne
      exact hn hne
    rw [hs0 hn0]
    exact hI i (by omega)

/-- What `ConstructNextLevelCondensedSystem` does with the patches that have
no interior DOFs. -/
theorem no_interior (Invert : DNekMat → Option DNekMat) (mt : MatrixType)
    (S : DNekScalBlkMat) (d : AssemblyMapData) (r : Nat × SubstructuredMat)
    (hscatter : scatterLoop d.patchMapFromPrevLevel (storageTypeD mt) S
      (allocateSubstructuredMat d.numPatches d.numLocalBndCoeffsPerPatch
        d.numLocalIntCoeffsPerPatch (storageTypeD mt)) = .ok r) :
    (∀ blk, ConstructNextLevelCondensedSystem_blkMatrices Invert mt (some S) d = .ok blk →
      ∀ i, i < d.numPatches → d.numLocalIntCoeffsPerPatch.getD i 0 = 0 →
        blk.schurCompl.GetBlock i i = some ⟨1, r.2.A i⟩ ∧
        blk.BinvD.GetBlock i i = some ⟨1, r.2.B i⟩ ∧
        blk.C.GetBlock i i = some ⟨1, r.2.C i⟩ ∧
        blk.invD.GetBlock i i = some ⟨1, r.2.D i⟩) ∧
    (ConstructNextLevelCondensedSystem_blkMatrices Invert mt (some S) d
        = .error .SingularBlockError ↔
      ∃ i, i < d.numPatches ∧ d.numLocalIntCoeffsPerPatch.getD i 0 ≠ 0 ∧
        Invert (r.2.D i) = none) ∧
    (∀ Invert1 : DNekMat → Option DNekMat,
      (∀ i, i < d.numPatches → d.numLocalIntCoeffsPerPatch.getD i 0 ≠ 0 →
        Invert1 (r.2.D i) = Invert (r.2.D i)) →
      ConstructNextLevelCondensedSystem_blkMatrices Invert1 mt (some S) d =
        ConstructNextLevelCondensedSystem_blkMatrices Invert mt (some S) d) := by
  refine ⟨?_, ⟨?_, ?_⟩, ?_⟩
  · intro blk hblk i hi hint
    obtain ⟨S1, r1, s2, hS1, hs1, hc, hb⟩ := blkMatrices_inv Invert mt _ d blk hblk
    injection hS1 with hS1
    subst hS1
    rw [hscatter] at hs1
    injection hs1 with hs1
    subst hs1
    obtain ⟨_, h0⟩ := condenseLoop_spec Invert d.numPatches d.numLocalIntCoeffsPerPatch r.2 s2
      hc i
    obtain ⟨hA, hB, hC, hD⟩ := h0 (fun h => h.2 hint)
    have hcond : i = i ∧ i < d.numPatches := ⟨rfl, hi⟩
    rw [hb]
    simp only [DNekScalBlkMat.GetBlock, fillBlkMatrix_blocks, hcond, and_self, if_true, hA, hB,
      hC, hD]
  · intro h
    by_contra hno
    have hinv : ∀ i, i < d.numPatches → d.numLocalIntCoeffsPerPatch.getD i 0 ≠ 0 →
        Invert (r.2.D i) ≠ none := fun i hi hint hn => hno ⟨i, hi, hint, hn⟩
    obtain ⟨s2, _, hok⟩ := ConstructNextLevelCondensedSystem_blkMatrices_ok Invert mt S d r
      hscatter hinv
    rw [hok] at h
    cases h
  · intro hsing
    unfold ConstructNextLevelCondensedSystem_blkMatrices
    simp only [hscatter, condenseLoop_singular Invert _ _ r.2 hsing]
  · intro Invert1 hagree
    unfold ConstructNextLevelCondensedSystem_blkMatrices
    simp only [hscatter, condenseLoop_congr Invert Invert1 _ _ r.2 hagree]


/-- Example with a patch without interior DOFs: the scatter puts `a` into the
`A` block of patch 0 and `b` into the `D` block of patch 1, and leaves the
empty `D` block of patch 0 as allocated. -/
theorem ex9_scatter (a b : NekDouble) (mt : MatrixType) :
    ∃ r : Nat × SubstructuredMat,
      scatterLoop ex9Data.patchMapFromPrevLevel (storageTypeD mt) (ex3SchurCompl a b)
        (allocateSubstructuredMat ex9Data.numPatches ex9Data.numLocalBndCoeffsPerPatch
          ex9Data.numLocalIntCoeffsPerPatch (storageTypeD mt)) = .ok r ∧
      (r.2.A 0).data 0 = a ∧ (r.2.D 0).rows = 0 ∧
      (r.2.D 1).rows = 1 ∧ (r.2.D 1).cols = 1 ∧ (r.2.D 1).data 0 = b := by
  refine ⟨_, rfl, ?_⟩
  cases hst : storageTypeD mt <;>
  simp [scatterAdd, DNekMat.addEntry, DNekMat.addRaw,
    DNekMat.CalculateIndex, allocateSubstructuredMat, ex9Data, ex3SchurCompl,
    DNekScalMat.get, DNekScalMat.GetRows, DNekMat.get, DNekMat.ofList, zeroArray,
    Function.update, hst]

/-- C26: patches without interior DOFs.  For every new patch `i` with
`nIntDofsPerPatch[i] = 0` the blocks that `ConstructNextLevelCondensedSystem`
hands to the next level are the scatter-accumulated ones, the Schur complement
being the accumulated `A` block exactly; the construction fails with the
singular-block error exactly when the inversion has no value for the `D`
block of a patch that has interior DOFs; and its result does not depend on
what the inversion routine would return for the `D` blocks of the patches
without interior DOFs, on which it is not called. -/
theorem ConstructNextLevelCondensedSystem_no_interior_dofs
    (Invert : DNekMat → Option DNekMat) (mt : MatrixType)
    (S : DNekScalBlkMat) (d : AssemblyMapData) (r : Nat × SubstructuredMat)
    (hscatter : scatterLoop d.patchMapFromPrevLevel (storageTypeD mt) S
      (allocateSubstructuredMat d.numPatches d.numLocalBndCoeffsPerPatch
        d.numLocalIntCoeffsPerPatch (storageTypeD mt)) = .ok r) :
    (∀ blk, ConstructNextLevelCondensedSystem_blkMatrices Invert mt (some S) d = .ok blk →
      ∀ i, i < d.numPatches → d.numLocalIntCoeffsPerPatch.getD i 0 = 0 →
        blk.schurCompl.GetBlock i i = some ⟨1, r.2.A i⟩ ∧
        blk.BinvD.GetBlock i i = some ⟨1, r.2.B i⟩ ∧
        blk.C.GetBlock i i = some ⟨1, r.2.C i⟩ ∧
        blk.invD.GetBlock i i = some ⟨1, r.2.D i⟩) ∧
    (ConstructNextLevelCondensedSystem_blkMatrices Invert mt (some S) d
        = .error .SingularBlockError ↔
      ∃ i, i < d.numPatches ∧ d.numLocalIntCoeffsPerPatch.getD i 0 ≠ 0 ∧
        Invert (r.2.D i) = none) ∧
    (∀ Invert1 : DNekMat → Option DNekMat,
      (∀ i, i < d.numPatches → d.numLocalIntCoeffsPerPatch.getD i 0 ≠ 0 →
        Invert1 (r.2.D i) = Invert (r.2.D i)) →
      ConstructNextLevelCondensedSystem_blkMatrices Invert1 mt (some S) d =
        ConstructNextLevelCondensedSystem_blkMatrices Invert mt (some S) d) :=
  no_interior Invert mt S d r hscatter

/-- Witness of C26: in the example patch 0 has no interior DOFs and an empty
`D` block on which the 1 x 1 inversion has no value; the construction
succeeds and hands on the accumulated `A` block of patch 0. -/
theorem ConstructNextLevelCondensedSystem_no_interior_dofs_witness :
    ∃ (r : Nat × SubstructuredMat) (blk : BlkMatrices),
      scatterLoop ex9Data.patchMapFromPrevLevel (storageTypeD .eOtherMatrixType)
        (ex3SchurCompl 5 2)
        (allocateSubstructuredMat ex9Data.numPatches ex9Data.numLocalBndCoeffsPerPatch
          ex9Data.numLocalIntCoeffsPerPatch (storageTypeD .eOtherMatrixType)) = .ok r ∧
      ConstructNextLevelCondensedSystem_blkMatrices invertOneByOne .eOtherMatrixType
        (some (ex3SchurCompl 5 2)) ex9Data = .ok blk ∧
      ex9Data.numLocalIntCoeffsPerPatch.getD 0 0 = 0 ∧
      invertOneByOne (r.2.D 0) = none ∧
      blk.schurCompl.GetBlock 0 0 = some ⟨1, r.2.A 0⟩ ∧ (r.2.A 0).data 0 = 5 := by
  obtain ⟨r, hr, hA, hD0, hr1, hc1, hD1⟩ := ex9_scatter 5 2 .eOtherMatrixType
  have hinv : ∀ i, i < ex9Data.numPatches → ex9Data.numLocalIntCoeffsPerPatch.getD i 0 ≠ 0 →
      invertOneByOne (r.2.D i) ≠ none := by
    intro i hi hint
    have hi2 : i < 2 := hi
    interval_cases i
    · exact absurd rfl hint
    · exact invertOneByOne_nonzero _ hr1 hc1 (by rw [hD1]; norm_num)
  obtain ⟨s2, _, hok⟩ := ConstructNextLevelCondensedSystem_blkMatrices_ok invertOneByOne
    .eOtherMatrixType (ex3SchurCompl 5 2) ex9Data r hr hinv
  have hnone : invertOneByOne (r.2.D 0) = none := by
    unfold invertOneByOne
    rw [if_neg]
    intro hc
    rw [hD0] at hc
    exact absurd hc.1 (by decide)
  exact ⟨r, _, hr, hok, rfl, hnone,
    ((ConstructNextLevelCondensedSystem_no_interior_dofs invertOneByOne .eOtherMatrixType
      (ex3SchurCompl 5 2) ex9Data r hr).1 _ hok 0 (by decide) rfl).1, hA⟩


/-- C22: boundary-only operator kind.  When the matrix type is
`eHybridDGHelmBndLam`, `SetupTopLevel` succeeds and stores for every element
`n` the single matrix `v_GetBlock(n)` of the provider as block `(n, n)` of
`m_schurCompl`, and no block is set in `m_BinvD`, `m_C` or `m_invD`; for
every other matrix type (every `v_GetStaticCondBlock(n)` being there) it
stores the sub-blocks `(0,0)`, `(0,1)`, `(1,0)`, `(1,1)` of
`v_GetStaticCondBlock(n)` as block `(n, n)` of the four matrices. -/
theorem SetupTopLevel_boundary_only_kind (mt : MatrixType) (L : LocalMatrices) (m : Members)
    (d : AssemblyMapData) :
    (mt = .eHybridDGHelmBndLam →
      ∃ m1 S, SetupTopLevel mt L m d = .ok m1 ∧ m1.m_schurCompl = some S ∧
        (∀ n, n < L.GetNumElmts → S.GetBlock n n = L.v_GetBlock n) ∧
        (∀ a b, m1.m_BinvD.GetBlock a b = none ∧ m1.m_C.GetBlock a b = none ∧
          m1.m_invD.GetBlock a b = none)) ∧
    (mt ≠ .eHybridDGHelmBndLam →
      (∀ n, n < L.GetNumElmts → L.v_GetStaticCondBlock n ≠ none) →
      ∃ m1 S, SetupTopLevel mt L m d = .ok m1 ∧ m1.m_schurCompl = some S ∧
        ∀ n, n < L.GetNumElmts →
          S.GetBlock n n = L.subBlock n 0 0 ∧ m1.m_BinvD.GetBlock n n = L.subBlock n 0 1 ∧
          m1.m_C.GetBlock n n = L.subBlock n 1 0 ∧
          m1.m_invD.GetBlock n n = L.subBlock n 1 1) := by
  constructor
  · intro hmt
    obtain ⟨m1, S, h1, h2, h3, h4, _⟩ := (SetupTopLevel_blocks mt L m d).2 hmt
    exact ⟨m1, S, h1, h2, h3, h4⟩
  · intro hmt hloc
    obtain ⟨m1, S, h1, h2, h3, _⟩ := (SetupTopLevel_blocks mt L m d).1 hmt hloc
    exact ⟨m1, S, h1, h2, h3⟩

/-- Witness of C22 on the one-element example: for `eHybridDGHelmBndLam` the
Schur complement holds the matrix `(3)` of `v_GetBlock(0)`, for the mass
matrix type the four matrices hold the sub-blocks of
`v_GetStaticCondBlock(0)`. -/
theorem SetupTopLevel_boundary_only_kind_witness :
    (∃ m1 S, SetupTopLevel .eHybridDGHelmBndLam ex5Local ex1Members ex1Data = .ok m1 ∧
        m1.m_schurCompl = some S ∧
        S.GetBlock 0 0 = some ⟨1, DNekMat.single 3⟩ ∧
        m1.m_BinvD.GetBlock 0 0 = none ∧ m1.m_C.GetBlock 0 0 = none ∧
        m1.m_invD.GetBlock 0 0 = none) ∧
    (∃ m1 S, SetupTopLevel .eMass ex5Local ex1Members ex1Data = .ok m1 ∧
        m1.m_schurCompl = some S ∧
        S.GetBlock 0 0 = ex5Local.subBlock 0 0 0 ∧
        m1.m_BinvD.GetBlock 0 0 = ex5Local.subBlock 0 0 1 ∧
        m1.m_C.GetBlock 0 0 = ex5Local.subBlock 0 1 0 ∧
        m1.m_invD.GetBlock 0 0 = ex5Local.subBlock 0 1 1) := by
  obtain ⟨m1, S, h1, h2, h3, h4⟩ :=
    (SetupTopLevel_boundary_only_kind .eHybridDGHelmBndLam ex5Local ex1Members ex1Data).1 rfl
  obtain ⟨m2, S2, g1, g2, g3⟩ :=
    (SetupTopLevel_boundary_only_kind .eMass ex5Local ex1Members ex1Data).2 (by decide)
      (fun n _ => by simp [ex5Local])
  have hn : (0 : Nat) < ex5Local.GetNumElmts := Nat.zero_lt_one
  exact ⟨⟨m1, S, h1, h2, h3 0 hn, (h4 0 0).1, (h4 0 0).2.1, (h4 0 0).2.2⟩,
    ⟨m2, S2, g1, g2, (g3 0 hn).1, (g3 0 hn).2.1, (g3 0 hn).2.2.1, (g3 0 hn).2.2.2⟩⟩


/-! ### Contiguous backing storage -/

/-- Prefix sums grow with the number of terms. -/
theorem prefix_mono (f : Nat → Nat) {i j : Nat} (h : i ≤ j) :
    ∑ k in Finset.range i, f k ≤ ∑ k in Finset.range j, f k :=
  Finset.sum_le_sum_of_subset (fun _ hx => Finset.mem_range.mpr
    (lt_of_lt_of_le (Finset.mem_range.mp hx) h))

/-- Every index below a sum lies in exactly one of the consecutive ranges of
the lengths of its terms. -/
theorem prefix_cover (f : Nat → Nat) (n idx : Nat) (h : idx < ∑ k in Finset.range n, f k) :
    ∃ i, i < n ∧ ∑ k in Finset.range i, f k ≤ idx ∧
      idx < ∑ k in Finset.range i, f k + f i := by
  induction n with
  | zero => simp at h
  | succ n ih =>
    rw [Finset.sum_range_succ] at h
    by_cases hlt : idx < ∑ k in Finset.range n, f k
    · obtain ⟨i, hi, h1, h2⟩ := ih hlt
      exact ⟨i, by omega, h1, h2⟩
    · exact ⟨n, by omega, by omega, h⟩

/-- The consecutive ranges of two different terms do not meet. -/
theorem prefix_disjoint (f : Nat → Nat) {i j : Nat} (h : i < j) :
    ∑ k in Finset.range i, f k + f i ≤ ∑ k in Finset.range j, f k := by
  rw [← Finset.sum_range_succ]
  exact prefix_mono f h

/-- The counters after `i` passes are the sums of the numbers of entries of
the first `i` patches. -/
theorem storageOffsets_eq (nBnd nInt : List Nat) (i : Nat) :
    (storageOffsets nBnd nInt i).cntA
        = ∑ k in Finset.range i, nBnd.getD k 0 * nBnd.getD k 0 ∧
      (storageOffsets nBnd nInt i).cntB
        = ∑ k in Finset.range i, nBnd.getD k 0 * nInt.getD k 0 ∧
      (storageOffsets nBnd nInt i).cntC
        = ∑ k in Finset.range i, nInt.getD k 0 * nBnd.getD k 0 ∧
      (storageOffsets nBnd nInt i).cntD
        = ∑ k in Finset.range i, nInt.getD k 0 * nInt.getD k 0 := by
  unfold storageOffsets
  induction i with
  | zero => exact ⟨rfl, rfl, rfl, rfl⟩
  | succ i ih =>
    rw [foldl_range_succ]
    simp only [StorageCounts.advance, Finset.sum_range_succ, ih.1, ih.2.1, ih.2.2.1, ih.2.2.2,
      and_self]

/-- The number of entries of a patch matrix in terms of the per-patch
counts. -/
theorem blockEntries_eq (nPatches : Nat) (nBnd nInt : List Nat) (st : MatrixStorage)
    (X : SubBlock) (i : Nat) (hi : i < nPatches) :
    blockEntries nPatches nBnd nInt st X i =
      (if X.rowBnd = true then nBnd else nInt).getD i 0
        * (if X.colBnd = true then nBnd else nInt).getD i 0 := by
  unfold blockEntries
  rw [allocate_rows _ _ _ _ _ _ hi, allocate_cols _ _ _ _ _ _ hi]

/-- The offset of a patch matrix in its backing array is the sum of the
numbers of entries of the matrices of the patches before it. -/
theorem storageOffsets_get (nPatches : Nat) (nBnd nInt : List Nat) (st : MatrixStorage)
    (X : SubBlock) (i : Nat) (hi : i ≤ nPatches) :
    (storageOffsets nBnd nInt i).get X =
      ∑ k in Finset.range i, blockEntries nPatches nBnd nInt st X k := by
  obtain ⟨hA, hB, hC, hD⟩ := storageOffsets_eq nBnd nInt i
  have hsum : ∀ X : SubBlock, ∑ k in Finset.range i, blockEntries nPatches nBnd nInt st X k
      = ∑ k in Finset.range i, (if X.rowBnd = true then nBnd else nInt).getD k 0
        * (if X.colBnd = true then nBnd else nInt).getD k 0 := by
    intro X
    apply Finset.sum_congr rfl
    intro k hk
    exact blockEntries_eq nPatches nBnd nInt st X k
      (lt_of_lt_of_le (Finset.mem_range.mp hk) hi)
  rw [hsum]
  cases X
  · exact hA
  · exact hB
  · exact hC
  · exact hD


/-- The matrices of the patches tile their backing array. -/
theorem storage_tiling (nPatches : Nat) (nBnd nInt : List Nat) (st : MatrixStorage)
    (X : SubBlock) :
    (storageEntries nPatches nBnd nInt).get X
        = ∑ k in Finset.range nPatches, blockEntries nPatches nBnd nInt st X k ∧
    (∀ i, i < nPatches →
      (storageOffsets nBnd nInt i).get X
          = ∑ k in Finset.range i, blockEntries nPatches nBnd nInt st X k ∧
        blockEntries nPatches nBnd nInt st X i
          = (if X.rowBnd = true then nBnd else nInt).getD i 0
            * (if X.colBnd = true then nBnd else nInt).getD i 0 ∧
        (storageOffsets nBnd nInt i).get X + blockEntries nPatches nBnd nInt st X i
          ≤ (storageEntries nPatches nBnd nInt).get X) ∧
    (∀ i j, i < j → j < nPatches →
      (storageOffsets nBnd nInt i).get X + blockEntries nPatches nBnd nInt st X i
        ≤ (storageOffsets nBnd nInt j).get X) ∧
    (∀ idx, idx < (storageEntries nPatches nBnd nInt).get X →
      ∃ i, i < nPatches ∧ (storageOffsets nBnd nInt i).get X ≤ idx ∧
        idx < (storageOffsets nBnd nInt i).get X + blockEntries nPatches nBnd nInt st X i ∧
        ∀ j, j < nPatches → (storageOffsets nBnd nInt j).get X ≤ idx →
          idx < (storageOffsets nBnd nInt j).get X + blockEntries nPatches nBnd nInt st X j →
          j = i) := by
  have htot : (storageEntries nPatches nBnd nInt).get X
      = ∑ k in Finset.range nPatches, blockEntries nPatches nBnd nInt st X k :=
    storageOffsets_get nPatches nBnd nInt st X nPatches (le_refl _)
  have hoff : ∀ i, i ≤ nPatches → (storageOffsets nBnd nInt i).get X
      = ∑ k in Finset.range i, blockEntries nPatches nBnd nInt st X k :=
    fun i hi => storageOffsets_get nPatches nBnd nInt st X i hi
  have hdis : ∀ i j, i < j → j ≤ nPatches →
      (storageOffsets nBnd nInt i).get X + blockEntries nPatches nBnd nInt st X i
        ≤ (storageOffsets nBnd nInt j).get X := by
    intro i j hij hj
    rw [hoff i (by omega), hoff j hj]
    exact prefix_disjoint _ hij
  refine ⟨htot, ?_, fun i j hij hj => hdis i j hij (by omega), ?_⟩
  · intro i hi
    refine ⟨hoff i (by omega), blockEntries_eq nPatches nBnd nInt st X i hi, ?_⟩
    exact hdis i nPatches hi (le_refl _)
  · intro idx hidx
    rw [htot] at hidx
    obtain ⟨i, hi, h1, h2⟩ := prefix_cover _ nPatches idx hidx
    refine ⟨i, hi, by rw [hoff i (by omega)]; exact h1, by rw [hoff i (by omega)]; exact h2, ?_⟩
    intro j hj g1 g2
    rw [← hoff i (by omega)] at h1 h2
    rcases Nat.lt_trichotomy j i with hlt | heq | hgt
    · have := hdis j i hlt (by omega)
      omega
    · exact heq
    · have := hdis i j hgt (by omega)
      omega

/-- C21: contiguous backing storage is tiled without overlap.  In
`ConstructNextLevelCondensedSystem` the matrix of kind `A` of patch `i` is
made at offset `cntA`, the sum over `k < i` of `nBnd_k^2`, of the array
`storageA` of length `nEntriesA`, the sum over all patches, and occupies
`nBnd_i^2` entries from there, and likewise `B` (`nBnd_k * nInt_k`), `C`
(`nInt_k * nBnd_k`) and `D` (`nInt_k^2`); no matrix extends past its array,
the ranges of different patches do not meet, and every index of the array
lies in the range of exactly one patch. -/
theorem ConstructNextLevelCondensedSystem_storage_tiling (nPatches : Nat)
    (nBnd nInt : List Nat) (st : MatrixStorage) (X : SubBlock) :
    (storageEntries nPatches nBnd nInt).get X
        = ∑ k in Finset.range nPatches, blockEntries nPatches nBnd nInt st X k ∧
    (∀ i, i < nPatches →
      (storageOffsets nBnd nInt i).get X
          = ∑ k in Finset.range i, blockEntries nPatches nBnd nInt st X k ∧
        blockEntries nPatches nBnd nInt st X i
          = (if X.rowBnd = true then nBnd else nInt).getD i 0
            * (if X.colBnd = true then nBnd else nInt).getD i 0 ∧
        (storageOffsets nBnd nInt i).get X + blockEntries nPatches nBnd nInt st X i
          ≤ (storageEntries nPatches nBnd nInt).get X) ∧
    (∀ i j, i < j → j < nPatches →
      (storageOffsets nBnd nInt i).get X + blockEntries nPatches nBnd nInt st X i
        ≤ (storageOffsets nBnd nInt j).get X) ∧
    (∀ idx, idx < (storageEntries nPatches nBnd nInt).get X →
      ∃ i, i < nPatches ∧ (storageOffsets nBnd nInt i).get X ≤ idx ∧
        idx < (storageOffsets nBnd nInt i).get X + blockEntries nPatches nBnd nInt st X i ∧
        ∀ j, j < nPatches → (storageOffsets nBnd nInt j).get X ≤ idx →
          idx < (storageOffsets nBnd nInt j).get X + blockEntries nPatches nBnd nInt st X j →
          j = i) :=
  storage_tiling nPatches nBnd nInt st X

/-- Witness of C21 on the leaf counts of the two-level example (two patches
with two boundary DOFs and one interior DOF each): `storageB` has length 4
and the `B` matrix of patch 1 occupies `[2, 4)`. -/
theorem ConstructNextLevelCondensedSystem_storage_tiling_witness :
    (storageEntries 2 [2, 2] [1, 1]).get .B = 4 ∧
    (storageOffsets [2, 2] [1, 1] 1).get .B = 2 ∧
    blockEntries 2 [2, 2] [1, 1] .eFULL .B 1 = 2 ∧
    (storageOffsets [2, 2] [1, 1] 0).get .B + blockEntries 2 [2, 2] [1, 1] .eFULL .B 0
      ≤ (storageOffsets [2, 2] [1, 1] 1).get .B ∧
    (storageOffsets [2, 2] [1, 1] 1).get .B + blockEntries 2 [2, 2] [1, 1] .eFULL .B 1
      ≤ (storageEntries 2 [2, 2] [1, 1]).get .B := by
  have h := ConstructNextLevelCondensedSystem_storage_tiling 2 [2, 2] [1, 1] .eFULL .B
  exact ⟨by decide, by decide, by decide, h.2.2.1 0 1 (by decide) (by decide),
    (h.2.1 1 (by decide)).2.2⟩


/-! ### Scatter writes stay in bounds -/

/-- The accumulation of lines 503-547 is the one write of `scatterTarget`. -/
theorem scatterAdd_eq_target (pm : PatchMap) (cnt : Nat) (st : MatrixStorage)
    (S : DNekScalMat) (i j : Nat) (sub : SubstructuredMat) :
    scatterAdd pm cnt st S i j sub =
      match scatterTarget pm cnt st i j with
      | none => sub
      | some w => sub.addRawAt w.kind w.patch (w.index sub)
          (pm.sign (cnt + i) * pm.sign (cnt + j) * S.get i j) := by
  unfold scatterAdd scatterTarget
  dsimp only
  split_ifs <;> rfl

/-- The packed index of a position in the upper triangle of a symmetric
matrix with `n` rows lies in the packed storage. -/
theorem packed_lt {a b n : Nat} (hab : a ≤ b) (hb : b < n) :
    a + b * (b + 1) / 2 < n * (n + 1) / 2 := by
  have h1 := packed_mono (show b + 1 ≤ n from hb)
  rw [packed_succ] at h1
  omega

/-- The packed storage of a square matrix is inside its full storage. -/
theorem packed_le_square (n : Nat) : n * (n + 1) / 2 ≤ n * n := by
  apply Nat.div_le_of_le_mul
  nlinarith

/-- A column-major index inside the matrix lies in its storage. -/
theorem colMajor_lt {a b R C : Nat} (ha : a < R) (hb : b < C) : a + b * R < R * C := by
  calc a + b * R < R + b * R := by omega
    _ = R * (b + 1) := by ring
    _ ≤ R * C := Nat.mul_le_mul_left _ hb


/-- A row of a previous-level Schur block is read from the patch-map arrays
below the total number of rows. -/
theorem patchMap_read_lt (S : DNekScalBlkMat) (n i : Nat) (hn : n < S.GetNumberOfBlockRows)
    (hi : i < S.blockRows n) :
    S.rowsBefore n + i < S.rowsBefore S.GetNumberOfBlockRows := by
  have h1 : S.rowsBefore (n + 1) ≤ S.rowsBefore S.GetNumberOfBlockRows :=
    prefix_mono S.blockRows (show n + 1 ≤ S.GetNumberOfBlockRows from hn)
  rw [rowsBefore_succ] at h1
  omega

/-- With patch ids and positions in range, a write of the scatter for two rows
that name one patch lies inside the matrix it goes to. -/
theorem scatterTarget_in_bounds (pm : PatchMap) (S : DNekScalBlkMat) (nPatches : Nat)
    (nBnd nInt : List Nat)
    (hpatch : ∀ n i, n < S.GetNumberOfBlockRows → i < S.blockRows n →
      pm.patchId (S.rowsBefore n + i) < nPatches)
    (hbnd : ∀ n i, n < S.GetNumberOfBlockRows → i < S.blockRows n →
      pm.isBndDof (S.rowsBefore n + i) ≠ 0 →
      pm.dofId (S.rowsBefore n + i) < nBnd.getD (pm.patchId (S.rowsBefore n + i)) 0)
    (hint : ∀ n i, n < S.GetNumberOfBlockRows → i < S.blockRows n →
      pm.isBndDof (S.rowsBefore n + i) = 0 →
      pm.dofId (S.rowsBefore n + i) < nInt.getD (pm.patchId (S.rowsBefore n + i)) 0)
    (st : MatrixStorage) (sub : SubstructuredMat)
    (hd : sub.SameDims (allocateSubstructuredMat nPatches nBnd nInt st))
    (n i j : Nat) (hn : n < S.GetNumberOfBlockRows) (hi : i < S.blockRows n)
    (hj : j < S.blockRows n)
    (hsame : pm.patchId (S.rowsBefore n + j) = pm.patchId (S.rowsBefore n + i))
    (w : ScatterWrite)
    (hw : scatterTarget pm (S.rowsBefore n) st i j = some w) :
    w.patch = pm.patchId (S.rowsBefore n + i) ∧ w.patch < nPatches ∧
    w.row = pm.dofId (S.rowsBefore n + i) ∧ w.col = pm.dofId (S.rowsBefore n + j) ∧
    w.row < (sub.block w.kind w.patch).rows ∧ w.col < (sub.block w.kind w.patch).cols ∧
    w.index sub < (sub.block w.kind w.patch).storageSize ∧
    w.index sub < (sub.block w.kind w.patch).rows * (sub.block w.kind w.patch).cols := by
  have hp := hpatch n i hn hi
  have hbi := hbnd n i hn hi
  have hii := hint n i hn hi
  have hbj := hbnd n j hn hj
  have hij := hint n j hn hj
  rw [hsame] at hbj hij
  have hrows : ∀ X, (sub.block X (pm.patchId (S.rowsBefore n + i))).rows
      = (if X.rowBnd = true then nBnd else nInt).getD (pm.patchId (S.rowsBefore n + i)) 0 :=
    fun X => by rw [(hd X _).1, allocate_rows _ _ _ _ _ _ hp]
  have hcols : ∀ X, (sub.block X (pm.patchId (S.rowsBefore n + i))).cols
      = (if X.colBnd = true then nBnd else nInt).getD (pm.patchId (S.rowsBefore n + i)) 0 :=
    fun X => by rw [(hd X _).2.1, allocate_cols _ _ _ _ _ _ hp]
  have hfull : ∀ X, X ≠ SubBlock.D →
      (sub.block X (pm.patchId (S.rowsBefore n + i))).storage = .eFULL :=
    fun X hX => by rw [(hd X _).2.2, allocate_storage_full _ _ _ _ _ _ hX]
  have hstD : (sub.block .D (pm.patchId (S.rowsBefore n + i))).storage = st := by
    rw [(hd .D _).2.2, allocate_storage_D]
  have hABC : ∀ X, X ≠ SubBlock.D → ∀ a b,
      a < (sub.block X (pm.patchId (S.rowsBefore n + i))).rows →
      b < (sub.block X (pm.patchId (S.rowsBefore n + i))).cols →
      a + b * (sub.block X (pm.patchId (S.rowsBefore n + i))).rows
          < (sub.block X (pm.patchId (S.rowsBefore n + i))).storageSize ∧
        a + b * (sub.block X (pm.patchId (S.rowsBefore n + i))).rows
          < (sub.block X (pm.patchId (S.rowsBefore n + i))).rows
            * (sub.block X (pm.patchId (S.rowsBefore n + i))).cols := by
    intro X hX a b ha hb
    have := colMajor_lt ha hb
    unfold DNekMat.storageSize
    rw [hfull X hX]
    exact ⟨this, this⟩
  unfold scatterTarget at hw
  dsimp only at hw
  by_cases fi : pm.isBndDof (S.rowsBefore n + i) ≠ 0
  · rw [if_pos fi] at hw
    by_cases fj : pm.isBndDof (S.rowsBefore n + j) ≠ 0
    · rw [if_pos fj] at hw
      injection hw with hw
      subst hw
      have ha : pm.dofId (S.rowsBefore n + i)
          < (sub.block .A (pm.patchId (S.rowsBefore n + i))).rows := by
        rw [hrows]; exact hbi fi
      have hb : pm.dofId (S.rowsBefore n + j)
          < (sub.block .A (pm.patchId (S.rowsBefore n + i))).cols := by
        rw [hcols]; exact hbj fj
      exact ⟨rfl, hp, rfl, rfl, ha, hb, hABC .A (by decide) _ _ ha hb⟩
    · rw [if_neg fj] at hw
      injection hw with hw
      subst hw
      have fj0 : pm.isBndDof (S.rowsBefore n + j) = 0 := by
        by_contra h; exact fj h
      have ha : pm.dofId (S.rowsBefore n + i)
          < (sub.block .B (pm.patchId (S.rowsBefore n + i))).rows := by
        rw [hrows]; exact hbi fi
      have hb : pm.dofId (S.rowsBefore n + j)
          < (sub.block .B (pm.patchId (S.rowsBefore n + i))).cols := by
        rw [hcols]; exact hij fj0
      exact ⟨rfl, hp, rfl, rfl, ha, hb, hABC .B (by decide) _ _ ha hb⟩
  · rw [if_neg fi] at hw
    have fi0 : pm.isBndDof (S.rowsBefore n + i) = 0 := by
      by_contra h; exact fi h
    by_cases fj : pm.isBndDof (S.rowsBefore n + j) ≠ 0
    · rw [if_pos fj] at hw
      injection hw with hw
      subst hw
      have ha : pm.dofId (S.rowsBefore n + i)
          < (sub.block .C (pm.patchId (S.rowsBefore n + i))).rows := by
        rw [hrows]; exact hii fi0
      have hb : pm.dofId (S.rowsBefore n + j)
          < (sub.block .C (pm.patchId (S.rowsBefore n + i))).cols := by
        rw [hcols]; exact hbj fj
      exact ⟨rfl, hp, rfl, rfl, ha, hb, hABC .C (by decide) _ _ ha hb⟩
    · rw [if_neg fj] at hw
      have fj0 : pm.isBndDof (S.rowsBefore n + j) = 0 := by
        by_contra h; exact fj h
      have ha : pm.dofId (S.rowsBefore n + i)
          < (sub.block .D (pm.patchId (S.rowsBefore n + i))).rows := by
        rw [hrows]; exact hii fi0
      have hb : pm.dofId (S.rowsBefore n + j)
          < (sub.block .D (pm.patchId (S.rowsBefore n + i))).cols := by
        rw [hcols]; exact hij fj0
      have hb' : pm.dofId (S.rowsBefore n + j)
          < (sub.block .D (pm.patchId (S.rowsBefore n + i))).rows := by
        rw [hrows]; exact hij fj0
      have hsq : (sub.block .D (pm.patchId (S.rowsBefore n + i))).cols
          = (sub.block .D (pm.patchId (S.rowsBefore n + i))).rows := by
        rw [hrows, hcols]; rfl
      by_cases hsym : st = .eSYMMETRIC
      · rw [if_pos hsym] at hw
        by_cases hle : pm.dofId (S.rowsBefore n + i) ≤ pm.dofId (S.rowsBefore n + j)
        · rw [if_pos hle] at hw
          injection hw with hw
          subst hw
          have hidx : (ScatterWrite.mk .D (pm.patchId (S.rowsBefore n + i))
              (pm.dofId (S.rowsBefore n + i)) (pm.dofId (S.rowsBefore n + j))).index sub
              = pm.dofId (S.rowsBefore n + i)
                + pm.dofId (S.rowsBefore n + j) * (pm.dofId (S.rowsBefore n + j) + 1) / 2 := by
            show (sub.block .D _).CalculateIndex _ _ = _
            unfold DNekMat.CalculateIndex
            rw [hstD, hsym]
            simp only
            rw [if_pos hle]
          have hpk := packed_lt hle hb'
          refine ⟨rfl, hp, rfl, rfl, ha, hb, ?_, ?_⟩
          · rw [hidx]
            unfold DNekMat.storageSize
            rw [hstD, hsym]
            exact hpk
          · rw [hidx, hsq]
            exact lt_of_lt_of_le hpk (packed_le_square _)
        · rw [if_neg hle] at hw
          cases hw
      · rw [if_neg hsym] at hw
        injection hw with hw
        subst hw
        have hfullD : st = .eFULL := by
          cases st
          · rfl
          · exact absurd rfl hsym
        have hidx : (ScatterWrite.mk .D (pm.patchId (S.rowsBefore n + i))
            (pm.dofId (S.rowsBefore n + i)) (pm.dofId (S.rowsBefore n + j))).index sub
            = pm.dofId (S.rowsBefore n + i) + pm.dofId (S.rowsBefore n + j)
              * (sub.block .D (pm.patchId (S.rowsBefore n + i))).rows := by
          show (sub.block .D _).CalculateIndex _ _ = _
          rw [CalculateIndex_full _ (by rw [hstD, hfullD])]
        have hcm := colMajor_lt ha hb
        refine ⟨rfl, hp, rfl, rfl, ha, hb, ?_, ?_⟩
        · rw [hidx]
          unfold DNekMat.storageSize
          rw [hstD, hfullD]
          exact hcm
        · rw [hidx]
          exact hcm


/-- C28: scatter writes stay in bounds.  When every `patchId` read for a row
of the previous-level Schur blocks is below the number of patches and every
`dofId` is below `nBnd` of its patch when `isBndDof` is set and below `nInt`
of its patch otherwise, rows `i` and `j` of block `n` are read from the
patch-map arrays below the total number of rows; when they name different
patches the assertion stops the scatter before any write, and otherwise the
accumulation of lines 503-547 is one write into a matrix of patch
`patchId[i]` whose position `(dofId[i], dofId[j])` lies inside the matrix: the
column-major index `dofId[i] + dofId[j] * rows` used for `A`, `B` and `C`, and
the index of the storage layout used for `D`, are below the number of entries
of the matrix. -/
theorem ConstructNextLevelCondensedSystem_scatter_in_bounds (pm : PatchMap)
    (S : DNekScalBlkMat) (nPatches : Nat) (nBnd nInt : List Nat)
    (hpatch : ∀ n i, n < S.GetNumberOfBlockRows → i < S.blockRows n →
      pm.patchId (S.rowsBefore n + i) < nPatches)
    (hbnd : ∀ n i, n < S.GetNumberOfBlockRows → i < S.blockRows n →
      pm.isBndDof (S.rowsBefore n + i) ≠ 0 →
      pm.dofId (S.rowsBefore n + i) < nBnd.getD (pm.patchId (S.rowsBefore n + i)) 0)
    (hint : ∀ n i, n < S.GetNumberOfBlockRows → i < S.blockRows n →
      pm.isBndDof (S.rowsBefore n + i) = 0 →
      pm.dofId (S.rowsBefore n + i) < nInt.getD (pm.patchId (S.rowsBefore n + i)) 0)
    (st : MatrixStorage) (sub : SubstructuredMat)
    (hd : sub.SameDims (allocateSubstructuredMat nPatches nBnd nInt st))
    (B : DNekScalMat) (n i j : Nat) (hn : n < S.GetNumberOfBlockRows)
    (hi : i < S.blockRows n) (hj : j < S.blockRows n) :
    S.rowsBefore n + i < S.rowsBefore S.GetNumberOfBlockRows ∧
    S.rowsBefore n + j < S.rowsBefore S.GetNumberOfBlockRows ∧
    (pm.patchId (S.rowsBefore n + i) ≠ pm.patchId (S.rowsBefore n + j) →
      scatterEntry pm (S.rowsBefore n) st B i j sub = .error .ConfigurationError) ∧
    (pm.patchId (S.rowsBefore n + i) = pm.patchId (S.rowsBefore n + j) →
      scatterEntry pm (S.rowsBefore n) st B i j sub
        = .ok (scatterAdd pm (S.rowsBefore n) st B i j sub) ∧
      (scatterAdd pm (S.rowsBefore n) st B i j sub =
        match scatterTarget pm (S.rowsBefore n) st i j with
        | none => sub
        | some w => sub.addRawAt w.kind w.patch (w.index sub)
            (pm.sign (S.rowsBefore n + i) * pm.sign (S.rowsBefore n + j) * B.get i j)) ∧
      ∀ w, scatterTarget pm (S.rowsBefore n) st i j = some w →
        w.patch = pm.patchId (S.rowsBefore n + i) ∧ w.patch < nPatches ∧
        w.row = pm.dofId (S.rowsBefore n + i) ∧ w.col = pm.dofId (S.rowsBefore n + j) ∧
        w.row < (sub.block w.kind w.patch).rows ∧ w.col < (sub.block w.kind w.patch).cols ∧
        w.index sub < (sub.block w.kind w.patch).storageSize ∧
        w.index sub
          < (sub.block w.kind w.patch).rows * (sub.block w.kind w.patch).cols) := by
  refine ⟨patchMap_read_lt S n i hn hi, patchMap_read_lt S n j hn hj, ?_, ?_⟩
  · intro hne
    unfold scatterEntry
    rw [if_pos hne]
  · intro hsame
    refine ⟨?_, scatterAdd_eq_target pm _ st B i j sub, ?_⟩
    · unfold scatterEntry
      rw [if_neg (fun hne => hne hsame)]
    · intro w hw
      exact scatterTarget_in_bounds pm S nPatches nBnd nInt hpatch hbnd hint st sub hd n i j hn
        hi hj hsame.symm w hw

/-- Witness of C28 on the two-level example: rows 0 and 1 of the second Schur
block (previous-level DOFs 2 and 3) write position `(0, 1)` of the `C` matrix
of patch 0, raw index 1 of its 2 entries. -/
theorem ConstructNextLevelCondensedSystem_scatter_in_bounds_witness :
    PatchMapWellFormed ex2Data1.patchMapFromPrevLevel ex2SchurCompl ex2Data1.numPatches
        ex2Data1.numLocalBndCoeffsPerPatch ex2Data1.numLocalIntCoeffsPerPatch ∧
    1 < ex2SchurCompl.GetNumberOfBlockRows ∧ 0 < ex2SchurCompl.blockRows 1 ∧
    1 < ex2SchurCompl.blockRows 1 ∧
    ∃ w, scatterTarget ex2Data1.patchMapFromPrevLevel (ex2SchurCompl.rowsBefore 1) .eFULL 0 1
        = some w ∧
      w.kind = .C ∧ w.patch = 0 ∧ w.row = 0 ∧ w.col = 1 ∧
      w.index (allocateSubstructuredMat ex2Data1.numPatches ex2Data1.numLocalBndCoeffsPerPatch
          ex2Data1.numLocalIntCoeffsPerPatch .eFULL) = 1 ∧
      w.index (allocateSubstructuredMat ex2Data1.numPatches ex2Data1.numLocalBndCoeffsPerPatch
          ex2Data1.numLocalIntCoeffsPerPatch .eFULL)
        < ((allocateSubstructuredMat ex2Data1.numPatches ex2Data1.numLocalBndCoeffsPerPatch
          ex2Data1.numLocalIntCoeffsPerPatch .eFULL).block w.kind w.patch).storageSize := by
  have hn : 1 < ex2SchurCompl.GetNumberOfBlockRows := by decide
  have h0 : 0 < ex2SchurCompl.blockRows 1 := by rw [ex2_blockRows 1 (by decide)]; decide
  have h1 : 1 < ex2SchurCompl.blockRows 1 := by rw [ex2_blockRows 1 (by decide)]; decide
  have hrb : ex2SchurCompl.rowsBefore 1 = 2 := ex2_rowsBefore 1 (by decide)
  have hw : scatterTarget ex2Data1.patchMapFromPrevLevel (ex2SchurCompl.rowsBefore 1) .eFULL 0 1
      = some ⟨.C, 0, 0, 1⟩ := by
    rw [hrb]
    rfl
  have hthm := ConstructNextLevelCondensedSystem_scatter_in_bounds
    ex2Data1.patchMapFromPrevLevel ex2SchurCompl ex2Data1.numPatches
    ex2Data1.numLocalBndCoeffsPerPatch ex2Data1.numLocalIntCoeffsPerPatch ex2_wellFormed.patch
    ex2_wellFormed.bnd ex2_wellFormed.int .eFULL
    _ (SameDims_refl _) ⟨1, DNekMat.ofList 2 2 [2, -1, -1, 2]⟩ 1 0 1 hn h0 h1
  exact ⟨ex2_wellFormed, hn, h0, h1, _, hw, rfl, rfl, rfl, rfl, rfl,
    ((hthm.2.2.2 rfl).2.2 _ hw).2.2.2.2.2.2.1⟩


/-! ### Recursion control of `v_Initialise` -/

/-- Without its record of branches the logged `v_Initialise` is
`v_Initialise`. -/
theorem v_Initialise_logged_fst (Invert : DNekMat → Option DNekMat) (mt : MatrixType)
    (map : AssemblyMap) (m : Members) :
    (match v_Initialise_logged Invert mt m map with
      | .error e => .error e
      | .ok r => .ok r.1) = v_Initialise Invert mt m map := by
  induction map generalizing m with
  | last d =>
    rw [v_Initialise_logged, v_Initialise]
  | level d next ih =>
    rw [v_Initialise_logged, v_Initialise]
    unfold ConstructNextLevelCondensedSystem
    cases hb : ConstructNextLevelCondensedSystem_blkMatrices Invert mt m.m_schurCompl next.d with
    | error e => rfl
    | ok blk =>
      dsimp only
      rw [← ih]
      cases v_Initialise_logged Invert mt
          { m_schurCompl := some blk.schurCompl, m_BinvD := blk.BinvD, m_C := blk.C,
            m_invD := blk.invD, m_wsp := zeroArray } next with
      | error e => rfl
      | ok r => rfl

/-- A successful logged `v_Initialise` on a chain of `L + 1` maps has taken
`ConstructNextLevelCondensedSystem` at the first `L` levels and the terminal
assembly at the last, and returns a chain of `L + 1` objects. -/
theorem v_Initialise_logged_shape (Invert : DNekMat → Option DNekMat) (mt : MatrixType)
    (map : AssemblyMap) (m : Members) (H : GlobalLinSysStaticCond)
    (calls : List InitialiseCall)
    (h : v_Initialise_logged Invert mt m map = .ok (H, calls)) :
    calls = List.replicate map.depth .constructNextLevel ++ [.assembleSchurComplement] ∧
      H.depth = map.depth := by
  induction map generalizing m H calls with
  | last d =>
    rw [v_Initialise_logged] at h
    injection h with h
    injection h with h1 h2
    subst h1
    subst h2
    exact ⟨rfl, rfl⟩
  | level d next ih =>
    rw [v_Initialise_logged] at h
    cases hb : ConstructNextLevelCondensedSystem_blkMatrices Invert mt m.m_schurCompl next.d with
    | error e =>
      rw [hb] at h
      cases h
    | ok blk =>
      rw [hb] at h
      dsimp only at h
      cases hc : v_Initialise_logged Invert mt
          { m_schurCompl := some blk.schurCompl, m_BinvD := blk.BinvD, m_C := blk.C,
            m_invD := blk.invD, m_wsp := zeroArray } next with
      | error e =>
        rw [hc] at h
        cases h
      | ok r =>
        obtain ⟨child, calls1⟩ := r
        rw [hc] at h
        injection h with h
        injection h with h1 h2
        subst h1
        subst h2
        obtain ⟨e1, e2⟩ := ih _ child calls1 hc
        refine ⟨?_, ?_⟩
        · rw [e1]
          rfl
        · show child.depth + 1 = next.depth + 1
          rw [e2]

/-- The method `v_Initialise` returns for every chain of maps: a chain of
objects with one object per map, or one of the fatal errors of the
construction of a level. -/
theorem v_Initialise_total (Invert : DNekMat → Option DNekMat) (mt : MatrixType)
    (map : AssemblyMap) (m : Members) :
    (∃ H calls, v_Initialise_logged Invert mt m map = .ok (H, calls) ∧
      v_Initialise Invert mt m map = .ok H ∧
      calls = List.replicate map.depth .constructNextLevel ++ [.assembleSchurComplement] ∧
      H.depth = map.depth) ∨
    (∃ e, v_Initialise Invert mt m map = .error e ∧
      (e = .ConfigurationError ∨ e = .NullDereference ∨ e = .SingularBlockError)) := by
  have ht := v_Initialise_logged_fst Invert mt map m
  cases hl : v_Initialise_logged Invert mt m map with
  | error e =>
    rw [hl] at ht
    right
    exact ⟨e, ht.symm, v_Initialise_error_kind Invert mt map m e ht.symm⟩
  | ok r =>
    obtain ⟨H, calls⟩ := r
    rw [hl] at ht
    left
    obtain ⟨e1, e2⟩ := v_Initialise_logged_shape Invert mt map m H calls hl
    exact ⟨H, calls, rfl, ht.symm, e1, e2⟩


/-- C23: recursion control.  `v_Initialise` takes the terminal assembly
exactly when the given map is at the last level and otherwise calls
`ConstructNextLevelCondensedSystem` on the next-level map, whose `v_Recurse`
initialises the next object with that map; for every finite chain of `L + 1`
maps it returns, either with one of the fatal errors of the construction of a
level or with a chain of exactly `L + 1` objects, having taken
`ConstructNextLevelCondensedSystem` at the first `L` levels and the terminal
assembly at the last one only; and it returns such a chain whenever the
construction of every level succeeds. -/
theorem v_Initialise_recursion_control (Invert : DNekMat → Option DNekMat) (mt : MatrixType)
    (m : Members) (d : AssemblyMapData) (next map : AssemblyMap) :
    v_Initialise_logged Invert mt m (.last d)
      = .ok (.terminal { m with m_wsp := zeroArray }, [.assembleSchurComplement]) ∧
    v_Initialise Invert mt m (.last d) = .ok (.terminal { m with m_wsp := zeroArray }) ∧
    v_Initialise Invert mt m (.level d next) =
      ConstructNextLevelCondensedSystem Invert mt
        (fun blk => v_Initialise Invert mt
          { m_schurCompl := some blk.schurCompl, m_BinvD := blk.BinvD, m_C := blk.C,
            m_invD := blk.invD, m_wsp := zeroArray } next)
        { m with m_wsp := zeroArray } next.d ∧
    ((∃ H calls, v_Initialise_logged Invert mt m map = .ok (H, calls) ∧
        v_Initialise Invert mt m map = .ok H ∧
        calls = List.replicate map.depth .constructNextLevel ++ [.assembleSchurComplement] ∧
        H.depth = map.depth) ∨
      (∃ e, v_Initialise Invert mt m map = .error e ∧
        (e = .ConfigurationError ∨ e = .NullDereference ∨ e = .SingularBlockError))) ∧
    (∀ blk child,
      ConstructNextLevelCondensedSystem_blkMatrices Invert mt m.m_schurCompl next.d = .ok blk →
      v_Initialise Invert mt
        { m_schurCompl := some blk.schurCompl, m_BinvD := blk.BinvD, m_C := blk.C,
          m_invD := blk.invD, m_wsp := zeroArray } next = .ok child →
      v_Initialise Invert mt m (.level d next) =
        .ok (.recursive { m with m_wsp := zeroArray, m_schurCompl := none } child)) := by
  refine ⟨by rw [v_Initialise_logged], by rw [v_Initialise], by rw [v_Initialise],
    v_Initialise_total Invert mt map m, ?_⟩
  intro blk child hb hc
  exact v_Initialise_level_ok Invert mt m d next blk child hb hc

/-- Witness of C23 on the two-level example: initialisation returns a chain
of two objects, having constructed the next level at the first level and
taken the terminal assembly at the second. -/
theorem v_Initialise_recursion_control_witness :
    ∃ H, v_Initialise_logged invertOneByOne .eOtherMatrixType ex2Members ex2Map
        = .ok (H, [.constructNextLevel, .assembleSchurComplement]) ∧
      v_Initialise invertOneByOne .eOtherMatrixType ex2Members ex2Map = .ok H ∧
      H.depth = 1 ∧ ex2Map.depth = 1 := by
  obtain ⟨H0, hH0⟩ := ex2_initialised
  rcases (v_Initialise_recursion_control invertOneByOne .eOtherMatrixType ex2Members ex2Data0
    (.last ex2Data1) ex2Map).2.2.2.1 with ⟨H, calls, hl, hv, hc, hd⟩ | ⟨e, he, _⟩
  · subst hc
    exact ⟨H, hl, hv, hd, rfl⟩
  · rw [hH0] at he
    cases he


/-! ### Dirichlet values -/

/-- The terminal boundary solve leaves the Dirichlet entries of `out`. -/
theorem v_Solve_terminalBnd_dir (vt : Virtuals) (m : Members) (d : AssemblyMapData)
    (wsp out : NekArray) (g : Nat) (hg : g < d.numGlobalDirBndCoeffs) :
    v_Solve_terminalBnd vt m d wsp out g = out g := by
  unfold v_Solve_terminalBnd
  exact blit_below _ _ _ _ _ hg

/-- A `v_Solve` call on a chain whose levels all have `n` Dirichlet DOFs
leaves the first `n` entries of `out`. -/
theorem v_Solve_dirichlet (vt : Virtuals) (H H1 : GlobalLinSysStaticCond)
    (inp out out1 : NekArray) (map : AssemblyMap) (dirForcing : List NekDouble) (n : Nat)
    (h : H.v_Solve vt inp out map dirForcing = some (H1, out1)) (hdir : map.SameDirBnd n)
    (g : Nat) (hg : g < n) : out1 g = out g := by
  induction H generalizing H1 inp out out1 map dirForcing with
  | terminal m =>
    cases map with
    | last d =>
      obtain ⟨hn, hle⟩ : d.numGlobalDirBndCoeffs = n ∧ n ≤ d.numGlobalBndCoeffs := hdir
      rw [v_Solve_last] at h
      split_ifs at h
      · split at h
        · cases h
        · injection h with h
          injection h with _ h2
          rw [← h2, v_Solve_interior_bnd _ _ _ _ _ _ (by omega),
            v_Solve_terminalBnd_dir _ _ _ _ _ _ (by omega)]
      · injection h with h
        injection h with _ h2
        rw [← h2, v_Solve_interior_bnd _ _ _ _ _ _ (by omega)]
    | level d next =>
      obtain ⟨hn, hle, _⟩ :
        d.numGlobalDirBndCoeffs = n ∧ n ≤ d.numGlobalBndCoeffs ∧ next.SameDirBnd n := hdir
      rw [v_Solve_level_terminal] at h
      split_ifs at h
      injection h with h
      injection h with _ h2
      rw [← h2, v_Solve_interior_bnd _ _ _ _ _ _ (by omega)]
  | recursive m child ih =>
    cases map with
    | last d =>
      obtain ⟨hn, hle⟩ : d.numGlobalDirBndCoeffs = n ∧ n ≤ d.numGlobalBndCoeffs := hdir
      rw [v_Solve_last] at h
      split_ifs at h
      · split at h
        · cases h
        · injection h with h
          injection h with _ h2
          rw [← h2, v_Solve_interior_bnd _ _ _ _ _ _ (by omega),
            v_Solve_terminalBnd_dir _ _ _ _ _ _ (by omega)]
      · injection h with h
        injection h with _ h2
        rw [← h2, v_Solve_interior_bnd _ _ _ _ _ _ (by omega)]
    | level d next =>
      obtain ⟨hn, hle, hnext⟩ :
        d.numGlobalDirBndCoeffs = n ∧ n ≤ d.numGlobalBndCoeffs ∧ next.SameDirBnd n := hdir
      rw [v_Solve_level_recursive] at h
      split_ifs at h
      · split at h
        · cases h
        · rename_i wsp5 _
          split at h
          · cases h
          · rename_i child1 out2 hc
            injection h with h
            injection h with _ h2
            rw [← h2, v_Solve_interior_bnd _ _ _ _ _ _ (by omega)]
            exact ih child1 _ out out2 next [] hc hnext
      · injection h with h
        injection h with _ h2
        rw [← h2, v_Solve_interior_bnd _ _ _ _ _ _ (by omega)]

/-- A `v_Solve` call at a level without homogeneous boundary DOFs is the
interior solve alone. -/
theorem v_Solve_no_hom (vt : Virtuals) (H : GlobalLinSysStaticCond) (inp out : NekArray)
    (map : AssemblyMap) (dirForcing : List NekDouble) (hhom : map.d.nGlobHomBndDofs = 0) :
    H.v_Solve vt inp out map dirForcing =
      some (H.setWsp (v_Solve_interior H.m map.d (dirForcCalculated dirForcing)
          (v_Solve_fillF map.d inp dirForcing H.m.m_wsp) out).1,
        (v_Solve_interior H.m map.d (dirForcCalculated dirForcing)
          (v_Solve_fillF map.d inp dirForcing H.m.m_wsp) out).2) := by
  cases map with
  | last d =>
    have h0 : ¬ d.nGlobHomBndDofs ≠ 0 := fun h => h hhom
    rw [v_Solve_last, if_neg h0]
    rfl
  | level d next =>
    have h0 : ¬ d.nGlobHomBndDofs ≠ 0 := fun h => h hhom
    cases H with
    | terminal m =>
      rw [v_Solve_level_terminal, if_neg h0]
      rfl
    | recursive m child =>
      rw [v_Solve_level_recursive, if_neg h0]
      rfl


/-- C24: Dirichlet values are never overwritten.  For every `v_Solve` call
that returns, on a hierarchy of any depth in which every level has the same
number `n` of Dirichlet DOFs (among its boundary DOFs), the entries
`out[0 .. n)` on return equal their values on entry; if in addition the level
has no homogeneous boundary DOFs, the call is the interior solve alone: the
whole boundary segment of `out` is unchanged, the chain of objects changes in
the workspace of this level only, and the result is the same for every direct
solver and basis transforms, which are not invoked, as is the recursive
`Solve`. -/
theorem v_Solve_dirichlet_preserved (vt : Virtuals) (H H1 : GlobalLinSysStaticCond)
    (inp out out1 : NekArray) (map : AssemblyMap) (dirForcing : List NekDouble) (n : Nat)
    (h : H.v_Solve vt inp out map dirForcing = some (H1, out1)) (hdir : map.SameDirBnd n) :
    (∀ g, g < n → out1 g = out g) ∧
    (map.d.nGlobHomBndDofs = 0 →
      (∀ g, g < map.d.numGlobalBndCoeffs → out1 g = out g) ∧
      H1 = H.setWsp (v_Solve_interior H.m map.d (dirForcCalculated dirForcing)
        (v_Solve_fillF map.d inp dirForcing H.m.m_wsp) out).1 ∧
      out1 = (v_Solve_interior H.m map.d (dirForcCalculated dirForcing)
        (v_Solve_fillF map.d inp dirForcing H.m.m_wsp) out).2 ∧
      ∀ vt1, H.v_Solve vt1 inp out map dirForcing = some (H1, out1)) := by
  refine ⟨fun g hg => v_Solve_dirichlet vt H H1 inp out out1 map dirForcing n h hdir g hg, ?_⟩
  intro hhom
  have e := v_Solve_no_hom vt H inp out map dirForcing hhom
  rw [h] at e
  injection e with e
  injection e with e1 e2
  refine ⟨?_, e1, e2, ?_⟩
  · intro g hg
    rw [e2]
    exact v_Solve_interior_bnd _ _ _ _ _ g hg
  · intro vt1
    rw [v_Solve_no_hom vt1 H inp out map dirForcing hhom, e1, e2]

/-- The two-level example: both levels have two Dirichlet DOFs. -/
theorem ex2_sameDirBnd : ex2Map.SameDirBnd 2 :=
  ⟨rfl, by decide, rfl, by decide⟩

/-- Witness of C24: on the initialised two-level example a call leaves the two
Dirichlet entries of `out`, and a call on its terminal level, which has no
homogeneous boundary DOFs, leaves the whole boundary segment. -/
theorem v_Solve_dirichlet_preserved_witness :
    (∃ H0 H1 out1,
      v_Initialise invertOneByOne .eOtherMatrixType ex2Members ex2Map = .ok H0 ∧
      H0.v_Solve (baseVirtuals oneDofSolver) ex1Rhs (fun k => if k = 0 then 7 else 9) ex2Map []
        = some (H1, out1) ∧
      ex2Map.SameDirBnd 2 ∧ out1 0 = 7 ∧ out1 1 = 9) ∧
    (∃ H1 out1,
      (GlobalLinSysStaticCond.terminal ex1Members).v_Solve (baseVirtuals oneDofSolver) ex1Rhs
        (fun k => if k = 0 then 7 else 9) (.last ex2Data1) [] = some (H1, out1) ∧
      (AssemblyMap.last ex2Data1).SameDirBnd 2 ∧ ex2Data1.nGlobHomBndDofs = 0 ∧
      out1 0 = 7 ∧ out1 1 = 9) := by
  constructor
  · obtain ⟨H0, hH0⟩ := ex2_initialised
    obtain ⟨H1, out1, hs⟩ := v_Solve_returns (baseVirtuals oneDofSolver) H0 ex1Rhs
      (fun k => if k = 0 then 7 else 9) ex2Map [] (ex2_holds H0 hH0)
    have hthm := v_Solve_dirichlet_preserved (baseVirtuals oneDofSolver) H0 H1 ex1Rhs
      (fun k => if k = 0 then 7 else 9) out1 ex2Map [] 2 hs ex2_sameDirBnd
    exact ⟨H0, H1, out1, hH0, hs, ex2_sameDirBnd, hthm.1 0 (by decide), hthm.1 1 (by decide)⟩
  · have hdir : (AssemblyMap.last ex2Data1).SameDirBnd 2 := ⟨rfl, by decide⟩
    obtain ⟨H1, out1, hs⟩ := v_Solve_returns (baseVirtuals oneDofSolver)
      (.terminal ex1Members) ex1Rhs (fun k => if k = 0 then 7 else 9) (.last ex2Data1) []
      (show ex1Members.m_schurCompl ≠ none by simp [ex1Members])
    have hthm := v_Solve_dirichlet_preserved (baseVirtuals oneDofSolver) (.terminal ex1Members)
      H1 ex1Rhs (fun k => if k = 0 then 7 else 9) out1 (.last ex2Data1) [] 2 hs hdir
    have hhom : ex2Data1.nGlobHomBndDofs = 0 := by decide
    exact ⟨H1, out1, hs, hdir, hhom, (hthm.2 hhom).1 0 (by decide),
      (hthm.2 hhom).1 1 (by decide)⟩


/-! ### Symmetry across levels -/

/-- After the scatter loop on a well-formed patch map the entries of every
patch matrix are the reference sums, in either storage mode of `D` when the
previous-level blocks are symmetric. -/
theorem scatter_reference_wf (pm : PatchMap) (S : DNekScalBlkMat) (nPatches : Nat)
    (nBnd nInt : List Nat) (hwf : PatchMapWellFormed pm S nPatches nBnd nInt)
    (hsym : S.Symmetric) (st : MatrixStorage) (r : Nat × SubstructuredMat)
    (hr : scatterLoop pm st S (allocateSubstructuredMat nPatches nBnd nInt st) = .ok r)
    (X : SubBlock) (p a b : Nat) (hp : p < nPatches)
    (ha : a < (if X.rowBnd = true then nBnd else nInt).getD p 0) :
    (r.2.block X p).get a b = scatterReference pm S X p a b := by
  have hfull : (X = .D → st = .eFULL) →
      (r.2.block X p).get a b = scatterReference pm S X p a b := by
    intro hX
    obtain ⟨r1, hr1, _, hv⟩ := scatterLoop_reference pm S nPatches nBnd nInt st hwf
    rw [hr] at hr1
    injection hr1 with hr1
    subst hr1
    exact hv X p a b hp ha hX
  cases st with
  | eFULL => exact hfull (fun _ => rfl)
  | eSYMMETRIC =>
    by_cases hX : X = .D
    · subst hX
      exact scatter_reference_sym_wf pm S nPatches nBnd nInt hwf hsym r hr p a b
    · exact hfull (fun h => absurd h hX)

/-- With symmetric previous-level blocks the scatter-accumulated `A` and `D`
of every patch are symmetric and `C` is the transpose of `B`. -/
theorem scatter_symmetric (pm : PatchMap) (S : DNekScalBlkMat) (nPatches : Nat)
    (nBnd nInt : List Nat) (hwf : PatchMapWellFormed pm S nPatches nBnd nInt)
    (hsym : S.Symmetric) (st : MatrixStorage) (r : Nat × SubstructuredMat)
    (hr : scatterLoop pm st S (allocateSubstructuredMat nPatches nBnd nInt st) = .ok r)
    (p : Nat) (hp : p < nPatches) :
    (∀ a b, a < nBnd.getD p 0 → b < nBnd.getD p 0 → (r.2.A p).get a b = (r.2.A p).get b a) ∧
    (∀ a b, a < nInt.getD p 0 → b < nInt.getD p 0 → (r.2.D p).get a b = (r.2.D p).get b a) ∧
    (∀ k a, k < nInt.getD p 0 → a < nBnd.getD p 0 → (r.2.C p).get k a = (r.2.B p).get a k) := by
  have href := scatter_reference_wf pm S nPatches nBnd nInt hwf hsym st r hr
  have htr := reference_transpose_wf pm S hwf.samePatch hsym
  refine ⟨?_, ?_, ?_⟩
  · intro a b ha hb
    have e1 := href .A p a b hp ha
    have e2 := href .A p b a hp hb
    have e3 := htr .A p a b
    exact e1.trans (e3.trans e2.symm)
  · intro a b ha hb
    have e1 := href .D p a b hp ha
    have e2 := href .D p b a hp hb
    have e3 := htr .D p a b
    exact e1.trans (e3.trans e2.symm)
  · intro k a hk ha
    have e1 := href .C p k a hp hk
    have e2 := href .B p a k hp ha
    have e3 := htr .C p k a
    exact e1.trans (e3.trans e2.symm)

/-- A right inverse of a square matrix is a left inverse. -/
theorem right_inverse_left (n : Nat) (M R : Nat → Nat → NekDouble)
    (h : ∀ i j, i < n → j < n →
      ∑ k in Finset.range n, M i k * R k j = if i = j then 1 else 0) :
    ∀ i j, i < n → j < n →
      ∑ k in Finset.range n, R i k * M k j = if i = j then 1 else 0 := by
  have e1 : (Matrix.of (fun (i k : Fin n) => M i k)) * (Matrix.of (fun (k j : Fin n) => R k j))
      = (1 : Matrix (Fin n) (Fin n) NekDouble) := by
    ext i j
    rw [Matrix.mul_apply, Matrix.one_apply]
    have := h i j i.2 j.2
    rw [Finset.sum_range] at this
    simp only [Matrix.of_apply, Fin.ext_iff]
    exact this
  have e2 := Matrix.mul_eq_one_comm.mp e1
  intro i j hi hj
  have e3 := congrFun (congrFun e2 ⟨i, hi⟩) ⟨j, hj⟩
  rw [Matrix.mul_apply, Matrix.one_apply] at e3
  rw [Finset.sum_range]
  simpa [Fin.ext_iff] using e3

/-- The inverse of a symmetric matrix is symmetric. -/
theorem inverse_symmetric (n : Nat) (M R : Nat → Nat → NekDouble)
    (hM : ∀ i j, i < n → j < n → M i j = M j i)
    (h : ∀ i j, i < n → j < n →
      ∑ k in Finset.range n, M i k * R k j = if i = j then 1 else 0) :
    ∀ k j, k < n → j < n → R k j = R j k := by
  have hl := right_inverse_left n M R h
  refine right_inverse_unique n M R (fun k j => R j k) h ?_
  intro i j hi hj
  have e := hl j i hj hi
  have hc : (if j = i then (1 : NekDouble) else 0) = if i = j then 1 else 0 := by
    by_cases hij : i = j
    · rw [if_pos hij, if_pos hij.symm]
    · rw [if_neg hij, if_neg (fun h => hij h.symm)]
  rw [← hc, ← e]
  apply Finset.sum_congr rfl
  intro k hk
  rw [hM i k hi (Finset.mem_range.mp hk)]
  ring


/-- The elimination of a patch whose `A` and `D` are symmetric and whose `C`
is the transpose of `B` gives a symmetric Schur complement and a symmetric
inverse of `D`. -/
theorem condense_symmetric (Invert : DNekMat → Option DNekMat) (hInv : InvertSpec Invert)
    (nPatches : Nat) (nBnd nInt : List Nat) (st : MatrixStorage) (r s2 : SubstructuredMat)
    (hd : r.SameDims (allocateSubstructuredMat nPatches nBnd nInt st))
    (hc : condenseLoop Invert nPatches nInt r = .ok s2) (p : Nat) (hp : p < nPatches)
    (hA : ∀ a b, a < nBnd.getD p 0 → b < nBnd.getD p 0 → (r.A p).get a b = (r.A p).get b a)
    (hD : ∀ a b, a < nInt.getD p 0 → b < nInt.getD p 0 → (r.D p).get a b = (r.D p).get b a)
    (hCB : ∀ k a, k < nInt.getD p 0 → a < nBnd.getD p 0 → (r.C p).get k a = (r.B p).get a k) :
    (s2.A p).rows = nBnd.getD p 0 ∧
    (∀ a b, a < nBnd.getD p 0 → b < nBnd.getD p 0 → (s2.A p).get a b = (s2.A p).get b a) ∧
    (nInt.getD p 0 ≠ 0 → ∀ k l, k < nInt.getD p 0 → l < nInt.getD p 0 →
      (s2.D p).get k l = (s2.D p).get l k) := by
  obtain ⟨dA, dB, dC, dD⟩ := SameDims_allocate r nPatches nBnd nInt st hd p hp
  obtain ⟨h1, h0⟩ := condenseLoop_spec Invert nPatches nInt r s2 hc p
  by_cases hn : nInt.getD p 0 ≠ 0
  · obtain ⟨R, hR, hAs, _, _, hDs⟩ := h1 ⟨hp, hn⟩
    obtain ⟨_, hRc, _, hRI⟩ := hInv _ _ hR
    rw [dD.1, dD.2.1] at hRI
    rw [dD.2.1] at hRc
    have hRsym := inverse_symmetric (nInt.getD p 0) (r.D p).get R.get hD hRI
    have hX : ((r.B p).mulAssign R).storage = .eFULL := rfl
    have hXr : ((r.B p).mulAssign R).rows = (r.A p).rows := by
      show (r.B p).rows = (r.A p).rows
      rw [dB.1, dA.1]
    have entry : ∀ a b, a < nBnd.getD p 0 → b < nBnd.getD p 0 →
        (s2.A p).get a b = (r.A p).get a b
          - ∑ k in Finset.range (nInt.getD p 0), ∑ l in Finset.range (nInt.getD p 0),
              (r.B p).get a l * R.get l k * (r.B p).get b k := by
      intro a b ha hb
      rw [hAs, Dgemm_get _ _ _ dA.2.2 hX dC.2.2 hXr a b (by rw [dA.1]; exact ha)
        (by rw [dC.2.1]; exact hb), dC.1]
      congr 1
      apply Finset.sum_congr rfl
      intro k hk
      have hk' := Finset.mem_range.mp hk
      rw [mulAssign_get _ _ a k (by rw [dB.1]; exact ha) (by rw [hRc]; exact hk'), dB.2.1,
        hCB k b hk' hb, Finset.sum_mul]
    refine ⟨?_, ?_, ?_⟩
    · rw [hAs]
      exact dA.1
    · intro a b ha hb
      rw [entry a b ha hb, entry b a hb ha, hA a b ha hb, Finset.sum_comm]
      congr 1
      apply Finset.sum_congr rfl
      intro l hl
      apply Finset.sum_congr rfl
      intro k hk
      rw [hRsym l k (Finset.mem_range.mp hl) (Finset.mem_range.mp hk)]
      ring
    · intro _ k l hk hl
      rw [hDs]
      exact hRsym k l hk hl
  · obtain ⟨hAs, _, _, _⟩ := h0 (fun h => hn h.2)
    refine ⟨by rw [hAs]; exact dA.1, ?_, fun h => absurd h hn⟩
    intro a b ha hb
    rw [hAs]
    exact hA a b ha hb


/-- The block matrix made of symmetric patch matrices is symmetric. -/
theorem fillBlkMatrix_symmetric (nPatches : Nat) (sizes : List Nat) (mats : Nat → DNekMat)
    (h : ∀ p, p < nPatches → ∀ a b, a < (mats p).rows → b < (mats p).rows →
      (mats p).get a b = (mats p).get b a) :
    (fillBlkMatrix nPatches sizes sizes mats).Symmetric := by
  intro n i j hi hj
  by_cases hn : n < nPatches
  · have hblk : (fillBlkMatrix nPatches sizes sizes mats).GetBlock n n = some ⟨1, mats n⟩ := by
      unfold DNekScalBlkMat.GetBlock
      rw [fillBlkMatrix_blocks, if_pos ⟨rfl, hn⟩]
    rw [blockRows_of_some _ _ _ hblk] at hi hj
    rw [fillBlkMatrix_entry _ _ _ _ _ _ _ hn, fillBlkMatrix_entry _ _ _ _ _ _ _ hn]
    exact h n hn i j hi hj
  · have hblk : (fillBlkMatrix nPatches sizes sizes mats).GetBlock n n = none := by
      unfold DNekScalBlkMat.GetBlock
      rw [fillBlkMatrix_blocks, if_neg (fun h => hn h.2)]
    unfold DNekScalBlkMat.blockRows at hi
    rw [hblk] at hi
    exact absurd hi (Nat.not_lt_zero i)

/-- Symmetry of the previous-level Schur blocks passes to the patch matrices
and to the Schur complement of the next level. -/
theorem symmetry_preserved (pm : PatchMap) (S : DNekScalBlkMat) (nPatches : Nat)
    (nBnd nInt : List Nat) (hwf : PatchMapWellFormed pm S nPatches nBnd nInt)
    (hsym : S.Symmetric) (st : MatrixStorage) :
    ∃ r : Nat × SubstructuredMat,
      scatterLoop pm st S (allocateSubstructuredMat nPatches nBnd nInt st) = .ok r ∧
      (∀ p, p < nPatches →
        (∀ a b, a < nBnd.getD p 0 → b < nBnd.getD p 0 →
          (r.2.A p).get a b = (r.2.A p).get b a) ∧
        (∀ a b, a < nInt.getD p 0 → b < nInt.getD p 0 →
          (r.2.D p).get a b = (r.2.D p).get b a) ∧
        (∀ k a, k < nInt.getD p 0 → a < nBnd.getD p 0 →
          (r.2.C p).get k a = (r.2.B p).get a k)) ∧
      ∀ Invert, InvertSpec Invert → ∀ s2,
        condenseLoop Invert nPatches nInt r.2 = .ok s2 →
        (∀ p a b, p < nPatches → a < nBnd.getD p 0 → b < nBnd.getD p 0 →
          (s2.A p).get a b = (s2.A p).get b a) ∧
        (fillBlkMatrix nPatches nBnd nBnd s2.A).Symmetric := by
  obtain ⟨r, hr, hd, _⟩ := scatterLoop_reference pm S nPatches nBnd nInt st hwf
  have hs := scatter_symmetric pm S nPatches nBnd nInt hwf hsym st r hr
  refine ⟨r, hr, hs, ?_⟩
  intro Invert hInv s2 hc
  have hcs : ∀ p, p < nPatches → (s2.A p).rows = nBnd.getD p 0 ∧
      ∀ a b, a < nBnd.getD p 0 → b < nBnd.getD p 0 → (s2.A p).get a b = (s2.A p).get b a := by
    intro p hp
    obtain ⟨hA, hD, hCB⟩ := hs p hp
    obtain ⟨h1, h2, _⟩ := condense_symmetric Invert hInv nPatches nBnd nInt st r.2 s2 hd hc p hp
      hA hD hCB
    exact ⟨h1, h2⟩
  refine ⟨fun p a b hp ha hb => (hcs p hp).2 a b ha hb, ?_⟩
  apply fillBlkMatrix_symmetric
  intro p hp a b ha hb
  rw [(hcs p hp).1] at ha hb
  exact (hcs p hp).2 a b ha hb

/-- C27: symmetry is preserved across levels.  For a well-formed patch map
and a previous level all of whose Schur blocks are symmetric, in either
storage mode of `D` the scatter succeeds, for every new patch the accumulated
`A` and `D` are symmetric and `C` equals the transpose of `B`, and, for an
inversion routine that returns inverses, the new Schur complement
`A - B * invD * C` of every patch is symmetric: the block matrix handed to
the next level has symmetric blocks, so that at the next level the scatter
with symmetric storage of `D` gives the entries of the scatter with full
storage. -/
theorem ConstructNextLevelCondensedSystem_symmetry_preserved (pm : PatchMap)
    (S : DNekScalBlkMat) (nPatches : Nat) (nBnd nInt : List Nat)
    (hwf : PatchMapWellFormed pm S nPatches nBnd nInt) (hsym : S.Symmetric)
    (st : MatrixStorage) :
    ∃ r : Nat × SubstructuredMat,
      scatterLoop pm st S (allocateSubstructuredMat nPatches nBnd nInt st) = .ok r ∧
      (∀ p, p < nPatches →
        (∀ a b, a < nBnd.getD p 0 → b < nBnd.getD p 0 →
          (r.2.A p).get a b = (r.2.A p).get b a) ∧
        (∀ a b, a < nInt.getD p 0 → b < nInt.getD p 0 →
          (r.2.D p).get a b = (r.2.D p).get b a) ∧
        (∀ k a, k < nInt.getD p 0 → a < nBnd.getD p 0 →
          (r.2.C p).get k a = (r.2.B p).get a k)) ∧
      ∀ Invert, InvertSpec Invert → ∀ s2,
        condenseLoop Invert nPatches nInt r.2 = .ok s2 →
        (∀ p a b, p < nPatches → a < nBnd.getD p 0 → b < nBnd.getD p 0 →
          (s2.A p).get a b = (s2.A p).get b a) ∧
        (fillBlkMatrix nPatches nBnd nBnd s2.A).Symmetric ∧
        ∀ (pm1 : PatchMap) (nPatches1 : Nat) (nBnd1 nInt1 : List Nat),
          PatchMapWellFormed pm1 (fillBlkMatrix nPatches nBnd nBnd s2.A) nPatches1 nBnd1
            nInt1 →
          ∃ rs rf : Nat × SubstructuredMat,
            scatterLoop pm1 .eSYMMETRIC (fillBlkMatrix nPatches nBnd nBnd s2.A)
              (allocateSubstructuredMat nPatches1 nBnd1 nInt1 .eSYMMETRIC) = .ok rs ∧
            scatterLoop pm1 .eFULL (fillBlkMatrix nPatches nBnd nBnd s2.A)
              (allocateSubstructuredMat nPatches1 nBnd1 nInt1 .eFULL) = .ok rf ∧
            ∀ q a b, q < nPatches1 → a < nInt1.getD q 0 → b < nInt1.getD q 0 →
              (rs.2.D q).get a b = (rf.2.D q).get a b := by
  obtain ⟨r, hr, hs, hnext⟩ := symmetry_preserved pm S nPatches nBnd nInt hwf hsym st
  refine ⟨r, hr, hs, ?_⟩
  intro Invert hInv s2 hc
  obtain ⟨h1, h2⟩ := hnext Invert hInv s2 hc
  refine ⟨h1, h2, ?_⟩
  intro pm1 nPatches1 nBnd1 nInt1 hwf1
  obtain ⟨rs, rf, e1, e2, _, _, _, e3⟩ := scatter_sym_full pm1 _ nPatches1 nBnd1 nInt1 hwf1 h2
  exact ⟨rs, rf, e1, e2, fun q a b hq ha _ => e3 q a b hq ha⟩

/-- Witness of C27 on the two-level example in full storage, with the
inversion routine for 1 x 1 matrices. -/
theorem ConstructNextLevelCondensedSystem_symmetry_preserved_witness :
    PatchMapWellFormed ex2Data1.patchMapFromPrevLevel ex2SchurCompl ex2Data1.numPatches
        ex2Data1.numLocalBndCoeffsPerPatch ex2Data1.numLocalIntCoeffsPerPatch ∧
    ex2SchurCompl.Symmetric ∧ InvertSpec invertOneByOne ∧
    ∃ (r : Nat × SubstructuredMat) (s2 : SubstructuredMat),
      scatterLoop ex2Data1.patchMapFromPrevLevel .eFULL ex2SchurCompl
        (allocateSubstructuredMat ex2Data1.numPatches ex2Data1.numLocalBndCoeffsPerPatch
          ex2Data1.numLocalIntCoeffsPerPatch .eFULL) = .ok r ∧
      condenseLoop invertOneByOne ex2Data1.numPatches ex2Data1.numLocalIntCoeffsPerPatch r.2
        = .ok s2 ∧
      (r.2.C 0).get 0 1 = (r.2.B 0).get 1 0 ∧
      (s2.A 0).get 0 1 = (s2.A 0).get 1 0 ∧
      (fillBlkMatrix ex2Data1.numPatches ex2Data1.numLocalBndCoeffsPerPatch
        ex2Data1.numLocalBndCoeffsPerPatch s2.A).Symmetric := by
  obtain ⟨r, hr, hs, hnext⟩ := ConstructNextLevelCondensedSystem_symmetry_preserved
    ex2Data1.patchMapFromPrevLevel ex2SchurCompl ex2Data1.numPatches
    ex2Data1.numLocalBndCoeffsPerPatch ex2Data1.numLocalIntCoeffsPerPatch ex2_wellFormed
    ex2_symmetric .eFULL
  obtain ⟨r1, hr1, hinv⟩ := ex2_scatter
  have hr1' : scatterLoop ex2Data1.patchMapFromPrevLevel .eFULL ex2SchurCompl
      (allocateSubstructuredMat ex2Data1.numPatches ex2Data1.numLocalBndCoeffsPerPatch
        ex2Data1.numLocalIntCoeffsPerPatch .eFULL) = .ok r1 := hr1
  rw [hr] at hr1'
  injection hr1' with hr1'
  subst hr1'
  obtain ⟨s2, hs2⟩ := condenseLoop_ok invertOneByOne ex2Data1.numPatches
    ex2Data1.numLocalIntCoeffsPerPatch r.2 hinv
  obtain ⟨h1, h2, _⟩ := hnext invertOneByOne invertOneByOne_spec s2 hs2
  have h0 : (0 : Nat) < ex2Data1.numPatches := Nat.zero_lt_one
  exact ⟨ex2_wellFormed, ex2_symmetric, invertOneByOne_spec, r, s2, hr, hs2,
    (hs 0 h0).2.2 0 1 Nat.zero_lt_one (by decide),
    h1 0 0 1 h0 (by decide) (by decide), h2⟩


/-! ### Independence from the initial guess -/

/-- The condensed equations read `out` on the Dirichlet DOFs only. -/
theorem CondensedEquations_congr_out (d : AssemblyMapData) (S BinvD C invD : DNekScalBlkMat)
    (inp out out0 x : NekArray)
    (h : ∀ g, g < d.numGlobalDirBndCoeffs → out g = out0 g)
    (hx : CondensedEquations d S BinvD C invD inp out0 x) :
    CondensedEquations d S BinvD C invD inp out x :=
  ⟨fun g hg => (hx.1 g hg).trans (h g hg).symm, hx.2.1, hx.2.2⟩

/-- A terminal `v_Solve` call leaves `out` beyond the global DOFs. -/
theorem v_Solve_out_beyond (vt : Virtuals) (H H1 : GlobalLinSysStaticCond)
    (inp out out1 : NekArray) (d : AssemblyMapData) (dirForcing : List NekDouble)
    (h : H.v_Solve vt inp out (.last d) dirForcing = some (H1, out1)) (hwf : d.WellFormed)
    (g : Nat) (hg : d.numGlobalCoeffs ≤ g) : out1 g = out g := by
  have hhom : d.nGlobHomBndDofs = d.numGlobalBndCoeffs - d.numGlobalDirBndCoeffs := rfl
  have hint : d.nIntDofs = d.numGlobalCoeffs - d.numGlobalBndCoeffs := rfl
  have hdir := hwf.dirLe
  have hbnd := hwf.bndLe
  have hI : ∀ (m : Members) (dfc : Bool) (w o : NekArray),
      (v_Solve_interior m d dfc w o).2 g = o g := by
    intro m dfc w o
    unfold v_Solve_interior
    by_cases hi : d.nIntDofs ≠ 0
    · rw [if_pos hi]
      exact blit_outside _ _ _ _ _ (by omega)
    · rw [if_neg hi]
  rw [v_Solve_last] at h
  split_ifs at h
  · split at h
    · cases h
    · injection h with h
      injection h with _ h2
      rw [← h2, hI, v_Solve_terminalBnd_eq _ _ _ _ _ hdir, if_neg (by omega), add_zero]
  · injection h with h
    injection h with _ h2
    rw [← h2, hI]

/-- Without Dirichlet forcing, two terminal `v_Solve` calls whose `out` differ
in the homogeneous boundary entries only return the same `out`. -/
theorem initial_guess_none (vt : Virtuals) (H H1 H2 : GlobalLinSysStaticCond)
    (inp out out0 o1 o2 : NekArray) (d : AssemblyMapData) (S : DNekScalBlkMat)
    (hS : H.m.m_schurCompl = some S) (hwf : d.WellFormed) (hfit : H.m.Fits S d)
    (hid : IdentityTransforms vt) (hex : ExactSolver vt S d)
    (hagree : ∀ g, ¬ (d.numGlobalDirBndCoeffs ≤ g ∧ g < d.numGlobalBndCoeffs) →
      out g = out0 g)
    (h1 : H.v_Solve vt inp out (.last d) [] = some (H1, o1))
    (h2 : H.v_Solve vt inp out0 (.last d) [] = some (H2, o2)) : o1 = o2 := by
  have c1 := terminal_condensed vt H H1 inp out o1 d S h1 hS hwf hfit hid hex
  have c2 := terminal_condensed vt H H2 inp out0 o2 d S h2 hS hwf hfit hid hex
  have c2' := CondensedEquations_congr_out d S _ _ _ inp out out0 o2
    (fun g hg => hagree g (by omega)) c2
  have hinj := exact_injective vt S d hwf (by rw [hfit.schurCols, hwf.bndSum]) hex
  have huniq := condensed_unique d S _ _ _ inp out o1 o2 hwf
    (by rw [hfit.cCols, hwf.bndSum]) hinj c1 c2'
  funext g
  by_cases hg : g < d.numGlobalCoeffs
  · exact huniq g hg
  · have hbnd := hwf.bndLe
    rw [v_Solve_out_beyond vt H H1 inp out o1 d [] h1 hwf g (by omega),
      v_Solve_out_beyond vt H H2 inp out0 o2 d [] h2 hwf g (by omega)]
    exact hagree g (by omega)

/-- With Dirichlet forcing supplied the forcing handed to the terminal solver
does not depend on `out`. -/
theorem v_Solve_forward_forced (vt : Virtuals) (m : Members) (d : AssemblyMapData)
    (atLast : Bool) (out out0 wsp : NekArray) :
    v_Solve_forward vt m d atLast true out wsp = v_Solve_forward vt m d atLast true out0 wsp := by
  unfold v_Solve_forward v_Solve_locBndForcing
  simp

/-- With Dirichlet forcing supplied, two terminal `v_Solve` calls return
homogeneous boundary entries that differ as the initial ones do. -/
theorem initial_guess_forced (vt : Virtuals) (H H1 H2 : GlobalLinSysStaticCond)
    (inp out out0 o1 o2 : NekArray) (d : AssemblyMapData) (dirForcing : List NekDouble)
    (hwf : d.WellFormed) (hdf : dirForcing.length ≠ 0)
    (h1 : H.v_Solve vt inp out (.last d) dirForcing = some (H1, o1))
    (h2 : H.v_Solve vt inp out0 (.last d) dirForcing = some (H2, o2))
    (g : Nat) (hg1 : d.numGlobalDirBndCoeffs ≤ g) (hg2 : g < d.numGlobalBndCoeffs) :
    o1 g - o2 g = out g - out0 g := by
  have hhom : d.nGlobHomBndDofs = d.numGlobalBndCoeffs - d.numGlobalDirBndCoeffs := rfl
  have hdfc : dirForcCalculated dirForcing = true := by
    unfold dirForcCalculated
    exact decide_eq_true hdf
  have hne : d.nGlobHomBndDofs ≠ 0 := by omega
  rw [v_Solve_last, if_pos hne, hdfc] at h1 h2
  rw [v_Solve_forward_forced vt H.m d true out0 out] at h2
  cases hf : v_Solve_forward vt H.m d true true out
      (v_Solve_fillF d inp dirForcing H.m.m_wsp) with
  | none =>
    rw [hf] at h1
    cases h1
  | some wsp5 =>
    rw [hf] at h1 h2
    injection h1 with h1
    injection h1 with _ e1
    injection h2 with h2
    injection h2 with _ e2
    rw [← e1, ← e2, v_Solve_interior_bnd _ _ _ _ _ g hg2, v_Solve_interior_bnd _ _ _ _ _ g hg2,
      v_Solve_terminalBnd_eq _ _ _ _ _ hwf.dirLe, v_Solve_terminalBnd_eq _ _ _ _ _ hwf.dirLe]
    ring

/-- Two terminal `v_Solve` calls that differ in the homogeneous boundary
entries of `out` only both return; without Dirichlet forcing they return the
same `out`, with Dirichlet forcing the returned homogeneous boundary entries
differ as the initial ones do. -/
theorem initial_guess (vt : Virtuals) (H : GlobalLinSysStaticCond)
    (inp out out0 : NekArray) (d : AssemblyMapData) (S : DNekScalBlkMat)
    (dirForcing : List NekDouble)
    (hS : H.m.m_schurCompl = some S) (hwf : d.WellFormed) (hfit : H.m.Fits S d)
    (hid : IdentityTransforms vt) (hex : ExactSolver vt S d)
    (hagree : ∀ g, ¬ (d.numGlobalDirBndCoeffs ≤ g ∧ g < d.numGlobalBndCoeffs) →
      out g = out0 g) :
    ∃ H1 o1 H2 o2, H.v_Solve vt inp out (.last d) dirForcing = some (H1, o1) ∧
      H.v_Solve vt inp out0 (.last d) dirForcing = some (H2, o2) ∧
      (dirForcing = [] → o1 = o2) ∧
      (dirForcing ≠ [] → ∀ g, d.numGlobalDirBndCoeffs ≤ g → g < d.numGlobalBndCoeffs →
        o1 g - o2 g = out g - out0 g) := by
  have hH : H.Holds (.last d) := by
    cases H <;> simp [GlobalLinSysStaticCond.Holds, hS]
  obtain ⟨H1, o1, h1⟩ := v_Solve_returns vt H inp out (.last d) dirForcing hH
  obtain ⟨H2, o2, h2⟩ := v_Solve_returns vt H inp out0 (.last d) dirForcing hH
  refine ⟨H1, o1, H2, o2, h1, h2, ?_, ?_⟩
  · intro hdf
    subst hdf
    exact initial_guess_none vt H H1 H2 inp out out0 o1 o2 d S hS hwf hfit hid hex hagree h1 h2
  · intro hdf g hg1 hg2
    exact initial_guess_forced vt H H1 H2 inp out out0 o1 o2 d dirForcing hwf
      (fun h0 => hdf (List.length_eq_zero.mp h0)) h1 h2 g hg1 hg2

/-- On the one-element example the two initial values `1` and `0` of the
homogeneous boundary entry agree outside the homogeneous boundary range. -/
theorem ex1_agree (g : Nat)
    (hg : ¬ (ex1Data.numGlobalDirBndCoeffs ≤ g ∧ g < ex1Data.numGlobalBndCoeffs)) :
    (fun k => if k = 0 then (1 : NekDouble) else 0) g = zeroArray g := by
  have h0 : g ≠ 0 := by
    intro h
    subst h
    exact hg (by decide)
  simp [h0, zeroArray]

/-- C25: independence from the initial guess. At a terminal level with an exact
direct solver, identity basis transforms and stored blocks that fit the map, two
`v_Solve` calls that differ only in the initial values of the homogeneous
boundary entries of `out` both return; when no Dirichlet forcing is supplied
they return the same `out`, and when Dirichlet forcing is supplied the returned
homogeneous boundary entries differ by exactly the difference of the initial
values. -/
theorem v_Solve_initial_guess_independence (vt : Virtuals) (H : GlobalLinSysStaticCond)
    (inp out out0 : NekArray) (d : AssemblyMapData) (S : DNekScalBlkMat)
    (dirForcing : List NekDouble)
    (hS : H.m.m_schurCompl = some S) (hwf : d.WellFormed) (hfit : H.m.Fits S d)
    (hid : IdentityTransforms vt) (hex : ExactSolver vt S d)
    (hagree : ∀ g, ¬ (d.numGlobalDirBndCoeffs ≤ g ∧ g < d.numGlobalBndCoeffs) →
      out g = out0 g) :
    ∃ H1 o1 H2 o2, H.v_Solve vt inp out (.last d) dirForcing = some (H1, o1) ∧
      H.v_Solve vt inp out0 (.last d) dirForcing = some (H2, o2) ∧
      (dirForcing = [] → o1 = o2) ∧
      (dirForcing ≠ [] → ∀ g, d.numGlobalDirBndCoeffs ≤ g → g < d.numGlobalBndCoeffs →
        o1 g - o2 g = out g - out0 g) :=
  initial_guess vt H inp out out0 d S dirForcing hS hwf hfit hid hex hagree

/-- Witness of C25 (amended) on the one-element example, without Dirichlet
forcing, with the initial boundary values `1` and `0`. -/
theorem v_Solve_initial_guess_independence_witness :
    (GlobalLinSysStaticCond.terminal ex1Members).m.m_schurCompl = some (DNekScalBlkMat.single 2) ∧
    ex1Data.WellFormed ∧
    (GlobalLinSysStaticCond.terminal ex1Members).m.Fits (DNekScalBlkMat.single 2) ex1Data ∧
    IdentityTransforms (baseVirtuals oneDofSolver) ∧
    ExactSolver (baseVirtuals oneDofSolver) (DNekScalBlkMat.single 2) ex1Data ∧
    (∀ g, ¬ (ex1Data.numGlobalDirBndCoeffs ≤ g ∧ g < ex1Data.numGlobalBndCoeffs) →
      (fun k => if k = 0 then (1 : NekDouble) else 0) g = zeroArray g) ∧
    ∃ H1 o1 H2 o2,
      (GlobalLinSysStaticCond.terminal ex1Members).v_Solve (baseVirtuals oneDofSolver)
        ex1Rhs (fun k => if k = 0 then 1 else 0) (.last ex1Data) [] = some (H1, o1) ∧
      (GlobalLinSysStaticCond.terminal ex1Members).v_Solve (baseVirtuals oneDofSolver)
        ex1Rhs zeroArray (.last ex1Data) [] = some (H2, o2) ∧
      (([] : List NekDouble) = [] → o1 = o2) ∧
      (([] : List NekDouble) ≠ [] → ∀ g, ex1Data.numGlobalDirBndCoeffs ≤ g →
        g < ex1Data.numGlobalBndCoeffs →
        o1 g - o2 g = (fun k => if k = 0 then (1 : NekDouble) else 0) g - zeroArray g) :=
  ⟨rfl, ex1_wellFormed, ex1_fits, baseVirtuals_identity _, ex1_exactSolver, ex1_agree,
    v_Solve_initial_guess_independence (baseVirtuals oneDofSolver) (.terminal ex1Members) ex1Rhs
      (fun k => if k = 0 then 1 else 0) zeroArray ex1Data (DNekScalBlkMat.single 2) []
      rfl ex1_wellFormed ex1_fits (baseVirtuals_identity _) ex1_exactSolver ex1_agree⟩

/-- Counterexample to C25 as stated: on the one-element example, with Dirichlet
forcing `[0, 0]` supplied, the calls with initial boundary value `1` and `0`
both return, and they return the boundary values `5/2` and `3/2`. -/
theorem v_Solve_initial_guess_independence_counterexample :
    (GlobalLinSysStaticCond.terminal ex1Members).m.m_schurCompl = some (DNekScalBlkMat.single 2) ∧
    ex1Data.WellFormed ∧
    (GlobalLinSysStaticCond.terminal ex1Members).m.Fits (DNekScalBlkMat.single 2) ex1Data ∧
    IdentityTransforms (baseVirtuals oneDofSolver) ∧
    ExactSolver (baseVirtuals oneDofSolver) (DNekScalBlkMat.single 2) ex1Data ∧
    (∀ g, ¬ (ex1Data.numGlobalDirBndCoeffs ≤ g ∧ g < ex1Data.numGlobalBndCoeffs) →
      (fun k => if k = 0 then (1 : NekDouble) else 0) g = zeroArray g) ∧
    ∃ H1 o1 H2 o2,
      (GlobalLinSysStaticCond.terminal ex1Members).v_Solve (baseVirtuals oneDofSolver)
        ex1Rhs (fun k => if k = 0 then 1 else 0) (.last ex1Data) [0, 0] = some (H1, o1) ∧
      (GlobalLinSysStaticCond.terminal ex1Members).v_Solve (baseVirtuals oneDofSolver)
        ex1Rhs zeroArray (.last ex1Data) [0, 0] = some (H2, o2) ∧
      o1 0 = 5 / 2 ∧ o2 0 = 3 / 2 ∧ o1 ≠ o2 := by
  refine ⟨rfl, ex1_wellFormed, ex1_fits, baseVirtuals_identity _, ex1_exactSolver, ex1_agree, ?_⟩
  obtain ⟨H1, o1, H2, o2, h1, h2, -, hf⟩ := initial_guess (baseVirtuals oneDofSolver)
    (.terminal ex1Members) ex1Rhs (fun k => if k = 0 then 1 else 0) zeroArray ex1Data
    (DNekScalBlkMat.single 2) [0, 0] rfl ex1_wellFormed ex1_fits (baseVirtuals_identity _)
    ex1_exactSolver ex1_agree
  have h5 := (ex1_solve_with_dirForcing H1 o1 h1).1
  have hd := hf (by simp) 0 (by decide) (by decide)
  have h3 : o2 0 = 3 / 2 := by
    rw [h5] at hd
    simp only [zeroArray, if_true] at hd
    linarith
  refine ⟨H1, o1, H2, o2, h1, h2, h5, h3, ?_⟩
  intro he
  rw [he, h3] at h5
  norm_num at h5

end Nektar
